import Mathlib

/-!
# artifact-scheduler: the upgrade-decision dynamic program and the artifact enumerator

A shallow embedding of `src/main.cpp` (namespaces `DATA` and `DP`).

Conventions of the embedding:
* `double` values (`dftype`, `stype`) are exact rationals `ℚ`; every statement below is a
  statement of exact arithmetic.
* `int` / `unsigned int` values that are never negative in the program (status codes, route
  counts, roll values, loop indices) are `Nat`; all of them stay far below `2 ^ 31`.
* `throw std::runtime_error(...)` is `Except.error` with one constructor of `Error` per
  throw site.
* `std::map<int, int>` is a key-sorted association list; `std::unordered_map` used only
  through `find` and `operator[]` is a finite-support function into `Option`.
-/

/-- One constructor per `throw std::runtime_error` site of the program, `stoi_failed` for
the exceptions of `std::stoi`, and `out_of_fuel`, which is no throw site: it marks a run of an unbounded loop (`while (1)`, the bisection) that
the model cut short because the iteration bound it was given ran out. -/
inductive Error where
  | size_mismatch
  | three_sub_level_not_zero
  | sub_not_found_in_sub_scores
  | level_or_sub_number_wrong
  | weight_not_in_distribution
  | weighted_rand_failed
  | sub_number_too_much
  | affix_weight_wrong
  | wrong_format
  | type_to_string_not_found
  | stoi_failed
  | out_of_fuel
  deriving DecidableEq, Repr

namespace DATA

def AFFIX_NUM : Nat := 4
def AFFIX_UPDATE_MIN : Nat := 7
def AFFIX_UPDATE_MAX : Nat := 10
def AFFIX_MAX_UPGRADE_TIME : Nat := 5

end DATA

namespace DP

def N : Nat := DATA.AFFIX_MAX_UPGRADE_TIME
def BASE : Nat := 64
def SCORE_MULTIPLIER : Nat := 1
def EPS : ℚ := 1 / 100000000

def DOGFOOD_COST : List Int := [16300, 28425, 42425, 66150, 117175]

def SUCCESS_DOGFOOD_COST : Int :=
  DOGFOOD_COST.getD 0 0 + DOGFOOD_COST.getD 1 0 + DOGFOOD_COST.getD 2 0
    + DOGFOOD_COST.getD 3 0 + DOGFOOD_COST.getD 4 0

def FEED_DOGFOOD : Int := 3780

def DOGFOOD_LOSS_TABLE : List Int :=
  [ FEED_DOGFOOD,
    FEED_DOGFOOD - (DOGFOOD_COST.getD 0 0) / 5,
    FEED_DOGFOOD - (DOGFOOD_COST.getD 0 0 + DOGFOOD_COST.getD 1 0) / 5,
    FEED_DOGFOOD - (DOGFOOD_COST.getD 0 0 + DOGFOOD_COST.getD 1 0 + DOGFOOD_COST.getD 2 0) / 5,
    FEED_DOGFOOD - (DOGFOOD_COST.getD 0 0 + DOGFOOD_COST.getD 1 0 + DOGFOOD_COST.getD 2 0
      + DOGFOOD_COST.getD 3 0) / 5,
    FEED_DOGFOOD - (DOGFOOD_COST.getD 0 0 + DOGFOOD_COST.getD 1 0 + DOGFOOD_COST.getD 2 0
      + DOGFOOD_COST.getD 3 0 + DOGFOOD_COST.getD 4 0) / 5 ]

/-- The array read `DOGFOOD_LOSS[k]`, converted to `double` where it is used. Reads past the
six entries are outside the model (they never happen for `upgrade_time ≤ 5`). -/
def DOGFOOD_LOSS (k : Nat) : ℚ := ((DOGFOOD_LOSS_TABLE.getD k 0 : Int) : ℚ)

/-- The body `if (m.find(id) == m.end()) m[id] = 0; m[id]++;` on the ordered map `m`. -/
def mapIncr (id : Nat) : List (Nat × Nat) → List (Nat × Nat)
  | [] => [(id, 0 + 1)]
  | (k, c) :: rest =>
    if id < k then (id, 0 + 1) :: (k, c) :: rest
    else if id = k then (k, c + 1) :: rest
    else (k, c) :: mapIncr id rest

/-- The statement `current[i] += j` on the vector `current`. -/
def addAt (current : List Nat) (i j : Nat) : List Nat :=
  current.set i (current.getD i 0 + j)

/-- `DP::dfs(remain, current)` acting on the global map `m`, which is passed explicitly.
The recursive call sees `current` with `current[i] += j`; the following `current[i] -= j`
restores the caller's vector. -/
def dfs : Nat → List Nat → List (Nat × Nat) → List (Nat × Nat)
  | 0, current, m => mapIncr (current.foldl (fun id i => id * BASE + i) 0) m
  | remain + 1, current, m =>
    (List.range DATA.AFFIX_NUM).foldl (fun m i =>
      (List.range' DATA.AFFIX_UPDATE_MIN (DATA.AFFIX_UPDATE_MAX + 1 - DATA.AFFIX_UPDATE_MIN)).foldl
        (fun m j => dfs remain (addAt current i j) m) m) m

/-- The table `cell[n]` after `DP::init()`: the entries of `m` in key order after
`m.clear(); dfs(n, start)` with `start` the zero vector of size `AFFIX_NUM`. The array has
`N + 1` rows; other rows are outside the model and read as empty. -/
def cell (n : Nat) : List (Nat × Nat) :=
  if n ≤ N then dfs n (List.replicate DATA.AFFIX_NUM 0) [] else []

/-- The value tuple of `dp_map`: count, score in current status, expected gain, expected
dogfood cost, success rate, expected score gain when success. -/
structure Rec where
  count : Nat
  status_score : ℚ
  e_gain : ℚ
  e_df_cost : ℚ
  success_rate : ℚ
  e_score_gain : ℚ

/-- One `std::unordered_map<int, tuple>` of the vector `dp_map`. -/
abbrev DpMap := Nat → Option Rec

/-- The assignment `dp_map[i][status] = r`. -/
def dpAssign (dp_map : Nat → DpMap) (i status : Nat) (r : Rec) : Nat → DpMap :=
  fun i2 => if i2 = i then (fun k => if k = status then some r else dp_map i2 k) else dp_map i2

/-- The inner loop computing `status_score` from the base-64 digits of `status`. -/
def statusScore (SCORE : List ℚ) (status : Nat) : ℚ :=
  ((List.range DATA.AFFIX_NUM).foldl
    (fun (st : ℚ × Nat) i => (st.1 + ((st.2 % BASE : Nat) : ℚ) * SCORE.getD i 0, st.2 / BASE))
    (0, status)).1

/-- The four accumulators `e_gain, e_df_cost, success_rate, e_score_gain` of one state. -/
structure Acc where
  e_gain : ℚ
  e_df_cost : ℚ
  success_rate : ℚ
  e_score_gain : ℚ

/-- The body of the `upd_w` loop: one transition looked up in `dp_map[i + 1]`. -/
def transStep (next : DpMap) (lossNext : ℚ) (status current_base : Nat) (acc : Acc)
    (upd_w : Nat) : Acc :=
  match next (status + upd_w * current_base) with
  | none =>
    { acc with e_gain := acc.e_gain + lossNext, e_df_cost := acc.e_df_cost - lossNext }
  | some t =>
    { e_gain := acc.e_gain + t.e_gain
      e_df_cost := acc.e_df_cost + t.e_df_cost
      success_rate := acc.success_rate + t.success_rate
      e_score_gain := acc.e_score_gain + t.success_rate * t.e_score_gain }

/-- The double loop over `a_idx` and `upd_w`, with `current_base *= BASE` after each slot. -/
def transitions (next : DpMap) (lossNext : ℚ) (status : Nat) : Acc :=
  ((List.range DATA.AFFIX_NUM).foldl
    (fun (st : Acc × Nat) _ =>
      ((List.range' DATA.AFFIX_UPDATE_MIN
          (DATA.AFFIX_UPDATE_MAX + 1 - DATA.AFFIX_UPDATE_MIN)).foldl
        (transStep next lossNext status st.2) st.1, st.2 * BASE))
    (⟨0, 0, 0, 0⟩, 1)).1

def route_number : Nat :=
  DATA.AFFIX_NUM * (1 + DATA.AFFIX_UPDATE_MAX - DATA.AFFIX_UPDATE_MIN)

/-- The body of `for (auto& [status, count] : cell[i])` in `DP::calc`. -/
def calcEntry (SCORE : List ℚ) (SCORE_BAR max_increase gain : ℚ) (upgrade_time i : Nat)
    (dp_map : Nat → DpMap) (entry : Nat × Nat) : Nat → DpMap :=
  let current_upgrade := N - upgrade_time
  let current_score_bar := SCORE_BAR - max_increase * ((upgrade_time - i : Nat) : ℚ) - EPS
  let status := entry.1
  let count := entry.2
  let status_score := statusScore SCORE status
  if i = upgrade_time then
    if status_score < current_score_bar then dp_map
    else dpAssign dp_map i status
      ⟨count, status_score, gain, (SUCCESS_DOGFOOD_COST : ℚ), 1, status_score - SCORE_BAR⟩
  else
    let acc := transitions (dp_map (i + 1)) (DOGFOOD_LOSS (current_upgrade + i + 1)) status
    let e_gain := acc.e_gain / (route_number : ℚ)
    let e_df_cost := acc.e_df_cost / (route_number : ℚ)
    let success_rate := acc.success_rate / (route_number : ℚ)
    let e_score_gain :=
      if success_rate > 0 then acc.e_score_gain / ((route_number : ℚ) * success_rate)
      else acc.e_score_gain
    if e_gain > DOGFOOD_LOSS (current_upgrade + i) then
      dpAssign dp_map i status ⟨count, status_score, e_gain, e_df_cost, success_rate, e_score_gain⟩
    else dp_map

/-- One iteration of `for (int i = upgrade_time; i >= 0; i--)`: the loop over `cell[i]`. -/
def calcLevel (SCORE : List ℚ) (SCORE_BAR max_increase gain : ℚ) (upgrade_time i : Nat)
    (dp_map : Nat → DpMap) : Nat → DpMap :=
  (cell i).foldl (calcEntry SCORE SCORE_BAR max_increase gain upgrade_time i) dp_map

/-- The iterations `i, i - 1, ..., 0` of the outer loop of `DP::calc`. -/
def calcLevels (SCORE : List ℚ) (SCORE_BAR max_increase gain : ℚ) (upgrade_time : Nat) :
    Nat → (Nat → DpMap) → (Nat → DpMap)
  | 0, dp_map => calcLevel SCORE SCORE_BAR max_increase gain upgrade_time 0 dp_map
  | i + 1, dp_map =>
    calcLevels SCORE SCORE_BAR max_increase gain upgrade_time i
      (calcLevel SCORE SCORE_BAR max_increase gain upgrade_time (i + 1) dp_map)

/-- `*std::max_element(SCORE.begin(), SCORE.end())` on a non-empty vector. -/
def maxElement : List ℚ → ℚ
  | [] => 0
  | x :: xs => xs.foldl (fun best y => if best < y then y else best) x

/-- The result tuple of `calc`: whether upgrade, expected gain, expected dogfood cost,
success rate, expected score gain when success. -/
abbrev Result := Bool × ℚ × ℚ × ℚ × ℚ

/-- `DP::calc(weight, score, upgrade_time, score_bar, gain)`, the vector overload (`calc` is
a reserved word of Lean, so the three overloads are `calc_weights`, `calc_art`, `calc_map`). -/
def calc_weights (weight : List Int) (score : List ℚ) (upgrade_time : Nat) (score_bar gain : ℚ) :
    Except Error Result :=
  if weight.length ≠ DATA.AFFIX_NUM ∨ score.length ≠ DATA.AFFIX_NUM then
    .error Error.size_mismatch
  else
    let SCORE : List ℚ := score.map (fun i => i * (SCORE_MULTIPLIER : ℚ))
    let SCORE_BAR : ℚ := (List.range DATA.AFFIX_NUM).foldl
      (fun bar i => bar - ((weight.getD i 0 : Int) : ℚ) * SCORE.getD i 0)
      (score_bar * (SCORE_MULTIPLIER : ℚ))
    let max_increase := maxElement SCORE * (DATA.AFFIX_UPDATE_MAX : ℚ)
    let current_upgrade := N - upgrade_time
    let dp_map := calcLevels SCORE SCORE_BAR max_increase gain upgrade_time upgrade_time
      (fun _ _ => none)
    match dp_map 0 0 with
    | none =>
      let gain := DOGFOOD_LOSS current_upgrade
      .ok (false, gain, -gain, 0, (0 : ℚ) * 1 / (SCORE_MULTIPLIER : ℚ))
    | some r =>
      .ok (true, r.e_gain, r.e_df_cost, r.success_rate,
        r.e_score_gain * 1 / (SCORE_MULTIPLIER : ℚ))

end DP

/-! ## Increment vectors: the objects the specification speaks about -/

namespace DP

/-- An increment vector `(v_0, v_1, v_2, v_3)`: `v_j` is the sum of the rolls added to slot
`j`, the slot whose score is `s_j`. -/
structure Vec4 where
  v0 : Nat
  v1 : Nat
  v2 : Nat
  v3 : Nat
  deriving DecidableEq, Repr

namespace Vec4

def zero : Vec4 := ⟨0, 0, 0, 0⟩

/-- The vector `v + upd * e_slot`. -/
def bump (v : Vec4) (slot upd : Nat) : Vec4 :=
  match slot with
  | 0 => { v with v0 := v.v0 + upd }
  | 1 => { v with v1 := v.v1 + upd }
  | 2 => { v with v2 := v.v2 + upd }
  | 3 => { v with v3 := v.v3 + upd }
  | _ => v

def add (u v : Vec4) : Vec4 := ⟨u.v0 + v.v0, u.v1 + v.v1, u.v2 + v.v2, u.v3 + v.v3⟩

/-- The score contribution `sum_j v_j * s_j`. -/
def dot (v : Vec4) (s : List ℚ) : ℚ :=
  (v.v0 : ℚ) * s.getD 0 0 + (v.v1 : ℚ) * s.getD 1 0 + (v.v2 : ℚ) * s.getD 2 0
    + (v.v3 : ℚ) * s.getD 3 0

/-- The packed code `v0 + v1 * 64 + v2 * 64 ^ 2 + v3 * 64 ^ 3`. -/
def code (v : Vec4) : Nat := v.v0 + v.v1 * 64 + v.v2 * 64 ^ 2 + v.v3 * 64 ^ 3

/-- The vector as `dfs` holds it in `current`: `dfs` packs `current[0]` as the most
significant digit, so the slot decoded first by `calc` is `current[3]`. -/
def toCurrent (v : Vec4) : List Nat := [v.v3, v.v2, v.v1, v.v0]

/-- The sum `sum_j v_j` of the components. -/
def total (v : Vec4) : Nat := v.v0 + v.v1 + v.v2 + v.v3

/-- The largest component is at most `b`. -/
def BoundedBy (v : Vec4) (b : Nat) : Prop := v.v0 ≤ b ∧ v.v1 ≤ b ∧ v.v2 ≤ b ∧ v.v3 ≤ b

end Vec4

/-- The sixteen `(slot, roll)` picks of one upgrade, slot-major, rolls ascending. -/
def picks : List (Nat × Nat) :=
  (List.range DATA.AFFIX_NUM).flatMap fun slot =>
    (List.range' DATA.AFFIX_UPDATE_MIN (DATA.AFFIX_UPDATE_MAX + 1 - DATA.AFFIX_UPDATE_MIN)).map
      fun upd => (slot, upd)

/-- The sixteen successors `v + upd * e_slot` of a vector. -/
def successors (v : Vec4) : List Vec4 := picks.map fun p => v.bump p.1 p.2

/-- `v` is reached from the zero vector by `n` picks. -/
def Reach : Nat → Vec4 → Prop
  | 0, v => v = Vec4.zero
  | n + 1, v => ∃ v' slot upd, Reach n v' ∧ slot < 4 ∧ 7 ≤ upd ∧ upd ≤ 10 ∧ v = v'.bump slot upd

/-- The four figures of a DP record that reach the result of `calc`. -/
structure Outcome where
  gain : ℚ
  cost : ℚ
  P : ℚ
  excess : ℚ
  deriving DecidableEq

/-- The backward induction on increment vectors, written from the specification. The first
numeric argument is the number `k = T - i` of upgrades still to come, so the vector sits at
step `i = T - k`. With `k = 0` (a vector reached after `T` steps) the record exists iff the
score reaches the bar; with `k + 1` the sixteen successors are summed, a successor without a
record contributing `DOGFOOD_LOSS[cu + i + 1]` to the gain and minus that to the cost, the
sums are divided by 16 (the excess by `16 * P` when `P > 0`), and the record exists iff its
gain exceeds `DOGFOOD_LOSS[cu + i]`, where `cu = 5 - T`. -/
def vecRecord (s : List ℚ) (bar' gain : ℚ) (T : Nat) : Nat → Vec4 → Option Outcome
  | 0, v =>
    if v.dot s ≥ bar' - 1 / 100000000 then some ⟨gain, 270475, 1, v.dot s - bar'⟩ else none
  | k + 1, v =>
    let i := T - (k + 1)
    let cu := 5 - T
    let next := (successors v).map (vecRecord s bar' gain T k)
    let g := (next.map fun r =>
      match r with
      | none => DOGFOOD_LOSS (cu + i + 1)
      | some o => o.gain).sum / 16
    let c := (next.map fun r =>
      match r with
      | none => - DOGFOOD_LOSS (cu + i + 1)
      | some o => o.cost).sum / 16
    let p := (next.map fun r =>
      match r with
      | none => 0
      | some o => o.P).sum / 16
    let x := (next.map fun r =>
      match r with
      | none => 0
      | some o => o.P * o.excess).sum
    if g > DOGFOOD_LOSS (cu + i) then
      some ⟨g, c, p, if p > 0 then x / (16 * p) else x⟩
    else none

/-- All sequences of `n` picks; there are `16 ^ n` of them. -/
def pickSeqs : Nat → List (List (Nat × Nat))
  | 0 => [[]]
  | n + 1 => picks.flatMap fun p => (pickSeqs n).map fun q => p :: q

/-- The vector obtained from `v` by the picks of `q`, each adding its roll to its slot. -/
def applySeq (v : Vec4) (q : List (Nat × Nat)) : Vec4 := q.foldl (fun v p => v.bump p.1 p.2) v

/-- The vector `current` of `dfs` after the picks of `q`. -/
def applyCurrent (current : List Nat) (q : List (Nat × Nat)) : List Nat :=
  q.foldl (fun c p => addAt c p.1 p.2) current

/-- The packing loop `for (auto i : current) id = id * BASE + i` of `dfs`. -/
def packCurrent (current : List Nat) : Nat := current.foldl (fun id i => id * BASE + i) 0

/-- The count-weighted sum `sum over (code, count) of count * f code` over a table. -/
def weightedSum (f : Nat → ℚ) (m : List (Nat × Nat)) : ℚ :=
  (m.map fun e => (e.2 : ℚ) * f e.1).sum

/-- The sum `sum_j w_j * s_j` of the current rolls weighted by the slot scores. -/
def weightedScore (w : List Int) (s : List ℚ) : ℚ :=
  (List.zipWith (fun (a : Int) (b : ℚ) => (a : ℚ) * b) w s).sum

/-- The result tuple the specification assigns to the record of the zero vector. -/
def resultOf (T : Nat) : Option Outcome → Result
  | some o => (true, o.gain, o.cost, o.P, o.excess)
  | none => (false, DOGFOOD_LOSS (5 - T), - DOGFOOD_LOSS (5 - T), 0, 0)

/-- The four result figures of a stored record. -/
def Rec.core (r : Rec) : Outcome := ⟨r.e_gain, r.e_df_cost, r.success_rate, r.e_score_gain⟩

end DP

/-! ## Invariant of the outer loop of `calc` -/

namespace DP

/-- The state of `dp_map` once the iterations `upgrade_time, ..., i` of the outer loop have
run: the maps below `i` are still empty, and each map from `i` on holds, at the code of
every vector reached in that many picks, the record of the backward induction. -/
def LevelsDone (s : List ℚ) (bar' gain : ℚ) (T i : Nat) (dp_map : Nat → DpMap) : Prop :=
  (∀ j, j < i → ∀ c, dp_map j c = none) ∧
  (∀ j, i ≤ j → j ≤ T → ∀ v, Reach j v →
    (dp_map j v.code).map Rec.core = vecRecord s bar' gain T (T - j) v)

end DP

namespace DP

/-- The increment vector decoded from a code: `v_j = (code / BASE ^ j) mod BASE`. -/
def decode (code : Nat) : Vec4 :=
  ⟨code % 64, code / 64 % 64, code / 64 ^ 2 % 64, code / 64 ^ 3 % 64⟩

/-- The mean, over all `16 ^ T` sequences of `(slot, roll)` upgrades, of the final score
`sum_j (w_j + v_j) * s_j` minus `score_bar`. -/
def meanExcess (w : List Int) (s : List ℚ) (T : Nat) (score_bar : ℚ) : ℚ :=
  ((pickSeqs T).map fun q =>
    (weightedScore w s + (applySeq Vec4.zero q).dot s) - score_bar).sum / 16 ^ T

end DP

/-! ## The probability model and the artifact enumerator (`namespace DATA`) -/

namespace DATA

/-- `enum class SET_NAMES`, sentinels included (`end` is a reserved word, hence `end_`). -/
inductive SET_NAMES where
  | start | flower | plume | sands | goblet | circlet | end_
  deriving DecidableEq, Repr

/-- `enum class AFFIX_NAMES`, sentinels included. -/
inductive AFFIX_NAMES where
  | start
  | hp | atk | def_
  | hpp | atkp | defp
  | em | er | cr | cd
  | hb
  | pyroDB | hydroDB | electroDB | anemoDB | cryoDB | geoDB | physicalDB | dendroDB
  | end_
  deriving DecidableEq, Repr

/-- The underlying integer of an affix, `static_cast<int>`; enum values compare by it. -/
def AFFIX_NAMES.toNat : AFFIX_NAMES → Nat
  | .start => 0
  | .hp => 1 | .atk => 2 | .def_ => 3
  | .hpp => 4 | .atkp => 5 | .defp => 6
  | .em => 7 | .er => 8 | .cr => 9 | .cd => 10
  | .hb => 11
  | .pyroDB => 12 | .hydroDB => 13 | .electroDB => 14 | .anemoDB => 15 | .cryoDB => 16
  | .geoDB => 17 | .physicalDB => 18 | .dendroDB => 19
  | .end_ => 20

def SET_NUMBER : Nat := 5

def INITIAL_AFFIX_NUM_WEIGHT : List (Nat × Nat) := [(3, 4), (4, 1)]

def SUB_PROB_WEIGHT : List (AFFIX_NAMES × Nat) :=
  [ (.hp, 6), (.atk, 6), (.def_, 6), (.hpp, 4), (.atkp, 4), (.defp, 4), (.em, 4), (.er, 4),
    (.cr, 3), (.cd, 3) ]

/-- `MAIN_WEIGHT.find(set)->second`, listed in the order of the initialiser. The program
iterates an `unordered_map` here, whose order is implementation-defined; the embedding
fixes the written order. The sentinels have no entry and read as empty. -/
def MAIN_WEIGHT : SET_NAMES → List (AFFIX_NAMES × Nat)
  | .flower => [(.hp, 1)]
  | .plume => [(.atk, 1)]
  | .sands => [(.hpp, 2668), (.atkp, 2666), (.defp, 2666), (.em, 1000), (.er, 1000)]
  | .goblet =>
    [ (.hpp, 19175), (.atkp, 19175), (.defp, 19150), (.em, 2500), (.pyroDB, 5000),
      (.hydroDB, 5000), (.electroDB, 5000), (.anemoDB, 5000), (.cryoDB, 5000), (.geoDB, 5000),
      (.physicalDB, 5000), (.dendroDB, 5000) ]
  | .circlet =>
    [(.hpp, 22), (.atkp, 22), (.defp, 22), (.em, 4), (.cr, 10), (.cd, 10), (.hb, 10)]
  | _ => []

/-- `struct Artifact`. -/
structure Artifact where
  set : SET_NAMES
  main : AFFIX_NAMES
  sub : List (AFFIX_NAMES × Int)
  level : Int
  deriving DecidableEq, Repr

/-- `weighted_sum(vec)`. -/
def weighted_sum {T : Type} (vec : List (T × Nat)) : Nat :=
  vec.foldl (fun sum e => sum + e.2) 0

/-- `get_main_distribution(set)`. -/
def get_main_distribution (set : SET_NAMES) : List (AFFIX_NAMES × Nat) :=
  (MAIN_WEIGHT set).foldl (fun main_vec elem => main_vec ++ [elem]) []

/-- `get_sub_distribution(main, sub)`. -/
def get_sub_distribution (main : AFFIX_NAMES) (sub : List AFFIX_NAMES) :
    List (AFFIX_NAMES × Nat) :=
  SUB_PROB_WEIGHT.foldl
    (fun sub_vec e => if e.1 ≠ main ∧ ¬ (e.1 ∈ sub) then sub_vec ++ [e] else sub_vec) []

/-- `generate_all_possible_sub_orders(update_number, main, current_sub, current_prob)`. -/
def generate_all_possible_sub_orders :
    Nat → AFFIX_NAMES → List AFFIX_NAMES → ℚ → List (List AFFIX_NAMES × ℚ)
  | 0, _, current_sub, current_prob => [(current_sub, current_prob)]
  | update_number + 1, main, current_sub, current_prob =>
    let subs := get_sub_distribution main current_sub
    let sub_weight_sum := weighted_sum subs
    subs.foldl (fun res e =>
      res ++ generate_all_possible_sub_orders update_number main (current_sub ++ [e.1])
        (current_prob * (e.2 : ℚ) / (sub_weight_sum : ℚ))) []

/-- `operator<` on `std::vector<AFFIX_NAMES>`: lexicographic by enum value. -/
def affixesLt : List AFFIX_NAMES → List AFFIX_NAMES → Bool
  | _, [] => false
  | [], _ :: _ => true
  | a :: as, b :: bs =>
    if a.toNat < b.toNat then true
    else if b.toNat < a.toNat then false
    else affixesLt as bs

/-- The order that `std::sort` uses on `std::pair<std::vector<AFFIX_NAMES>, double>`,
as "not greater": `¬ (y < x)` for the lexicographic `operator<` of pairs. -/
def subOrderLe (x y : List AFFIX_NAMES × ℚ) : Prop :=
  ¬ (affixesLt y.1 x.1 = true ∨ (affixesLt x.1 y.1 = false ∧ y.2 < x.2))

instance : DecidableRel subOrderLe := fun _ _ => by unfold subOrderLe; infer_instance

/-- `std::sort(i.first.begin(), i.first.end())`: the affixes in ascending enum order. -/
def sortAffixes (l : List AFFIX_NAMES) : List AFFIX_NAMES :=
  l.insertionSort (fun a b => a.toNat ≤ b.toNat)

/-- `std::sort(possible_sub_orders.begin(), possible_sub_orders.end())`. -/
def sortSubOrders (l : List (List AFFIX_NAMES × ℚ)) : List (List AFFIX_NAMES × ℚ) :=
  l.insertionSort subOrderLe

/-- `std::equal(i.begin(), i.end(), last.begin())`: `i` against the first `|i|` of `last`. -/
def stdEqual (i last : List AFFIX_NAMES) : Bool := decide (last.take i.length = i)

/-- The body of the coalescing loop: "if sub same as last, add weight; otherwise push". -/
def coalesceStep (filtered : List (List AFFIX_NAMES × ℚ)) (e : List AFFIX_NAMES × ℚ) :
    List (List AFFIX_NAMES × ℚ) :=
  match filtered.getLast? with
  | some last =>
    if stdEqual e.1 last.1 then filtered.dropLast ++ [(last.1, last.2 + e.2)]
    else filtered ++ [e]
  | none => filtered ++ [e]

/-- The list `filtered_possible_sub_orders` for one `(initial, main)`. -/
def filtered_possible_sub_orders (initial : Nat) (main : AFFIX_NAMES) :
    List (List AFFIX_NAMES × ℚ) :=
  let possible_sub_orders := generate_all_possible_sub_orders initial main [] 1
  let sorted_inner := possible_sub_orders.map fun i => (sortAffixes i.1, i.2)
  (sortSubOrders sorted_inner).foldl coalesceStep []

/-- The artifacts pushed to `res` for one `set`: the loops over `main_dist`,
`INITIAL_AFFIX_NUM_WEIGHT` and `filtered_possible_sub_orders`. -/
def artifacts_of_set (set : SET_NAMES) : List (Artifact × ℚ) :=
  let initial_weight_sum := weighted_sum INITIAL_AFFIX_NUM_WEIGHT
  let set_count := SET_NUMBER
  let main_dist := get_main_distribution set
  let main_weight_sum := weighted_sum main_dist
  main_dist.flatMap fun me =>
    INITIAL_AFFIX_NUM_WEIGHT.flatMap fun ie =>
      (filtered_possible_sub_orders ie.1 me.1).map fun se =>
        let sub : List (AFFIX_NAMES × Int) :=
          se.1.map fun sub_name => (sub_name, (AFFIX_UPDATE_MIN : Int))
        let art : Artifact := ⟨set, me.1, sub, 0⟩
        let art_rate : ℚ := 1 / (set_count : ℚ) * (me.2 : ℚ) / (main_weight_sum : ℚ)
          * (ie.2 : ℚ) / (initial_weight_sum : ℚ) * se.2
        (art, art_rate)

/-- The sets from `SET_NAMES::start + 1` up to `SET_NAMES::end - 1`. -/
def all_sets : List SET_NAMES := [.flower, .plume, .sands, .goblet, .circlet]

/-- The local `res` of `generate_all_artifacts_with_probs` before accumulation. -/
def generated_artifacts : List (Artifact × ℚ) := all_sets.flatMap artifacts_of_set

/-- The in-place prefix sum `for (i = 1; i < n; i++) vec[i].second += vec[i - 1].second`,
`prev` being the already accumulated value of the entry before. -/
def accumulateFrom {α : Type} (prev : ℚ) : List (α × ℚ) → List (α × ℚ)
  | [] => []
  | (a, p) :: rest => (a, p + prev) :: accumulateFrom (p + prev) rest

def accumulate {α : Type} : List (α × ℚ) → List (α × ℚ)
  | [] => []
  | (a, p) :: rest => (a, p) :: accumulateFrom p rest

/-- The partition loop: `i.second *= SET_NUMBER; by_set[set].push_back(i)` for each entry
of `res`, starting from the map that holds an empty vector for every set. -/
def divide_by_set (res : List (Artifact × ℚ)) : SET_NAMES → List (Artifact × ℚ) :=
  res.foldl
    (fun by_set i => fun s =>
      if s = i.1.set then by_set s ++ [(i.1, i.2 * (SET_NUMBER : ℚ))] else by_set s)
    (fun _ => [])

/-- The global `all_artifacts_accumulated` after `generate_all_artifacts_with_probs()`. -/
def all_artifacts_accumulated : List (Artifact × ℚ) := accumulate generated_artifacts

/-- The global `all_artifacts_accumulated_divided_by_set` after generation; a set without
an entry reads as the empty vector that `operator[]` would create. -/
def all_artifacts_accumulated_divided_by_set (set : SET_NAMES) : List (Artifact × ℚ) :=
  accumulate (divide_by_set generated_artifacts set)

/-- The loop `for (i = n - 1; i >= 1; i--) res[i].second -= res[i - 1].second`: every entry
but the first loses the (still accumulated) value of the entry before it. -/
def deaccumulateFrom {α : Type} (prev : ℚ) : List (α × ℚ) → List (α × ℚ)
  | [] => []
  | (a, c) :: rest => (a, c - prev) :: deaccumulateFrom c rest

def deaccumulate {α : Type} : List (α × ℚ) → List (α × ℚ)
  | [] => []
  | (a, c) :: rest => (a, c) :: deaccumulateFrom c rest

/-- `get_all_artifacts_with_probs(set)`; `SET_NAMES::end` is the default "no set given".
The memoised generation is a pure function of nothing, so the globals are constants. -/
def get_all_artifacts_with_probs (set : SET_NAMES) : List (Artifact × ℚ) :=
  deaccumulate
    (if set = SET_NAMES.end_ then all_artifacts_accumulated
     else all_artifacts_accumulated_divided_by_set set)

end DATA

/-! ## The artifact overloads of `calc` and the three-sub wrapper -/

namespace DP

open DATA

/-- `calc(art, score, score_bar, gain)`: the rolls of the subs and `N - art.level`. A level
above `N` (negative `upgrade_time`) is outside the model. -/
def calc_art (art : Artifact) (score : List ℚ) (score_bar gain : ℚ) : Except Error Result :=
  let weight := art.sub.foldl (fun weight e => weight ++ [e.2]) []
  calc_weights weight score (Int.toNat ((N : Int) - art.level)) score_bar gain

/-- The loop of `select_sub_score`, `res` being the vector built so far. -/
def select_sub_score_loop (sub_scores : AFFIX_NAMES → Option ℚ) :
    List (AFFIX_NAMES × Int) → List ℚ → Except Error (List ℚ)
  | [], res => .ok res
  | e :: rest, res =>
    match sub_scores e.1 with
    | none => .error Error.sub_not_found_in_sub_scores
    | some x => select_sub_score_loop sub_scores rest (res ++ [x])

/-- `select_sub_score(art, sub_scores)`; the `std::map` is its `find`. -/
def select_sub_score (art : Artifact) (sub_scores : AFFIX_NAMES → Option ℚ) :
    Except Error (List ℚ) :=
  select_sub_score_loop sub_scores art.sub []

/-- The last line of the map overload, `calc(art, select_sub_score(art, sub_scores), ...)`:
what the map overload does for every artifact whose number of subs is not 3. -/
def calc_map_four (art : Artifact) (sub_scores : AFFIX_NAMES → Option ℚ) (score_bar gain : ℚ) :
    Except Error Result :=
  match select_sub_score art sub_scores with
  | .error e => .error e
  | .ok score => calc_art art score score_bar gain

/-- The body of the roll loop of the three-sub branch: push `(t, i)`, call `calc` on the
four-sub artifact (the recursive call, which takes the last line), accumulate, pop. -/
def threeSubStep (current_art : Artifact) (sub_scores : AFFIX_NAMES → Option ℚ)
    (score_bar gain : ℚ) (t : AFFIX_NAMES) (w : Nat) (acc : Acc) (i : Nat) : Except Error Acc :=
  match calc_map_four { current_art with sub := current_art.sub ++ [(t, (i : Int))] }
      sub_scores score_bar gain with
  | .error e => .error e
  | .ok ores =>
    .ok { e_gain := acc.e_gain + ores.2.1 * (w : ℚ)
          e_df_cost := acc.e_df_cost + ores.2.2.1 * (w : ℚ)
          success_rate := acc.success_rate + ores.2.2.2.1 * (w : ℚ)
          e_score_gain := acc.e_score_gain + ores.2.2.2.1 * ores.2.2.2.2 * (w : ℚ) }

/-- `calc(art, sub_scores, score_bar, gain)`, the recommended overload with 3-sub support. -/
def calc_map (art : Artifact) (sub_scores : AFFIX_NAMES → Option ℚ) (score_bar gain : ℚ) :
    Except Error Result :=
  if art.sub.length = 3 then
    if art.level ≠ 0 then .error Error.three_sub_level_not_zero
    else
      let current_art : Artifact := { art with level := art.level + 1 }
      let current_sub := art.sub.foldl (fun current_sub e => current_sub ++ [e.1]) []
      let sub_dist := get_sub_distribution art.main current_sub
      let sub_weight_sum : Nat :=
        weighted_sum sub_dist * (AFFIX_UPDATE_MAX - AFFIX_UPDATE_MIN + 1)
      match sub_dist.foldlM (fun acc e =>
          (List.range' AFFIX_UPDATE_MIN (AFFIX_UPDATE_MAX + 1 - AFFIX_UPDATE_MIN)).foldlM
            (threeSubStep current_art sub_scores score_bar gain e.1 e.2) acc)
          (⟨0, 0, 0, 0⟩ : Acc) with
      | .error e => .error e
      | .ok acc =>
        let e_gain := acc.e_gain / (sub_weight_sum : ℚ)
        let e_df_cost := acc.e_df_cost / (sub_weight_sum : ℚ)
        let success_rate := acc.success_rate / (sub_weight_sum : ℚ)
        let e_score_gain :=
          if success_rate > 0 then acc.e_score_gain / ((sub_weight_sum : ℚ) * success_rate)
          else acc.e_score_gain
        let success : Bool := decide (e_gain > DOGFOOD_LOSS 0)
        if ¬ success then
          let e_gain := DOGFOOD_LOSS 0
          .ok (success, e_gain, - e_gain, 0, 0)
        else .ok (success, e_gain, e_df_cost, success_rate, e_score_gain)
  else calc_map_four art sub_scores score_bar gain

/-! ### The three-sub expectation written from the specification -/

/-- The completions `(t, r)` of a three-sub artifact, each with the weight `w_t` of its new
sub: `t` ranges over `sub_distribution(main, subs)`, `r` over `[7..10]`, and the completed
artifact has `(t, r)` appended and level 1. -/
def completions (art : Artifact) : List (Nat × Artifact) :=
  (get_sub_distribution art.main (art.sub.map Prod.fst)).flatMap fun e =>
    [7, 8, 9, 10].map fun (r : Int) =>
      (e.2, ({ art with sub := art.sub ++ [(e.1, r)], level := 1 } : Artifact))

/-- The sum `sum w_t` of the weights of `sub_distribution(main, subs)`. -/
def completionWeight (art : Artifact) : ℚ :=
  ((get_sub_distribution art.main (art.sub.map Prod.fst)).map fun e => (e.2 : ℚ)).sum

/-- The expectation `sum w_t * x / (4 * sum w_t)` over the completions of a figure `x` of
the four-sub results `res`. -/
def completionMean (art : Artifact) (res : Artifact → Result) (x : Result → ℚ) : ℚ :=
  ((completions art).map fun c => (c.1 : ℚ) * x (res c.2)).sum / (4 * completionWeight art)

/-- The success-probability-weighted average of the conditional excess over the
completions. -/
def completionExcess (art : Artifact) (res : Artifact → Result) : ℚ :=
  ((completions art).map fun c => (c.1 : ℚ) * ((res c.2).2.2.2.1 * (res c.2).2.2.2.2)).sum
    / ((completions art).map fun c => (c.1 : ℚ) * (res c.2).2.2.2.1).sum

/-! ### Scenarios of the specification -/

/-- The artifact of scenarios S1 and S2. -/
def artifactS : Artifact :=
  ⟨.sands, .hpp, [(.hp, 10), (.atk, 10), (.def_, 10), (.em, 10)], 0⟩

/-- The scoring map of S2: `hp = atk = def = em = 1`, every other affix 0. -/
def scoresS2 : AFFIX_NAMES → Option ℚ
  | .hp => some 1
  | .atk => some 1
  | .def_ => some 1
  | .em => some 1
  | _ => some 0

/-- The digit sum `sum_j v_j` of a code. -/
def digitSum (code : Nat) : ℚ := ((decode code).total : ℚ)

/-- The count-weighted expectation of `sum_j v_j` over `UST[k]`. -/
def expectedDigitSum (k : Nat) : ℚ :=
  weightedSum digitSum (cell k) / weightedSum (fun _ => 1) (cell k)

end DP

namespace DP

open DATA

/-- The result of the four-sub DP on an artifact, as a total function (the zero tuple
stands in where the call fails; it is only used where the call returns). -/
def fourSubResult (m : AFFIX_NAMES → Option ℚ) (score_bar gain : ℚ) (a : Artifact) : Result :=
  match calc_map a m score_bar gain with
  | .ok r => r
  | .error _ => (false, 0, 0, 0, 0)

/-- What the three-sub branch returns, in terms of the four expectations over the
completions: the top-level stopping rule against `DOGFOOD_LOSS[0] = 3780`. -/
def threeSubResult (art : Artifact) (res : Artifact → Result) : Result :=
  if completionMean art res (fun r => r.2.1) > 3780 then
    (true, completionMean art res (fun r => r.2.1), completionMean art res (fun r => r.2.2.1),
      completionMean art res (fun r => r.2.2.2.1),
      if completionMean art res (fun r => r.2.2.2.1) > 0 then completionExcess art res
      else ((completions art).map fun c => (c.1 : ℚ) * ((res c.2).2.2.2.1 * (res c.2).2.2.2.2)).sum)
  else (false, 3780, -3780, 0, 0)

end DP

namespace DATA

/-- The total of the probabilities of a list of `(value, probability)` pairs. -/
def sumProbs {α : Type} (l : List (α × ℚ)) : ℚ := (l.map Prod.snd).sum

end DATA

namespace DP

open DATA

/-- The artifact of S1 and S2 without its fourth sub: a level-0 artifact with three subs. -/
def artifactThree : Artifact := ⟨.sands, .hpp, [(.hp, 10), (.atk, 10), (.def_, 10)], 0⟩

/-- The scoring map that scores every affix 0. -/
def scoresZero : AFFIX_NAMES → Option ℚ := fun _ => some 0

end DP

/-! ## Expected dogfood cost and the gain inverter -/

namespace DP

open DATA

/-- The `for` loop inside `while (1)` of `get_expected_dfcost`: the first roll that is not
`AFFIX_UPDATE_MAX` is incremented (`addflag = true; break`), every roll before it is reset
to `AFFIX_UPDATE_MIN`. Returns the new subs and `addflag`. -/
def rollStep : List (AFFIX_NAMES × Int) → List (AFFIX_NAMES × Int) × Bool
  | [] => ([], false)
  | (t, w) :: rest =>
    if w = (AFFIX_UPDATE_MAX : Int) then
      ((t, (AFFIX_UPDATE_MIN : Int)) :: (rollStep rest).1, (rollStep rest).2)
    else ((t, w + 1) :: rest, true)

/-- The `while (1)` loop of `get_expected_dfcost` for one artifact, at most `fuel`
iterations: step the rolls, stop when `addflag` is false, otherwise call `calc` and push
`(e_df_cost, rate)`. -/
def rollLoop (sub_scores : AFFIX_NAMES → Option ℚ) (score_bar gain rate : ℚ) :
    Nat → Artifact → List (ℚ × ℚ) → Except Error (List (ℚ × ℚ))
  | 0, _, _ => .error Error.out_of_fuel
  | fuel + 1, art, results =>
    if (rollStep art.sub).2 = false then .ok results
    else
      match calc_map { art with sub := (rollStep art.sub).1 } sub_scores score_bar gain with
      | .error e => .error e
      | .ok r =>
        rollLoop sub_scores score_bar gain rate fuel { art with sub := (rollStep art.sub).1 }
          (results ++ [(r.2.2.1, rate)])

/-- The loop `for (auto i = art.sub.size(); i--; ) rate /= 4`. -/
def scaledRate (rate : ℚ) (n : Nat) : ℚ :=
  (List.range n).foldl
    (fun rate _ => rate / ((AFFIX_UPDATE_MAX - AFFIX_UPDATE_MIN + 1 : Nat) : ℚ)) rate

/-- The `omp parallel for` of `get_expected_dfcost`: one `results[i]` per entry of `allart`. -/
def expectedResults (fuel : Nat) (sub_scores : AFFIX_NAMES → Option ℚ) (score_bar gain : ℚ) :
    List (Artifact × ℚ) → Except Error (List (List (ℚ × ℚ)))
  | [] => .ok []
  | e :: rest =>
    match rollLoop sub_scores score_bar gain (scaledRate e.2 e.1.sub.length) fuel e.1 [] with
    | .error err => .error err
    | .ok result =>
      match expectedResults fuel sub_scores score_bar gain rest with
      | .error err => .error err
      | .ok results => .ok (result :: results)

/-- `get_expected_dfcost(sub_scores, score_bar, allart, gain)`; `fuel` bounds the iterations
of each `while (1)` loop. -/
def get_expected_dfcost (fuel : Nat) (sub_scores : AFFIX_NAMES → Option ℚ) (score_bar : ℚ)
    (allart : List (Artifact × ℚ)) (gain : ℚ) : Except Error ℚ :=
  match expectedResults fuel sub_scores score_bar gain allart with
  | .error err => .error err
  | .ok results =>
    .ok (results.foldl (fun final_result result =>
      result.foldl (fun final_result e => final_result + e.1 * e.2) final_result) 0)

end DP

namespace DP

/-- What a vector with `k` upgrades to come contributes to the gain sum of its predecessor:
the gain of its record, or `DOGFOOD_LOSS[5 - k]` when it has none. -/
def recGain (s : List ℚ) (bar' gain : ℚ) (T k : Nat) (v : Vec4) : ℚ :=
  match vecRecord s bar' gain T k v with
  | none => DOGFOOD_LOSS (5 - k)
  | some o => o.gain

/-- What a vector with `k` upgrades to come contributes to the cost sum of its predecessor:
the cost of its record, or `-DOGFOOD_LOSS[5 - k]` when it has none. -/
def recCost (s : List ℚ) (bar' gain : ℚ) (T k : Nat) (v : Vec4) : ℚ :=
  match vecRecord s bar' gain T k v with
  | none => - DOGFOOD_LOSS (5 - k)
  | some o => o.cost

end DP

/-! ## The enumerator, described from the specification -/

namespace DATA

/-- The rollable affixes: the keys of `SUB_PROB_WEIGHT`, in its order. -/
def rollable : List AFFIX_NAMES := SUB_PROB_WEIGHT.map Prod.fst

/-- The weight `w(t)` of an affix in `SUB_PROB_WEIGHT` (0 for an affix that is not there). -/
def subWeight (t : AFFIX_NAMES) : Nat :=
  match SUB_PROB_WEIGHT.find? (fun e => e.1 = t) with
  | some e => e.2
  | none => 0

/-- The sum of `SUB_PROB_WEIGHT` over the rollable affixes that are neither `main` nor among
`before`. -/
def remainingWeight (main : AFFIX_NAMES) (before : List AFFIX_NAMES) : Nat :=
  ((rollable.filter fun t => t ≠ main ∧ ¬ (t ∈ before)).map subWeight).sum

/-- The product over `i` of `w(t_i) / (sum of the weights still drawable after main and
t_1 .. t_(i-1))`, for the subs `t` drawn after the subs `before`. -/
def orderProb (main : AFFIX_NAMES) : List AFFIX_NAMES → List AFFIX_NAMES → ℚ
  | _, [] => 1
  | before, t :: rest =>
    (subWeight t : ℚ) / (remainingWeight main before : ℚ) * orderProb main (before ++ [t]) rest

/-- The tuple `t` can be drawn after `before`: pairwise distinct rollable affixes, none equal
to `main` or among `before`. -/
def Drawable (main : AFFIX_NAMES) (before t : List AFFIX_NAMES) : Prop :=
  t.Nodup ∧ ∀ a ∈ t, a ∈ rollable ∧ a ≠ main ∧ ¬ (a ∈ before)

end DATA

/-! ## The roll odometer of `get_expected_dfcost` -/

namespace DP

open DATA

/-- Every roll lies in `[AFFIX_UPDATE_MIN, AFFIX_UPDATE_MAX] = [7, 10]`. -/
def RollsIn (sub : List (AFFIX_NAMES × Int)) : Prop := ∀ e ∈ sub, 7 ≤ e.2 ∧ e.2 ≤ 10

/-- The position of a roll vector in the order in which `rollStep` walks `[7..10]^n`: the
first sub is the fastest digit. -/
def rollRank : List (AFFIX_NAMES × Int) → Nat
  | [] => 0
  | e :: rest => Int.toNat (e.2 - 7) + 4 * rollRank rest

/-- The sub lists on which the `while (1)` loop calls `calc`, in order: the results of the
successive `rollStep`s up to the one that leaves `addflag` false, at most `fuel` of them. -/
def visitedRolls : Nat → List (AFFIX_NAMES × Int) → List (List (AFFIX_NAMES × Int))
  | 0, _ => []
  | fuel + 1, sub =>
    if (rollStep sub).2 = false then []
    else (rollStep sub).1 :: visitedRolls fuel (rollStep sub).1

/-- All roll-value combinations in `[7..10]^n` for the sub affixes `ts`. -/
def rollCombos : List AFFIX_NAMES → List (List (AFFIX_NAMES × Int))
  | [] => [[]]
  | t :: rest => (rollCombos rest).flatMap fun c => [7, 8, 9, 10].map fun (w : Int) => (t, w) :: c

/-- The sum the specification gives for the expected dogfood cost: over the artifacts and
over all `4^|subs|` roll combinations, `rate / 4^|subs|` times the expected cost that `calc`
returns for the artifact with those rolls. -/
def expected_dfcost_all_combos (sub_scores : AFFIX_NAMES → Option ℚ) (score_bar : ℚ)
    (allart : List (Artifact × ℚ)) (gain : ℚ) : ℚ :=
  (allart.map fun e =>
    ((rollCombos (e.1.sub.map Prod.fst)).map fun c =>
      e.2 / 4 ^ e.1.sub.length
        * (fourSubResult sub_scores score_bar gain { e.1 with sub := c }).2.2.1).sum).sum

end DP

namespace DATA

/-- The total probability that a list of `(tuple, prob)` pairs gives to the tuple `k`. -/
def keyProb (L : List (List AFFIX_NAMES × ℚ)) (k : List AFFIX_NAMES) : ℚ :=
  ((L.filter fun x => x.1 = k).map Prod.snd).sum

end DATA

namespace DATA

/-- A canonical sub tuple for `main`: `n` rollable affixes other than `main`, in strictly
ascending enum order (hence pairwise distinct). -/
def CanonSubs (main : AFFIX_NAMES) (n : Nat) (k : List AFFIX_NAMES) : Prop :=
  k.length = n ∧ k.Pairwise (fun a b => a.toNat < b.toNat) ∧ ∀ a ∈ k, a ∈ rollable ∧ a ≠ main

/-- The structural probability of a set of subs: the sum over all orderings of the product
of the conditional weights. -/
def subSetProb (main : AFFIX_NAMES) (k : List AFFIX_NAMES) : ℚ :=
  (k.permutations.map (orderProb main [])).sum

end DATA

/-! ## The appearance rate of one artifact and the sampler -/

namespace DATA

/-- `get_weight_from_distribution(key, vec)`: the weight of the first entry with the key;
throws when there is none. -/
def get_weight_from_distribution {T : Type} [DecidableEq T] (key : T) :
    List (T × Nat) → Except Error Nat
  | [] => .error Error.weight_not_in_distribution
  | (k, v) :: rest => if k = key then .ok v else get_weight_from_distribution key rest

/-- The loop over `a.sub` of `artifact_appear_rate`, `calculated_subs` and `rate` being the
loop state. -/
def appearSubLoop (main : AFFIX_NAMES) :
    List (AFFIX_NAMES × Int) → List AFFIX_NAMES → ℚ → Except Error ℚ
  | [], _, rate => .ok rate
  | (name, _) :: rest, calculated_subs, rate =>
    let dist := get_sub_distribution main calculated_subs
    match get_weight_from_distribution name dist with
    | .error e => .error e
    | .ok w =>
      appearSubLoop main rest (calculated_subs ++ [name])
        (rate * (w : ℚ) / (weighted_sum dist : ℚ))

/-- `artifact_appear_rate(a)` (the debug output left out). -/
def artifact_appear_rate (a : Artifact) : Except Error ℚ :=
  if ¬ (a.level = 0 ∧ (a.sub.length = 3 ∨ a.sub.length = 4)) then
    .error Error.level_or_sub_number_wrong
  else
    match get_weight_from_distribution a.sub.length INITIAL_AFFIX_NUM_WEIGHT with
    | .error e => .error e
    | .ok iw =>
      match get_weight_from_distribution a.main (get_main_distribution a.set) with
      | .error e => .error e
      | .ok mw =>
        appearSubLoop a.main a.sub []
          (1 / (SET_NUMBER : ℚ) * (iw : ℚ) / (weighted_sum INITIAL_AFFIX_NUM_WEIGHT : ℚ)
            * (mw : ℚ) / (weighted_sum (get_main_distribution a.set) : ℚ))

/-- The value of `artifact_appear_rate(a)` where it returns (0 where it throws). -/
def appearRate (a : Artifact) : ℚ :=
  match artifact_appear_rate a with
  | .ok r => r
  | .error _ => 0

/-- The entry `vec[i]`; the program only reads indexes inside the vector, an index outside
reads as a sentinel entry here. -/
def entryAt (vec : List (Artifact × ℚ)) (i : Nat) : Artifact × ℚ :=
  vec.getD i (⟨SET_NAMES.end_, AFFIX_NAMES.end_, [], 0⟩, 0)

/-- The binary search `while (left + 1 < right)` of `get_drop` over the interval
`(left, right]`; returns the final `(left, right)`. -/
def dropSearch (acc : List (Artifact × ℚ)) (randnum : ℚ) (left right : Nat) : Nat × Nat :=
  if h : left + 1 < right then
    if (entryAt acc ((left + right) / 2)).2 < randnum then
      dropSearch acc randnum ((left + right) / 2) right
    else dropSearch acc randnum left ((left + right) / 2)
  else (left, right)
termination_by right - left
decreasing_by
  all_goals simp_wf
  all_goals omega

/-- The conversion `int(x)` of a double: truncation towards zero. -/
def truncToInt (x : ℚ) : Int := if 0 ≤ x then Int.floor x else Int.ceil x

/-- The loop `for (auto& [t, w] : art.sub)` of `get_drop`: one base-4 digit of `randnum` per
sub, clamped to `update_way - 1`, shifted by `AFFIX_UPDATE_MIN`. -/
def rollDigits : List (AFFIX_NAMES × Int) → ℚ → List (AFFIX_NAMES × Int)
  | [], _ => []
  | (t, _) :: rest, randnum =>
    let update_way : Int := (AFFIX_UPDATE_MAX : Int) - (AFFIX_UPDATE_MIN : Int) + 1
    let w : Int :=
      if truncToInt (randnum * (update_way : ℚ)) ≥ update_way then update_way - 1
      else truncToInt (randnum * (update_way : ℚ))
    (t, w + (AFFIX_UPDATE_MIN : Int))
      :: rollDigits rest (randnum * (update_way : ℚ) - (w : ℚ))

/-- The body of `get_drop(randnum)` over the accumulated vector `acc`. -/
def get_drop_from (acc : List (Artifact × ℚ)) (randnum : ℚ) : Artifact :=
  if randnum ≤ (entryAt acc 0).2 then (entryAt acc 0).1
  else if randnum > (entryAt acc (acc.length - 1)).2 then (entryAt acc (acc.length - 1)).1
  else
    let lr := dropSearch acc randnum 0 (acc.length - 1)
    let art := (entryAt acc lr.2).1
    { art with
      sub := rollDigits art.sub
        ((randnum - (entryAt acc lr.1).2) / ((entryAt acc lr.2).2 - (entryAt acc lr.1).2)) }

/-- `get_drop(randnum)`, over the global `all_artifacts_accumulated`. -/
def get_drop (randnum : ℚ) : Artifact := get_drop_from all_artifacts_accumulated randnum

end DATA

namespace DATA

/-- The first structure of the game data in the order of the tables: a flower with main
`hp` and the three subs `atk, def, hpp`, rolls at the placeholder. -/
def artifactFirst : Artifact := ⟨.flower, .hp, [(.atk, 7), (.def_, 7), (.hpp, 7)], 0⟩

/-- The structure probability of `artifactFirst`. -/
def probFirst : ℚ :=
  1 / 5 * ((1 : Nat) : ℚ) / (weighted_sum (MAIN_WEIGHT SET_NAMES.flower) : ℚ) * ((4 : Nat) : ℚ) / 5
    * subSetProb AFFIX_NAMES.hp [AFFIX_NAMES.atk, AFFIX_NAMES.def_, AFFIX_NAMES.hpp]

end DATA

namespace DATA

/-- The prefix sum `cdf[i]`: the sum of the probabilities of the entries `0 .. i`. -/
def cdfAt (l : List (Artifact × ℚ)) (i : Nat) : ℚ := ((l.take (i + 1)).map Prod.snd).sum

end DATA

namespace DP

open DATA

/-- The value of `get_expected_dfcost` where it returns (0 where it throws or runs out of
fuel). -/
def dfcostValue (fuel : Nat) (sub_scores : AFFIX_NAMES → Option ℚ) (score_bar : ℚ)
    (allart : List (Artifact × ℚ)) (gain : ℚ) : ℚ :=
  match get_expected_dfcost fuel sub_scores score_bar allart gain with
  | .ok c => c
  | .error _ => 0

end DP

/-! ## The upgrade-state table, counted -/

namespace DP

/-- The pick on the slot that `dfs` holds at the mirrored index of `current`. -/
def mirrorPick (p : Nat × Nat) : Nat × Nat := (3 - p.1, p.2)

/-- The number of sequences of `k` picks that produce the vector `v` from the zero vector. -/
def seqCount (k : Nat) (v : Vec4) : Nat :=
  (pickSeqs k).countP fun q => decide (applySeq Vec4.zero q = v)

end DP

/-! ## The memoised table as program state -/

namespace DP

/-- The globals that `init` and `dfs` write: the flag `IS_INIT`, the map `m` of `dfs` and the
rows `cell[0..N]` (a row outside the array reads as empty). -/
structure DPState where
  IS_INIT : Bool
  m : List (Nat × Nat)
  cell : Nat → List (Nat × Nat)

/-- The globals at program start: `IS_INIT = false`, `m` and every row empty. -/
def DPState.start : DPState := ⟨false, [], fun _ => []⟩

/-- One iteration of the loop of `init`: `m.clear(); dfs(n, start);` and then
`cell[n].push_back(i)` for every entry `i` of `m`, in key order. -/
def initStep (st : DPState) (n : Nat) : DPState :=
  let m := dfs n (List.replicate DATA.AFFIX_NUM 0) []
  { st with
    m := m
    cell := fun i => if i = n then m.foldl (fun row e => row ++ [e]) (st.cell i) else st.cell i }

/-- `DP::init()` on the globals: nothing when `IS_INIT`, otherwise the loop over
`n = 0 .. N` and `IS_INIT = true`. -/
def init (st : DPState) : DPState :=
  if st.IS_INIT then st
  else { (List.range (N + 1)).foldl initStep st with IS_INIT := true }

/-- The loop over `cell[i]` of `calc`, reading the row from the table `tbl`. -/
def calcLevelOn (tbl : Nat → List (Nat × Nat)) (SCORE : List ℚ)
    (SCORE_BAR max_increase gain : ℚ) (upgrade_time i : Nat) (dp_map : Nat → DpMap) :
    Nat → DpMap :=
  (tbl i).foldl (calcEntry SCORE SCORE_BAR max_increase gain upgrade_time i) dp_map

/-- The iterations `i, i - 1, ..., 0` of the outer loop of `calc` over the table `tbl`. -/
def calcLevelsOn (tbl : Nat → List (Nat × Nat)) (SCORE : List ℚ)
    (SCORE_BAR max_increase gain : ℚ) (upgrade_time : Nat) :
    Nat → (Nat → DpMap) → (Nat → DpMap)
  | 0, dp_map => calcLevelOn tbl SCORE SCORE_BAR max_increase gain upgrade_time 0 dp_map
  | i + 1, dp_map =>
    calcLevelsOn tbl SCORE SCORE_BAR max_increase gain upgrade_time i
      (calcLevelOn tbl SCORE SCORE_BAR max_increase gain upgrade_time (i + 1) dp_map)

/-- `DP::calc(weight, score, upgrade_time, score_bar, gain)` as a step on the globals: it
calls `init()` first and then reads the rows of the table from the globals. Returns the
globals after the call and what the call returns or throws. -/
def calc_weights_st (st : DPState) (weight : List Int) (score : List ℚ) (upgrade_time : Nat)
    (score_bar gain : ℚ) : DPState × Except Error Result :=
  let st := init st
  if weight.length ≠ DATA.AFFIX_NUM ∨ score.length ≠ DATA.AFFIX_NUM then
    (st, .error Error.size_mismatch)
  else
    let SCORE : List ℚ := score.map (fun i => i * (SCORE_MULTIPLIER : ℚ))
    let SCORE_BAR : ℚ := (List.range DATA.AFFIX_NUM).foldl
      (fun bar i => bar - ((weight.getD i 0 : Int) : ℚ) * SCORE.getD i 0)
      (score_bar * (SCORE_MULTIPLIER : ℚ))
    let max_increase := maxElement SCORE * (DATA.AFFIX_UPDATE_MAX : ℚ)
    let current_upgrade := N - upgrade_time
    let dp_map := calcLevelsOn st.cell SCORE SCORE_BAR max_increase gain upgrade_time
      upgrade_time (fun _ _ => none)
    match dp_map 0 0 with
    | none =>
      let gain := DOGFOOD_LOSS current_upgrade
      (st, .ok (false, gain, -gain, 0, (0 : ℚ) * 1 / (SCORE_MULTIPLIER : ℚ)))
    | some r =>
      (st, .ok (true, r.e_gain, r.e_df_cost, r.success_rate,
        r.e_score_gain * 1 / (SCORE_MULTIPLIER : ℚ)))

end DP

/-! ## Random artifacts -/

namespace DATA

/-- `randint(max)`: the next draw of the generator, a value in `0 .. max - 1`. The generator
is the list of its future raw outputs, each reduced modulo `max`; a generator that ran dry
yields 0. Every value below `max` is the outcome of some generator. -/
def randint (max : Nat) (draws : List Nat) : Nat × List Nat :=
  (draws.headD 0 % max, draws.tail)

/-- The loop of `weighted_rand(vec)` after `ret = randint(sum)`. -/
def weighted_rand_pick {T : Type} : List (T × Nat) → Nat → Except Error T
  | [], _ => .error Error.weighted_rand_failed
  | (i, j) :: rest, ret => if ret < j then .ok i else weighted_rand_pick rest (ret - j)

/-- `weighted_rand(vec)`; returns the value and the generator after the draw. -/
def weighted_rand {T : Type} (vec : List (T × Nat)) (draws : List Nat) :
    Except Error (T × List Nat) :=
  match weighted_rand_pick vec (randint (weighted_sum vec) draws).1 with
  | .error e => .error e
  | .ok t => .ok (t, (randint (weighted_sum vec) draws).2)

/-- `static_cast<SET_NAMES>(n)`. -/
def set_of_index : Nat → SET_NAMES
  | 0 => .start
  | 1 => .flower
  | 2 => .plume
  | 3 => .sands
  | 4 => .goblet
  | 5 => .circlet
  | _ => .end_

/-- `get_random_set()`. -/
def get_random_set (draws : List Nat) : SET_NAMES × List Nat :=
  (set_of_index ((randint SET_NUMBER draws).1 + 1), (randint SET_NUMBER draws).2)

/-- The loop `for (int i = 0; i < initial; i++)` of `random_one_artifact` from index `i`
with `n` iterations to go: a seeded slot is checked against `dist` and the roll range, any
other slot is drawn from `dist`. -/
def subAffixLoop (main : AFFIX_NAMES) (sub : List (AFFIX_NAMES × Int)) :
    Nat → Nat → List AFFIX_NAMES → List Nat → Except Error (List AFFIX_NAMES × List Nat)
  | 0, _, sub_affix, draws => .ok (sub_affix, draws)
  | n + 1, i, sub_affix, draws =>
    if i < sub.length then
      match get_weight_from_distribution (sub.getD i (AFFIX_NAMES.end_, 0)).1
          (get_sub_distribution main sub_affix) with
      | .error e => .error e
      | .ok _ =>
        if (AFFIX_UPDATE_MAX : Int) < (sub.getD i (AFFIX_NAMES.end_, 0)).2
            ∨ (AFFIX_UPDATE_MIN : Int) > (sub.getD i (AFFIX_NAMES.end_, 0)).2 then
          .error Error.affix_weight_wrong
        else
          subAffixLoop main sub n (i + 1)
            (sub_affix ++ [(sub.getD i (AFFIX_NAMES.end_, 0)).1]) draws
    else
      match weighted_rand (get_sub_distribution main sub_affix) draws with
      | .error e => .error e
      | .ok r => subAffixLoop main sub n (i + 1) (sub_affix ++ [r.1]) r.2

/-- The loop `for (int i = sub.size(); i < initial; i++)`: the drawn affixes get a roll
`randint(4) + 7`. -/
def fillRolls : List AFFIX_NAMES → List (AFFIX_NAMES × Int) → List Nat →
    List (AFFIX_NAMES × Int)
  | [], sub, _ => sub
  | t :: rest, sub, draws =>
    fillRolls rest
      (sub ++ [(t, (((randint (AFFIX_UPDATE_MAX - AFFIX_UPDATE_MIN + 1) draws).1 : Nat) : Int)
        + (AFFIX_UPDATE_MIN : Int))])
      (randint (AFFIX_UPDATE_MAX - AFFIX_UPDATE_MIN + 1) draws).2

/-- The part of `random_one_artifact` after `main` is fixed: the choice or check of
`initial`, the check of the number of seeded subs, and the two loops. -/
def random_subs (set : SET_NAMES) (main : AFFIX_NAMES) (initial : Int)
    (sub : List (AFFIX_NAMES × Int)) (draws : List Nat) : Except Error Artifact :=
  match (if initial = 0 then
      (match weighted_rand INITIAL_AFFIX_NUM_WEIGHT draws with
        | .error e => .error e
        | .ok r => .ok (r.1, r.2))
    else
      (match get_weight_from_distribution initial
          (INITIAL_AFFIX_NUM_WEIGHT.map fun e => ((e.1 : Int), e.2)) with
        | .error e => .error e
        | .ok _ => .ok (Int.toNat initial, draws)) : Except Error (Nat × List Nat)) with
  | .error e => .error e
  | .ok r =>
    if sub.length > r.1 then .error Error.sub_number_too_much
    else
      match subAffixLoop main sub r.1 0 [] r.2 with
      | .error e => .error e
      | .ok l =>
        .ok ⟨set, main, fillRolls (l.1.drop sub.length) sub l.2, 0⟩

/-- `random_one_artifact(set, main, initial, sub)`; `SET_NAMES::end`, `AFFIX_NAMES::end` and
`initial = 0` stand for "not given". -/
def random_one_artifact (set : SET_NAMES) (main : AFFIX_NAMES) (initial : Int)
    (sub : List (AFFIX_NAMES × Int)) (draws : List Nat) : Except Error Artifact :=
  if main = AFFIX_NAMES.end_ then
    match weighted_rand
        (get_main_distribution
          (if set = SET_NAMES.end_ then (get_random_set draws).1 else set))
        (if set = SET_NAMES.end_ then (get_random_set draws).2 else draws) with
    | .error e => .error e
    | .ok r =>
      random_subs (if set = SET_NAMES.end_ then (get_random_set draws).1 else set) r.1 initial
        sub r.2
  else
    match get_weight_from_distribution main
        (get_main_distribution
          (if set = SET_NAMES.end_ then (get_random_set draws).1 else set)) with
    | .error e => .error e
    | .ok _ =>
      random_subs (if set = SET_NAMES.end_ then (get_random_set draws).1 else set) main initial
        sub (if set = SET_NAMES.end_ then (get_random_set draws).2 else draws)

end DATA

/-! ## The text form of an artifact

A `std::string` is its list of characters. -/

namespace DATA

/-- What a call that can throw or run into undefined behaviour does: it returns, it throws,
or its behaviour is undefined (a read through `find(...)->second` of a key that is not in the
map, or of an `int` that was never written). -/
inductive Parsed (α : Type) where
  | ok (a : α)
  | threw (e : Error)
  | undefined
  deriving DecidableEq, Repr

def string_to_set_names : List (List Char × SET_NAMES) :=
  [ ("flower".toList, .flower), ("plume".toList, .plume), ("sands".toList, .sands),
    ("goblet".toList, .goblet), ("circlet".toList, .circlet) ]

def string_to_affix_names : List (List Char × AFFIX_NAMES) :=
  [ ("hp".toList, .hp), ("atk".toList, .atk), ("def".toList, .def_), ("hpp".toList, .hpp),
    ("atkp".toList, .atkp), ("defp".toList, .defp), ("em".toList, .em), ("er".toList, .er),
    ("cr".toList, .cr), ("cd".toList, .cd), ("hb".toList, .hb), ("pyroDB".toList, .pyroDB),
    ("hydroDB".toList, .hydroDB), ("electroDB".toList, .electroDB),
    ("anemoDB".toList, .anemoDB), ("cryoDB".toList, .cryoDB), ("geoDB".toList, .geoDB),
    ("physicalDB".toList, .physicalDB), ("dendroDB".toList, .dendroDB) ]

/-- The lookup `map.find(key)`: the mapped value, or `none` for `map.end()`. -/
def mapFind {T : Type} : List (List Char × T) → List Char → Option T
  | [], _ => none
  | (k, v) :: rest, key => if k = key then some v else mapFind rest key

/-- `type_to_string(map, type)`: the first key whose value is `type`. The program iterates an
`unordered_map`; every value occurs once in the two tables, so the order is of no account. -/
def type_to_string {T : Type} [DecidableEq T] :
    List (List Char × T) → T → Except Error (List Char)
  | [], _ => .error Error.type_to_string_not_found
  | (i, j) :: rest, type => if j = type then .ok i else type_to_string rest type

/-- The decimal text of an `int`, as `format` prints it for `\x7b\x7d` and for `d` with the
sign option `-`: a minus sign for negative values only. -/
def fmt_int (i : Int) : List Char :=
  if i < 0 then '-' :: Nat.toDigits 10 i.natAbs else Nat.toDigits 10 i.toNat

/-- A minimum field width with the text aligned left, the default of `format` for strings:
`\x7b:4s\x7d`, `\x7b:7s\x7d`, `\x7b:10s\x7d`. -/
def padRight (width : Nat) (s : List Char) : List Char :=
  s ++ List.replicate (width - s.length) ' '

/-- A minimum field width with the text aligned right, the default of `format` for numbers:
`\x7b:-2d\x7d`. -/
def padLeft (width : Nat) (s : List Char) : List Char :=
  List.replicate (width - s.length) ' ' ++ s

/-- The text `format("\x7b:-2d\x7d,\x7b:4s\x7d", weight, name)` of one sub. -/
def format_sub (weight : Int) (name : List Char) : List Char :=
  padLeft 2 (fmt_int weight) ++ (',' :: padRight 4 name)

/-- The loop over `sub` of `to_string`, `substr` being the loop state. -/
def subsToString : List (AFFIX_NAMES × Int) → List Char → Except Error (List Char)
  | [], substr => .ok substr
  | (name, weight) :: rest, substr =>
    match type_to_string string_to_affix_names name with
    | .error e => .error e
    | .ok n =>
      subsToString rest
        ((if substr.length ≠ 0 then substr ++ ['|'] else substr) ++ format_sub weight n)

/-- `Artifact::to_string()`. -/
def Artifact.to_string (a : Artifact) : Except Error (List Char) :=
  match subsToString a.sub [] with
  | .error e => .error e
  | .ok substr =>
    match type_to_string string_to_set_names a.set with
    | .error e => .error e
    | .ok set_name =>
      match type_to_string string_to_affix_names a.main with
      | .error e => .error e
      | .ok main_name =>
        .ok ("SET ".toList ++ padRight 7 set_name ++ "|LV ".toList ++ fmt_int a.level
          ++ "|MAIN ".toList ++ padRight 10 main_name ++ "|SUB ".toList
          ++ (if a.sub.length < AFFIX_NUM then substr ++ ['|'] else substr))

/-- `std::isspace` in the "C" locale: space, `\t`, `\n`, `\v`, `\f`, `\r`. -/
def isspace (c : Char) : Bool :=
  c = ' ' || c = Char.ofNat 9 || c = Char.ofNat 10 || c = Char.ofNat 11 || c = Char.ofNat 12
    || c = Char.ofNat 13

/-- An `std::istringstream`: the characters not yet read, and `failbit`. -/
structure IStream where
  buf : List Char
  fail : Bool
  deriving DecidableEq, Repr

/-- The whitespace skipped by the sentry of a formatted input. -/
def skipws : List Char → List Char
  | [] => []
  | c :: cs => if isspace c then skipws cs else c :: cs

/-- The characters up to the next whitespace or the end, and what follows them. -/
def takeWord : List Char → List Char × List Char
  | [] => ([], [])
  | c :: cs => if isspace c then ([], c :: cs) else (c :: (takeWord cs).1, (takeWord cs).2)

/-- The extraction `sin >> str` of a string: nothing happens on a stream that has failed; a
stream with only whitespace left fails and leaves `str` as it was; otherwise `str` becomes
the next word. -/
def extractString (sin : IStream) (str : List Char) : IStream × List Char :=
  if sin.fail then (sin, str)
  else
    match skipws sin.buf with
    | [] => (⟨[], true⟩, str)
    | c :: cs => (⟨(takeWord (c :: cs)).2, false⟩, (takeWord (c :: cs)).1)

/-- The longest prefix of decimal digits, and what follows it. -/
def takeDigits : List Char → List Char × List Char
  | [] => ([], [])
  | c :: cs => if c.isDigit then (c :: (takeDigits cs).1, (takeDigits cs).2) else ([], c :: cs)

/-- The value of a string of decimal digits. -/
def digitsValue (ds : List Char) : Nat := ds.foldl (fun v c => 10 * v + (c.toNat - 48)) 0

/-- The decimal integer at the front of the text, an optional sign and at least one digit,
with what follows it; `none` if there is no digit. -/
def readInt : List Char → Option (Int × List Char)
  | [] => none
  | c :: cs =>
    if c = '-' then
      (if (takeDigits cs).1 = [] then none
        else some (-(digitsValue (takeDigits cs).1 : Int), (takeDigits cs).2))
    else if c = '+' then
      (if (takeDigits cs).1 = [] then none
        else some ((digitsValue (takeDigits cs).1 : Int), (takeDigits cs).2))
    else
      (if (takeDigits (c :: cs)).1 = [] then none
        else some ((digitsValue (takeDigits (c :: cs)).1 : Int), (takeDigits (c :: cs)).2))

/-- The extraction `sin >> x` of an `int`, `x` being `none` while the variable was never
written: nothing happens on a stream that has failed; a stream with only whitespace left
fails and leaves `x` as it was; text that is no integer fails and writes 0; a value outside
the range of `int` fails and writes the nearest bound. -/
def extractInt (sin : IStream) (x : Option Int) : IStream × Option Int :=
  if sin.fail then (sin, x)
  else
    match skipws sin.buf with
    | [] => (⟨[], true⟩, x)
    | c :: cs =>
      match readInt (c :: cs) with
      | none => (⟨c :: cs, true⟩, some 0)
      | some r =>
        if r.1 < -2147483648 then (⟨r.2, true⟩, some (-2147483648))
        else if 2147483647 < r.1 then (⟨r.2, true⟩, some 2147483647)
        else (⟨r.2, false⟩, some r.1)

/-- `std::stoi(str)`: leading whitespace is skipped, text after the number is ignored; it
throws if there is no number or if the value is outside the range of `int`. -/
def stoi (str : List Char) : Except Error Int :=
  match readInt (skipws str) with
  | none => .error Error.stoi_failed
  | some r =>
    if r.1 < -2147483648 ∨ 2147483647 < r.1 then .error Error.stoi_failed else .ok r.1

/-- `str.find(",")`: the position of the first comma, `none` for `npos`. -/
def findComma : List Char → Option Nat
  | [] => none
  | c :: cs => if c = ',' then some 0 else (findComma cs).map (· + 1)

/-- `sub_data.substr(comma_pos + 1)`; `npos + 1` wraps to 0. -/
def substrAfter (s : List Char) : Option Nat → List Char
  | none => s
  | some p => s.drop (p + 1)

/-- `sub_data.substr(0, comma_pos)`. -/
def substrBefore (s : List Char) : Option Nat → List Char
  | none => s
  | some p => s.take p

/-- The loop `while (1)` over the subs of the string constructor, cut after `fuel`
iterations. -/
def readSubs : Nat → IStream → List (AFFIX_NAMES × Int) → Parsed (List (AFFIX_NAMES × Int))
  | 0, _, _ => .threw Error.out_of_fuel
  | fuel + 1, sin, sub =>
    if (extractString sin []).2.length = 0 then .ok sub
    else
      match mapFind string_to_affix_names
          (substrAfter (extractString sin []).2 (findComma (extractString sin []).2)) with
      | none => .undefined
      | some sub_affix =>
        match stoi (substrBefore (extractString sin []).2
            (findComma (extractString sin []).2)) with
        | .error e => .threw e
        | .ok sub_value =>
          readSubs fuel (extractString sin []).1 (sub ++ [(sub_affix, sub_value)])

/-- The seven variables read by the first statement of the string constructor. -/
structure HeaderFields where
  set_name : List Char
  set_data : List Char
  lv_name : List Char
  lv_data : Option Int
  main_name : List Char
  main_data : List Char
  sub_name : List Char
  deriving DecidableEq, Repr

/-- The statement
`sin >> set_name >> set_data >> lv_name >> lv_data >> main_name >> main_data >> sub_name`. -/
def readHeader (sin : IStream) : IStream × HeaderFields :=
  let r1 := extractString sin []
  let r2 := extractString r1.1 []
  let r3 := extractString r2.1 []
  let r4 := extractInt r3.1 none
  let r5 := extractString r4.1 []
  let r6 := extractString r5.1 []
  let r7 := extractString r6.1 []
  (r7.1, ⟨r1.2, r2.2, r3.2, r4.2, r5.2, r6.2, r7.2⟩)

/-- The text with every `|` replaced by a space. -/
def replaceBars (art_str : List Char) : List Char :=
  art_str.map fun i => if i = '|' then ' ' else i

/-- The constructor `Artifact(const std::string& art_str)`. Every iteration of its loop
that does not end it reads at least one character, so `|art_str| + 1` iterations are
enough. -/
def Artifact.of_string (art_str : List Char) : Parsed Artifact :=
  let h := readHeader ⟨replaceBars art_str, false⟩
  if h.2.set_name ≠ "SET".toList ∨ h.2.lv_name ≠ "LV".toList ∨ h.2.main_name ≠ "MAIN".toList
      ∨ h.2.sub_name ≠ "SUB".toList then
    .threw Error.wrong_format
  else
    match mapFind string_to_set_names h.2.set_data with
    | none => .undefined
    | some set =>
      match h.2.lv_data with
      | none => .undefined
      | some level =>
        match mapFind string_to_affix_names h.2.main_data with
        | none => .undefined
        | some main =>
          match readSubs (art_str.length + 1) h.1 [] with
          | .threw e => .threw e
          | .undefined => .undefined
          | .ok sub => .ok ⟨set, main, sub, level⟩

/-- The artifact S3: sands, main `hpp`, subs `(atk, 9), (em, 7), (cr, 10), (cd, 8)`,
level 0. -/
def artifactS3 : Artifact := ⟨.sands, .hpp, [(.atk, 9), (.em, 7), (.cr, 10), (.cd, 8)], 0⟩

end DATA

/-! ### The layout of the text of `to_string` -/

namespace DATA

/-- Only whitespace. -/
def Blank (l : List Char) : Prop := ∀ c ∈ l, isspace c = true

/-- A word: not empty and without whitespace. -/
def Solid (w : List Char) : Prop := w ≠ [] ∧ ∀ c ∈ w, isspace c = false

/-- Empty, or with whitespace at the front. -/
def StartsBlank : List Char → Prop
  | [] => True
  | c :: _ => isspace c = true

/-- The name of a set in `string_to_set_names` (empty for a sentinel). -/
def setText (s : SET_NAMES) : List Char :=
  match type_to_string string_to_set_names s with
  | .ok n => n
  | .error _ => []

/-- The name of an affix in `string_to_affix_names` (empty for a sentinel). -/
def affixText (t : AFFIX_NAMES) : List Char :=
  match type_to_string string_to_affix_names t with
  | .ok n => n
  | .error _ => []

/-- The texts of the subs, each but the first (if `first`) after the separator `bar`. -/
def subText (bar : Char) : Bool → List (AFFIX_NAMES × Int) → List Char
  | _, [] => []
  | first, (t, r) :: rest =>
    (if first then [] else [bar]) ++ (format_sub r (affixText t) ++ subText bar false rest)

/-- The sets with a name. -/
def namedSets : List SET_NAMES := string_to_set_names.map Prod.snd

/-- The affixes with a name. -/
def namedAffixes : List AFFIX_NAMES := string_to_affix_names.map Prod.snd

end DATA

/-! ## Positions in `weighted_rand`, subscripts in `calc` -/

namespace DATA

/-- The loop of `weighted_rand(vec)` with the position of the entry it returns: `pos` is the
position of the head of the list, `ret` the draw less the weights already passed. -/
def weighted_rand_index {T : Type} : List (T × Nat) → Nat → Nat → Option Nat
  | [], _, _ => none
  | (_, j) :: rest, ret, pos =>
    if ret < j then some pos else weighted_rand_index rest (ret - j) (pos + 1)

end DATA

namespace DP

end DP

/-! ## Permutations of the four slots -/

namespace DP

/-- The component `v_j` of an increment vector (0 for `j` outside the four slots). -/
def Vec4.get (v : Vec4) : Nat → Nat
  | 0 => v.v0
  | 1 => v.v1
  | 2 => v.v2
  | 3 => v.v3
  | _ => 0

/-- The list `l ∘ p`: position `i` holds `l[p[i]]`. For `p` a permutation of `[0, 1, 2, 3]`
and `l` of length 4 this is `l` with its slots permuted. -/
def permuteList {α : Type} (p : List Nat) (l : List α) (d : α) : List α :=
  p.map fun i => l.getD i d

/-- The increment vector `v ∘ p`: slot `i` holds `v[p[i]]`. -/
def Vec4.permute (p : List Nat) (v : Vec4) : Vec4 :=
  ⟨v.get (p.getD 0 0), v.get (p.getD 1 0), v.get (p.getD 2 0), v.get (p.getD 3 0)⟩

end DP

/-! ## Rolls as base-4 digits -/

namespace DATA

/-- The number `sum_i (roll_i - 7) / 4^i` whose base-4 digits are the rolls less 7: the left
end of the stretch of rescaled `randnum` values that `get_drop` expands into these rolls. -/
def rollOffset : List Int → ℚ
  | [] => 0
  | r :: rest => (((r : ℚ) - 7) + rollOffset rest) / 4

/-- The subs with their rolls replaced by the given rolls, in order. -/
def withRolls (sub : List (AFFIX_NAMES × Int)) (rolls : List Int) : List (AFFIX_NAMES × Int) :=
  List.zipWith (fun e r => (e.1, r)) sub rolls

end DATA

/-! ## The deprecated variant `calc2` -/

namespace DP

/-- The vector `dp_cell[i]` of `calc2` before the sort: for every entry of `cell[i]`, in
order, the status, the count and the score of the status (the lambda of `calc2` runs the
digit loop of `calc`). -/
def dpCellOf (SCORE : List ℚ) (i : Nat) : List (Nat × Nat × ℚ) :=
  (cell i).foldl (fun dp_cell e => dp_cell ++ [(e.1, e.2, statusScore SCORE e.1)]) []

/-- The call `std::sort(dp_cell[i].begin(), dp_cell[i].end(), by decreasing score)`. The
order `std::sort` gives to entries of equal score is unspecified; this is the order of an
insertion sort, and `calc2_with` takes the sort as a parameter. -/
def sortByScore (l : List (Nat × Nat × ℚ)) : List (Nat × Nat × ℚ) :=
  l.insertionSort fun x y => y.2.2 ≤ x.2.2

/-- The body of `for (auto& [status, count, status_score] : dp_cell[i])` in `calc2` after
the test that breaks the loop. -/
def calc2Entry (SCORE_BAR gain : ℚ) (upgrade_time i : Nat) (dp_map : Nat → DpMap)
    (entry : Nat × Nat × ℚ) : Nat → DpMap :=
  let current_upgrade := N - upgrade_time
  let status := entry.1
  let count := entry.2.1
  let status_score := entry.2.2
  if i = upgrade_time then
    dpAssign dp_map i status
      ⟨count, status_score, gain, (SUCCESS_DOGFOOD_COST : ℚ), 1, status_score - SCORE_BAR⟩
  else
    let acc := transitions (dp_map (i + 1)) (DOGFOOD_LOSS (current_upgrade + i + 1)) status
    let e_gain := acc.e_gain / (route_number : ℚ)
    let e_df_cost := acc.e_df_cost / (route_number : ℚ)
    let success_rate := acc.success_rate / (route_number : ℚ)
    let e_score_gain :=
      if success_rate > 0 then acc.e_score_gain / ((route_number : ℚ) * success_rate)
      else acc.e_score_gain
    if e_gain > DOGFOOD_LOSS (current_upgrade + i) then
      dpAssign dp_map i status ⟨count, status_score, e_gain, e_df_cost, success_rate, e_score_gain⟩
    else dp_map

/-- The loop over the sorted `dp_cell[i]` of `calc2`: it breaks at the first entry whose
score is below `current_score_bar`. -/
def calc2Loop (SCORE_BAR gain : ℚ) (upgrade_time i : Nat) (current_score_bar : ℚ) :
    List (Nat × Nat × ℚ) → (Nat → DpMap) → (Nat → DpMap)
  | [], dp_map => dp_map
  | entry :: rest, dp_map =>
    if entry.2.2 < current_score_bar then dp_map
    else
      calc2Loop SCORE_BAR gain upgrade_time i current_score_bar rest
        (calc2Entry SCORE_BAR gain upgrade_time i dp_map entry)

/-- One iteration of the outer loop of `calc2`: fill, sort and walk `dp_cell[i]`. -/
def calc2Level (sort : List (Nat × Nat × ℚ) → List (Nat × Nat × ℚ)) (SCORE : List ℚ)
    (SCORE_BAR max_increase gain : ℚ) (upgrade_time i : Nat) (dp_map : Nat → DpMap) :
    Nat → DpMap :=
  calc2Loop SCORE_BAR gain upgrade_time i
    (SCORE_BAR - max_increase * ((upgrade_time - i : Nat) : ℚ) - EPS)
    (sort (dpCellOf SCORE i)) dp_map

/-- The iterations `i, i - 1, ..., 0` of the outer loop of `calc2`. -/
def calc2Levels (sort : List (Nat × Nat × ℚ) → List (Nat × Nat × ℚ)) (SCORE : List ℚ)
    (SCORE_BAR max_increase gain : ℚ) (upgrade_time : Nat) :
    Nat → (Nat → DpMap) → (Nat → DpMap)
  | 0, dp_map => calc2Level sort SCORE SCORE_BAR max_increase gain upgrade_time 0 dp_map
  | i + 1, dp_map =>
    calc2Levels sort SCORE SCORE_BAR max_increase gain upgrade_time i
      (calc2Level sort SCORE SCORE_BAR max_increase gain upgrade_time (i + 1) dp_map)

/-- `DP::calc2(weight, score, upgrade_time, score_bar, gain)` with the sort as a
parameter. -/
def calc2_with (sort : List (Nat × Nat × ℚ) → List (Nat × Nat × ℚ)) (weight : List Int)
    (score : List ℚ) (upgrade_time : Nat) (score_bar gain : ℚ) : Except Error Result :=
  if weight.length ≠ DATA.AFFIX_NUM ∨ score.length ≠ DATA.AFFIX_NUM then
    .error Error.size_mismatch
  else
    let SCORE : List ℚ := score.map (fun i => i * (SCORE_MULTIPLIER : ℚ))
    let SCORE_BAR : ℚ := (List.range DATA.AFFIX_NUM).foldl
      (fun bar i => bar - ((weight.getD i 0 : Int) : ℚ) * SCORE.getD i 0)
      (score_bar * (SCORE_MULTIPLIER : ℚ))
    let max_increase := maxElement SCORE * (DATA.AFFIX_UPDATE_MAX : ℚ)
    let current_upgrade := N - upgrade_time
    let dp_map := calc2Levels sort SCORE SCORE_BAR max_increase gain upgrade_time upgrade_time
      (fun _ _ => none)
    match dp_map 0 0 with
    | none =>
      let gain := DOGFOOD_LOSS current_upgrade
      .ok (false, gain, -gain, 0, (0 : ℚ) * 1 / (SCORE_MULTIPLIER : ℚ))
    | some r =>
      .ok (true, r.e_gain, r.e_df_cost, r.success_rate,
        r.e_score_gain * 1 / (SCORE_MULTIPLIER : ℚ))

/-- `DP::calc2(weight, score, upgrade_time, score_bar, gain)`. -/
def calc2 (weight : List Int) (score : List ℚ) (upgrade_time : Nat) (score_bar gain : ℚ) :
    Except Error Result :=
  calc2_with sortByScore weight score upgrade_time score_bar gain

end DP

/-! ## The bisection of `find_gain` in the arithmetic of `double` -/

namespace DP

open DATA

/-- Rounding to the nearest integer, a tie going to the even one. -/
def roundHalfEven (y : ℚ) : Int :=
  if y - ⌊y⌋ < 1 / 2 then ⌊y⌋
  else if y - ⌊y⌋ > 1 / 2 then ⌊y⌋ + 1
  else if ⌊y⌋ % 2 = 0 then ⌊y⌋ else ⌊y⌋ + 1

/-- The exponent of the spacing of the values of type `double` around `x`: 52 below the
binary exponent of `x`, and `-1074` in the subnormal range. -/
def spacingExp (x : ℚ) : Int := max (Int.log 2 |x|) (-1022) - 52

/-- The result of an operation of type `double` (`dftype`) whose exact value is `x`: IEEE
754 binary64, rounding to nearest, ties to even. The result is `none` when it is not
finite (the rounded value reaches `2 ^ 1024`). -/
@[irreducible]
def roundDouble (x : ℚ) : Option ℚ :=
  let y := (roundHalfEven (x / 2 ^ spacingExp x) : ℚ) * 2 ^ spacingExp x
  if |y| < 2 ^ 1024 then some y else none

/-- The expression `(max_gain + min_gain) / 2` on values of type `double`: the sum is
rounded, then the quotient. -/
def midpointDouble (max_gain min_gain : ℚ) : Option ℚ :=
  match roundDouble (max_gain + min_gain) with
  | none => none
  | some sum => roundDouble (sum / 2)

/-- How a run in the arithmetic of `double` ends: it returns a value, the cost function
throws, an operation gives a result that is not finite, or the fuel runs out. -/
inductive Run (α : Type) where
  | returned (value : α)
  | threw (e : Error)
  | not_finite
  | out_of_fuel

/-- The `while (max_gain - min_gain > gain_precision)` loop of `find_gain` with `dftype`
read as `double`: the difference and the midpoint are rounded. The cost function `f` takes
and returns values of type `double`. At most `fuel` iterations; the last component counts
the evaluations of `f`; it is not a variable of the program. -/
def find_gain_loop_double (f : ℚ → Except Error ℚ) (dfcost gain_precision : ℚ) :
    Nat → ℚ → ℚ → Nat → Run (ℚ × ℚ × Nat)
  | 0, min_gain, max_gain, evals =>
    match roundDouble (max_gain - min_gain) with
    | none => .not_finite
    | some width =>
      if width > gain_precision then .out_of_fuel
      else .returned (min_gain, max_gain, evals)
  | fuel + 1, min_gain, max_gain, evals =>
    match roundDouble (max_gain - min_gain) with
    | none => .not_finite
    | some width =>
      if width > gain_precision then
        match midpointDouble max_gain min_gain with
        | none => .not_finite
        | some mid =>
          match f mid with
          | .error e => .threw e
          | .ok cost =>
            if cost > dfcost then
              find_gain_loop_double f dfcost gain_precision fuel min_gain mid (evals + 1)
            else
              find_gain_loop_double f dfcost gain_precision fuel mid max_gain (evals + 1)
      else .returned (min_gain, max_gain, evals)

/-- The body of `find_gain` after `allart` is fetched, with `dftype` read as `double`, for
the cost function `f`: `min_gain = -SUCCESS_DOGFOOD_COST`, the bisection,
`return (max_gain + min_gain) / 2`. -/
def find_gain_double_with (f : ℚ → Except Error ℚ) (dfcost max_gain gain_precision : ℚ)
    (fuel : Nat) : Run ℚ :=
  match find_gain_loop_double f dfcost gain_precision fuel (- (SUCCESS_DOGFOOD_COST : ℚ))
      max_gain 0 with
  | .returned r =>
    match midpointDouble r.2.1 r.1 with
    | none => .not_finite
    | some mid => .returned mid
  | .threw e => .threw e
  | .not_finite => .not_finite
  | .out_of_fuel => .out_of_fuel

/-- `find_gain(sub_scores, score_bar, dfcost, set, max_gain, gain_precision)` with the
bisection in the arithmetic of `double`; `fuel` bounds the bisection and `rollFuel` each
`while (1)` loop of `get_expected_dfcost`. The cost is the value `get_expected_dfcost` has
in exact arithmetic; what is proved of the bisection holds for every cost function. -/
def find_gain_double (fuel rollFuel : Nat) (sub_scores : AFFIX_NAMES → Option ℚ)
    (score_bar dfcost : ℚ) (set : SET_NAMES) (max_gain gain_precision : ℚ) : Run ℚ :=
  find_gain_double_with
    (get_expected_dfcost rollFuel sub_scores score_bar (get_all_artifacts_with_probs set))
    dfcost max_gain gain_precision fuel

end DP

/-! ## The upgrade-state table -/

namespace DP

theorem picks_eq : picks =
    [(0, 7), (0, 8), (0, 9), (0, 10), (1, 7), (1, 8), (1, 9), (1, 10),
     (2, 7), (2, 8), (2, 9), (2, 10), (3, 7), (3, 8), (3, 9), (3, 10)] := by
  decide

theorem mem_picks {slot upd : Nat} (h1 : slot < 4) (h2 : 7 ≤ upd) (h3 : upd ≤ 10) :
    (slot, upd) ∈ picks := by
  rw [picks_eq]
  have : slot = 0 ∨ slot = 1 ∨ slot = 2 ∨ slot = 3 := by omega
  have : upd = 7 ∨ upd = 8 ∨ upd = 9 ∨ upd = 10 := by omega
  rcases ‹slot = 0 ∨ _› with h | h | h | h <;> rcases ‹upd = 7 ∨ _› with g | g | g | g <;>
    subst h <;> subst g <;> simp

theorem of_mem_picks {p : Nat × Nat} (h : p ∈ picks) : p.1 < 4 ∧ 7 ≤ p.2 ∧ p.2 ≤ 10 := by
  rw [picks_eq] at h
  simp only [List.mem_cons, List.mem_singleton, List.not_mem_nil, or_false] at h
  rcases h with h | h | h | h | h | h | h | h | h | h | h | h | h | h | h | h <;>
    subst h <;> simp

theorem dfs_succ (n : Nat) (current : List Nat) (m : List (Nat × Nat)) :
    dfs (n + 1) current m = picks.foldl (fun m p => dfs n (addAt current p.1 p.2) m) m := by
  rw [picks_eq]
  rfl

theorem mem_keys_mapIncr (id k : Nat) (m : List (Nat × Nat)) :
    k ∈ (mapIncr id m).map Prod.fst ↔ k = id ∨ k ∈ m.map Prod.fst := by
  induction m with
  | nil => simp [mapIncr]
  | cons e rest ih =>
    obtain ⟨a, c⟩ := e
    unfold mapIncr
    split_ifs with h1 h2
    · simp
    · subst h2; simp
    · simp only [List.map_cons, List.mem_cons, ih]
      tauto

end DP

namespace DP

theorem weightedSum_mapIncr (f : Nat → ℚ) (id : Nat) (m : List (Nat × Nat)) :
    weightedSum f (mapIncr id m) = weightedSum f m + f id := by
  induction m with
  | nil => simp [mapIncr, weightedSum]
  | cons e rest ih =>
    obtain ⟨a, c⟩ := e
    unfold mapIncr
    split_ifs with h1 h2
    · simp [weightedSum]; ring
    · subst h2; simp [weightedSum]; ring
    · have ih' := ih
      simp only [weightedSum, List.map_cons, List.sum_cons] at ih' ⊢
      rw [ih']; ring

/-- Folding a family of map transformers that each add a known amount adds the total. -/
theorem weightedSum_foldl {α : Type} (f : Nat → ℚ) (g : α → List (Nat × Nat) → List (Nat × Nat))
    (d : α → ℚ) (hg : ∀ a m, weightedSum f (g a m) = weightedSum f m + d a) (l : List α)
    (m : List (Nat × Nat)) :
    weightedSum f (l.foldl (fun m a => g a m) m) = weightedSum f m + (l.map d).sum := by
  induction l generalizing m with
  | nil => simp
  | cons a l ih => simp only [List.foldl_cons, ih, hg, List.map_cons, List.sum_cons]; ring

theorem sum_map_flatMap {α β : Type} (l : List α) (h : α → List β) (F : β → ℚ) :
    ((l.flatMap h).map F).sum = (l.map fun a => ((h a).map F).sum).sum := by
  induction l with
  | nil => simp
  | cons a l ih => simp [List.flatMap_cons, ih]

theorem sum_pickSeqs_succ (n : Nat) (F : List (Nat × Nat) → ℚ) :
    ((pickSeqs (n + 1)).map F).sum
      = (picks.map fun p => ((pickSeqs n).map fun q => F (p :: q)).sum).sum := by
  simp only [pickSeqs, sum_map_flatMap, List.map_map]
  rfl

/-- The counts written by `dfs` are the numbers of pick sequences: summing any `f` over the
table adds `f` of the packed end vector of every sequence of `n` picks. -/
theorem weightedSum_dfs (f : Nat → ℚ) (n : Nat) (current : List Nat) (m : List (Nat × Nat)) :
    weightedSum f (dfs n current m)
      = weightedSum f m
        + ((pickSeqs n).map fun q => f (packCurrent (applyCurrent current q))).sum := by
  induction n generalizing current m with
  | zero => simp [dfs, pickSeqs, weightedSum_mapIncr, packCurrent, applyCurrent]
  | succ n ih =>
    rw [dfs_succ, weightedSum_foldl f (fun (p : Nat × Nat) m => dfs n (addAt current p.1 p.2) m)
      (fun (p : Nat × Nat) => ((pickSeqs n).map fun q =>
        f (packCurrent (applyCurrent (addAt current p.1 p.2) q))).sum) (fun p m => ih _ _),
      sum_pickSeqs_succ]
    rfl

theorem mem_keys_foldl {α : Type} (g : α → List (Nat × Nat) → List (Nat × Nat))
    (K : α → Nat → Prop)
    (hg : ∀ a m k, k ∈ (g a m).map Prod.fst ↔ k ∈ m.map Prod.fst ∨ K a k) (l : List α)
    (m : List (Nat × Nat)) (k : Nat) :
    k ∈ (l.foldl (fun m a => g a m) m).map Prod.fst
      ↔ k ∈ m.map Prod.fst ∨ ∃ a ∈ l, K a k := by
  induction l generalizing m with
  | nil => simp
  | cons a l ih =>
    simp only [List.foldl_cons, ih, hg, List.mem_cons, exists_eq_or_imp]
    tauto

theorem mem_pickSeqs_succ (n : Nat) (q : List (Nat × Nat)) :
    q ∈ pickSeqs (n + 1) ↔ ∃ p ∈ picks, ∃ q' ∈ pickSeqs n, q = p :: q' := by
  simp only [pickSeqs, List.mem_flatMap, List.mem_map]
  constructor
  · rintro ⟨p, hp, q', hq', rfl⟩; exact ⟨p, hp, q', hq', rfl⟩
  · rintro ⟨p, hp, q', hq', rfl⟩; exact ⟨p, hp, q', hq', rfl⟩

/-- The codes written by `dfs` are exactly the packed end vectors of the pick sequences. -/
theorem mem_keys_dfs (n : Nat) (current : List Nat) (m : List (Nat × Nat)) (k : Nat) :
    k ∈ (dfs n current m).map Prod.fst
      ↔ k ∈ m.map Prod.fst ∨ ∃ q ∈ pickSeqs n, k = packCurrent (applyCurrent current q) := by
  induction n generalizing current m k with
  | zero =>
    simp only [dfs, mem_keys_mapIncr, pickSeqs, List.mem_singleton, exists_eq_left]
    simp only [packCurrent, applyCurrent, List.foldl_nil]
    tauto
  | succ n ih =>
    rw [dfs_succ, mem_keys_foldl (fun (p : Nat × Nat) m => dfs n (addAt current p.1 p.2) m)
      (fun (p : Nat × Nat) k => ∃ q ∈ pickSeqs n, k = packCurrent (applyCurrent (addAt current p.1 p.2) q))
      (fun p m k => ih _ _ _)]
    apply or_congr Iff.rfl
    constructor
    · rintro ⟨p, hp, q, hq, rfl⟩
      exact ⟨p :: q, (mem_pickSeqs_succ n _).2 ⟨p, hp, q, hq, rfl⟩, rfl⟩
    · rintro ⟨q, hq, rfl⟩
      obtain ⟨p, hp, q', hq', rfl⟩ := (mem_pickSeqs_succ n q).1 hq
      exact ⟨p, hp, q', hq', rfl⟩

end DP

/-! ## Increment vectors, their codes and the table rows -/

namespace DP

theorem Vec4.bump_add (u v : Vec4) (slot upd : Nat) :
    (u.bump slot upd).add v = u.add (v.bump slot upd) := by
  rcases slot with _ | _ | _ | _ | slot <;> simp [Vec4.bump, Vec4.add] <;> omega

theorem Vec4.add_zero (u : Vec4) : u.add Vec4.zero = u := by
  simp [Vec4.add, Vec4.zero]

theorem Vec4.zero_add (u : Vec4) : Vec4.zero.add u = u := by
  simp [Vec4.add, Vec4.zero]

theorem addAt_toCurrent (u : Vec4) (slot upd : Nat) (h : slot < 4) :
    addAt u.toCurrent (3 - slot) upd = (u.bump slot upd).toCurrent := by
  have : slot = 0 ∨ slot = 1 ∨ slot = 2 ∨ slot = 3 := by omega
  rcases this with h | h | h | h <;> subst h <;> rfl

theorem packCurrent_toCurrent (u : Vec4) : packCurrent u.toCurrent = u.code := by
  simp only [packCurrent, Vec4.toCurrent, List.foldl_cons, List.foldl_nil, Vec4.code, BASE]
  ring

theorem Vec4.code_bump (v : Vec4) (slot upd : Nat) (h : slot < 4) :
    (v.bump slot upd).code = v.code + upd * 64 ^ slot := by
  have : slot = 0 ∨ slot = 1 ∨ slot = 2 ∨ slot = 3 := by omega
  rcases this with h | h | h | h <;> subst h <;> simp [Vec4.bump, Vec4.code] <;> ring

theorem Vec4.dot_bump (v : Vec4) (s : List ℚ) (slot upd : Nat) (h : slot < 4) :
    (v.bump slot upd).dot s = v.dot s + (upd : ℚ) * s.getD slot 0 := by
  have : slot = 0 ∨ slot = 1 ∨ slot = 2 ∨ slot = 3 := by omega
  rcases this with h | h | h | h <;> subst h <;> simp [Vec4.bump, Vec4.dot] <;> ring

theorem Reach.succ {n : Nat} {v : Vec4} (h : Reach n v) {slot upd : Nat} (h1 : slot < 4)
    (h2 : 7 ≤ upd) (h3 : upd ≤ 10) : Reach (n + 1) (v.bump slot upd) :=
  ⟨v, slot, upd, h, h1, h2, h3, rfl⟩

theorem Reach.bounded {n : Nat} {v : Vec4} (h : Reach n v) : v.BoundedBy (10 * n) := by
  induction n generalizing v with
  | zero => cases h; simp [Vec4.BoundedBy, Vec4.zero]
  | succ n ih =>
    obtain ⟨v', slot, upd, hv', h1, h2, h3, rfl⟩ := h
    have := ih hv'
    have hs : slot = 0 ∨ slot = 1 ∨ slot = 2 ∨ slot = 3 := by omega
    simp only [Vec4.BoundedBy] at this ⊢
    rcases hs with h | h | h | h <;> subst h <;> simp only [Vec4.bump] <;> omega

/-- Every vector reached by `n` picks is the end vector of a pick sequence of `dfs`. -/
theorem Reach.exists_seq {n : Nat} {v : Vec4} (h : Reach n v) (u : Vec4) :
    ∃ q ∈ pickSeqs n, applyCurrent u.toCurrent q = (u.add v).toCurrent := by
  induction n generalizing v u with
  | zero => cases h; exact ⟨[], by simp [pickSeqs], by simp [applyCurrent, Vec4.add_zero]⟩
  | succ n ih =>
    obtain ⟨v', slot, upd, hv', h1, h2, h3, rfl⟩ := h
    obtain ⟨q, hq, hq'⟩ := ih hv' (u.bump slot upd)
    refine ⟨(3 - slot, upd) :: q, (mem_pickSeqs_succ n _).2 ⟨_, mem_picks (by omega) h2 h3, q, hq, rfl⟩, ?_⟩
    rw [← Vec4.bump_add, ← hq', ← addAt_toCurrent u slot upd h1]
    rfl

/-- The code of every vector reached by `i ≤ 5` picks is a key of `cell[i]`. -/
theorem Reach.code_mem_cell {i : Nat} {v : Vec4} (h : Reach i v) (hi : i ≤ 5) :
    v.code ∈ (cell i).map Prod.fst := by
  obtain ⟨q, hq, hq'⟩ := h.exists_seq Vec4.zero
  have hi' : i ≤ N := hi
  rw [cell, if_pos hi', mem_keys_dfs]
  right
  refine ⟨q, hq, ?_⟩
  have : List.replicate DATA.AFFIX_NUM 0 = Vec4.zero.toCurrent := rfl
  rw [this, hq', Vec4.zero_add, packCurrent_toCurrent]

/-- Decoding: the digit loop of `calc` recovers `sum_j v_j * s_j` from the code of a vector
whose components are below 64. -/
theorem statusScore_code (s : List ℚ) (v : Vec4) (h : v.BoundedBy 63) :
    statusScore s v.code = v.dot s := by
  obtain ⟨h0, h1, h2, h3⟩ := h
  have e : List.range DATA.AFFIX_NUM = [0, 1, 2, 3] := by decide
  simp only [statusScore, e, List.foldl_cons, List.foldl_nil, BASE, Vec4.dot, Vec4.code]
  have a0 : (v.v0 + v.v1 * 64 + v.v2 * 64 ^ 2 + v.v3 * 64 ^ 3) % 64 = v.v0 := by omega
  have a1 : (v.v0 + v.v1 * 64 + v.v2 * 64 ^ 2 + v.v3 * 64 ^ 3) / 64 % 64 = v.v1 := by omega
  have a2 : (v.v0 + v.v1 * 64 + v.v2 * 64 ^ 2 + v.v3 * 64 ^ 3) / 64 / 64 % 64 = v.v2 := by omega
  have a3 : (v.v0 + v.v1 * 64 + v.v2 * 64 ^ 2 + v.v3 * 64 ^ 3) / 64 / 64 / 64 % 64 = v.v3 := by
    omega
  rw [a0, a1, a2, a3]
  ring

end DP

/-! ## The transition loop as four sums over the successors -/

namespace DP

theorem transitions_eq (next : DpMap) (loss : ℚ) (status : Nat) :
    transitions next loss status
      = picks.foldl (fun acc p => transStep next loss status (64 ^ p.1) acc p.2) ⟨0, 0, 0, 0⟩ := by
  have e : List.range DATA.AFFIX_NUM = [0, 1, 2, 3] := by decide
  have e' : List.range' DATA.AFFIX_UPDATE_MIN (DATA.AFFIX_UPDATE_MAX + 1 - DATA.AFFIX_UPDATE_MIN)
      = [7, 8, 9, 10] := by decide
  simp only [transitions, e, e', picks_eq, List.foldl_cons, List.foldl_nil, BASE]
  norm_num

theorem transStep_foldl (next : DpMap) (loss : ℚ) (status : Nat) (l : List (Nat × Nat))
    (acc : Acc) :
    l.foldl (fun acc p => transStep next loss status (64 ^ p.1) acc p.2) acc
      = ⟨acc.e_gain + (l.map fun p =>
            match next (status + p.2 * 64 ^ p.1) with
            | none => loss
            | some t => t.e_gain).sum,
         acc.e_df_cost + (l.map fun p =>
            match next (status + p.2 * 64 ^ p.1) with
            | none => - loss
            | some t => t.e_df_cost).sum,
         acc.success_rate + (l.map fun p =>
            match next (status + p.2 * 64 ^ p.1) with
            | none => 0
            | some t => t.success_rate).sum,
         acc.e_score_gain + (l.map fun p =>
            match next (status + p.2 * 64 ^ p.1) with
            | none => 0
            | some t => t.success_rate * t.e_score_gain).sum⟩ := by
  induction l generalizing acc with
  | nil => simp
  | cons p l ih =>
    rw [List.foldl_cons, ih]
    simp only [List.map_cons, List.sum_cons, transStep]
    cases next (status + p.2 * 64 ^ p.1) <;> simp only [Acc.mk.injEq] <;>
      refine ⟨?_, ?_, ?_, ?_⟩ <;> ring

/-- When the map of the next step holds, at the code of each successor, the record `R`
assigns to it, the transition loop computes the four sums of the specification. -/
theorem transitions_code (next : DpMap) (loss : ℚ) (v : Vec4) (R : Vec4 → Option Outcome)
    (h : ∀ p ∈ picks, (next (v.bump p.1 p.2).code).map Rec.core = R (v.bump p.1 p.2)) :
    transitions next loss v.code
      = ⟨(((successors v).map R).map fun r =>
            match r with
            | none => loss
            | some o => o.gain).sum,
         (((successors v).map R).map fun r =>
            match r with
            | none => - loss
            | some o => o.cost).sum,
         (((successors v).map R).map fun r =>
            match r with
            | none => 0
            | some o => o.P).sum,
         (((successors v).map R).map fun r =>
            match r with
            | none => 0
            | some o => o.P * o.excess).sum⟩ := by
  rw [transitions_eq, transStep_foldl]
  simp only [successors, List.map_map, zero_add]
  have key : ∀ p ∈ picks, next (v.code + p.2 * 64 ^ p.1) = next (v.bump p.1 p.2).code := by
    intro p hp
    rw [Vec4.code_bump v p.1 p.2 (of_mem_picks hp).1]
  congr 1
  · apply congrArg List.sum
    apply List.map_congr_left
    intro p hp
    rw [key p hp, Function.comp_apply, Function.comp_apply, ← h p hp]
    cases next (v.bump p.1 p.2).code <;> rfl
  · apply congrArg List.sum
    apply List.map_congr_left
    intro p hp
    rw [key p hp, Function.comp_apply, Function.comp_apply, ← h p hp]
    cases next (v.bump p.1 p.2).code <;> rfl
  · apply congrArg List.sum
    apply List.map_congr_left
    intro p hp
    rw [key p hp, Function.comp_apply, Function.comp_apply, ← h p hp]
    cases next (v.bump p.1 p.2).code <;> rfl
  · apply congrArg List.sum
    apply List.map_congr_left
    intro p hp
    rw [key p hp, Function.comp_apply, Function.comp_apply, ← h p hp]
    cases next (v.bump p.1 p.2).code <;> rfl

end DP

/-! ## The loop over one table row, and the outer loop -/

namespace DP

theorem dogfood_values : SUCCESS_DOGFOOD_COST = 270475 ∧ DOGFOOD_LOSS 0 = 3780 ∧
    DOGFOOD_LOSS 1 = 520 ∧ DOGFOOD_LOSS 2 = -5165 ∧ DOGFOOD_LOSS 3 = -13650 ∧
    DOGFOOD_LOSS 4 = -26880 ∧ DOGFOOD_LOSS 5 = -50315 := by
  refine ⟨by decide, ?_, ?_, ?_, ?_, ?_, ?_⟩ <;>
    simp [DOGFOOD_LOSS, DOGFOOD_LOSS_TABLE, DOGFOOD_COST, FEED_DOGFOOD]

theorem route_number_eq : (route_number : ℚ) = 16 := by
  simp [route_number, DATA.AFFIX_NUM, DATA.AFFIX_UPDATE_MAX, DATA.AFFIX_UPDATE_MIN]

theorem calcEntry_other (s : List ℚ) (B mi gain : ℚ) (T i : Nat) (dp : Nat → DpMap)
    (e : Nat × Nat) (j k : Nat) (h : j ≠ i ∨ k ≠ e.1) :
    calcEntry s B mi gain T i dp e j k = dp j k := by
  have hA : ∀ r, dpAssign dp i e.1 r j k = dp j k := by
    intro r
    unfold dpAssign
    by_cases hj : j = i
    · rw [if_pos hj]
      rcases h with h | h
      · exact absurd hj h
      · rw [if_neg h]
    · rw [if_neg hj]
  unfold calcEntry
  simp only []
  split_ifs <;> first | rfl | exact hA _

theorem dpAssign_self (dp : Nat → DpMap) (i c : Nat) (r : Rec) : dpAssign dp i c r i c = some r := by
  simp [dpAssign]

/-- The record stored for the code of a reached vector is the one of the backward
induction, or nothing is stored and the backward induction has no record. -/
theorem calcEntry_at (s : List ℚ) (B mi gain : ℚ) (T i : Nat) (hT : T ≤ 5) (hi : i ≤ T)
    (dp : Nat → DpMap) (v : Vec4) (cnt : Nat) (hv : Reach i v)
    (hnext : ∀ v', Reach (i + 1) v' → i + 1 ≤ T →
      (dp (i + 1) v'.code).map Rec.core = vecRecord s B gain T (T - (i + 1)) v') :
    (calcEntry s B mi gain T i dp (v.code, cnt) i v.code).map Rec.core
        = vecRecord s B gain T (T - i) v
      ∨ (vecRecord s B gain T (T - i) v = none
          ∧ calcEntry s B mi gain T i dp (v.code, cnt) i v.code = dp i v.code) := by
  have hb : v.BoundedBy 63 := by
    have := hv.bounded
    simp only [Vec4.BoundedBy] at this ⊢
    omega
  have hss := statusScore_code s v hb
  unfold calcEntry
  simp only [hss]
  by_cases hiT : i = T
  · subst hiT
    simp only [if_true, Nat.sub_self, Nat.cast_zero, mul_zero, sub_zero, vecRecord, EPS]
    by_cases hlt : v.dot s < B - 1 / 100000000
    · right
      rw [if_pos hlt, if_neg (not_le.mpr hlt)]
      exact ⟨rfl, rfl⟩
    · left
      rw [if_neg hlt, if_pos (not_lt.mp hlt), dpAssign_self]
      simp [Rec.core, dogfood_values.1]
  · have hlt : i < T := lt_of_le_of_ne hi hiT
    obtain ⟨k, hk⟩ : ∃ k, T - i = k + 1 := ⟨T - i - 1, by omega⟩
    have hk' : T - (i + 1) = k := by omega
    have hi' : T - (k + 1) = i := by omega
    have hN : N - T = 5 - T := rfl
    rw [if_neg hiT, hk]
    have htr := transitions_code (dp (i + 1)) (DOGFOOD_LOSS (5 - T + i + 1)) v
      (vecRecord s B gain T k) (fun p hp => by
        have hp' := of_mem_picks hp
        have := hnext _ (hv.succ hp'.1 hp'.2.1 hp'.2.2) hlt
        rwa [hk'] at this)
    simp only [hN]
    simp only [vecRecord, hi', htr, route_number_eq]
    split_ifs with h1 <;>
      first
      | exact Or.inr ⟨rfl, rfl⟩
      | (left; rw [dpAssign_self]; simp only [Option.map_some', Rec.core])

end DP

namespace DP

theorem calcLevel_other (s : List ℚ) (B mi gain : ℚ) (T i : Nat) (es : List (Nat × Nat))
    (dp : Nat → DpMap) (j : Nat) (h : j ≠ i) :
    es.foldl (calcEntry s B mi gain T i) dp j = dp j := by
  induction es generalizing dp with
  | nil => rfl
  | cons e es ih =>
    rw [List.foldl_cons, ih]
    funext k
    exact calcEntry_other s B mi gain T i dp e j k (Or.inl h)

/-- The loop over a table row leaves, at the code of a reached vector, the record of the
backward induction. -/
theorem calcLevel_at (s : List ℚ) (B mi gain : ℚ) (T i : Nat) (hT : T ≤ 5) (hi : i ≤ T)
    (v : Vec4) (hv : Reach i v) (next : DpMap)
    (hnext : ∀ v', Reach (i + 1) v' → i + 1 ≤ T →
      (next v'.code).map Rec.core = vecRecord s B gain T (T - (i + 1)) v')
    (es : List (Nat × Nat)) (dp : Nat → DpMap) (hdp : dp (i + 1) = next) :
    ((dp i v.code).map Rec.core = vecRecord s B gain T (T - i) v →
      (es.foldl (calcEntry s B mi gain T i) dp i v.code).map Rec.core
        = vecRecord s B gain T (T - i) v) ∧
    (dp i v.code = none → v.code ∈ es.map Prod.fst →
      (es.foldl (calcEntry s B mi gain T i) dp i v.code).map Rec.core
        = vecRecord s B gain T (T - i) v) := by
  induction es generalizing dp with
  | nil => exact ⟨fun h => h, fun _ h => by simp at h⟩
  | cons e es ih =>
    have hdp' : calcEntry s B mi gain T i dp e (i + 1) = next := by
      rw [← hdp]
      funext k
      exact calcEntry_other s B mi gain T i dp e (i + 1) k (Or.inl (by omega))
    obtain ⟨ih1, ih2⟩ := ih (calcEntry s B mi gain T i dp e) hdp'
    simp only [List.foldl_cons, List.map_cons, List.mem_cons]
    by_cases hc : v.code = e.1
    · have hat := calcEntry_at s B mi gain T i hT hi dp v e.2 hv (by rw [hdp]; exact hnext)
      have he : (v.code, e.2) = e := by rw [hc]
      rw [he] at hat
      constructor
      · intro h
        apply ih1
        rcases hat with hat | ⟨_, hat⟩
        · exact hat
        · rw [hat]; exact h
      · intro h _
        apply ih1
        rcases hat with hat | ⟨hn, hat⟩
        · exact hat
        · rw [hat, h, hn]; rfl
    · have hsame : calcEntry s B mi gain T i dp e i v.code = dp i v.code :=
        calcEntry_other s B mi gain T i dp e i v.code (Or.inr hc)
      constructor
      · intro h
        apply ih1
        rw [hsame]; exact h
      · intro h hmem
        apply ih2
        · rw [hsame]; exact h
        · rcases hmem with hmem | hmem
          · exact absurd hmem hc
          · exact hmem

theorem LevelsDone.step (s : List ℚ) (B mi gain : ℚ) (T i : Nat) (hT : T ≤ 5) (hi : i ≤ T)
    (dp : Nat → DpMap) (h : LevelsDone s B gain T (i + 1) dp) :
    LevelsDone s B gain T i (calcLevel s B mi gain T i dp) := by
  obtain ⟨h1, h2⟩ := h
  refine ⟨?_, ?_⟩
  · intro j hj c
    rw [calcLevel, calcLevel_other s B mi gain T i _ dp j (by omega)]
    exact h1 j (by omega) c
  · intro j hij hjT v hv
    by_cases hji : j = i
    · subst hji
      have hmem := hv.code_mem_cell (by omega)
      exact (calcLevel_at s B mi gain T j hT hi v hv (dp (j + 1))
        (fun v' hv' hle => h2 (j + 1) le_rfl hle v' hv') (cell j) dp rfl).2
        (h1 j (by omega) _) hmem
    · rw [calcLevel, calcLevel_other s B mi gain T i _ dp j hji]
      exact h2 j (by omega) hjT v hv

theorem LevelsDone.calcLevels (s : List ℚ) (B mi gain : ℚ) (T : Nat) (hT : T ≤ 5) (i : Nat)
    (hi : i ≤ T) (dp : Nat → DpMap) (h : LevelsDone s B gain T (i + 1) dp) :
    LevelsDone s B gain T 0 (DP.calcLevels s B mi gain T i dp) := by
  induction i generalizing dp with
  | zero => exact LevelsDone.step s B mi gain T 0 hT hi dp h
  | succ i ih =>
    rw [DP.calcLevels]
    exact ih (by omega) _ (LevelsDone.step s B mi gain T (i + 1) hT hi dp h)

theorem LevelsDone.init (s : List ℚ) (B gain : ℚ) (T : Nat) :
    LevelsDone s B gain T (T + 1) (fun _ _ => none) :=
  ⟨fun _ _ _ => rfl, fun j h1 h2 => by omega⟩

theorem score_map_one (s : List ℚ) : s.map (fun i => i * (SCORE_MULTIPLIER : ℚ)) = s := by
  simp [SCORE_MULTIPLIER]

theorem score_bar_eq (w : List Int) (s : List ℚ) (bar : ℚ) (hw : w.length = 4)
    (hs : s.length = 4) :
    (List.range DATA.AFFIX_NUM).foldl
      (fun b i => b - ((w.getD i 0 : Int) : ℚ) * s.getD i 0) (bar * (SCORE_MULTIPLIER : ℚ))
      = bar - weightedScore w s := by
  obtain ⟨w0, w1, w2, w3, rfl⟩ : ∃ a b c d, w = [a, b, c, d] := by
    match w, hw with
    | [a, b, c, d], _ => exact ⟨a, b, c, d, rfl⟩
  obtain ⟨s0, s1, s2, s3, rfl⟩ : ∃ a b c d, s = [a, b, c, d] := by
    match s, hs with
    | [a, b, c, d], _ => exact ⟨a, b, c, d, rfl⟩
  have e : List.range DATA.AFFIX_NUM = [0, 1, 2, 3] := by decide
  simp [e, weightedScore, SCORE_MULTIPLIER]
  ring

/-- The vector overload of `calc` returns the result of the backward induction on increment
vectors, started at the zero vector with `T` upgrades to come. -/
theorem calc_weights_eq (w : List Int) (s : List ℚ) (T : Nat) (bar gain : ℚ)
    (hw : w.length = 4) (hs : s.length = 4) (hT : T ≤ 5) :
    calc_weights w s T bar gain
      = .ok (resultOf T (vecRecord s (bar - weightedScore w s) gain T T Vec4.zero)) := by
  have hsz : ¬ (w.length ≠ DATA.AFFIX_NUM ∨ s.length ≠ DATA.AFFIX_NUM) := by
    simp [hw, hs, DATA.AFFIX_NUM]
  unfold calc_weights
  rw [if_neg hsz]
  simp only [score_map_one, score_bar_eq w s bar hw hs]
  have hdone := LevelsDone.calcLevels s (bar - weightedScore w s)
    (maxElement s * (DATA.AFFIX_UPDATE_MAX : ℚ)) gain T hT T le_rfl _
    (LevelsDone.init s (bar - weightedScore w s) gain T)
  have h0 := hdone.2 0 le_rfl (Nat.zero_le T) Vec4.zero rfl
  have hc : Vec4.zero.code = 0 := rfl
  rw [hc, Nat.sub_zero] at h0
  rw [← h0]
  have hN : N - T = 5 - T := rfl
  cases hrec : DP.calcLevels s (bar - weightedScore w s)
      (maxElement s * (DATA.AFFIX_UPDATE_MAX : ℚ)) gain T T (fun _ _ => none) 0 0 with
  | none => simp [resultOf, hN, SCORE_MULTIPLIER]
  | some r => simp [resultOf, Rec.core, SCORE_MULTIPLIER]

end DP

/-! ## Consequences of the backward induction -/

namespace DP

theorem vecRecord_succ_gain (s : List ℚ) (B gain : ℚ) (T k : Nat) (v : Vec4) (o : Outcome)
    (h : vecRecord s B gain T (k + 1) v = some o) :
    o.gain > DOGFOOD_LOSS (5 - T + (T - (k + 1))) := by
  simp only [vecRecord] at h
  split_ifs at h with h1 h2 <;>
    (have h' := Option.some.inj h
     rw [← h']
     exact h1)

theorem decide_iff_gain (w : List Int) (s : List ℚ) (T : Nat) (bar gain : ℚ)
    (hw : w.length = 4) (hs : s.length = 4) (h1 : 1 ≤ T) (hT : T ≤ 5) :
    ∃ r : Result, calc_weights w s T bar gain = .ok r ∧
      (r.1 = true ↔ r.2.1 > DOGFOOD_LOSS (5 - T)) ∧
      (r.1 = false → r.2.1 = DOGFOOD_LOSS (5 - T)) := by
  refine ⟨_, calc_weights_eq w s T bar gain hw hs hT, ?_⟩
  obtain ⟨k, rfl⟩ : ∃ k, T = k + 1 := ⟨T - 1, by omega⟩
  cases hrec : vecRecord s (bar - weightedScore w s) gain (k + 1) (k + 1) Vec4.zero with
  | none => simp [resultOf]
  | some o =>
    have := vecRecord_succ_gain s _ gain (k + 1) k Vec4.zero o hrec
    simp only [Nat.sub_self, Nat.add_zero] at this
    simpa [resultOf] using this

theorem dogfood_loss_succ_lt (m : Nat) (h : m ≤ 4) : DOGFOOD_LOSS (m + 1) < DOGFOOD_LOSS m := by
  obtain ⟨_, h0, h1, h2, h3, h4, h5⟩ := dogfood_values
  have : m = 0 ∨ m = 1 ∨ m = 2 ∨ m = 3 ∨ m = 4 := by omega
  rcases this with h | h | h | h | h <;> subst h <;> simp only [Nat.reduceAdd] <;>
    simp only [h0, h1, h2, h3, h4, h5] <;> norm_num

theorem dogfood_loss_antitone {a b : Nat} (hab : a ≤ b) (hb : b ≤ 5) :
    DOGFOOD_LOSS b ≤ DOGFOOD_LOSS a := by
  induction b with
  | zero =>
    have : a = 0 := by omega
    subst this; exact le_rfl
  | succ b ih =>
    by_cases h : a = b + 1
    · subst h; exact le_rfl
    · exact le_trans (le_of_lt (dogfood_loss_succ_lt b (by omega))) (ih (by omega) (by omega))

theorem length_successors (v : Vec4) : (successors v).length = 16 := by
  simp [successors, picks_eq]

theorem mem_successors {v v' : Vec4} (h : v' ∈ successors v) :
    ∃ slot upd, slot < 4 ∧ 7 ≤ upd ∧ upd ≤ 10 ∧ v' = v.bump slot upd := by
  simp only [successors, List.mem_map] at h
  obtain ⟨p, hp, rfl⟩ := h
  have := of_mem_picks hp
  exact ⟨p.1, p.2, this.1, this.2.1, this.2.2, rfl⟩

theorem sum_map_const_of_forall {α : Type} (l : List α) (f : α → ℚ) (c : ℚ)
    (h : ∀ x ∈ l, f x = c) : (l.map f).sum = l.length * c := by
  induction l with
  | nil => simp
  | cons a l ih =>
    rw [List.map_cons, List.sum_cons, h a (List.mem_cons_self _ _),
      ih (fun x hx => h x (List.mem_cons_of_mem _ hx))]
    simp only [List.length_cons, Nat.cast_add, Nat.cast_one]
    ring

theorem decode_code (v : Vec4) (h : v.BoundedBy 63) : decode v.code = v := by
  obtain ⟨h0, h1, h2, h3⟩ := h
  obtain ⟨a, b, c, d⟩ := v
  simp only [decode, Vec4.code, Vec4.mk.injEq] at *
  refine ⟨?_, ?_, ?_, ?_⟩ <;> omega

end DP

namespace DP

/-- If no vector reached after `T` picks meets the bar, no vector at any step has a record:
all sixteen successors are missing, the averaged gain is `DOGFOOD_LOSS` of the next step,
and that never exceeds `DOGFOOD_LOSS` of the current one. -/
theorem vecRecord_none_of_bar (s : List ℚ) (B gain : ℚ) (T : Nat) (hT : T ≤ 5)
    (hbar : ∀ v, Reach T v → ¬ (v.dot s ≥ B - 1 / 100000000)) :
    ∀ k, k ≤ T → ∀ v, Reach (T - k) v → vecRecord s B gain T k v = none := by
  intro k
  induction k with
  | zero =>
    intro _ v hv
    simp only [vecRecord]
    rw [if_neg (hbar v hv)]
  | succ k ih =>
    intro hk v hv
    have hsucc : ∀ v' ∈ successors v, vecRecord s B gain T k v' = none := by
      intro v' hv'
      obtain ⟨slot, upd, a, b, c, rfl⟩ := mem_successors hv'
      apply ih (by omega)
      have : T - k = (T - (k + 1)) + 1 := by omega
      rw [this]
      exact hv.succ a b c
    have hg : (((successors v).map (vecRecord s B gain T k)).map fun r =>
        match r with
        | none => DOGFOOD_LOSS (5 - T + (T - (k + 1)) + 1)
        | some o => o.gain).sum = 16 * DOGFOOD_LOSS (5 - T + (T - (k + 1)) + 1) := by
      rw [List.map_map, sum_map_const_of_forall _ _ (DOGFOOD_LOSS (5 - T + (T - (k + 1)) + 1)),
        length_successors]
      · norm_num
      · intro x hx
        simp [hsucc x hx]
    simp only [vecRecord, hg]
    rw [if_neg]
    rw [mul_div_cancel_left₀ _ (by norm_num : (16 : ℚ) ≠ 0)]
    exact not_lt.mpr (le_of_lt (dogfood_loss_succ_lt _ (by omega)))

theorem Vec4.dot_nonneg (v : Vec4) (s : List ℚ) (hs : ∀ x ∈ s, 0 ≤ x) : 0 ≤ v.dot s := by
  have h : ∀ j, 0 ≤ s.getD j 0 := by
    intro j
    rw [List.getD_eq_getElem?_getD]
    cases hj : s[j]? with
    | none => simp
    | some x => simpa using hs x (List.getElem?_mem hj)
  have h0 := h 0
  have h1 := h 1
  have h2 := h 2
  have h3 := h 3
  unfold Vec4.dot
  positivity

theorem sum_map_div {α : Type} (l : List α) (f : α → ℚ) (c : ℚ) :
    (l.map fun a => f a / c).sum = (l.map f).sum / c := by
  induction l with
  | nil => simp
  | cons a l ih => simp only [List.map_cons, List.sum_cons, ih]; ring

/-- With non-negative scores and the bar already met, every vector at every step has the
record `(gain, 270475, 1, mean excess over the remaining pick sequences)`. -/
theorem vecRecord_sure (s : List ℚ) (B gain : ℚ) (T : Nat) (hT : T ≤ 5)
    (hs : ∀ x ∈ s, 0 ≤ x) (hB : B ≤ 0) (hg : gain > DOGFOOD_LOSS (5 - T)) :
    ∀ k, k ≤ T → ∀ v, vecRecord s B gain T k v
      = some ⟨gain, 270475, 1,
          ((pickSeqs k).map fun q => (applySeq v q).dot s - B).sum / 16 ^ k⟩ := by
  intro k
  induction k with
  | zero =>
    intro _ v
    have := v.dot_nonneg s hs
    simp only [vecRecord, pickSeqs, applySeq, List.map_cons, List.map_nil, List.foldl_nil,
      List.sum_cons, List.sum_nil, pow_zero, div_one, add_zero]
    rw [if_pos (by linarith)]
  | succ k ih =>
    intro hk v
    have hrec : (successors v).map (vecRecord s B gain T k)
        = (successors v).map fun v' => some (⟨gain, 270475, 1,
            ((pickSeqs k).map fun q => (applySeq v' q).dot s - B).sum / 16 ^ k⟩ : Outcome) :=
      List.map_congr_left fun v' _ => ih (by omega) v'
    have hlen : ((successors v).length : ℚ) = 16 := by rw [length_successors]; norm_num
    simp only [vecRecord, hrec, List.map_map, Function.comp_def, List.map_const',
      List.sum_replicate, hlen, smul_eq_mul, one_mul, nsmul_eq_mul]
    have h16 : (16 : ℚ) * gain / 16 = gain := by ring
    have h16' : (16 : ℚ) * 270475 / 16 = 270475 := by norm_num
    have h1 : (16 : ℚ) * 1 / 16 = 1 := by norm_num
    have hL : DOGFOOD_LOSS (5 - T + (T - (k + 1))) ≤ DOGFOOD_LOSS (5 - T) :=
      dogfood_loss_antitone (by omega) (by omega)
    rw [h16, h16', h1, if_pos (lt_of_le_of_lt hL hg), if_pos (by norm_num)]
    congr 2
    rw [sum_pickSeqs_succ, successors, List.map_map, Function.comp_def,
      sum_map_div picks (fun p => ((pickSeqs k).map fun q =>
        (applySeq (v.bump p.1 p.2) q).dot s - B).sum) (16 ^ k), pow_succ, mul_one, div_div]
    rfl

end DP

namespace DP

/-- Guaranteed success, on the vector overload. -/
theorem calc_weights_sure (w : List Int) (s : List ℚ) (T : Nat) (bar gain : ℚ)
    (hw : w.length = 4) (hs : s.length = 4) (hT : T ≤ 5) (hnn : ∀ x ∈ s, 0 ≤ x)
    (hbar : weightedScore w s ≥ bar) (hgain : gain > DOGFOOD_LOSS (5 - T)) :
    calc_weights w s T bar gain = .ok (true, gain, 270475, 1, meanExcess w s T bar) := by
  rw [calc_weights_eq w s T bar gain hw hs hT,
    vecRecord_sure s (bar - weightedScore w s) gain T hT hnn (by linarith) hgain T le_rfl]
  simp only [resultOf, meanExcess]
  congr 6
  apply congrArg List.sum
  apply List.map_congr_left
  intro q _
  ring

/-- No vector of `UST[T]` meets the bar: the vector overload answers "feed". -/
theorem calc_weights_hopeless (w : List Int) (s : List ℚ) (T : Nat) (bar gain : ℚ)
    (hw : w.length = 4) (hs : s.length = 4) (hT : T ≤ 5)
    (hbar : ∀ e ∈ cell T,
      ¬ (weightedScore w s + (decode e.1).dot s ≥ bar - 1 / 100000000)) :
    calc_weights w s T bar gain
      = .ok (false, DOGFOOD_LOSS (5 - T), - DOGFOOD_LOSS (5 - T), 0, 0) := by
  have hnone := vecRecord_none_of_bar s (bar - weightedScore w s) gain T hT (by
    intro v hv hge
    have hmem := hv.code_mem_cell hT
    obtain ⟨e, he, hec⟩ := List.mem_map.1 hmem
    have hb : v.BoundedBy 63 := by
      have := hv.bounded
      simp only [Vec4.BoundedBy] at this ⊢
      omega
    apply hbar e he
    rw [hec, decode_code v hb]
    linarith) T le_rfl Vec4.zero (by rw [Nat.sub_self]; rfl)
  rw [calc_weights_eq w s T bar gain hw hs hT, hnone]
  rfl

end DP

/-! ## Scenario S2: the expected excess -/

namespace DP

theorem sum_pickSeqs_const (n : Nat) (c : ℚ) :
    ((pickSeqs n).map fun _ => c).sum = 16 ^ n * c := by
  induction n with
  | zero => simp [pickSeqs]
  | succ n ih =>
    rw [sum_pickSeqs_succ]
    simp only [ih, picks_eq, List.map_cons, List.map_nil, List.sum_cons, List.sum_nil]
    ring

theorem sum_dot_ones (n : Nat) (v : Vec4) :
    ((pickSeqs n).map fun q => (applySeq v q).dot [1, 1, 1, 1]).sum
      = 16 ^ n * ((v.total : ℚ) + 17 / 2 * n) := by
  induction n generalizing v with
  | zero =>
    simp [pickSeqs, applySeq, Vec4.dot, Vec4.total]
  | succ n ih =>
    have hcons : ∀ (p : Nat × Nat) (q : List (Nat × Nat)),
        applySeq v (p :: q) = applySeq (v.bump p.1 p.2) q := fun _ _ => rfl
    rw [sum_pickSeqs_succ]
    simp only [hcons, ih, picks_eq, List.map_cons, List.map_nil, List.sum_cons, List.sum_nil,
      Vec4.bump, Vec4.total]
    push_cast
    ring

theorem Vec4.BoundedBy.bump {u : Vec4} {b : Nat} (h : u.BoundedBy b) (slot upd : Nat)
    (hu : upd ≤ 10) : (u.bump slot upd).BoundedBy (b + 10) := by
  obtain ⟨h0, h1, h2, h3⟩ := h
  rcases slot with _ | _ | _ | _ | slot <;> simp only [Vec4.bump, Vec4.BoundedBy] <;>
    refine ⟨?_, ?_, ?_, ?_⟩ <;> omega

theorem sum_digitSum (n : Nat) (u : Vec4) (b : Nat) (hu : u.BoundedBy b)
    (hb : b + 10 * n ≤ 63) :
    ((pickSeqs n).map fun q => digitSum (packCurrent (applyCurrent u.toCurrent q))).sum
      = 16 ^ n * ((u.total : ℚ) + 17 / 2 * n) := by
  induction n generalizing u b with
  | zero =>
    have hu' : u.BoundedBy 63 := by
      simp only [Vec4.BoundedBy] at hu ⊢
      omega
    simp [pickSeqs, applyCurrent, packCurrent_toCurrent, digitSum, decode_code u hu']
  | succ n ih =>
    have hcons : ∀ (p : Nat × Nat) (q : List (Nat × Nat)),
        applyCurrent u.toCurrent (p :: q) = applyCurrent (addAt u.toCurrent p.1 p.2) q :=
      fun _ _ => rfl
    rw [sum_pickSeqs_succ]
    simp only [hcons]
    have hstep : picks.map (fun p => ((pickSeqs n).map fun q =>
          digitSum (packCurrent (applyCurrent (addAt u.toCurrent p.1 p.2) q))).sum)
        = picks.map (fun p => 16 ^ n * (((u.bump (3 - p.1) p.2).total : ℚ) + 17 / 2 * n)) := by
      apply List.map_congr_left
      intro p hp
      have hp' := of_mem_picks hp
      have h3 : 3 - (3 - p.1) = p.1 := by omega
      have := addAt_toCurrent u (3 - p.1) p.2 (by omega)
      rw [h3] at this
      rw [this]
      exact ih _ (b + 10) (hu.bump _ _ hp'.2.2) (by omega)
    rw [hstep]
    simp only [picks_eq, List.map_cons, List.map_nil, List.sum_cons, List.sum_nil,
      Vec4.bump, Vec4.total]
    push_cast
    ring

/-- The counts of `cell[k]` sum to `16 ^ k`. -/
theorem weightedSum_one_cell (k : Nat) (hk : k ≤ 5) :
    weightedSum (fun _ => 1) (cell k) = 16 ^ k := by
  have hk' : k ≤ N := hk
  rw [cell, if_pos hk', weightedSum_dfs, sum_pickSeqs_const]
  simp [weightedSum]

theorem expectedDigitSum_eq (k : Nat) (hk : k ≤ 5) : expectedDigitSum k = 17 / 2 * k := by
  have hk' : k ≤ N := hk
  have hz : List.replicate DATA.AFFIX_NUM 0 = Vec4.zero.toCurrent := rfl
  have hb : Vec4.zero.BoundedBy 0 := by simp [Vec4.BoundedBy, Vec4.zero]
  rw [expectedDigitSum, weightedSum_one_cell k hk]
  rw [cell, if_pos hk', weightedSum_dfs, hz, sum_digitSum k Vec4.zero 0 hb (by omega)]
  have : (16 : ℚ) ^ k ≠ 0 := by positivity
  simp only [weightedSum, List.map_nil, List.sum_nil, Vec4.total, Vec4.zero]
  field_simp
  ring

theorem calc_map_S2 :
    calc_map artifactS scoresS2 0 1000000 = .ok (true, 1000000, 270475, 1, 165 / 2) := by
  have h1 : calc_map artifactS scoresS2 0 1000000
      = calc_weights [10, 10, 10, 10] [1, 1, 1, 1] 5 0 1000000 := by
    simp [calc_map, artifactS, calc_map_four, select_sub_score, select_sub_score_loop,
      scoresS2, calc_art, N, DATA.AFFIX_MAX_UPGRADE_TIME]
  have hloss : (1000000 : ℚ) > DOGFOOD_LOSS (5 - 5) := by
    rw [Nat.sub_self, dogfood_values.2.1]; norm_num
  rw [h1, calc_weights_sure [10, 10, 10, 10] [1, 1, 1, 1] 5 0 1000000 rfl rfl le_rfl
    (by simp) (by simp [weightedScore]; norm_num) hloss]
  have hm : meanExcess [10, 10, 10, 10] [1, 1, 1, 1] 5 0 = 165 / 2 := by
    have hsplit : ((pickSeqs 5).map fun q =>
          (weightedScore [10, 10, 10, 10] [1, 1, 1, 1] + (applySeq Vec4.zero q).dot [1, 1, 1, 1])
            - 0).sum
        = ((pickSeqs 5).map fun _ => (40 : ℚ)).sum
          + ((pickSeqs 5).map fun q => (applySeq Vec4.zero q).dot [1, 1, 1, 1]).sum := by
      rw [← List.sum_map_add]
      apply congrArg List.sum
      apply List.map_congr_left
      intro q _
      simp [weightedScore]
      norm_num
    rw [meanExcess, hsplit, sum_pickSeqs_const, sum_dot_ones]
    simp [Vec4.total, Vec4.zero]
    norm_num
  rw [hm]

end DP

/-! ## The three-sub wrapper -/

namespace DP

open DATA

theorem foldl_push_eq {α β : Type} (f : α → β) (l : List α) (init : List β) :
    l.foldl (fun acc e => acc ++ [f e]) init = init ++ l.map f := by
  induction l generalizing init with
  | nil => simp
  | cons a l ih => simp [ih]

theorem foldl_push_if_eq {α : Type} (p : α → Prop) [DecidablePred p] (l init : List α) :
    l.foldl (fun acc e => if p e then acc ++ [e] else acc) init = init ++ l.filter p := by
  induction l generalizing init with
  | nil => simp
  | cons a l ih =>
    by_cases h : p a <;> simp [ih, h]

theorem get_sub_distribution_eq (main : AFFIX_NAMES) (sub : List AFFIX_NAMES) :
    get_sub_distribution main sub
      = SUB_PROB_WEIGHT.filter (fun e => e.1 ≠ main ∧ ¬ (e.1 ∈ sub)) := by
  rw [get_sub_distribution, foldl_push_if_eq]
  simp

theorem weighted_sum_eq {T : Type} (vec : List (T × Nat)) :
    weighted_sum vec = (vec.map Prod.snd).sum := by
  have h : ∀ (l : List (T × Nat)) (a : Nat),
      l.foldl (fun sum e => sum + e.2) a = a + (l.map Prod.snd).sum := by
    intro l
    induction l with
    | nil => simp
    | cons e l ih => intro a; simp [ih, Nat.add_assoc]
  rw [weighted_sum, h]
  simp

theorem foldlM_ok {α β : Type} (f : β → α → Except Error β) (g : β → α → β) (l : List α)
    (b : β) (h : ∀ b, ∀ a ∈ l, f b a = .ok (g b a)) :
    l.foldlM f b = .ok (l.foldl g b) := by
  induction l generalizing b with
  | nil => rfl
  | cons a l ih =>
    rw [List.foldlM_cons, h b a (List.mem_cons_self _ _)]
    exact ih _ (fun b a' ha' => h b a' (List.mem_cons_of_mem _ ha'))

theorem foldl_flatMap_eq {α β γ : Type} (l : List α) (f : α → List β) (g : γ → β → γ)
    (c : γ) : (l.flatMap f).foldl g c = l.foldl (fun c a => (f a).foldl g c) c := by
  induction l generalizing c with
  | nil => rfl
  | cons a l ih => simp [List.flatMap_cons, List.foldl_append, ih]

theorem select_sub_score_loop_ok (m : AFFIX_NAMES → Option ℚ) (l : List (AFFIX_NAMES × Int))
    (res : List ℚ) (h : ∀ e ∈ l, (m e.1).isSome) :
    ∃ sc, select_sub_score_loop m l res = .ok sc ∧ sc.length = res.length + l.length := by
  induction l generalizing res with
  | nil => exact ⟨res, rfl, by simp⟩
  | cons e l ih =>
    obtain ⟨x, hx⟩ := Option.isSome_iff_exists.1 (h e (List.mem_cons_self _ _))
    obtain ⟨sc, hsc, hlen⟩ := ih (res ++ [x]) (fun e' he' => h e' (List.mem_cons_of_mem _ he'))
    refine ⟨sc, ?_, ?_⟩
    · simp only [select_sub_score_loop, hx]
      exact hsc
    · rw [hlen]
      simp
      omega

/-- With four subs, a level in `[0..5]` and every sub scored by the map, the map overload
returns the result of the DP. -/
theorem calc_map_four_ok (a : Artifact) (m : AFFIX_NAMES → Option ℚ) (bar gain : ℚ)
    (h4 : a.sub.length = 4) (hl0 : 0 ≤ a.level) (hl5 : a.level ≤ 5)
    (hm : ∀ e ∈ a.sub, (m e.1).isSome) :
    ∃ sc B, calc_map_four a m bar gain
      = .ok (resultOf (Int.toNat ((N : Int) - a.level))
          (vecRecord sc B gain (Int.toNat ((N : Int) - a.level))
            (Int.toNat ((N : Int) - a.level)) Vec4.zero)) := by
  obtain ⟨sc, hsc, hlen⟩ := select_sub_score_loop_ok m a.sub [] hm
  have hw : (a.sub.foldl (fun weight e => weight ++ [e.2]) ([] : List Int)).length = 4 := by
    rw [foldl_push_eq]
    simp [h4]
  have hT : Int.toNat ((N : Int) - a.level) ≤ 5 := by
    have : (N : Int) = 5 := rfl
    omega
  have hcw := calc_weights_eq (a.sub.foldl (fun weight e => weight ++ [e.2]) ([] : List Int))
    sc (Int.toNat ((N : Int) - a.level)) bar gain hw (by rw [hlen, h4]; rfl) hT
  exact ⟨sc, _, by rw [calc_map_four, select_sub_score, hsc]; exact hcw⟩

theorem calc_map_eq_four (a : Artifact) (m : AFFIX_NAMES → Option ℚ) (bar gain : ℚ)
    (h : a.sub.length ≠ 3) : calc_map a m bar gain = calc_map_four a m bar gain := by
  rw [calc_map, if_neg h]

end DP

namespace DP

open DATA

theorem foldl_acc_sum {α : Type} (l : List α) (h1 h2 h3 h4 : α → ℚ) (a : Acc) :
    l.foldl (fun acc x => (⟨acc.e_gain + h1 x, acc.e_df_cost + h2 x, acc.success_rate + h3 x,
        acc.e_score_gain + h4 x⟩ : Acc)) a
      = ⟨a.e_gain + (l.map h1).sum, a.e_df_cost + (l.map h2).sum,
          a.success_rate + (l.map h3).sum, a.e_score_gain + (l.map h4).sum⟩ := by
  induction l generalizing a with
  | nil => simp
  | cons x l ih =>
    rw [List.foldl_cons, ih]
    simp only [List.map_cons, List.sum_cons, Acc.mk.injEq]
    refine ⟨?_, ?_, ?_, ?_⟩ <;> ring

theorem mem_completions {art : Artifact} {c : Nat × Artifact} (h : c ∈ completions art) :
    ∃ e ∈ SUB_PROB_WEIGHT, ∃ r : Int,
      c = (e.2, ({ art with sub := art.sub ++ [(e.1, r)], level := 1 } : Artifact)) := by
  simp only [completions, List.mem_flatMap, List.mem_map, get_sub_distribution_eq] at h
  obtain ⟨e, he, r, _, rfl⟩ := h
  exact ⟨e, (List.mem_filter.1 he).1, r, rfl⟩

/-- Every completion of a three-sub artifact is a four-sub artifact on which the map
overload returns. -/
theorem completion_ok (art : Artifact) (m : AFFIX_NAMES → Option ℚ) (bar gain : ℚ)
    (h3 : art.sub.length = 3) (hm : ∀ e ∈ SUB_PROB_WEIGHT, (m e.1).isSome)
    (hs : ∀ e ∈ art.sub, (m e.1).isSome) (c : Nat × Artifact) (hc : c ∈ completions art) :
    calc_map c.2 m bar gain = .ok (fourSubResult m bar gain c.2)
      ∧ calc_map_four c.2 m bar gain = .ok (fourSubResult m bar gain c.2) := by
  obtain ⟨e, he, r, rfl⟩ := mem_completions hc
  have h4 : (art.sub ++ [(e.1, r)]).length = 4 := by simp [h3]
  have hall : ∀ e' ∈ art.sub ++ [(e.1, r)], (m e'.1).isSome := by
    intro e' he'
    rcases List.mem_append.1 he' with h | h
    · exact hs e' h
    · rw [List.mem_singleton.1 h]; exact hm e he
  obtain ⟨sc, B, hres⟩ := calc_map_four_ok
    ({ art with sub := art.sub ++ [(e.1, r)], level := 1 } : Artifact) m bar gain h4
    (by simp) (by simp) hall
  have h' := calc_map_eq_four
    ({ art with sub := art.sub ++ [(e.1, r)], level := 1 } : Artifact) m bar gain
    (by simp [h3])
  simp only [fourSubResult, h', hres, and_self]

end DP

namespace DP

open DATA

theorem cast_sum_snd {T : Type} (vec : List (T × Nat)) :
    (((vec.map Prod.snd).sum : Nat) : ℚ) = (vec.map fun e => (e.2 : ℚ)).sum := by
  induction vec with
  | nil => simp
  | cons e l ih => simp [ih]

/-- The three-sub branch: the accumulation loop and the division compute the four
expectations over the completions, and the top-level stopping rule is applied to them. -/
theorem calc_map_three (art : Artifact) (m : AFFIX_NAMES → Option ℚ) (bar gain : ℚ)
    (h3 : art.sub.length = 3) (hl : art.level = 0)
    (hm : ∀ e ∈ SUB_PROB_WEIGHT, (m e.1).isSome) (hs : ∀ e ∈ art.sub, (m e.1).isSome) :
    calc_map art m bar gain = .ok (threeSubResult art (fourSubResult m bar gain)) := by
  have hcur : art.sub.foldl (fun current_sub e => current_sub ++ [e.1]) []
      = art.sub.map Prod.fst := by
    rw [foldl_push_eq]; simp
  have hstep : ∀ e ∈ get_sub_distribution art.main (art.sub.map Prod.fst), ∀ (acc : Acc),
      ∀ i ∈ List.range' AFFIX_UPDATE_MIN (AFFIX_UPDATE_MAX + 1 - AFFIX_UPDATE_MIN),
      threeSubStep { art with level := art.level + 1 } m bar gain e.1 e.2 acc i
        = .ok (⟨acc.e_gain + (fourSubResult m bar gain
                  { art with sub := art.sub ++ [(e.1, (i : Int))], level := 1 }).2.1 * (e.2 : ℚ),
                acc.e_df_cost + (fourSubResult m bar gain
                  { art with sub := art.sub ++ [(e.1, (i : Int))], level := 1 }).2.2.1 * (e.2 : ℚ),
                acc.success_rate + (fourSubResult m bar gain
                  { art with sub := art.sub ++ [(e.1, (i : Int))], level := 1 }).2.2.2.1
                    * (e.2 : ℚ),
                acc.e_score_gain + (fourSubResult m bar gain
                  { art with sub := art.sub ++ [(e.1, (i : Int))], level := 1 }).2.2.2.1
                  * (fourSubResult m bar gain
                  { art with sub := art.sub ++ [(e.1, (i : Int))], level := 1 }).2.2.2.2
                    * (e.2 : ℚ)⟩ : Acc) := by
    intro e he acc i hi
    have hi' : (i : Int) ∈ ([7, 8, 9, 10] : List Int) := by
      have : i = 7 ∨ i = 8 ∨ i = 9 ∨ i = 10 := by
        simpa [AFFIX_UPDATE_MIN, AFFIX_UPDATE_MAX, List.range'] using hi
      rcases this with h | h | h | h <;> subst h <;> simp
    have hc : (e.2, ({ art with sub := art.sub ++ [(e.1, (i : Int))], level := 1 } : Artifact))
        ∈ completions art := by
      simp only [completions, List.mem_flatMap, List.mem_map]
      exact ⟨e, he, (i : Int), hi', rfl⟩
    have hok := (completion_ok art m bar gain h3 hm hs _ hc).2
    simp only at hok
    have hart : ({ ({ art with level := art.level + 1 } : Artifact) with
          sub := ({ art with level := art.level + 1 } : Artifact).sub ++ [(e.1, (i : Int))] }
          : Artifact)
        = { art with sub := art.sub ++ [(e.1, (i : Int))], level := 1 } := by
      simp [hl]
    rw [threeSubStep, hart, hok]
  obtain ⟨G, hG⟩ : ∃ G : Acc → Nat × Artifact → Acc, G = fun acc c =>
      (⟨acc.e_gain + (fourSubResult m bar gain c.2).2.1 * (c.1 : ℚ),
        acc.e_df_cost + (fourSubResult m bar gain c.2).2.2.1 * (c.1 : ℚ),
        acc.success_rate + (fourSubResult m bar gain c.2).2.2.2.1 * (c.1 : ℚ),
        acc.e_score_gain + (fourSubResult m bar gain c.2).2.2.2.1
          * (fourSubResult m bar gain c.2).2.2.2.2 * (c.1 : ℚ)⟩ : Acc) := ⟨_, rfl⟩
  have hinner : ∀ e ∈ get_sub_distribution art.main (art.sub.map Prod.fst), ∀ (acc : Acc),
      (List.range' AFFIX_UPDATE_MIN (AFFIX_UPDATE_MAX + 1 - AFFIX_UPDATE_MIN)).foldlM
          (threeSubStep { art with level := art.level + 1 } m bar gain e.1 e.2) acc
        = .ok ((([7, 8, 9, 10] : List Int).map fun r =>
            (e.2, ({ art with sub := art.sub ++ [(e.1, r)], level := 1 } : Artifact))).foldl
              G acc) := by
    intro e he acc
    rw [foldlM_ok _ (fun acc (i : Nat) =>
      G acc (e.2, ({ art with sub := art.sub ++ [(e.1, (i : Int))], level := 1 } : Artifact)))
      _ acc (fun b i hi => by rw [hstep e he b i hi, hG])]
    rfl
  have houter : (get_sub_distribution art.main (art.sub.map Prod.fst)).foldlM (fun acc e =>
        (List.range' AFFIX_UPDATE_MIN (AFFIX_UPDATE_MAX + 1 - AFFIX_UPDATE_MIN)).foldlM
          (threeSubStep { art with level := art.level + 1 } m bar gain e.1 e.2) acc)
        (⟨0, 0, 0, 0⟩ : Acc)
      = .ok ((completions art).foldl G ⟨0, 0, 0, 0⟩) := by
    rw [foldlM_ok _ (fun acc e => (([7, 8, 9, 10] : List Int).map fun r =>
        (e.2, ({ art with sub := art.sub ++ [(e.1, r)], level := 1 } : Artifact))).foldl G acc)
      _ _ (fun b e he => hinner e he b), completions, foldl_flatMap_eq]
  rw [calc_map, if_pos h3, if_neg (by simp [hl])]
  simp only [hcur, houter]
  rw [hG, foldl_acc_sum]
  have hden : (((weighted_sum (get_sub_distribution art.main (art.sub.map Prod.fst))
      * (AFFIX_UPDATE_MAX - AFFIX_UPDATE_MIN + 1) : Nat)) : ℚ) = 4 * completionWeight art := by
    rw [Nat.cast_mul, weighted_sum_eq, cast_sum_snd, completionWeight]
    simp [AFFIX_UPDATE_MAX, AFFIX_UPDATE_MIN]
    ring
  have h1 : ((completions art).map fun c => (fourSubResult m bar gain c.2).2.1 * (c.1 : ℚ))
      = (completions art).map fun c => (c.1 : ℚ) * (fun r : Result => r.2.1)
          (fourSubResult m bar gain c.2) :=
    List.map_congr_left fun c _ => mul_comm _ _
  have h2 : ((completions art).map fun c => (fourSubResult m bar gain c.2).2.2.1 * (c.1 : ℚ))
      = (completions art).map fun c => (c.1 : ℚ) * (fun r : Result => r.2.2.1)
          (fourSubResult m bar gain c.2) :=
    List.map_congr_left fun c _ => mul_comm _ _
  have h3' : ((completions art).map fun c => (fourSubResult m bar gain c.2).2.2.2.1 * (c.1 : ℚ))
      = (completions art).map fun c => (c.1 : ℚ) * (fun r : Result => r.2.2.2.1)
          (fourSubResult m bar gain c.2) :=
    List.map_congr_left fun c _ => mul_comm _ _
  have h4 : ((completions art).map fun c => (fourSubResult m bar gain c.2).2.2.2.1
        * (fourSubResult m bar gain c.2).2.2.2.2 * (c.1 : ℚ))
      = (completions art).map fun c => (c.1 : ℚ) * ((fourSubResult m bar gain c.2).2.2.2.1
        * (fourSubResult m bar gain c.2).2.2.2.2) :=
    List.map_congr_left fun c _ => mul_comm _ _
  simp only [zero_add, hden, h1, h2, h3', h4, dogfood_values.2.1]
  simp only [threeSubResult, completionMean, completionExcess]
  by_cases hg : ((completions art).map fun c => (c.1 : ℚ) * (fun r : Result => r.2.1)
      (fourSubResult m bar gain c.2)).sum / (4 * completionWeight art) > 3780
  · simp only [hg, decide_True, not_true_eq_false, if_false, if_true]
    by_cases hp : ((completions art).map fun c => (c.1 : ℚ) * (fun r : Result => r.2.2.2.1)
        (fourSubResult m bar gain c.2)).sum / (4 * completionWeight art) > 0
    · have hD : (4 * completionWeight art) ≠ 0 := by
        intro h0
        rw [h0, div_zero] at hp
        exact lt_irrefl _ hp
      simp only [hp, if_true]
      congr 6
      field_simp
    · simp only [hp, if_false]
  · simp only [hg, decide_False, not_false_eq_true, if_true, if_false]
    simp

end DP

/-! ## Records have positive success probability -/

namespace DP

open DATA

theorem sum_pos_of_mem {α : Type} (l : List α) (f : α → ℚ) (h0 : ∀ x ∈ l, 0 ≤ f x)
    (h1 : ∃ x ∈ l, 0 < f x) : 0 < (l.map f).sum := by
  induction l with
  | nil => obtain ⟨x, hx, _⟩ := h1; simp at hx
  | cons a l ih =>
    rw [List.map_cons, List.sum_cons]
    have hl : 0 ≤ (l.map f).sum :=
      List.sum_nonneg (by
        intro y hy
        obtain ⟨x, hx, rfl⟩ := List.mem_map.1 hy
        exact h0 x (List.mem_cons_of_mem _ hx))
    obtain ⟨x, hx, hpos⟩ := h1
    rcases List.mem_cons.1 hx with rfl | hx'
    · linarith
    · have := ih (fun y hy => h0 y (List.mem_cons_of_mem _ hy)) ⟨x, hx', hpos⟩
      have := h0 a (List.mem_cons_self _ _)
      linarith

/-- Every record of the backward induction has positive success probability: a state whose
successors all lack a record averages to `DOGFOOD_LOSS` of the next step, which is below the
threshold of its own step. -/
theorem vecRecord_P_pos (s : List ℚ) (B gain : ℚ) (T : Nat) (hT : T ≤ 5) :
    ∀ k, k ≤ T → ∀ v o, vecRecord s B gain T k v = some o → 0 < o.P := by
  intro k
  induction k with
  | zero =>
    intro _ v o h
    simp only [vecRecord] at h
    split_ifs at h
    rw [← Option.some.inj h]
    norm_num
  | succ k ih =>
    intro hk v o h
    have hgain := vecRecord_succ_gain s B gain T k v o h
    simp only [vecRecord] at h
    have hP : o.P = (((successors v).map (vecRecord s B gain T k)).map fun r =>
        match r with
        | none => (0 : ℚ)
        | some o => o.P).sum / 16 := by
      split_ifs at h <;> rw [← Option.some.inj h]
    have hG : o.gain = (((successors v).map (vecRecord s B gain T k)).map fun r =>
        match r with
        | none => DOGFOOD_LOSS (5 - T + (T - (k + 1)) + 1)
        | some o => o.gain).sum / 16 := by
      split_ifs at h <;> rw [← Option.some.inj h]
    have hex : ∃ v' ∈ successors v, ∃ o', vecRecord s B gain T k v' = some o' := by
      by_contra hno
      have hall : ∀ v' ∈ successors v, vecRecord s B gain T k v' = none := by
        intro v' hv'
        cases hr : vecRecord s B gain T k v' with
        | none => rfl
        | some o' => exact absurd ⟨v', hv', o', hr⟩ hno
      have hsum : (((successors v).map (vecRecord s B gain T k)).map fun r =>
          match r with
          | none => DOGFOOD_LOSS (5 - T + (T - (k + 1)) + 1)
          | some o => o.gain).sum = 16 * DOGFOOD_LOSS (5 - T + (T - (k + 1)) + 1) := by
        rw [List.map_map, sum_map_const_of_forall _ _
          (DOGFOOD_LOSS (5 - T + (T - (k + 1)) + 1)), length_successors]
        · norm_num
        · intro x hx
          simp [hall x hx]
      rw [hG, hsum, mul_div_cancel_left₀ _ (by norm_num : (16 : ℚ) ≠ 0)] at hgain
      exact absurd hgain (not_lt.mpr (le_of_lt (dogfood_loss_succ_lt _ (by omega))))
    rw [hP, List.map_map]
    apply div_pos _ (by norm_num)
    apply sum_pos_of_mem
    · intro v' _
      simp only [Function.comp_apply]
      cases hr : vecRecord s B gain T k v' with
      | none => exact le_rfl
      | some o' => exact le_of_lt (ih (by omega) v' o' hr)
    · obtain ⟨v', hv', o', hr⟩ := hex
      refine ⟨v', hv', ?_⟩
      simp only [Function.comp_apply, hr]
      exact ih (by omega) v' o' hr

/-- Shape of every result of the DP: "feed" carries probability 0 and gain
`DOGFOOD_LOSS[5 - T]`, "upgrade" carries positive probability. -/
theorem resultOf_shape (s : List ℚ) (B gain : ℚ) (T : Nat) (hT : T ≤ 5) :
    0 ≤ (resultOf T (vecRecord s B gain T T Vec4.zero)).2.2.2.1 ∧
    ((resultOf T (vecRecord s B gain T T Vec4.zero)).2.1 > DOGFOOD_LOSS (5 - T) →
      0 < (resultOf T (vecRecord s B gain T T Vec4.zero)).2.2.2.1) := by
  cases hr : vecRecord s B gain T T Vec4.zero with
  | none => simp [resultOf]
  | some o =>
    have := vecRecord_P_pos s B gain T hT T le_rfl Vec4.zero o hr
    simp only [resultOf]
    exact ⟨le_of_lt this, fun _ => this⟩

end DP

namespace DP

open DATA

theorem completion_shape (art : Artifact) (m : AFFIX_NAMES → Option ℚ) (bar gain : ℚ)
    (h3 : art.sub.length = 3) (hm : ∀ e ∈ SUB_PROB_WEIGHT, (m e.1).isSome)
    (hs : ∀ e ∈ art.sub, (m e.1).isSome) (c : Nat × Artifact) (hc : c ∈ completions art) :
    0 < c.1 ∧ 0 ≤ (fourSubResult m bar gain c.2).2.2.2.1 ∧
      ((fourSubResult m bar gain c.2).2.1 > 520 → 0 < (fourSubResult m bar gain c.2).2.2.2.1) := by
  obtain ⟨e, he, r, rfl⟩ := mem_completions hc
  have hw : ∀ e ∈ SUB_PROB_WEIGHT, 0 < e.2 := by decide
  have h4 : (art.sub ++ [(e.1, r)]).length = 4 := by simp [h3]
  have hall : ∀ e' ∈ art.sub ++ [(e.1, r)], (m e'.1).isSome := by
    intro e' he'
    rcases List.mem_append.1 he' with h | h
    · exact hs e' h
    · rw [List.mem_singleton.1 h]; exact hm e he
  obtain ⟨sc, B, hres⟩ := calc_map_four_ok
    ({ art with sub := art.sub ++ [(e.1, r)], level := 1 } : Artifact) m bar gain h4
    (by simp) (by simp) hall
  have h' := calc_map_eq_four
    ({ art with sub := art.sub ++ [(e.1, r)], level := 1 } : Artifact) m bar gain
    (by simp [h3])
  have hT : Int.toNat ((N : Int) - (1 : Int)) = 4 := rfl
  simp only [hT] at hres
  have hshape := resultOf_shape sc B gain 4 (by norm_num)
  have hl : DOGFOOD_LOSS (5 - 4) = 520 := dogfood_values.2.2.1
  rw [hl] at hshape
  refine ⟨hw e he, ?_⟩
  simp only [fourSubResult, h', hres]
  exact hshape

theorem sum_completion_weights (art : Artifact) :
    ((completions art).map fun c => (c.1 : ℚ)).sum = 4 * completionWeight art := by
  rw [completions, sum_map_flatMap, completionWeight, ← List.sum_map_mul_left]
  apply congrArg List.sum
  apply List.map_congr_left
  intro e _
  simp
  ring

/-- When the completion-weighted gain exceeds 3780 some completion is worth upgrading, so
the completion-weighted success probability is positive. -/
theorem completionMean_P_pos (art : Artifact) (res : Artifact → Result)
    (hshape : ∀ c ∈ completions art, 0 < c.1 ∧ 0 ≤ (res c.2).2.2.2.1 ∧
      ((res c.2).2.1 > 520 → 0 < (res c.2).2.2.2.1))
    (hmean : completionMean art res (fun r => r.2.1) > 3780) :
    completionMean art res (fun r => r.2.2.2.1) > 0 := by
  have hW0 : 0 ≤ completionWeight art :=
    List.sum_nonneg (by
      intro y hy
      obtain ⟨x, _, rfl⟩ := List.mem_map.1 hy
      exact Nat.cast_nonneg _)
  have hW : 0 < 4 * completionWeight art := by
    rcases eq_or_lt_of_le hW0 with h | h
    · rw [completionMean, ← h] at hmean
      norm_num at hmean
    · linarith
  rw [completionMean, gt_iff_lt, lt_div_iff₀ hW] at hmean
  have hex : ∃ c ∈ completions art, (res c.2).2.1 > 520 := by
    by_contra hno
    have hle : ((completions art).map fun c => (c.1 : ℚ) * (res c.2).2.1).sum
        ≤ ((completions art).map fun c => 520 * (c.1 : ℚ)).sum := by
      apply List.sum_le_sum
      intro c hc
      have h520 : (res c.2).2.1 ≤ 520 := not_lt.1 fun h => hno ⟨c, hc, h⟩
      have hc0 : (0 : ℚ) ≤ (c.1 : ℚ) := Nat.cast_nonneg _
      nlinarith
    rw [List.sum_map_mul_left, sum_completion_weights] at hle
    linarith
  rw [completionMean]
  apply div_pos _ hW
  apply sum_pos_of_mem
  · intro c hc
    have := hshape c hc
    have hc0 : (0 : ℚ) ≤ (c.1 : ℚ) := Nat.cast_nonneg _
    exact mul_nonneg hc0 this.2.1
  · obtain ⟨c, hc, hg⟩ := hex
    have := hshape c hc
    have hc0 : (0 : ℚ) < (c.1 : ℚ) := Nat.cast_pos.2 this.1
    exact ⟨c, hc, mul_pos hc0 (this.2.2 hg)⟩

end DP

/-! ## The enumerator: accumulation and partition -/

namespace DATA

theorem deaccumulateFrom_accumulateFrom {α : Type} (prev : ℚ) (l : List (α × ℚ)) :
    deaccumulateFrom prev (accumulateFrom prev l) = l := by
  induction l generalizing prev with
  | nil => rfl
  | cons e l ih =>
    obtain ⟨a, p⟩ := e
    simp only [accumulateFrom, deaccumulateFrom, ih, add_sub_cancel_right]

/-- De-accumulating the accumulated list gives the list back (exact arithmetic). -/
theorem deaccumulate_accumulate {α : Type} (l : List (α × ℚ)) :
    deaccumulate (accumulate l) = l := by
  cases l with
  | nil => rfl
  | cons e l =>
    obtain ⟨a, p⟩ := e
    simp only [accumulate, deaccumulate, deaccumulateFrom_accumulateFrom]

theorem divide_by_set_foldl (res : List (Artifact × ℚ)) (init : SET_NAMES → List (Artifact × ℚ))
    (s : SET_NAMES) :
    res.foldl
        (fun by_set i => fun s =>
          if s = i.1.set then by_set s ++ [(i.1, i.2 * (SET_NUMBER : ℚ))] else by_set s)
        init s
      = init s ++ (res.filter fun i => i.1.set = s).map fun i => (i.1, i.2 * 5) := by
  induction res generalizing init with
  | nil => simp
  | cons i res ih =>
    rw [List.foldl_cons, ih]
    by_cases h : s = i.1.set
    · have h' : i.1.set = s := h.symm
      simp [h', SET_NUMBER]
    · have h' : ¬ i.1.set = s := fun h' => h h'.symm
      simp [h, h']

theorem divide_by_set_eq (res : List (Artifact × ℚ)) (s : SET_NAMES) :
    divide_by_set res s = (res.filter fun i => i.1.set = s).map fun i => (i.1, i.2 * 5) := by
  rw [divide_by_set, divide_by_set_foldl]
  simp

theorem get_all_end : get_all_artifacts_with_probs SET_NAMES.end_ = generated_artifacts := by
  simp [get_all_artifacts_with_probs, all_artifacts_accumulated, deaccumulate_accumulate]

theorem get_all_set (s : SET_NAMES) (hs : s ≠ SET_NAMES.end_) :
    get_all_artifacts_with_probs s
      = (generated_artifacts.filter fun i => i.1.set = s).map fun i => (i.1, i.2 * 5) := by
  simp [get_all_artifacts_with_probs, hs, all_artifacts_accumulated_divided_by_set,
    deaccumulate_accumulate, divide_by_set_eq]

end DATA

/-! ## The enumerator: the sub-order probabilities sum to the starting probability -/

namespace DATA

theorem sum_filter_snd {α : Type} (S : List (α × Nat)) (p : α × Nat → Prop) [DecidablePred p] :
    ((S.filter p).map Prod.snd).sum = (S.map fun e => if p e then e.2 else 0).sum := by
  induction S with
  | nil => rfl
  | cons e S ih =>
    by_cases h : p e <;> simp [List.filter_cons, h, ih]

/-- The weight removed from `SUB_PROB_WEIGHT` by excluding the affixes of `L` is at most 6
per excluded affix. -/
theorem excluded_weight_le (L : List AFFIX_NAMES) :
    (SUB_PROB_WEIGHT.map fun e => if e.1 ∈ L then e.2 else 0).sum ≤ 6 * L.length := by
  induction L with
  | nil => simp
  | cons a L ih =>
    have hsplit : (SUB_PROB_WEIGHT.map fun e => if e.1 ∈ a :: L then e.2 else 0).sum
        ≤ (SUB_PROB_WEIGHT.map fun e => if e.1 = a then e.2 else 0).sum
          + (SUB_PROB_WEIGHT.map fun e => if e.1 ∈ L then e.2 else 0).sum := by
      rw [← List.sum_map_add]
      apply List.sum_le_sum
      intro e _
      by_cases h1 : e.1 = a <;> by_cases h2 : e.1 ∈ L <;> simp [h1, h2]
    have hone : (SUB_PROB_WEIGHT.map fun e => if e.1 = a then e.2 else 0).sum ≤ 6 := by
      cases a <;> decide
    simp only [List.length_cons]
    omega

theorem weighted_sum_sub_distribution (main : AFFIX_NAMES) (sub : List AFFIX_NAMES) :
    44 ≤ weighted_sum (get_sub_distribution main sub) + 6 * (sub.length + 1) := by
  have hfil : get_sub_distribution main sub
      = SUB_PROB_WEIGHT.filter (fun e => ¬ (e.1 ∈ main :: sub)) := by
    rw [DP.get_sub_distribution_eq]
    apply List.filter_congr
    intro e _
    simp [not_or]
  have hsum : (SUB_PROB_WEIGHT.map fun e => if ¬ (e.1 ∈ main :: sub) then e.2 else 0).sum
      + (SUB_PROB_WEIGHT.map fun e => if e.1 ∈ main :: sub then e.2 else 0).sum = 44 := by
    rw [← List.sum_map_add]
    have : (SUB_PROB_WEIGHT.map fun e =>
        (if ¬ (e.1 ∈ main :: sub) then e.2 else 0) + (if e.1 ∈ main :: sub then e.2 else 0))
        = SUB_PROB_WEIGHT.map Prod.snd := by
      apply List.map_congr_left
      intro e _
      by_cases h : e.1 ∈ main :: sub <;> simp [h]
    rw [this]
    decide
  have hex := excluded_weight_le (main :: sub)
  rw [hfil, DP.weighted_sum_eq, sum_filter_snd]
  simp only [List.length_cons] at hex
  omega

end DATA

namespace DATA

theorem foldl_append_eq_flatMap {α β : Type} (l : List α) (f : α → List β) (init : List β) :
    l.foldl (fun res e => res ++ f e) init = init ++ l.flatMap f := by
  induction l generalizing init with
  | nil => simp
  | cons a l ih => simp [ih, List.flatMap_cons]

theorem sumProbs_append {α : Type} (l₁ l₂ : List (α × ℚ)) :
    sumProbs (l₁ ++ l₂) = sumProbs l₁ + sumProbs l₂ := by
  simp [sumProbs]

theorem sumProbs_flatMap {α β : Type} (l : List α) (f : α → List (β × ℚ)) :
    sumProbs (l.flatMap f) = (l.map fun a => sumProbs (f a)).sum := by
  induction l with
  | nil => rfl
  | cons a l ih => simp [List.flatMap_cons, sumProbs_append, ih]

/-- The probabilities of all sub orders sum to the probability the enumeration starts
with, as long as a sub can still be drawn at every step. -/
theorem sumProbs_sub_orders (n : Nat) (main : AFFIX_NAMES) (cur : List AFFIX_NAMES) (p : ℚ)
    (h : cur.length + n ≤ 6) :
    sumProbs (generate_all_possible_sub_orders n main cur p) = p := by
  induction n generalizing cur p with
  | zero => simp [generate_all_possible_sub_orders, sumProbs]
  | succ n ih =>
    have hpos : 0 < weighted_sum (get_sub_distribution main cur) := by
      have := weighted_sum_sub_distribution main cur
      omega
    have hne : ((weighted_sum (get_sub_distribution main cur) : Nat) : ℚ) ≠ 0 :=
      Nat.cast_ne_zero.2 (by omega)
    simp only [generate_all_possible_sub_orders]
    rw [foldl_append_eq_flatMap, List.nil_append, sumProbs_flatMap]
    have hstep : (get_sub_distribution main cur).map (fun e => sumProbs
          (generate_all_possible_sub_orders n main (cur ++ [e.1])
            (p * (e.2 : ℚ) / ((weighted_sum (get_sub_distribution main cur) : Nat) : ℚ))))
        = (get_sub_distribution main cur).map (fun e =>
            p / ((weighted_sum (get_sub_distribution main cur) : Nat) : ℚ) * (e.2 : ℚ)) := by
      apply List.map_congr_left
      intro e _
      rw [ih _ _ (by simp; omega)]
      ring
    rw [hstep, List.sum_map_mul_left, ← DP.cast_sum_snd, ← DP.weighted_sum_eq]
    field_simp

end DATA

/-! ## The enumerator: sorting and coalescing keep the total -/

namespace DATA

theorem sumProbs_coalesceStep (filtered : List (List AFFIX_NAMES × ℚ))
    (e : List AFFIX_NAMES × ℚ) :
    sumProbs (coalesceStep filtered e) = sumProbs filtered + e.2 := by
  unfold coalesceStep
  cases hlast : filtered.getLast? with
  | none => simp [sumProbs]
  | some last =>
    simp only []
    split_ifs with heq
    · have hf := List.dropLast_append_getLast? last hlast
      have hsum : sumProbs filtered = sumProbs filtered.dropLast + last.2 := by
        conv_lhs => rw [← hf]
        simp [sumProbs]
      rw [hsum]
      simp [sumProbs]
      ring
    · simp [sumProbs]

theorem sumProbs_foldl_coalesce (l filtered : List (List AFFIX_NAMES × ℚ)) :
    sumProbs (l.foldl coalesceStep filtered) = sumProbs filtered + sumProbs l := by
  induction l generalizing filtered with
  | nil => simp [sumProbs]
  | cons e l ih =>
    rw [List.foldl_cons, ih, sumProbs_coalesceStep]
    simp [sumProbs]
    ring

theorem sumProbs_sortSubOrders (l : List (List AFFIX_NAMES × ℚ)) :
    sumProbs (sortSubOrders l) = sumProbs l := by
  unfold sumProbs sortSubOrders
  exact ((List.perm_insertionSort subOrderLe l).map Prod.snd).sum_eq

/-- The coalesced sub-set probabilities of one `(initial, main)` sum to 1. -/
theorem sumProbs_filtered (initial : Nat) (main : AFFIX_NAMES) (h : initial ≤ 6) :
    sumProbs (filtered_possible_sub_orders initial main) = 1 := by
  simp only [filtered_possible_sub_orders]
  rw [sumProbs_foldl_coalesce, sumProbs_sortSubOrders]
  have : sumProbs ((generate_all_possible_sub_orders initial main [] 1).map
      fun i => (sortAffixes i.1, i.2))
      = sumProbs (generate_all_possible_sub_orders initial main [] 1) := by
    simp [sumProbs, Function.comp_def]
  rw [this, sumProbs_sub_orders initial main [] 1 (by simpa using h)]
  simp [sumProbs]

/-- The probabilities pushed for one set total `sum over mains of (1/5) * main_w / sum`. -/
theorem sumProbs_artifacts_of_set (set : SET_NAMES) :
    sumProbs (artifacts_of_set set)
      = ((get_main_distribution set).map fun me =>
          1 / 5 * (me.2 : ℚ) / ((weighted_sum (get_main_distribution set) : Nat) : ℚ)).sum := by
  simp only [artifacts_of_set]
  rw [sumProbs_flatMap]
  apply congrArg List.sum
  apply List.map_congr_left
  intro me _
  have hinner : ∀ ie ∈ INITIAL_AFFIX_NUM_WEIGHT,
      sumProbs ((filtered_possible_sub_orders ie.1 me.1).map fun se =>
        ((⟨set, me.1, se.1.map fun sub_name => (sub_name, (AFFIX_UPDATE_MIN : Int)), 0⟩ : Artifact),
          1 / (SET_NUMBER : ℚ) * (me.2 : ℚ)
            / ((weighted_sum (get_main_distribution set) : Nat) : ℚ)
            * (ie.2 : ℚ) / ((weighted_sum INITIAL_AFFIX_NUM_WEIGHT : Nat) : ℚ) * se.2))
      = 1 / (SET_NUMBER : ℚ) * (me.2 : ℚ)
            / ((weighted_sum (get_main_distribution set) : Nat) : ℚ)
            * (ie.2 : ℚ) / ((weighted_sum INITIAL_AFFIX_NUM_WEIGHT : Nat) : ℚ) := by
    intro ie hie
    have hle : ie.1 ≤ 6 := by
      simp only [INITIAL_AFFIX_NUM_WEIGHT, List.mem_cons, List.mem_singleton,
        List.not_mem_nil, or_false] at hie
      rcases hie with h | h <;> subst h <;> simp
    have h1 := sumProbs_filtered ie.1 me.1 hle
    unfold sumProbs at h1 ⊢
    rw [List.map_map]
    simp only [Function.comp_def]
    rw [List.sum_map_mul_left, h1, mul_one]
  rw [sumProbs_flatMap]
  have hmap : INITIAL_AFFIX_NUM_WEIGHT.map (fun ie =>
      sumProbs ((filtered_possible_sub_orders ie.1 me.1).map fun se =>
        ((⟨set, me.1, se.1.map fun sub_name => (sub_name, (AFFIX_UPDATE_MIN : Int)), 0⟩ : Artifact),
          1 / (SET_NUMBER : ℚ) * (me.2 : ℚ)
            / ((weighted_sum (get_main_distribution set) : Nat) : ℚ)
            * (ie.2 : ℚ) / ((weighted_sum INITIAL_AFFIX_NUM_WEIGHT : Nat) : ℚ) * se.2)))
      = INITIAL_AFFIX_NUM_WEIGHT.map (fun ie => 1 / (SET_NUMBER : ℚ) * (me.2 : ℚ)
            / ((weighted_sum (get_main_distribution set) : Nat) : ℚ)
            * (ie.2 : ℚ) / ((weighted_sum INITIAL_AFFIX_NUM_WEIGHT : Nat) : ℚ)) :=
    List.map_congr_left hinner
  rw [hmap]
  simp [INITIAL_AFFIX_NUM_WEIGHT, weighted_sum, SET_NUMBER]
  ring

end DATA

/-! ## The enumerator: totals -/

namespace DATA

theorem sumProbs_artifacts_of_set_eq (s : SET_NAMES) (hs : s ∈ all_sets) :
    sumProbs (artifacts_of_set s) = 1 / 5 := by
  rw [sumProbs_artifacts_of_set]
  simp only [all_sets, List.mem_cons, List.mem_singleton, List.not_mem_nil, or_false] at hs
  rcases hs with h | h | h | h | h <;> subst h <;>
    simp [get_main_distribution, MAIN_WEIGHT, weighted_sum] <;> norm_num

theorem set_of_mem_artifacts_of_set {s : SET_NAMES} {x : Artifact × ℚ}
    (h : x ∈ artifacts_of_set s) : x.1.set = s := by
  simp only [artifacts_of_set, List.mem_flatMap, List.mem_map] at h
  obtain ⟨me, _, ie, _, se, _, rfl⟩ := h
  rfl

theorem filter_artifacts_of_set (s s' : SET_NAMES) :
    (artifacts_of_set s').filter (fun i => i.1.set = s)
      = if s' = s then artifacts_of_set s' else [] := by
  by_cases h : s' = s
  · rw [if_pos h, List.filter_eq_self]
    intro x hx
    simp [set_of_mem_artifacts_of_set hx, h]
  · rw [if_neg h, List.filter_eq_nil_iff]
    intro x hx
    simp [set_of_mem_artifacts_of_set hx, h]

theorem filter_flatMap_sets (L : List SET_NAMES) (s : SET_NAMES) :
    (L.flatMap artifacts_of_set).filter (fun i => i.1.set = s)
      = (L.filter fun s' => s' = s).flatMap artifacts_of_set := by
  induction L with
  | nil => rfl
  | cons a L ih =>
    rw [List.flatMap_cons, List.filter_append, filter_artifacts_of_set, ih]
    by_cases h : a = s
    · rw [if_pos h, List.filter_cons_of_pos (by simpa using h), List.flatMap_cons]
    · rw [if_neg h, List.filter_cons_of_neg (by simpa using h), List.nil_append]

theorem filter_all_sets (s : SET_NAMES) :
    (all_sets.filter fun s' => s' = s) = if s ∈ all_sets then [s] else [] := by
  cases s <;> decide

theorem filter_generated (s : SET_NAMES) :
    generated_artifacts.filter (fun i => i.1.set = s)
      = if s ∈ all_sets then artifacts_of_set s else [] := by
  rw [generated_artifacts, filter_flatMap_sets, filter_all_sets]
  by_cases h : s ∈ all_sets
  · rw [if_pos h, if_pos h, List.flatMap_cons, List.flatMap_nil, List.append_nil]
  · rw [if_neg h, if_neg h, List.flatMap_nil]

theorem sumProbs_generated : sumProbs generated_artifacts = 1 := by
  rw [generated_artifacts, sumProbs_flatMap]
  have : all_sets.map (fun a => sumProbs (artifacts_of_set a)) = all_sets.map (fun _ => 1 / 5) :=
    List.map_congr_left fun s hs => sumProbs_artifacts_of_set_eq s hs
  rw [this]
  simp [all_sets]
  norm_num

theorem sumProbs_map_scale {α : Type} (l : List (α × ℚ)) (c : ℚ) :
    sumProbs (l.map fun i => (i.1, i.2 * c)) = sumProbs l * c := by
  simp only [sumProbs, List.map_map, Function.comp_def]
  rw [List.sum_map_mul_right]

end DATA

/-! ## A three-sub artifact that is not worth upgrading -/

namespace DP

open DATA

theorem select_sub_score_loop_zero (l : List (AFFIX_NAMES × Int)) (res : List ℚ) :
    select_sub_score_loop scoresZero l res = .ok (res ++ l.map fun _ => 0) := by
  induction l generalizing res with
  | nil => simp [select_sub_score_loop]
  | cons e l ih => simp [select_sub_score_loop, scoresZero, ih]

theorem weightedScore_zero (w : List Int) (n : Nat) :
    weightedScore w (List.replicate n 0) = 0 := by
  induction w generalizing n with
  | nil => simp [weightedScore]
  | cons a w ih =>
    cases n with
    | zero => simp [weightedScore]
    | succ n =>
      have := ih n
      simp only [weightedScore] at this ⊢
      simp [List.replicate_succ, this]

/-- With every score 0 and the bar at 10, a four-sub artifact at level 1 is fed. -/
theorem calc_map_four_zero (a : Artifact) (h4 : a.sub.length = 4) (hl : a.level = 1)
    (gain : ℚ) : calc_map_four a scoresZero 10 gain = .ok (false, 520, -520, 0, 0) := by
  have hsc : (a.sub.map fun _ => (0 : ℚ)) = List.replicate 4 0 := by
    rw [← h4]
    exact List.map_const' _ _
  have hw : (a.sub.foldl (fun weight e => weight ++ [e.2]) ([] : List Int)).length = 4 := by
    rw [foldl_push_eq]
    simp [h4]
  have hT : Int.toNat ((N : Int) - a.level) = 4 := by rw [hl]; rfl
  rw [calc_map_four, select_sub_score, select_sub_score_loop_zero, List.nil_append, hsc]
  simp only [calc_art, hT]
  rw [calc_weights_hopeless _ (List.replicate 4 0) 4 10 gain hw rfl (by norm_num) (by
    intro e _
    rw [weightedScore_zero]
    simp [Vec4.dot]
    norm_num)]
  simp [dogfood_values]

theorem fourSubResult_of_ok (m : AFFIX_NAMES → Option ℚ) (bar gain : ℚ) (a : Artifact)
    (r : Result) (h : calc_map a m bar gain = .ok r) : fourSubResult m bar gain a = r := by
  unfold fourSubResult
  rw [h]

theorem fourSubResult_zero (gain : ℚ) (c : Nat × Artifact) (hc : c ∈ completions artifactThree) :
    fourSubResult scoresZero 10 gain c.2 = (false, 520, -520, 0, 0) := by
  obtain ⟨e, _, r, rfl⟩ := mem_completions hc
  have h4 : (artifactThree.sub ++ [(e.1, r)]).length = 4 := rfl
  have h3 : (artifactThree.sub ++ [(e.1, r)]).length ≠ 3 := by rw [h4]; decide
  have h' := calc_map_eq_four
    ({ artifactThree with sub := artifactThree.sub ++ [(e.1, r)], level := 1 } : Artifact)
    scoresZero 10 gain h3
  have h'' := calc_map_four_zero
    ({ artifactThree with sub := artifactThree.sub ++ [(e.1, r)], level := 1 } : Artifact)
    h4 rfl gain
  exact fourSubResult_of_ok scoresZero 10 gain _ _ (h'.trans h'')

theorem completionWeight_three : completionWeight artifactThree = 22 := by
  simp [completionWeight, artifactThree, DP.get_sub_distribution_eq, SUB_PROB_WEIGHT]
  norm_num

theorem completionMean_zero (gain : ℚ) :
    completionMean artifactThree (fourSubResult scoresZero 10 gain) (fun r => r.2.1) = 520 := by
  have h : (completions artifactThree).map (fun c =>
        (c.1 : ℚ) * (fun r : Result => r.2.1) (fourSubResult scoresZero 10 gain c.2))
      = (completions artifactThree).map (fun c => 520 * (c.1 : ℚ)) := by
    apply List.map_congr_left
    intro c hc
    rw [fourSubResult_zero gain c hc]
    ring
  rw [completionMean, h, List.sum_map_mul_left, sum_completion_weights, completionWeight_three]
  norm_num

end DP

/-! ## The bisection of `find_gain` -/

namespace DP

/-- Some number of halvings brings any width within a positive precision, and there is a
least such number. -/
theorem exists_least_halvings (w prec : ℚ) (hp : 0 < prec) :
    ∃ n : Nat, w / 2 ^ n ≤ prec ∧ ∀ m, m < n → ¬ w / 2 ^ m ≤ prec := by
  have hex : ∃ n : Nat, w / 2 ^ n ≤ prec := by
    obtain ⟨n, hn⟩ := pow_unbounded_of_one_lt (w / prec) (by norm_num : (1 : ℚ) < 2)
    refine ⟨n, ?_⟩
    have h2 : (0 : ℚ) < 2 ^ n := by positivity
    rw [div_le_iff₀ h2]
    rw [div_lt_iff₀ hp] at hn
    linarith
  classical
  exact ⟨Nat.find hex, Nat.find_spec hex, fun m hm => Nat.find_min hex hm⟩

end DP

namespace DP

end DP

/-! ## Monotonicity of the DP in the gain -/

namespace DP

theorem vecRecord_succ_gain_cost (s : List ℚ) (B g : ℚ) (T k : Nat) (hT : T ≤ 5)
    (hk : k + 1 ≤ T) (v : Vec4) :
    (vecRecord s B g T (k + 1) v).map (fun o => (o.gain, o.cost))
      = if ((successors v).map (recGain s B g T k)).sum / 16 > DOGFOOD_LOSS (5 - (k + 1)) then
          some (((successors v).map (recGain s B g T k)).sum / 16,
            ((successors v).map (recCost s B g T k)).sum / 16)
        else none := by
  have h1 : 5 - T + (T - (k + 1)) = 5 - (k + 1) := by omega
  have h2 : 5 - (k + 1) + 1 = 5 - k := by omega
  have hG : (fun r : Option Outcome =>
      match r with
      | none => DOGFOOD_LOSS (5 - k)
      | some o => o.gain) ∘ vecRecord s B g T k = recGain s B g T k := by
    funext v'
    simp only [Function.comp_apply, recGain]
  have hC : (fun r : Option Outcome =>
      match r with
      | none => - DOGFOOD_LOSS (5 - k)
      | some o => o.cost) ∘ vecRecord s B g T k = recCost s B g T k := by
    funext v'
    simp only [Function.comp_apply, recCost]
  simp only [vecRecord, h1, h2, List.map_map, hG, hC]
  split_ifs <;> rfl

theorem recGain_succ (s : List ℚ) (B g : ℚ) (T k : Nat) (hT : T ≤ 5) (hk : k + 1 ≤ T)
    (v : Vec4) :
    recGain s B g T (k + 1) v
      = if ((successors v).map (recGain s B g T k)).sum / 16 > DOGFOOD_LOSS (5 - (k + 1)) then
          ((successors v).map (recGain s B g T k)).sum / 16
        else DOGFOOD_LOSS (5 - (k + 1)) := by
  have h := vecRecord_succ_gain_cost s B g T k hT hk v
  have hdef : recGain s B g T (k + 1) v
      = match vecRecord s B g T (k + 1) v with
        | none => DOGFOOD_LOSS (5 - (k + 1))
        | some o => o.gain := rfl
  rw [hdef]
  cases hr : vecRecord s B g T (k + 1) v with
  | none =>
    rw [hr] at h
    split_ifs at h ⊢ with hc
    · simp at h
    · rfl
  | some o =>
    rw [hr] at h
    split_ifs at h ⊢ with hc
    · simp only [Option.map_some', Option.some.injEq, Prod.mk.injEq] at h
      exact h.1
    · simp at h

theorem recCost_succ (s : List ℚ) (B g : ℚ) (T k : Nat) (hT : T ≤ 5) (hk : k + 1 ≤ T)
    (v : Vec4) :
    recCost s B g T (k + 1) v
      = if ((successors v).map (recGain s B g T k)).sum / 16 > DOGFOOD_LOSS (5 - (k + 1)) then
          ((successors v).map (recCost s B g T k)).sum / 16
        else - DOGFOOD_LOSS (5 - (k + 1)) := by
  have h := vecRecord_succ_gain_cost s B g T k hT hk v
  have hdef : recCost s B g T (k + 1) v
      = match vecRecord s B g T (k + 1) v with
        | none => - DOGFOOD_LOSS (5 - (k + 1))
        | some o => o.cost := rfl
  rw [hdef]
  cases hr : vecRecord s B g T (k + 1) v with
  | none =>
    rw [hr] at h
    split_ifs at h ⊢ with hc
    · simp at h
    · rfl
  | some o =>
    rw [hr] at h
    split_ifs at h ⊢ with hc
    · simp only [Option.map_some', Option.some.injEq, Prod.mk.injEq] at h
      exact h.2
    · simp at h

/-- A state never costs less than feeding it would return. -/
theorem recCost_ge (s : List ℚ) (B g : ℚ) (T : Nat) (hT : T ≤ 5) :
    ∀ k, k ≤ T → ∀ v, - DOGFOOD_LOSS (5 - k) ≤ recCost s B g T k v := by
  intro k
  induction k with
  | zero =>
    intro _ v
    have h5 : DOGFOOD_LOSS 5 = -50315 := dogfood_values.2.2.2.2.2.2
    unfold recCost
    simp only [vecRecord]
    split_ifs <;> simp only [Nat.sub_zero, h5] <;> norm_num
  | succ k ih =>
    intro hk v
    rw [recCost_succ s B g T k hT hk v]
    split_ifs with hc
    · have hanti : DOGFOOD_LOSS (5 - k) ≤ DOGFOOD_LOSS (5 - (k + 1)) :=
        dogfood_loss_antitone (by omega) (by omega)
      have hsum : ((successors v).map fun _ => - DOGFOOD_LOSS (5 - k)).sum
          ≤ ((successors v).map (recCost s B g T k)).sum :=
        List.sum_le_sum fun v' _ => ih (by omega) v'
      rw [List.map_const', List.sum_replicate, length_successors] at hsum
      simp only [nsmul_eq_mul, Nat.cast_ofNat] at hsum
      rw [le_div_iff₀ (by norm_num : (0 : ℚ) < 16)]
      linarith
    · exact le_rfl

/-- Both contributions of a state are non-decreasing in the gain. -/
theorem recGain_recCost_mono (s : List ℚ) (B g1 g2 : ℚ) (hg : g1 ≤ g2) (T : Nat) (hT : T ≤ 5) :
    ∀ k, k ≤ T → ∀ v, recGain s B g1 T k v ≤ recGain s B g2 T k v
      ∧ recCost s B g1 T k v ≤ recCost s B g2 T k v := by
  intro k
  induction k with
  | zero =>
    intro _ v
    unfold recGain recCost
    simp only [vecRecord]
    split_ifs
    · exact ⟨hg, le_rfl⟩
    · exact ⟨le_rfl, le_rfl⟩
  | succ k ih =>
    intro hk v
    have hG : ((successors v).map (recGain s B g1 T k)).sum
        ≤ ((successors v).map (recGain s B g2 T k)).sum :=
      List.sum_le_sum fun v' _ => (ih (by omega) v').1
    have hC : ((successors v).map (recCost s B g1 T k)).sum
        ≤ ((successors v).map (recCost s B g2 T k)).sum :=
      List.sum_le_sum fun v' _ => (ih (by omega) v').2
    have hG' : ((successors v).map (recGain s B g1 T k)).sum / 16
        ≤ ((successors v).map (recGain s B g2 T k)).sum / 16 :=
      div_le_div_of_nonneg_right hG (by norm_num)
    have hC' : ((successors v).map (recCost s B g1 T k)).sum / 16
        ≤ ((successors v).map (recCost s B g2 T k)).sum / 16 :=
      div_le_div_of_nonneg_right hC (by norm_num)
    have hge := recCost_ge s B g2 T hT (k + 1) hk v
    rw [recCost_succ s B g2 T k hT hk v] at hge
    rw [recGain_succ s B g1 T k hT hk v, recGain_succ s B g2 T k hT hk v,
      recCost_succ s B g1 T k hT hk v, recCost_succ s B g2 T k hT hk v]
    by_cases h1 : ((successors v).map (recGain s B g1 T k)).sum / 16 > DOGFOOD_LOSS (5 - (k + 1))
    · have h2 : ((successors v).map (recGain s B g2 T k)).sum / 16
          > DOGFOOD_LOSS (5 - (k + 1)) := lt_of_lt_of_le h1 hG'
      rw [if_pos h1, if_pos h2, if_pos h1, if_pos h2]
      exact ⟨hG', hC'⟩
    · by_cases h2 : ((successors v).map (recGain s B g2 T k)).sum / 16
          > DOGFOOD_LOSS (5 - (k + 1))
      · rw [if_neg h1, if_pos h2, if_neg h1, if_pos h2]
        rw [if_pos h2] at hge
        exact ⟨le_of_lt h2, hge⟩
      · rw [if_neg h1, if_neg h2, if_neg h1, if_neg h2]
        exact ⟨le_rfl, le_rfl⟩

end DP

/-! ## The enumerator: what `generate_all_possible_sub_orders` lists -/

namespace DATA

theorem sub_prob_weight_keys_nodup : (SUB_PROB_WEIGHT.map Prod.fst).Nodup := by decide

theorem subWeight_of_mem {e : AFFIX_NAMES × Nat} (h : e ∈ SUB_PROB_WEIGHT) :
    subWeight e.1 = e.2 := by
  revert e
  decide

theorem subWeight_pos {t : AFFIX_NAMES} (h : t ∈ rollable) : 0 < subWeight t := by
  revert t
  decide

theorem get_sub_distribution_filter (main : AFFIX_NAMES) (sub : List AFFIX_NAMES) :
    get_sub_distribution main sub
      = SUB_PROB_WEIGHT.filter (fun e => e.1 ≠ main ∧ ¬ (e.1 ∈ sub)) :=
  DP.get_sub_distribution_eq main sub

theorem mem_get_sub_distribution {main : AFFIX_NAMES} {sub : List AFFIX_NAMES}
    {e : AFFIX_NAMES × Nat} :
    e ∈ get_sub_distribution main sub
      ↔ e ∈ SUB_PROB_WEIGHT ∧ e.1 ≠ main ∧ ¬ (e.1 ∈ sub) := by
  rw [get_sub_distribution_filter, List.mem_filter]
  simp

theorem weighted_sum_eq_remainingWeight (main : AFFIX_NAMES) (sub : List AFFIX_NAMES) :
    weighted_sum (get_sub_distribution main sub) = remainingWeight main sub := by
  rw [DP.weighted_sum_eq, get_sub_distribution_filter, remainingWeight, rollable,
    List.filter_map, List.map_map]
  apply congrArg List.sum
  apply List.map_congr_left
  intro e he
  exact (subWeight_of_mem (List.mem_of_mem_filter he)).symm

theorem generate_succ (n : Nat) (main : AFFIX_NAMES) (cur : List AFFIX_NAMES) (p : ℚ) :
    generate_all_possible_sub_orders (n + 1) main cur p
      = (get_sub_distribution main cur).flatMap fun e =>
          generate_all_possible_sub_orders n main (cur ++ [e.1])
            (p * (e.2 : ℚ) / ((weighted_sum (get_sub_distribution main cur) : Nat) : ℚ)) := by
  simp only [generate_all_possible_sub_orders]
  rw [foldl_append_eq_flatMap, List.nil_append]

/-- The enumeration lists exactly the drawable tuples of length `n` after `cur`, each with
the product of its conditional probabilities. -/
theorem mem_generate (n : Nat) (main : AFFIX_NAMES) (cur : List AFFIX_NAMES) (p : ℚ)
    (x : List AFFIX_NAMES × ℚ) :
    x ∈ generate_all_possible_sub_orders n main cur p
      ↔ ∃ t, t.length = n ∧ Drawable main cur t ∧ x = (cur ++ t, p * orderProb main cur t) := by
  induction n generalizing cur p x with
  | zero =>
    simp only [generate_all_possible_sub_orders, List.mem_singleton]
    constructor
    · rintro rfl
      exact ⟨[], rfl, ⟨List.nodup_nil, by simp⟩, by simp [orderProb]⟩
    · rintro ⟨t, ht, _, rfl⟩
      rw [List.length_eq_zero] at ht
      subst ht
      simp [orderProb]
  | succ n ih =>
    rw [generate_succ, List.mem_flatMap]
    constructor
    · rintro ⟨e, he, hx⟩
      obtain ⟨t, ht, hd, rfl⟩ := (ih _ _ _).1 hx
      obtain ⟨heS, hem, hec⟩ := mem_get_sub_distribution.1 he
      refine ⟨e.1 :: t, by simp [ht], ⟨?_, ?_⟩, ?_⟩
      · refine List.nodup_cons.2 ⟨?_, hd.1⟩
        intro hmem
        exact (hd.2 e.1 hmem).2.2 (by simp)
      · intro a ha
        rcases List.mem_cons.1 ha with rfl | ha'
        · exact ⟨List.mem_map_of_mem _ heS, hem, hec⟩
        · have := hd.2 a ha'
          exact ⟨this.1, this.2.1, fun h => this.2.2 (List.mem_append_left _ h)⟩
      · rw [weighted_sum_eq_remainingWeight, orderProb, subWeight_of_mem heS]
        simp only [List.append_assoc, List.singleton_append, Prod.mk.injEq, true_and]
        ring
    · rintro ⟨t, ht, hd, rfl⟩
      cases t with
      | nil => simp at ht
      | cons a t =>
        have ha := hd.2 a (List.mem_cons_self _ _)
        obtain ⟨e, heS, rfl⟩ := List.mem_map.1 ha.1
        have hnd := List.nodup_cons.1 hd.1
        refine ⟨e, mem_get_sub_distribution.2 ⟨heS, ha.2.1, ha.2.2⟩, (ih _ _ _).2
          ⟨t, by simpa using ht, ⟨hnd.2, ?_⟩, ?_⟩⟩
        · intro b hb
          have := hd.2 b (List.mem_cons_of_mem _ hb)
          refine ⟨this.1, this.2.1, ?_⟩
          intro hmem
          rcases List.mem_append.1 hmem with h | h
          · exact this.2.2 h
          · rw [List.mem_singleton] at h
            subst h
            exact hnd.1 hb
        · rw [weighted_sum_eq_remainingWeight, orderProb, subWeight_of_mem heS]
          simp only [List.append_assoc, List.singleton_append, Prod.mk.injEq, true_and]
          ring

end DATA

namespace DATA

theorem sub_distribution_pairwise (main : AFFIX_NAMES) (sub : List AFFIX_NAMES) :
    (get_sub_distribution main sub).Pairwise fun e e' => e.1 ≠ e'.1 := by
  rw [get_sub_distribution_filter]
  apply List.Pairwise.filter
  decide

theorem fst_of_mem_generate {n : Nat} {main : AFFIX_NAMES} {cur : List AFFIX_NAMES} {p : ℚ}
    {x : List AFFIX_NAMES × ℚ} (h : x ∈ generate_all_possible_sub_orders n main cur p) :
    ∃ t, x.1 = cur ++ t := by
  obtain ⟨t, _, _, rfl⟩ := (mem_generate n main cur p x).1 h
  exact ⟨t, rfl⟩

/-- No tuple is listed twice. -/
theorem generate_keys_nodup (n : Nat) (main : AFFIX_NAMES) (cur : List AFFIX_NAMES) (p : ℚ) :
    ((generate_all_possible_sub_orders n main cur p).map Prod.fst).Nodup := by
  induction n generalizing cur p with
  | zero => simp [generate_all_possible_sub_orders]
  | succ n ih =>
    rw [generate_succ, List.map_flatMap, List.nodup_flatMap]
    refine ⟨fun e _ => ih _ _, ?_⟩
    refine (sub_distribution_pairwise main cur).imp ?_
    intro e e' hne
    simp only [Function.onFun]
    rw [List.disjoint_left]
    intro k hk hk'
    obtain ⟨x, hx, rfl⟩ := List.mem_map.1 hk
    obtain ⟨x', hx', hxx'⟩ := List.mem_map.1 hk'
    obtain ⟨t, ht⟩ := fst_of_mem_generate hx
    obtain ⟨t', ht'⟩ := fst_of_mem_generate hx'
    rw [ht, ht', List.append_assoc, List.append_assoc] at hxx'
    have := List.append_cancel_left hxx'
    simp only [List.singleton_append, List.cons.injEq] at this
    exact hne this.1.symm

end DATA

/-! ## The order used by the two sorts -/

namespace DATA

theorem toNat_injective : Function.Injective AFFIX_NAMES.toNat := by
  intro a b h
  cases a <;> cases b <;> first | rfl | (simp [AFFIX_NAMES.toNat] at h)

theorem lex_cons_inv {α : Type} {r : α → α → Prop} {a b : α} {l1 l2 : List α}
    (h : List.Lex r (a :: l1) (b :: l2)) : r a b ∨ (a = b ∧ List.Lex r l1 l2) := by
  cases h with
  | cons h => exact Or.inr ⟨rfl, h⟩
  | rel h => exact Or.inl h

/-- `operator<` on affix vectors is the lexicographic order of the enum values. -/
theorem affixesLt_iff (a b : List AFFIX_NAMES) :
    affixesLt a b = true ↔ a.map AFFIX_NAMES.toNat < b.map AFFIX_NAMES.toNat := by
  induction a generalizing b with
  | nil =>
    cases b with
    | nil => simp [affixesLt]
    | cons y bs =>
      simp only [affixesLt, List.map_nil, List.map_cons, true_iff]
      exact List.Lex.nil
  | cons x as ih =>
    cases b with
    | nil =>
      simp only [affixesLt, List.map_nil, List.map_cons]
      constructor
      · intro h; cases h
      · intro h; exact absurd h (List.Lex.not_nil_right _ _)
    | cons y bs =>
      simp only [affixesLt, List.map_cons]
      by_cases h1 : x.toNat < y.toNat
      · rw [if_pos h1]
        exact ⟨fun _ => List.Lex.rel h1, fun _ => rfl⟩
      · rw [if_neg h1]
        by_cases h2 : y.toNat < x.toNat
        · rw [if_pos h2]
          constructor
          · intro h; cases h
          · intro h
            rcases lex_cons_inv h with h' | h'
            · exact absurd h' h1
            · exact absurd h'.1 (by omega)
        · rw [if_neg h2]
          have heq : x.toNat = y.toNat := by omega
          rw [ih bs, heq]
          exact (List.Lex.cons_iff).symm

theorem affixesLt_irrefl (a : List AFFIX_NAMES) : ¬ affixesLt a a = true := by
  rw [affixesLt_iff]
  exact lt_irrefl _

theorem affixesLt_trans {a b c : List AFFIX_NAMES} (h1 : affixesLt a b = true)
    (h2 : affixesLt b c = true) : affixesLt a c = true := by
  rw [affixesLt_iff] at h1 h2 ⊢
  exact lt_trans h1 h2

theorem affixesLt_trichotomy (a b : List AFFIX_NAMES) :
    affixesLt a b = true ∨ a = b ∨ affixesLt b a = true := by
  rw [affixesLt_iff, affixesLt_iff]
  rcases lt_trichotomy (a.map AFFIX_NAMES.toNat) (b.map AFFIX_NAMES.toNat) with h | h | h
  · exact Or.inl h
  · exact Or.inr (Or.inl (List.map_injective_iff.2 toNat_injective h))
  · exact Or.inr (Or.inr h)

theorem subOrderLe_iff (x y : List AFFIX_NAMES × ℚ) :
    subOrderLe x y
      ↔ toLex (x.1.map AFFIX_NAMES.toNat, x.2) ≤ toLex (y.1.map AFFIX_NAMES.toNat, y.2) := by
  rw [Prod.Lex.le_iff]
  simp only [subOrderLe, ofLex_toLex]
  have e1 := affixesLt_iff x.1 y.1
  have e2 := affixesLt_iff y.1 x.1
  rw [Bool.eq_false_iff, Ne, e1, e2]
  constructor
  · intro h
    rw [not_or, not_and] at h
    obtain ⟨h1, h2⟩ := h
    rcases lt_or_eq_of_le (not_lt.1 h1) with h | h
    · exact Or.inl h
    · exact Or.inr ⟨h, not_lt.1 (h2 (by rw [h]; exact lt_irrefl _))⟩
  · intro h
    rw [not_or, not_and]
    rcases h with h | ⟨h, h'⟩
    · exact ⟨not_lt.2 (le_of_lt h), fun h3 => absurd h h3⟩
    · exact ⟨not_lt.2 (le_of_eq h), fun _ => not_lt.2 h'⟩

instance subOrderLe_isTotal : IsTotal (List AFFIX_NAMES × ℚ) subOrderLe :=
  ⟨fun x y => by
    rw [subOrderLe_iff, subOrderLe_iff]
    exact le_total _ _⟩

instance subOrderLe_isTrans : IsTrans (List AFFIX_NAMES × ℚ) subOrderLe :=
  ⟨fun x y z => by
    rw [subOrderLe_iff, subOrderLe_iff, subOrderLe_iff]
    exact le_trans⟩

/-- After `std::sort` no later entry has a smaller affix vector. -/
theorem sortSubOrders_pairwise (l : List (List AFFIX_NAMES × ℚ)) :
    (sortSubOrders l).Pairwise fun x y => ¬ affixesLt y.1 x.1 = true := by
  have h := List.sorted_insertionSort subOrderLe l
  refine List.Pairwise.imp ?_ h
  intro x y hxy hlt
  exact hxy (Or.inl hlt)

end DATA

/-! ## The roll odometer -/

namespace DP

open DATA

theorem rollStep_fst (sub : List (AFFIX_NAMES × Int)) :
    (rollStep sub).1.map Prod.fst = sub.map Prod.fst := by
  induction sub with
  | nil => rfl
  | cons e rest ih =>
    obtain ⟨t, w⟩ := e
    simp only [rollStep]
    split_ifs
    · simp [ih]
    · simp

theorem rollStep_length (sub : List (AFFIX_NAMES × Int)) :
    (rollStep sub).1.length = sub.length := by
  have h := congrArg List.length (rollStep_fst sub)
  simpa using h

theorem RollsIn.tail {e : AFFIX_NAMES × Int} {rest : List (AFFIX_NAMES × Int)}
    (h : RollsIn (e :: rest)) : RollsIn rest :=
  fun x hx => h x (List.mem_cons_of_mem _ hx)

theorem RollsIn.cons {e : AFFIX_NAMES × Int} {rest : List (AFFIX_NAMES × Int)}
    (h1 : 7 ≤ e.2 ∧ e.2 ≤ 10) (h : RollsIn rest) : RollsIn (e :: rest) := by
  intro x hx
  rcases List.mem_cons.1 hx with rfl | hx
  · exact h1
  · exact h x hx

theorem rollStep_rollsIn (sub : List (AFFIX_NAMES × Int)) (h : RollsIn sub) :
    RollsIn (rollStep sub).1 := by
  induction sub with
  | nil => exact h
  | cons e rest ih =>
    obtain ⟨t, w⟩ := e
    have hw := h (t, w) (List.mem_cons_self _ _)
    simp only [rollStep, AFFIX_UPDATE_MAX, AFFIX_UPDATE_MIN]
    split_ifs with h10
    · exact RollsIn.cons (by simp) (ih h.tail)
    · refine RollsIn.cons ?_ h.tail
      simp only [Nat.cast_ofNat] at h10
      simp only at hw ⊢
      omega

theorem rollRank_lt (sub : List (AFFIX_NAMES × Int)) (h : RollsIn sub) :
    rollRank sub < 4 ^ sub.length := by
  induction sub with
  | nil => simp [rollRank]
  | cons e rest ih =>
    have hw := h e (List.mem_cons_self _ _)
    have := ih h.tail
    simp only [rollRank, List.length_cons, pow_succ]
    omega

/-- One step of the odometer: it reports `addflag = false` exactly on the last vector
`(10, .., 10)`, and otherwise moves to the vector of the next rank. -/
theorem rollStep_rank (sub : List (AFFIX_NAMES × Int)) (h : RollsIn sub) :
    ((rollStep sub).2 = false → rollRank sub + 1 = 4 ^ sub.length) ∧
    ((rollStep sub).2 = true → rollRank (rollStep sub).1 = rollRank sub + 1) := by
  induction sub with
  | nil => simp [rollStep, rollRank]
  | cons e rest ih =>
    obtain ⟨t, w⟩ := e
    have hw := h (t, w) (List.mem_cons_self _ _)
    obtain ⟨ih1, ih2⟩ := ih h.tail
    simp only [rollStep, AFFIX_UPDATE_MAX, AFFIX_UPDATE_MIN]
    split_ifs with h10
    · simp only [Nat.cast_ofNat] at h10
      subst h10
      refine ⟨fun hf => ?_, fun ht => ?_⟩
      · have := ih1 hf
        simp only [rollRank, List.length_cons, pow_succ]
        omega
      · have := ih2 ht
        simp only [rollRank, Nat.cast_ofNat]
        omega
    · simp only [Nat.cast_ofNat] at h10
      simp only at hw h10
      refine ⟨fun hf => by simp at hf, fun _ => ?_⟩
      simp only [rollRank]
      omega

/-- The loop visits every vector after the starting one, and only those: `4^n - 1 - rank`
of them, each with the sub affixes of the start and rolls in `[7, 10]`. -/
theorem visitedRolls_spec : ∀ (fuel : Nat) (sub : List (AFFIX_NAMES × Int)), RollsIn sub →
    4 ^ sub.length ≤ fuel + rollRank sub + 1 →
    (visitedRolls fuel sub).length + rollRank sub + 1 = 4 ^ sub.length ∧
    ∀ s ∈ visitedRolls fuel sub, s.map Prod.fst = sub.map Prod.fst ∧ RollsIn s := by
  intro fuel
  induction fuel with
  | zero =>
    intro sub h hf
    have := rollRank_lt sub h
    simp only [visitedRolls, List.length_nil]
    exact ⟨by omega, fun s hs => by simp at hs⟩
  | succ fuel ih =>
    intro sub h hf
    obtain ⟨h1, h2⟩ := rollStep_rank sub h
    simp only [visitedRolls]
    by_cases hflag : (rollStep sub).2 = false
    · rw [if_pos hflag]
      have := h1 hflag
      exact ⟨by simp only [List.length_nil]; omega, fun s hs => by simp at hs⟩
    · rw [if_neg hflag]
      have ht : (rollStep sub).2 = true := by simpa using hflag
      have hr := h2 ht
      have hin := rollStep_rollsIn sub h
      have hlen := rollStep_length sub
      obtain ⟨i1, i2⟩ := ih (rollStep sub).1 hin (by rw [hlen, hr]; omega)
      refine ⟨?_, ?_⟩
      · rw [List.length_cons, ← hlen]
        omega
      · intro s hs
        rcases List.mem_cons.1 hs with rfl | hs
        · exact ⟨rollStep_fst sub, hin⟩
        · obtain ⟨j1, j2⟩ := i2 s hs
          exact ⟨by rw [j1, rollStep_fst], j2⟩

/-- With enough fuel and `calc` returning on every visited vector, the `while (1)` loop
appends one `(e_df_cost, rate)` per visited vector, in order. -/
theorem rollLoop_eq (m : AFFIX_NAMES → Option ℚ) (bar gain rate : ℚ) :
    ∀ (fuel : Nat) (art : Artifact) (results : List (ℚ × ℚ)), RollsIn art.sub →
    4 ^ art.sub.length < fuel + rollRank art.sub + 1 →
    (∀ s ∈ visitedRolls fuel art.sub,
      ∃ r, calc_map { art with sub := s } m bar gain = .ok r) →
    rollLoop m bar gain rate fuel art results
      = .ok (results ++ (visitedRolls fuel art.sub).map fun s =>
          ((fourSubResult m bar gain { art with sub := s }).2.2.1, rate)) := by
  intro fuel
  induction fuel with
  | zero =>
    intro art results h hf _
    have := rollRank_lt art.sub h
    omega
  | succ fuel ih =>
    intro art results h hf hc
    obtain ⟨h1, h2⟩ := rollStep_rank art.sub h
    simp only [visitedRolls] at hc ⊢
    rw [rollLoop]
    by_cases hflag : (rollStep art.sub).2 = false
    · rw [if_pos hflag, if_pos hflag]
      simp
    · rw [if_neg hflag] at hc ⊢
      rw [if_neg hflag]
      have ht : (rollStep art.sub).2 = true := by simpa using hflag
      obtain ⟨r, hr⟩ := hc _ (List.mem_cons_self _ _)
      have hfr := fourSubResult_of_ok m bar gain _ r hr
      rw [hr]
      simp only
      have hlen := rollStep_length art.sub
      rw [ih { art with sub := (rollStep art.sub).1 } _ (rollStep_rollsIn art.sub h)
        (by simp only [hlen, h2 ht]; omega)
        (fun s hs => hc s (List.mem_cons_of_mem _ hs))]
      simp only [List.map_cons, hfr, List.append_assoc, List.singleton_append]

theorem scaledRate_eq (rate : ℚ) (n : Nat) : scaledRate rate n = rate / 4 ^ n := by
  unfold scaledRate
  induction n with
  | zero => simp
  | succ n ih =>
    rw [List.range_succ, List.foldl_append, ih]
    simp only [List.foldl_cons, List.foldl_nil, AFFIX_UPDATE_MAX, AFFIX_UPDATE_MIN, pow_succ]
    norm_num
    field_simp

theorem foldl_costs (result : List (ℚ × ℚ)) (a : ℚ) :
    result.foldl (fun final_result e => final_result + e.1 * e.2) a
      = a + (result.map fun e => e.1 * e.2).sum := by
  induction result generalizing a with
  | nil => simp
  | cons e l ih => simp only [List.foldl_cons, ih, List.map_cons, List.sum_cons]; ring

theorem foldl_foldl_costs (results : List (List (ℚ × ℚ))) (a : ℚ) :
    results.foldl (fun final_result result =>
        result.foldl (fun final_result e => final_result + e.1 * e.2) final_result) a
      = a + (results.map fun result => (result.map fun e => e.1 * e.2).sum).sum := by
  induction results generalizing a with
  | nil => simp
  | cons r l ih =>
    rw [List.foldl_cons, ih, foldl_costs, List.map_cons, List.sum_cons]; ring

end DP

namespace DP

open DATA

theorem expectedResults_eq (fuel : Nat) (m : AFFIX_NAMES → Option ℚ) (bar gain : ℚ) :
    ∀ (allart : List (Artifact × ℚ)),
    (∀ e ∈ allart, RollsIn e.1.sub ∧ 4 ^ e.1.sub.length < fuel + rollRank e.1.sub + 1 ∧
      ∀ s ∈ visitedRolls fuel e.1.sub,
        ∃ r, calc_map { e.1 with sub := s } m bar gain = .ok r) →
    expectedResults fuel m bar gain allart
      = .ok (allart.map fun e => (visitedRolls fuel e.1.sub).map fun s =>
          ((fourSubResult m bar gain { e.1 with sub := s }).2.2.1,
            e.2 / 4 ^ e.1.sub.length)) := by
  intro allart
  induction allart with
  | nil => intro _; rfl
  | cons e rest ih =>
    intro h
    obtain ⟨h1, h2, h3⟩ := h e (List.mem_cons_self _ _)
    rw [expectedResults, rollLoop_eq m bar gain _ fuel e.1 [] h1 h2 h3,
      ih (fun x hx => h x (List.mem_cons_of_mem _ hx)), scaledRate_eq]
    simp only [List.nil_append, List.map_cons]

/-- What `get_expected_dfcost` computes: the sum over the artifacts and over the roll
vectors the loop visits of `e_df_cost * (rate / 4^|subs|)`. -/
theorem get_expected_dfcost_eq (fuel : Nat) (m : AFFIX_NAMES → Option ℚ) (bar gain : ℚ)
    (allart : List (Artifact × ℚ))
    (h : ∀ e ∈ allart, RollsIn e.1.sub ∧ 4 ^ e.1.sub.length < fuel + rollRank e.1.sub + 1 ∧
      ∀ s ∈ visitedRolls fuel e.1.sub,
        ∃ r, calc_map { e.1 with sub := s } m bar gain = .ok r) :
    get_expected_dfcost fuel m bar allart gain
      = .ok ((allart.map fun e => ((visitedRolls fuel e.1.sub).map fun s =>
          (fourSubResult m bar gain { e.1 with sub := s }).2.2.1
            * (e.2 / 4 ^ e.1.sub.length)).sum).sum) := by
  rw [get_expected_dfcost, expectedResults_eq fuel m bar gain allart h]
  simp only [foldl_foldl_costs, zero_add, List.map_map, Function.comp_def]

theorem rollCombos_spec (ts : List AFFIX_NAMES) :
    (rollCombos ts).length = 4 ^ ts.length ∧
    ∀ c ∈ rollCombos ts, c.map Prod.fst = ts ∧ RollsIn c := by
  induction ts with
  | nil =>
    refine ⟨rfl, fun c hc => ?_⟩
    simp only [rollCombos, List.mem_singleton] at hc
    subst hc
    exact ⟨rfl, fun e he => by simp at he⟩
  | cons t rest ih =>
    obtain ⟨ih1, ih2⟩ := ih
    refine ⟨?_, fun c hc => ?_⟩
    · have hsum : ∀ (l : List (List (AFFIX_NAMES × Int))),
          (l.flatMap fun c => [7, 8, 9, 10].map fun (w : Int) => (t, w) :: c).length
            = 4 * l.length := by
        intro l
        induction l with
        | nil => rfl
        | cons a l ihl =>
          rw [List.flatMap_cons, List.length_append, ihl]
          simp only [List.length_map, List.length_cons, List.length_nil]
          omega
      rw [rollCombos, hsum, ih1, List.length_cons, pow_succ]
      omega
    · simp only [rollCombos, List.mem_flatMap, List.mem_map] at hc
      obtain ⟨c', hc', w, hw, rfl⟩ := hc
      obtain ⟨j1, j2⟩ := ih2 c' hc'
      refine ⟨by simp [j1], RollsIn.cons ?_ j2⟩
      simp only [List.mem_cons, List.mem_singleton, List.not_mem_nil, or_false] at hw
      rcases hw with rfl | rfl | rfl | rfl <;> simp

end DP

/-! ## The coalescing loop -/

namespace DATA

theorem stdEqual_iff {i last : List AFFIX_NAMES} (h : i.length = last.length) :
    stdEqual i last = true ↔ last = i := by
  simp [stdEqual, h]

theorem keyProb_nil (k : List AFFIX_NAMES) : keyProb [] k = 0 := rfl

theorem keyProb_append (A B : List (List AFFIX_NAMES × ℚ)) (k : List AFFIX_NAMES) :
    keyProb (A ++ B) k = keyProb A k + keyProb B k := by
  simp [keyProb, List.filter_append]

theorem keyProb_singleton (x : List AFFIX_NAMES × ℚ) (k : List AFFIX_NAMES) :
    keyProb [x] k = if x.1 = k then x.2 else 0 := by
  by_cases h : x.1 = k <;> simp [keyProb, List.filter_cons, h]

theorem keyProb_perm {A B : List (List AFFIX_NAMES × ℚ)} (h : A.Perm B) (k : List AFFIX_NAMES) :
    keyProb A k = keyProb B k :=
  ((h.filter _).map _).sum_eq

/-- The invariant of the coalescing loop over a list whose tuples all have length `n` and
never decrease: the coalesced tuples strictly increase, every tuple keeps its total
probability, and the tuples are the same. -/
theorem coalesce_spec (n : Nat) : ∀ (L : List (List AFFIX_NAMES × ℚ)),
    (∀ x ∈ L, x.1.length = n) → L.Pairwise (fun x y => ¬ affixesLt y.1 x.1 = true) →
    (L.foldl coalesceStep []).Pairwise (fun x y => affixesLt x.1 y.1 = true) ∧
    (∀ k, keyProb (L.foldl coalesceStep []) k = keyProb L k) ∧
    (∀ x ∈ L.foldl coalesceStep [], x.1 ∈ L.map Prod.fst) ∧
    (∀ x ∈ L, x.1 ∈ (L.foldl coalesceStep []).map Prod.fst) ∧
    (L.foldl coalesceStep []).getLast?.map Prod.fst = L.getLast?.map Prod.fst := by
  intro L
  induction L using List.reverseRecOn with
  | nil => intro _ _; simp [keyProb]
  | append_singleton L e ih =>
    intro hlen hsorted
    rw [List.pairwise_append] at hsorted
    obtain ⟨hsL, _, hle⟩ := hsorted
    obtain ⟨ihP, ihK, ihF, ihL, ihlast⟩ :=
      ih (fun x hx => hlen x (List.mem_append_left _ hx)) hsL
    have he : e.1.length = n := hlen e (by simp)
    rw [List.foldl_append, List.foldl_cons, List.foldl_nil]
    generalize hF : L.foldl coalesceStep [] = F at ihP ihK ihF ihL ihlast ⊢
    unfold coalesceStep
    cases hlast : F.getLast? with
    | none =>
      have hFnil : F = [] := List.getLast?_eq_none_iff.1 hlast
      subst hFnil
      have hLnil : L = [] := by
        cases L with
        | nil => rfl
        | cons a l => exact absurd (ihL a (List.mem_cons_self _ _)) (by simp)
      subst hLnil
      simp [keyProb]
    | some last =>
      have hsplit : F.dropLast ++ [last] = F := List.dropLast_append_getLast? last hlast
      have hlastmem : last ∈ F := by rw [← hsplit]; simp
      have hlastlen : last.1.length = n := by
        obtain ⟨y, hy, hyk⟩ := List.mem_map.1 (ihF last hlastmem)
        rw [← hyk]
        exact hlen y (List.mem_append_left _ hy)
      have hPd : (F.dropLast ++ [last]).Pairwise (fun x y => affixesLt x.1 y.1 = true) := by
        rw [hsplit]; exact ihP
      rw [List.pairwise_append] at hPd
      obtain ⟨hPd1, _, hPd3⟩ := hPd
      simp only
      by_cases heq : stdEqual e.1 last.1 = true
      · rw [if_pos heq]
        have hk : last.1 = e.1 := (stdEqual_iff (he.trans hlastlen.symm)).1 heq
        refine ⟨?_, ?_, ?_, ?_, ?_⟩
        · rw [List.pairwise_append]
          refine ⟨hPd1, List.pairwise_singleton _ _, ?_⟩
          intro a ha b hb
          rw [List.mem_singleton.1 hb]
          exact hPd3 a ha last (List.mem_singleton_self _)
        · intro k
          have h1 := ihK k
          rw [← hsplit, keyProb_append, keyProb_singleton] at h1
          rw [keyProb_append, keyProb_append, keyProb_singleton, keyProb_singleton, ← h1]
          simp only
          rw [← hk]
          by_cases hkk : last.1 = k
          · simp only [if_pos hkk]; ring
          · simp only [if_neg hkk]; ring
        · intro x hx
          rcases List.mem_append.1 hx with hx | hx
          · have := ihF x (by rw [← hsplit]; exact List.mem_append_left _ hx)
            rw [List.map_append]
            exact List.mem_append_left _ this
          · rw [List.mem_singleton.1 hx]
            simp [hk]
        · intro x hx
          have hkeys : (F.dropLast ++ [(last.1, last.2 + e.2)]).map Prod.fst
              = F.map Prod.fst := by
            conv_rhs => rw [← hsplit]
            simp
          rw [hkeys]
          rcases List.mem_append.1 hx with hx | hx
          · exact ihL x hx
          · rw [List.mem_singleton.1 hx, ← hk]
            exact List.mem_map_of_mem _ hlastmem
        · rw [List.getLast?_concat, List.getLast?_concat]
          simp [hk]
      · rw [if_neg heq]
        have hk : ¬ last.1 = e.1 := fun h => heq ((stdEqual_iff (he.trans hlastlen.symm)).2 h)
        have hlastL : ¬ affixesLt e.1 last.1 = true := by
          obtain ⟨y, hy, hyk⟩ := List.mem_map.1 (ihF last hlastmem)
          rw [← hyk]
          exact hle y hy e (List.mem_singleton_self _)
        have hlt_last : affixesLt last.1 e.1 = true := by
          rcases affixesLt_trichotomy last.1 e.1 with h | h | h
          · exact h
          · exact absurd h hk
          · exact absurd h hlastL
        refine ⟨?_, ?_, ?_, ?_, ?_⟩
        · rw [List.pairwise_append]
          refine ⟨ihP, List.pairwise_singleton _ _, ?_⟩
          intro a ha b hb
          rw [List.mem_singleton.1 hb]
          rw [← hsplit] at ha
          rcases List.mem_append.1 ha with ha | ha
          · exact affixesLt_trans (hPd3 a ha last (List.mem_singleton_self _)) hlt_last
          · rw [List.mem_singleton.1 ha]; exact hlt_last
        · intro k
          rw [keyProb_append, keyProb_append, ihK k]
        · intro x hx
          rw [List.map_append]
          rcases List.mem_append.1 hx with hx | hx
          · exact List.mem_append_left _ (ihF x hx)
          · rw [List.mem_singleton.1 hx]; simp
        · intro x hx
          rw [List.map_append]
          rcases List.mem_append.1 hx with hx | hx
          · exact List.mem_append_left _ (ihL x hx)
          · rw [List.mem_singleton.1 hx]; simp
        · rw [List.getLast?_concat, List.getLast?_concat]

end DATA

/-! ## The coalesced list of sub tuples -/

namespace DATA

instance toNatLe_isTotal : IsTotal AFFIX_NAMES (fun a b => a.toNat ≤ b.toNat) :=
  ⟨fun a b => le_total a.toNat b.toNat⟩

instance toNatLe_isTrans : IsTrans AFFIX_NAMES (fun a b => a.toNat ≤ b.toNat) :=
  ⟨fun _ _ _ h1 h2 => le_trans h1 h2⟩

instance toNatLe_isAntisymm : IsAntisymm AFFIX_NAMES (fun a b => a.toNat ≤ b.toNat) :=
  ⟨fun _ _ h1 h2 => toNat_injective (le_antisymm h1 h2)⟩

theorem sortAffixes_perm (l : List AFFIX_NAMES) : (sortAffixes l).Perm l :=
  List.perm_insertionSort _ l

theorem sortAffixes_sorted (l : List AFFIX_NAMES) :
    (sortAffixes l).Pairwise (fun a b => a.toNat ≤ b.toNat) :=
  List.sorted_insertionSort _ l

theorem sortAffixes_eq_of_perm {l1 l2 : List AFFIX_NAMES} (h : l1.Perm l2) :
    sortAffixes l1 = sortAffixes l2 :=
  List.eq_of_perm_of_sorted
    (((sortAffixes_perm l1).trans h).trans (sortAffixes_perm l2).symm)
    (sortAffixes_sorted l1) (sortAffixes_sorted l2)

theorem sortAffixes_of_sorted {k : List AFFIX_NAMES}
    (h : k.Pairwise (fun a b => a.toNat < b.toNat)) : sortAffixes k = k :=
  List.Sorted.insertionSort_eq (h.imp fun hab => le_of_lt hab)

theorem sortAffixes_strict {l : List AFFIX_NAMES} (h : l.Nodup) :
    (sortAffixes l).Pairwise (fun a b => a.toNat < b.toNat) := by
  have hn : (sortAffixes l).Nodup := (sortAffixes_perm l).nodup_iff.2 h
  have hs := sortAffixes_sorted l
  have hboth := hs.and hn
  exact hboth.imp fun ⟨hle, hne⟩ =>
    lt_of_le_of_ne hle fun heq => hne (toNat_injective heq)

theorem nodup_of_strict {k : List AFFIX_NAMES}
    (h : k.Pairwise (fun a b => a.toNat < b.toNat)) : k.Nodup :=
  h.imp fun hab heq => by rw [heq] at hab; exact lt_irrefl _ hab

/-- The tuples listed by the enumeration for `n` subs, as `(tuple, orderProb)` pairs. -/
theorem mem_generate_nil (n : Nat) (main : AFFIX_NAMES) (x : List AFFIX_NAMES × ℚ) :
    x ∈ generate_all_possible_sub_orders n main [] 1
      ↔ x.1.length = n ∧ Drawable main [] x.1 ∧ x.2 = orderProb main [] x.1 := by
  rw [mem_generate]
  constructor
  · rintro ⟨t, h1, h2, rfl⟩
    simp [h1, h2]
  · rintro ⟨h1, h2, h3⟩
    refine ⟨x.1, h1, h2, ?_⟩
    rw [List.nil_append, one_mul, ← h3]

theorem drawable_of_perm {main : AFFIX_NAMES} {t k : List AFFIX_NAMES} (h : t.Perm k)
    (hk : Drawable main [] k) : Drawable main [] t :=
  ⟨h.nodup_iff.2 hk.1, fun a ha => hk.2 a (h.subset ha)⟩

theorem canon_of_drawable {main : AFFIX_NAMES} {t : List AFFIX_NAMES} (h : Drawable main [] t) :
    CanonSubs main t.length (sortAffixes t) :=
  ⟨(sortAffixes_perm t).length_eq, sortAffixes_strict h.1,
    fun a ha => ⟨(h.2 a ((sortAffixes_perm t).subset ha)).1,
      (h.2 a ((sortAffixes_perm t).subset ha)).2.1⟩⟩

theorem drawable_of_canon {main : AFFIX_NAMES} {n : Nat} {k : List AFFIX_NAMES}
    (h : CanonSubs main n k) : Drawable main [] k :=
  ⟨nodup_of_strict h.2.1, fun a ha => ⟨(h.2.2 a ha).1, (h.2.2 a ha).2, by simp⟩⟩

/-- The total probability of a canonical tuple in the list of sorted tuples is the sum of
`orderProb` over its orderings. -/
theorem keyProb_sorted_inner (n : Nat) (main : AFFIX_NAMES) (k : List AFFIX_NAMES)
    (hk : CanonSubs main n k) :
    keyProb ((generate_all_possible_sub_orders n main [] 1).map
        fun i => (sortAffixes i.1, i.2)) k
      = subSetProb main k := by
  have hsnd : ∀ x ∈ generate_all_possible_sub_orders n main [] 1,
      x.2 = orderProb main [] x.1 := fun x hx => ((mem_generate_nil n main x).1 hx).2.2
  have h1 : keyProb ((generate_all_possible_sub_orders n main [] 1).map
        fun i => (sortAffixes i.1, i.2)) k
      = ((((generate_all_possible_sub_orders n main [] 1).map Prod.fst).filter
          fun t => sortAffixes t = k).map (orderProb main [])).sum := by
    unfold keyProb
    generalize generate_all_possible_sub_orders n main [] 1 = G at hsnd
    induction G with
    | nil => rfl
    | cons x G ih =>
      have hx := hsnd x (List.mem_cons_self _ _)
      have ih' := ih (fun y hy => hsnd y (List.mem_cons_of_mem _ hy))
      simp only [List.map_cons, List.filter_cons]
      by_cases hxk : sortAffixes x.1 = k
      · simp only [hxk, decide_True, if_true, List.map_cons, List.sum_cons, ih', hx]
      · simp only [hxk, decide_False, if_false, ih']
        exact ih'
  rw [h1, subSetProb]
  apply List.Perm.sum_eq
  apply List.Perm.map
  rw [List.perm_ext_iff_of_nodup ((generate_keys_nodup n main [] 1).filter _)
    (List.nodup_permutations k (nodup_of_strict hk.2.1))]
  intro t
  rw [List.mem_filter, List.mem_permutations, List.mem_map]
  constructor
  · rintro ⟨_, ht⟩
    have ht' : sortAffixes t = k := by simpa using ht
    rw [← ht']
    exact (sortAffixes_perm t).symm
  · intro ht
    have hd : Drawable main [] t := drawable_of_perm ht (drawable_of_canon hk)
    refine ⟨⟨(t, orderProb main [] t), (mem_generate_nil n main _).2
      ⟨by rw [ht.length_eq]; exact hk.1, hd, rfl⟩, rfl⟩, ?_⟩
    have : sortAffixes t = k := by
      rw [sortAffixes_eq_of_perm ht, sortAffixes_of_sorted hk.2.1]
    simpa using this

end DATA

namespace DATA

theorem keyProb_of_mem {F : List (List AFFIX_NAMES × ℚ)}
    (hP : F.Pairwise (fun x y => affixesLt x.1 y.1 = true)) {se : List AFFIX_NAMES × ℚ}
    (h : se ∈ F) : keyProb F se.1 = se.2 := by
  induction F with
  | nil => simp at h
  | cons a F ih =>
    rw [List.pairwise_cons] at hP
    obtain ⟨ha, hF⟩ := hP
    have hsplit : keyProb (a :: F) se.1 = keyProb [a] se.1 + keyProb F se.1 :=
      keyProb_append [a] F se.1
    rw [hsplit, keyProb_singleton]
    rcases List.mem_cons.1 h with rfl | hmem
    · have hz : keyProb F se.1 = 0 := by
        unfold keyProb
        rw [List.filter_eq_nil_iff.2]
        · rfl
        · intro y hy hyk
          have hyk' : y.1 = se.1 := by simpa using hyk
          have := ha y hy
          rw [hyk'] at this
          exact affixesLt_irrefl _ this
      rw [hz, if_pos rfl, add_zero]
    · have hne : ¬ a.1 = se.1 := by
        intro heq
        have := ha se hmem
        rw [heq] at this
        exact affixesLt_irrefl _ this
      rw [if_neg hne, zero_add, ih hF hmem]

/-- The coalesced list for `(initial, main)`: its tuples strictly increase, they are exactly
the canonical tuples of `initial` subs, and each carries the sum of `orderProb` over its
orderings. -/
theorem filtered_spec (n : Nat) (main : AFFIX_NAMES) :
    (filtered_possible_sub_orders n main).Pairwise (fun x y => affixesLt x.1 y.1 = true) ∧
    (∀ se ∈ filtered_possible_sub_orders n main,
      CanonSubs main n se.1 ∧ se.2 = subSetProb main se.1) ∧
    (∀ k, CanonSubs main n k → k ∈ (filtered_possible_sub_orders n main).map Prod.fst) := by
  have hSI : ∀ x ∈ (generate_all_possible_sub_orders n main [] 1).map
      (fun i => (sortAffixes i.1, i.2)), CanonSubs main n x.1 := by
    intro x hx
    obtain ⟨y, hy, rfl⟩ := List.mem_map.1 hx
    obtain ⟨h1, h2, _⟩ := (mem_generate_nil n main y).1 hy
    have := canon_of_drawable h2
    rw [h1] at this
    exact this
  have hperm : (sortSubOrders ((generate_all_possible_sub_orders n main [] 1).map
      fun i => (sortAffixes i.1, i.2))).Perm
      ((generate_all_possible_sub_orders n main [] 1).map fun i => (sortAffixes i.1, i.2)) :=
    List.perm_insertionSort _ _
  obtain ⟨cP, cK, cF, cL, _⟩ := coalesce_spec n
    (sortSubOrders ((generate_all_possible_sub_orders n main [] 1).map
      fun i => (sortAffixes i.1, i.2)))
    (fun x hx => (hSI x (hperm.subset hx)).1) (sortSubOrders_pairwise _)
  have hcanon : ∀ se ∈ filtered_possible_sub_orders n main, CanonSubs main n se.1 := by
    intro se hse
    obtain ⟨y, hy, hyk⟩ := List.mem_map.1 (cF se hse)
    rw [← hyk]
    exact hSI y (hperm.subset hy)
  refine ⟨cP, fun se hse => ⟨hcanon se hse, ?_⟩, fun k hk => ?_⟩
  · have h1 := keyProb_of_mem cP hse
    have h2 := cK se.1
    have h3 := keyProb_perm hperm se.1
    have h4 := keyProb_sorted_inner n main se.1 (hcanon se hse)
    rw [← h1]
    exact (h2.trans h3).trans h4
  · have hd := drawable_of_canon hk
    have hmem : (k, orderProb main [] k) ∈ generate_all_possible_sub_orders n main [] 1 :=
      (mem_generate_nil n main _).2 ⟨hk.1, hd, rfl⟩
    have hmem' : (sortAffixes k, orderProb main [] k)
        ∈ (generate_all_possible_sub_orders n main [] 1).map
          fun i => (sortAffixes i.1, i.2) :=
      List.mem_map.2 ⟨_, hmem, rfl⟩
    have := cL _ (hperm.symm.subset hmem')
    rw [sortAffixes_of_sorted hk.2.1] at this
    exact this

theorem filtered_keys_nodup (n : Nat) (main : AFFIX_NAMES) :
    ((filtered_possible_sub_orders n main).map Prod.fst).Nodup := by
  rw [List.Nodup, List.pairwise_map]
  exact (filtered_spec n main).1.imp fun h heq => by
    rw [heq] at h; exact affixesLt_irrefl _ h

end DATA

/-! ## The entries of the generated list -/

namespace DATA

theorem get_main_distribution_eq (s : SET_NAMES) : get_main_distribution s = MAIN_WEIGHT s := by
  rw [get_main_distribution, DP.foldl_push_eq (fun e => e)]
  simp

theorem mem_artifacts_of_set (s : SET_NAMES) (x : Artifact × ℚ) :
    x ∈ artifacts_of_set s ↔ ∃ me ie se, me ∈ MAIN_WEIGHT s ∧ ie ∈ INITIAL_AFFIX_NUM_WEIGHT ∧
      se ∈ filtered_possible_sub_orders ie.1 me.1 ∧
      x = (⟨s, me.1, se.1.map fun t => (t, (7 : Int)), 0⟩,
        1 / 5 * (me.2 : ℚ) / (weighted_sum (MAIN_WEIGHT s) : ℚ) * (ie.2 : ℚ) / 5 * se.2) := by
  have h5 : ((weighted_sum INITIAL_AFFIX_NUM_WEIGHT : Nat) : ℚ) = 5 := by
    have : weighted_sum INITIAL_AFFIX_NUM_WEIGHT = 5 := by decide
    rw [this]; norm_num
  have hs5 : ((SET_NUMBER : Nat) : ℚ) = 5 := by
    have : SET_NUMBER = 5 := rfl
    rw [this]; norm_num
  have h7 : ((AFFIX_UPDATE_MIN : Nat) : Int) = 7 := rfl
  simp only [artifacts_of_set, List.mem_flatMap, List.mem_map, get_main_distribution_eq, h5,
    hs5, h7]
  constructor
  · rintro ⟨me, hme, ie, hie, se, hse, rfl⟩
    exact ⟨me, ie, se, hme, hie, hse, rfl⟩
  · rintro ⟨me, ie, se, hme, hie, hse, rfl⟩
    exact ⟨me, hme, ie, hie, se, hse, rfl⟩

/-- Every entry of the generated list: a set of the game, a main of that set, level 0,
canonical subs at the placeholder roll 7, and the probability of the structure. -/
theorem generated_entry {x : Artifact × ℚ} (hx : x ∈ generated_artifacts) :
    x.1.set ∈ all_sets ∧ x.1.level = 0 ∧ (∀ e ∈ x.1.sub, e.2 = 7) ∧
    ∃ me ie, me ∈ MAIN_WEIGHT x.1.set ∧ me.1 = x.1.main ∧ ie ∈ INITIAL_AFFIX_NUM_WEIGHT ∧
      ie.1 = x.1.sub.length ∧
      CanonSubs x.1.main ie.1 (x.1.sub.map Prod.fst) ∧
      x.2 = 1 / 5 * (me.2 : ℚ) / (weighted_sum (MAIN_WEIGHT x.1.set) : ℚ) * (ie.2 : ℚ) / 5
        * subSetProb x.1.main (x.1.sub.map Prod.fst) := by
  rw [generated_artifacts, List.mem_flatMap] at hx
  obtain ⟨s, hs, hx⟩ := hx
  obtain ⟨me, ie, se, hme, hie, hse, rfl⟩ := (mem_artifacts_of_set s x).1 hx
  obtain ⟨hc, hp⟩ := (filtered_spec ie.1 me.1).2.1 se hse
  have hkeys : (se.1.map fun t => (t, (7 : Int))).map Prod.fst = se.1 := by
    rw [List.map_map]
    exact List.map_id _
  refine ⟨hs, rfl, ?_, me, ie, hme, rfl, hie, ?_, ?_, ?_⟩
  · intro e he
    obtain ⟨t, _, rfl⟩ := List.mem_map.1 he
    rfl
  · simp only [List.length_map]
    exact hc.1.symm
  · simp only [hkeys]
    exact hc
  · simp only [hkeys, hp]

end DATA

/-! ## Positive probabilities and the appearance rate -/

namespace DATA

theorem remainingWeight_pos (main : AFFIX_NAMES) (before : List AFFIX_NAMES)
    (h : before.length ≤ 6) : 0 < remainingWeight main before := by
  have := weighted_sum_sub_distribution main before
  rw [weighted_sum_eq_remainingWeight] at this
  omega

theorem orderProb_pos (main : AFFIX_NAMES) : ∀ (t before : List AFFIX_NAMES),
    (∀ a ∈ t, a ∈ rollable) → before.length + t.length ≤ 7 → 0 < orderProb main before t := by
  intro t
  induction t with
  | nil => intro _ _ _; simp [orderProb]
  | cons a t ih =>
    intro before hr hlen
    simp only [List.length_cons] at hlen
    rw [orderProb]
    have h1 : (0 : ℚ) < (subWeight a : ℚ) := by
      exact_mod_cast subWeight_pos (hr a (List.mem_cons_self _ _))
    have h2 : (0 : ℚ) < (remainingWeight main before : ℚ) := by
      exact_mod_cast remainingWeight_pos main before (by omega)
    have h3 := ih (before ++ [a]) (fun b hb => hr b (List.mem_cons_of_mem _ hb))
      (by simp only [List.length_append, List.length_singleton]; omega)
    positivity

theorem subSetProb_pos (main : AFFIX_NAMES) (k : List AFFIX_NAMES)
    (hr : ∀ a ∈ k, a ∈ rollable) (hlen : k.length ≤ 7) : 0 < subSetProb main k := by
  unfold subSetProb
  apply DP.sum_pos_of_mem
  · intro t ht
    have hp := List.mem_permutations.1 ht
    exact le_of_lt (orderProb_pos main t [] (fun a ha => hr a (hp.subset ha))
      (by rw [hp.length_eq]; simpa using hlen))
  · exact ⟨k, List.mem_permutations.2 (List.Perm.refl k),
      orderProb_pos main k [] hr (by simpa using hlen)⟩

theorem main_weight_pos {s : SET_NAMES} {me : AFFIX_NAMES × Nat} (h : me ∈ MAIN_WEIGHT s) :
    0 < me.2 := by
  revert me
  cases s <;> decide

theorem main_weight_sum_pos {s : SET_NAMES} (h : s ∈ all_sets) :
    0 < weighted_sum (MAIN_WEIGHT s) := by
  revert s
  decide

theorem main_weight_keys_nodup (s : SET_NAMES) : ((MAIN_WEIGHT s).map Prod.fst).Nodup := by
  cases s <;> decide

theorem initial_weight_spec {ie : Nat × Nat} (h : ie ∈ INITIAL_AFFIX_NUM_WEIGHT) :
    0 < ie.2 ∧ (ie.1 = 3 ∨ ie.1 = 4) := by
  revert ie
  decide

/-- Every probability of the generated list is positive. -/
theorem generated_prob_pos {x : Artifact × ℚ} (hx : x ∈ generated_artifacts) : 0 < x.2 := by
  obtain ⟨hs, _, _, me, ie, hme, _, hie, _, hc, hp⟩ := generated_entry hx
  have h1 : (0 : ℚ) < (me.2 : ℚ) := by exact_mod_cast main_weight_pos hme
  have h2 : (0 : ℚ) < (weighted_sum (MAIN_WEIGHT x.1.set) : ℚ) := by
    exact_mod_cast main_weight_sum_pos hs
  have h3 : (0 : ℚ) < (ie.2 : ℚ) := by exact_mod_cast (initial_weight_spec hie).1
  have h4 := subSetProb_pos x.1.main (x.1.sub.map Prod.fst) (fun a ha => (hc.2.2 a ha).1)
    (by rw [hc.1]; rcases (initial_weight_spec hie).2 with h | h <;> omega)
  rw [hp]
  positivity

end DATA

namespace DATA

theorem get_weight_of_mem {T : Type} [DecidableEq T] (l : List (T × Nat))
    (hn : (l.map Prod.fst).Nodup) {k : T} {v : Nat} (h : (k, v) ∈ l) :
    get_weight_from_distribution k l = .ok v := by
  induction l with
  | nil => simp at h
  | cons e l ih =>
    obtain ⟨k', v'⟩ := e
    rw [List.map_cons, List.nodup_cons] at hn
    rw [get_weight_from_distribution]
    rcases List.mem_cons.1 h with heq | hmem
    · obtain ⟨rfl, rfl⟩ := Prod.mk.inj heq
      rw [if_pos rfl]
    · have hne : ¬ k' = k := by
        intro hk
        apply hn.1
        rw [hk]
        exact List.mem_map.2 ⟨(k, v), hmem, rfl⟩
      rw [if_neg hne]
      exact ih hn.2 hmem

theorem sub_distribution_keys_nodup (main : AFFIX_NAMES) (sub : List AFFIX_NAMES) :
    ((get_sub_distribution main sub).map Prod.fst).Nodup := by
  rw [get_sub_distribution_filter]
  exact sub_prob_weight_keys_nodup.sublist ((List.filter_sublist _).map _)

theorem get_weight_sub {main : AFFIX_NAMES} {calc_subs : List AFFIX_NAMES} {name : AFFIX_NAMES}
    (h1 : name ∈ rollable) (h2 : name ≠ main) (h3 : ¬ name ∈ calc_subs) :
    get_weight_from_distribution name (get_sub_distribution main calc_subs)
      = .ok (subWeight name) := by
  apply get_weight_of_mem _ (sub_distribution_keys_nodup main calc_subs)
  obtain ⟨e, he, rfl⟩ := List.mem_map.1 h1
  rw [subWeight_of_mem he]
  exact mem_get_sub_distribution.2 ⟨he, h2, h3⟩

theorem drawable_cons {main : AFFIX_NAMES} {before rest : List AFFIX_NAMES} {a : AFFIX_NAMES}
    (h : Drawable main before (a :: rest)) :
    (a ∈ rollable ∧ a ≠ main ∧ ¬ a ∈ before) ∧ Drawable main (before ++ [a]) rest := by
  obtain ⟨hn, hall⟩ := h
  rw [List.nodup_cons] at hn
  refine ⟨hall a (List.mem_cons_self _ _), hn.2, fun b hb => ?_⟩
  obtain ⟨b1, b2, b3⟩ := hall b (List.mem_cons_of_mem _ hb)
  refine ⟨b1, b2, ?_⟩
  rw [List.mem_append, List.mem_singleton]
  rintro (h | h)
  · exact b3 h
  · rw [h] at hb; exact hn.1 hb

/-- The sub loop of `artifact_appear_rate` multiplies the rate by the product of the
conditional weights of the subs in their order. -/
theorem appearSubLoop_eq (main : AFFIX_NAMES) : ∀ (p : List (AFFIX_NAMES × Int))
    (calc_subs : List AFFIX_NAMES) (rate : ℚ), Drawable main calc_subs (p.map Prod.fst) →
    appearSubLoop main p calc_subs rate
      = .ok (rate * orderProb main calc_subs (p.map Prod.fst)) := by
  intro p
  induction p with
  | nil => intro _ rate _; simp [appearSubLoop, orderProb]
  | cons e rest ih =>
    intro calc_subs rate hd
    obtain ⟨name, w⟩ := e
    rw [List.map_cons] at hd
    obtain ⟨⟨h1, h2, h3⟩, hrest⟩ := drawable_cons hd
    rw [appearSubLoop, get_weight_sub h1 h2 h3]
    simp only
    rw [ih _ _ hrest, weighted_sum_eq_remainingWeight, List.map_cons, orderProb]
    congr 1
    ring

theorem artifact_appear_rate_eq (a : Artifact) (iw mw : Nat) (hl : a.level = 0)
    (hi : (a.sub.length, iw) ∈ INITIAL_AFFIX_NUM_WEIGHT) (hm : (a.main, mw) ∈ MAIN_WEIGHT a.set)
    (hd : Drawable a.main [] (a.sub.map Prod.fst)) :
    artifact_appear_rate a
      = .ok (1 / 5 * (mw : ℚ) / (weighted_sum (MAIN_WEIGHT a.set) : ℚ) * (iw : ℚ) / 5
          * orderProb a.main [] (a.sub.map Prod.fst)) := by
  have hlen := (initial_weight_spec hi).2
  have hin : ((INITIAL_AFFIX_NUM_WEIGHT).map Prod.fst).Nodup := by decide
  have h5 : ((weighted_sum INITIAL_AFFIX_NUM_WEIGHT : Nat) : ℚ) = 5 := by
    have : weighted_sum INITIAL_AFFIX_NUM_WEIGHT = 5 := by decide
    rw [this]; norm_num
  have hs5 : ((SET_NUMBER : Nat) : ℚ) = 5 := by
    have : SET_NUMBER = 5 := rfl
    rw [this]; norm_num
  rw [artifact_appear_rate, if_neg (by simp only [not_not]; exact ⟨hl, hlen⟩),
    get_weight_of_mem _ hin hi]
  simp only
  rw [get_main_distribution_eq, get_weight_of_mem _ (main_weight_keys_nodup a.set) hm]
  simp only
  rw [appearSubLoop_eq a.main a.sub [] _ hd, h5, hs5]
  congr 1
  ring

theorem sum_map_mul_const {α : Type} (l : List α) (f : α → ℚ) (c : ℚ) :
    (l.map fun x => c * f x).sum = c * (l.map f).sum := by
  induction l with
  | nil => simp
  | cons a l ih => simp only [List.map_cons, List.sum_cons, ih]; ring

/-- The probability of a generated entry is the structure probability, and it is the sum of
`artifact_appear_rate` over the orderings of its subs. -/
theorem generated_prob_formula {x : Artifact × ℚ} (hx : x ∈ generated_artifacts) :
    ∃ main_w initial_w : Nat, (x.1.main, main_w) ∈ MAIN_WEIGHT x.1.set ∧
      (x.1.sub.length, initial_w) ∈ INITIAL_AFFIX_NUM_WEIGHT ∧
      x.2 = 1 / 5 * ((main_w : ℚ) / (weighted_sum (MAIN_WEIGHT x.1.set) : ℚ))
          * ((initial_w : ℚ) / 5) * subSetProb x.1.main (x.1.sub.map Prod.fst) ∧
      (∀ p ∈ x.1.sub.permutations,
        artifact_appear_rate { x.1 with sub := p } = .ok (appearRate { x.1 with sub := p })) ∧
      x.2 = (x.1.sub.permutations.map fun p => appearRate { x.1 with sub := p }).sum := by
  obtain ⟨_, hl, _, me, ie, hme, hmain, hie, hlen, hc, hp⟩ := generated_entry hx
  have hme' : (x.1.main, me.2) ∈ MAIN_WEIGHT x.1.set := by rw [← hmain]; exact hme
  have hie' : (x.1.sub.length, ie.2) ∈ INITIAL_AFFIX_NUM_WEIGHT := by rw [← hlen]; exact hie
  have hrate : ∀ p ∈ x.1.sub.permutations,
      artifact_appear_rate { x.1 with sub := p }
        = .ok (1 / 5 * (me.2 : ℚ) / (weighted_sum (MAIN_WEIGHT x.1.set) : ℚ) * (ie.2 : ℚ) / 5
            * orderProb x.1.main [] (p.map Prod.fst)) := by
    intro p hp'
    have hperm := List.mem_permutations.1 hp'
    exact artifact_appear_rate_eq { x.1 with sub := p } ie.2 me.2 hl
      (by simp only [hperm.length_eq]; exact hie') hme'
      (drawable_of_perm (hperm.map Prod.fst) (drawable_of_canon hc))
  have hval : ∀ p ∈ x.1.sub.permutations,
      appearRate { x.1 with sub := p }
        = 1 / 5 * (me.2 : ℚ) / (weighted_sum (MAIN_WEIGHT x.1.set) : ℚ) * (ie.2 : ℚ) / 5
            * orderProb x.1.main [] (p.map Prod.fst) := by
    intro p hp'
    simp only [appearRate, hrate p hp']
  refine ⟨me.2, ie.2, hme', hie', by rw [hp]; ring, ?_, ?_⟩
  · intro p hp'
    rw [hrate p hp', hval p hp']
  · rw [List.map_congr_left hval, hp, subSetProb, ← List.map_permutations, List.map_map,
      ← sum_map_mul_const]
    rfl

end DATA

/-! ## One entry per structure -/

namespace DATA

theorem artifacts_of_set_fst (s : SET_NAMES) :
    (artifacts_of_set s).map Prod.fst
      = (MAIN_WEIGHT s).flatMap fun me =>
          INITIAL_AFFIX_NUM_WEIGHT.flatMap fun ie =>
            ((filtered_possible_sub_orders ie.1 me.1).map Prod.fst).map fun k =>
              (⟨s, me.1, k.map fun t => (t, (7 : Int)), 0⟩ : Artifact) := by
  simp only [artifacts_of_set, List.map_flatMap, List.map_map, get_main_distribution_eq]
  rfl

theorem artifacts_of_set_nodup (s : SET_NAMES) : ((artifacts_of_set s).map Prod.fst).Nodup := by
  rw [artifacts_of_set_fst, List.nodup_flatMap]
  constructor
  · intro me _
    rw [List.nodup_flatMap]
    constructor
    · intro ie _
      apply (filtered_keys_nodup ie.1 me.1).map
      intro k k' h
      have h' : (k.map fun t => (t, (7 : Int))) = k'.map fun t => (t, (7 : Int)) :=
        congrArg Artifact.sub h
      have h'' := congrArg (List.map Prod.fst) h'
      simpa [List.map_map, Function.comp_def] using h''
    · have hn : (INITIAL_AFFIX_NUM_WEIGHT).Pairwise (fun a b => a.1 ≠ b.1) := by decide
      refine hn.imp ?_
      intro ie ie' hne
      simp only [Function.onFun]
      rw [List.disjoint_left]
      intro a ha ha'
      obtain ⟨k, hk, rfl⟩ := List.mem_map.1 ha
      obtain ⟨k', hk', hkk⟩ := List.mem_map.1 ha'
      obtain ⟨se, hse, rfl⟩ := List.mem_map.1 hk
      obtain ⟨se', hse', rfl⟩ := List.mem_map.1 hk'
      have l1 := ((filtered_spec ie.1 me.1).2.1 se hse).1.1
      have l2 := ((filtered_spec ie'.1 me.1).2.1 se' hse').1.1
      have h' := congrArg (fun a : Artifact => a.sub.length) hkk
      simp only [List.length_map] at h'
      apply hne
      rw [← l1, ← l2, h']
  · have hn := main_weight_keys_nodup s
    rw [List.Nodup, List.pairwise_map] at hn
    refine hn.imp ?_
    intro me me' hne
    simp only [Function.onFun]
    rw [List.disjoint_left]
    intro a ha ha'
    simp only [List.mem_flatMap, List.mem_map] at ha ha'
    obtain ⟨_, _, _, _, rfl⟩ := ha
    obtain ⟨_, _, _, _, h⟩ := ha'
    exact hne (congrArg Artifact.main h).symm

/-- No artifact is listed twice. -/
theorem generated_nodup : (generated_artifacts.map Prod.fst).Nodup := by
  rw [generated_artifacts, List.map_flatMap, List.nodup_flatMap]
  constructor
  · intro s _
    exact artifacts_of_set_nodup s
  · have hn : all_sets.Pairwise (fun a b => a ≠ b) := by decide
    refine hn.imp ?_
    intro s s' hne
    simp only [Function.onFun]
    rw [List.disjoint_left]
    intro a ha ha'
    obtain ⟨x, hx, rfl⟩ := List.mem_map.1 ha
    obtain ⟨x', hx', hxx⟩ := List.mem_map.1 ha'
    have h1 := set_of_mem_artifacts_of_set hx
    have h2 := set_of_mem_artifacts_of_set hx'
    apply hne
    rw [← h1, ← h2, hxx]

/-- Every valid structure has its entry. -/
theorem mem_generated_of_canon {s : SET_NAMES} {me : AFFIX_NAMES × Nat} {ie : Nat × Nat}
    {k : List AFFIX_NAMES} (hs : s ∈ all_sets) (hme : me ∈ MAIN_WEIGHT s)
    (hie : ie ∈ INITIAL_AFFIX_NUM_WEIGHT) (hk : CanonSubs me.1 ie.1 k) :
    ((⟨s, me.1, k.map fun t => (t, (7 : Int)), 0⟩ : Artifact),
      1 / 5 * (me.2 : ℚ) / (weighted_sum (MAIN_WEIGHT s) : ℚ) * (ie.2 : ℚ) / 5
        * subSetProb me.1 k) ∈ generated_artifacts := by
  rw [generated_artifacts, List.mem_flatMap]
  refine ⟨s, hs, ?_⟩
  rw [mem_artifacts_of_set]
  obtain ⟨se, hse, hsek⟩ := List.mem_map.1 ((filtered_spec ie.1 me.1).2.2 k hk)
  have hp := ((filtered_spec ie.1 me.1).2.1 se hse).2
  refine ⟨me, ie, se, hme, hie, hse, ?_⟩
  rw [hp, hsek]

end DATA

/-! ## The number of entries -/

namespace DATA

theorem rollable_sorted : rollable.Pairwise (fun a b => a.toNat < b.toNat) := by decide

theorem canon_iff_sublist (main : AFFIX_NAMES) (n : Nat) (k : List AFFIX_NAMES) :
    CanonSubs main n k
      ↔ k ∈ List.sublistsLen n (rollable.filter fun t => t ≠ main) := by
  have hR : (rollable.filter fun t => t ≠ main).Pairwise (fun a b => a.toNat < b.toNat) :=
    rollable_sorted.sublist (List.filter_sublist _)
  rw [List.mem_sublistsLen]
  constructor
  · rintro ⟨h1, h2, h3⟩
    refine ⟨?_, h1⟩
    apply List.sublist_of_subperm_of_sorted (List.subperm_of_subset (nodup_of_strict h2) ?_)
      (h2.imp fun hab => le_of_lt hab) (hR.imp fun hab => le_of_lt hab)
    intro a ha
    rw [List.mem_filter]
    exact ⟨(h3 a ha).1, by simpa using (h3 a ha).2⟩
  · rintro ⟨h1, h2⟩
    refine ⟨h2, hR.sublist h1, fun a ha => ?_⟩
    have := List.mem_filter.1 (h1.subset ha)
    exact ⟨this.1, by simpa using this.2⟩

/-- The coalesced list for `(n, main)` has one tuple per `n`-subset of the rollable affixes
other than `main`. -/
theorem filtered_length (n : Nat) (main : AFFIX_NAMES) :
    (filtered_possible_sub_orders n main).length
      = Nat.choose (rollable.filter fun t => t ≠ main).length n := by
  have hR : (rollable.filter fun t => t ≠ main).Nodup :=
    (nodup_of_strict rollable_sorted).sublist (List.filter_sublist _)
  have hperm : ((filtered_possible_sub_orders n main).map Prod.fst).Perm
      (List.sublistsLen n (rollable.filter fun t => t ≠ main)) := by
    rw [List.perm_ext_iff_of_nodup (filtered_keys_nodup n main) (List.nodup_sublistsLen n hR)]
    intro k
    rw [← canon_iff_sublist]
    constructor
    · intro hk
      obtain ⟨se, hse, rfl⟩ := List.mem_map.1 hk
      exact ((filtered_spec n main).2.1 se hse).1
    · exact (filtered_spec n main).2.2 k
  have := hperm.length_eq
  rw [List.length_map, List.length_sublistsLen] at this
  exact this

theorem length_flatMap_eq {α β : Type} (l : List α) (f : α → List β) :
    (l.flatMap f).length = (l.map fun a => (f a).length).sum := by
  induction l with
  | nil => rfl
  | cons a l ih => rw [List.flatMap_cons, List.length_append, ih, List.map_cons, List.sum_cons]

theorem artifacts_of_set_length (s : SET_NAMES) :
    (artifacts_of_set s).length
      = ((MAIN_WEIGHT s).map fun me =>
          (INITIAL_AFFIX_NUM_WEIGHT.map fun ie =>
            Nat.choose (rollable.filter fun t => t ≠ me.1).length ie.1).sum).sum := by
  have h := congrArg List.length (artifacts_of_set_fst s)
  rw [List.length_map] at h
  rw [h, length_flatMap_eq]
  apply congrArg List.sum
  apply List.map_congr_left
  intro me _
  rw [length_flatMap_eq]
  apply congrArg List.sum
  apply List.map_congr_left
  intro ie _
  rw [List.length_map, List.length_map, filtered_length]

/-- The generated list has 6540 entries. -/
theorem generated_length : generated_artifacts.length = 6540 := by
  rw [generated_artifacts, length_flatMap_eq]
  have h : all_sets.map (fun s => (artifacts_of_set s).length)
      = all_sets.map fun s => ((MAIN_WEIGHT s).map fun me =>
          (INITIAL_AFFIX_NUM_WEIGHT.map fun ie =>
            Nat.choose (rollable.filter fun t => t ≠ me.1).length ie.1).sum).sum :=
    List.map_congr_left fun s _ => artifacts_of_set_length s
  rw [h]
  decide

end DATA

namespace DATA

theorem sub_eq_of_rolls_seven (sub : List (AFFIX_NAMES × Int)) (h : ∀ e ∈ sub, e.2 = 7) :
    sub = (sub.map Prod.fst).map fun t => (t, (7 : Int)) := by
  induction sub with
  | nil => rfl
  | cons e l ih =>
    obtain ⟨t, w⟩ := e
    have hw : w = 7 := h (t, w) (List.mem_cons_self _ _)
    subst hw
    rw [List.map_cons, List.map_cons, ← ih (fun x hx => h x (List.mem_cons_of_mem _ hx))]

theorem canon_first : CanonSubs AFFIX_NAMES.hp 3
    [AFFIX_NAMES.atk, AFFIX_NAMES.def_, AFFIX_NAMES.hpp] := by
  unfold CanonSubs
  decide

theorem first_mem_generated : (artifactFirst, probFirst) ∈ generated_artifacts :=
  @mem_generated_of_canon SET_NAMES.flower (AFFIX_NAMES.hp, 1) (3, 4)
    [AFFIX_NAMES.atk, AFFIX_NAMES.def_, AFFIX_NAMES.hpp]
    (by decide) (by decide) (by decide) canon_first

/-- The shape of the entries and the existence and uniqueness of the entry of a structure. -/
theorem generated_shape {a : Artifact} (ha : a ∈ generated_artifacts.map Prod.fst) :
    a.set ∈ all_sets ∧ a.main ∈ (MAIN_WEIGHT a.set).map Prod.fst ∧ a.level = 0 ∧
    (∀ e ∈ a.sub, e.2 = 7) ∧ (a.sub.length = 3 ∨ a.sub.length = 4) ∧
    (a.sub.map Prod.fst).Pairwise (fun x y => x.toNat < y.toNat) ∧
    ∀ t ∈ a.sub.map Prod.fst, t ∈ rollable ∧ t ≠ a.main := by
  obtain ⟨x, hx, rfl⟩ := List.mem_map.1 ha
  obtain ⟨hs, hl, h7, me, ie, hme, hmain, hie, hlen, hc, _⟩ := generated_entry hx
  refine ⟨hs, ?_, hl, h7, ?_, hc.2.1, hc.2.2⟩
  · rw [← hmain]; exact List.mem_map_of_mem _ hme
  · rw [← hlen]; exact (initial_weight_spec hie).2

theorem generated_unique_entry (s : SET_NAMES) (main : AFFIX_NAMES) (t : List AFFIX_NAMES)
    (hs : s ∈ all_sets) (hmain : main ∈ (MAIN_WEIGHT s).map Prod.fst)
    (hlen : t.length = 3 ∨ t.length = 4) (hn : t.Nodup)
    (ht : ∀ x ∈ t, x ∈ rollable ∧ x ≠ main) :
    ∃! a, a ∈ generated_artifacts.map Prod.fst ∧ a.set = s ∧ a.main = main ∧
      (a.sub.map Prod.fst).Perm t := by
  obtain ⟨me, hme, rfl⟩ := List.mem_map.1 hmain
  have hd : Drawable me.1 [] t := ⟨hn, fun a ha => ⟨(ht a ha).1, (ht a ha).2, by simp⟩⟩
  have hc := canon_of_drawable hd
  have hie : ∃ ie ∈ INITIAL_AFFIX_NUM_WEIGHT, ie.1 = t.length := by
    rcases hlen with h | h
    · exact ⟨(3, 4), by decide, h.symm⟩
    · exact ⟨(4, 1), by decide, h.symm⟩
  obtain ⟨ie, hie, hiel⟩ := hie
  rw [← hiel] at hc
  have hkeys : ((sortAffixes t).map fun x => (x, (7 : Int))).map Prod.fst = sortAffixes t := by
    rw [List.map_map]
    exact List.map_id _
  refine ⟨⟨s, me.1, (sortAffixes t).map fun x => (x, (7 : Int)), 0⟩, ⟨?_, rfl, rfl, ?_⟩, ?_⟩
  · exact List.mem_map.2 ⟨_, mem_generated_of_canon hs hme hie hc, rfl⟩
  · simp only [hkeys]
    exact sortAffixes_perm t
  · rintro a ⟨ha, hset, hm, hperm⟩
    obtain ⟨_, _, hl, h7, _, hsorted, _⟩ := generated_shape ha
    have hsub : a.sub.map Prod.fst = sortAffixes t := by
      rw [← sortAffixes_eq_of_perm hperm, sortAffixes_of_sorted hsorted]
    have hsub' := sub_eq_of_rolls_seven a.sub h7
    rw [hsub] at hsub'
    cases a
    simp only at hset hm hl hsub'
    subst hset hm hl hsub'
    rfl

end DATA

/-! ## The accumulated vector -/

namespace DATA

theorem cdfAt_zero (a : Artifact × ℚ) (l : List (Artifact × ℚ)) : cdfAt (a :: l) 0 = a.2 := by
  simp [cdfAt]

theorem cdfAt_succ (a : Artifact × ℚ) (l : List (Artifact × ℚ)) (i : Nat) :
    cdfAt (a :: l) (i + 1) = a.2 + cdfAt l i := by
  simp [cdfAt]

theorem cdfAt_nonneg (l : List (Artifact × ℚ)) (h : ∀ x ∈ l, 0 < x.2) (i : Nat) :
    0 ≤ cdfAt l i := by
  unfold cdfAt
  apply List.sum_nonneg
  intro p hp
  obtain ⟨x, hx, rfl⟩ := List.mem_map.1 hp
  exact le_of_lt (h x (List.mem_of_mem_take hx))

theorem cdfAt_mono (l : List (Artifact × ℚ)) (h : ∀ x ∈ l, 0 < x.2) :
    ∀ i j, i ≤ j → cdfAt l i ≤ cdfAt l j := by
  induction l with
  | nil => intro i j _; simp [cdfAt]
  | cons a l ih =>
    have hl : ∀ x ∈ l, 0 < x.2 := fun x hx => h x (List.mem_cons_of_mem _ hx)
    intro i j hij
    cases i with
    | zero =>
      cases j with
      | zero => exact le_rfl
      | succ j =>
        rw [cdfAt_zero, cdfAt_succ]
        have := cdfAt_nonneg l hl j
        linarith
    | succ i =>
      cases j with
      | zero => omega
      | succ j =>
        rw [cdfAt_succ, cdfAt_succ]
        have := ih hl i j (by omega)
        linarith

theorem cdfAt_last (l : List (Artifact × ℚ)) (h : l ≠ []) :
    cdfAt l (l.length - 1) = sumProbs l := by
  have hpos : 0 < l.length := List.length_pos.2 h
  rw [cdfAt, sumProbs, Nat.sub_add_cancel hpos, List.take_length]

theorem cdfAt_pos (l : List (Artifact × ℚ)) (h : ∀ x ∈ l, 0 < x.2) (i : Nat) (hi : i < l.length) :
    0 < cdfAt l i := by
  cases l with
  | nil => simp at hi
  | cons a l =>
    have h0 : cdfAt (a :: l) 0 ≤ cdfAt (a :: l) i := cdfAt_mono _ h 0 i (Nat.zero_le _)
    rw [cdfAt_zero] at h0
    have := h a (List.mem_cons_self _ _)
    linarith

theorem entryAt_zero (a : Artifact × ℚ) (l : List (Artifact × ℚ)) : entryAt (a :: l) 0 = a := rfl

theorem entryAt_succ (a : Artifact × ℚ) (l : List (Artifact × ℚ)) (i : Nat) :
    entryAt (a :: l) (i + 1) = entryAt l i := rfl

theorem entryAt_mem (l : List (Artifact × ℚ)) : ∀ i, i < l.length → entryAt l i ∈ l := by
  induction l with
  | nil => intro i hi; simp at hi
  | cons a l ih =>
    intro i hi
    cases i with
    | zero => rw [entryAt_zero]; exact List.mem_cons_self _ _
    | succ i =>
      rw [entryAt_succ]
      exact List.mem_cons_of_mem _ (ih i (by simpa using hi))

theorem length_accumulateFrom (prev : ℚ) (l : List (Artifact × ℚ)) :
    (accumulateFrom prev l).length = l.length := by
  induction l generalizing prev with
  | nil => rfl
  | cons a l ih =>
    obtain ⟨x, p⟩ := a
    simp only [accumulateFrom, List.length_cons, ih]

theorem length_accumulate (l : List (Artifact × ℚ)) : (accumulate l).length = l.length := by
  cases l with
  | nil => rfl
  | cons a l =>
    obtain ⟨x, p⟩ := a
    simp only [accumulate, List.length_cons, length_accumulateFrom]

theorem entryAt_accumulateFrom (prev : ℚ) (l : List (Artifact × ℚ)) :
    ∀ i, i < l.length →
      entryAt (accumulateFrom prev l) i = ((entryAt l i).1, prev + cdfAt l i) := by
  induction l generalizing prev with
  | nil => intro i hi; simp at hi
  | cons a l ih =>
    obtain ⟨x, p⟩ := a
    intro i hi
    cases i with
    | zero =>
      simp only [accumulateFrom, entryAt_zero, cdfAt_zero]
      rw [add_comm]
    | succ i =>
      simp only [accumulateFrom, entryAt_succ, cdfAt_succ]
      rw [ih (p + prev) i (by simpa using hi)]
      congr 1
      ring

/-- The accumulated vector holds the artifacts of the list with the prefix sums. -/
theorem entryAt_accumulate (l : List (Artifact × ℚ)) (i : Nat) (hi : i < l.length) :
    entryAt (accumulate l) i = ((entryAt l i).1, cdfAt l i) := by
  cases l with
  | nil => simp at hi
  | cons a l =>
    obtain ⟨x, p⟩ := a
    cases i with
    | zero => simp only [accumulate, entryAt_zero, cdfAt_zero]
    | succ i =>
      simp only [accumulate, entryAt_succ, cdfAt_succ]
      rw [entryAt_accumulateFrom p l i (by simpa using hi)]

end DATA

/-! ## The sampler -/

namespace DATA

/-- The binary search keeps `vec[left] < randnum ≤ vec[right]` and ends with adjacent
indexes. -/
theorem dropSearch_spec (acc : List (Artifact × ℚ)) (u : ℚ) :
    ∀ (n left right : Nat), right - left ≤ n → left < right →
      (entryAt acc left).2 < u → u ≤ (entryAt acc right).2 →
      (dropSearch acc u left right).2 = (dropSearch acc u left right).1 + 1 ∧
      (entryAt acc (dropSearch acc u left right).1).2 < u ∧
      u ≤ (entryAt acc (dropSearch acc u left right).2).2 ∧
      left ≤ (dropSearch acc u left right).1 ∧ (dropSearch acc u left right).2 ≤ right := by
  intro n
  induction n with
  | zero => intro left right h1 h2; omega
  | succ n ih =>
    intro left right hn hlr hl hr
    rw [dropSearch]
    by_cases h : left + 1 < right
    · rw [dif_pos h]
      by_cases hp : (entryAt acc ((left + right) / 2)).2 < u
      · rw [if_pos hp]
        obtain ⟨a, b, c, d, e⟩ := ih ((left + right) / 2) right (by omega) (by omega) hp hr
        exact ⟨a, b, c, by omega, e⟩
      · rw [if_neg hp]
        obtain ⟨a, b, c, d, e⟩ :=
          ih left ((left + right) / 2) (by omega) (by omega) hl (not_lt.1 hp)
        exact ⟨a, b, c, d, by omega⟩
    · rw [dif_neg h]
      exact ⟨by simp only; omega, hl, hr, le_rfl, le_rfl⟩

theorem rollDigits_fst (sub : List (AFFIX_NAMES × Int)) (x : ℚ) :
    (rollDigits sub x).map Prod.fst = sub.map Prod.fst := by
  induction sub generalizing x with
  | nil => rfl
  | cons e rest ih =>
    obtain ⟨t, w⟩ := e
    simp only [rollDigits, List.map_cons, ih]

theorem truncToInt_nonneg {x : ℚ} (h : 0 ≤ x) :
    0 ≤ truncToInt x ∧ (truncToInt x : ℚ) ≤ x := by
  rw [truncToInt, if_pos h]
  exact ⟨Int.floor_nonneg.2 h, Int.floor_le x⟩

theorem rollDigits_cons (t : AFFIX_NAMES) (w : Int) (rest : List (AFFIX_NAMES × Int)) (x : ℚ) :
    rollDigits ((t, w) :: rest) x
      = (t, (if truncToInt (x * 4) ≥ 4 then 3 else truncToInt (x * 4)) + 7)
          :: rollDigits rest
            (x * 4 - (((if truncToInt (x * 4) ≥ 4 then 3 else truncToInt (x * 4)) : Int) : ℚ)) := by
  have hmax : ((AFFIX_UPDATE_MAX : Nat) : Int) = 10 := rfl
  have hmin : ((AFFIX_UPDATE_MIN : Nat) : Int) = 7 := rfl
  have h4 : ((10 : Int) - 7 + 1) = 4 := by norm_num
  have h3 : ((4 : Int) - 1) = 3 := by norm_num
  have hc : (((4 : Int) : ℚ)) = 4 := by norm_num
  simp only [rollDigits, hmax, hmin, h4, h3, hc]

/-- From a non-negative `randnum` every digit is in `[0, 3]`, so every roll is in `[7, 10]`. -/
theorem rollDigits_range (sub : List (AFFIX_NAMES × Int)) (x : ℚ) (hx : 0 ≤ x) :
    ∀ e ∈ rollDigits sub x, 7 ≤ e.2 ∧ e.2 ≤ 10 := by
  induction sub generalizing x with
  | nil => intro e he; simp [rollDigits] at he
  | cons e rest ih =>
    obtain ⟨t, w⟩ := e
    have h4 : (0 : ℚ) ≤ x * 4 := by positivity
    obtain ⟨t1, t2⟩ := truncToInt_nonneg h4
    rw [rollDigits_cons]
    intro e he
    rcases List.mem_cons.1 he with rfl | he
    · simp only
      split_ifs with hge
      · omega
      · omega
    · refine ih _ ?_ e he
      split_ifs with hge
      · have : ((4 : Int) : ℚ) ≤ (truncToInt (x * 4) : ℚ) := by exact_mod_cast hge
        push_cast
        push_cast at this
        linarith
      · linarith

end DATA

namespace DATA

/-- What `get_drop` returns over the accumulation of a non-empty list with positive
probabilities: the first entry up to `cdf[0]`, the last entry above `cdf[last]`, and in
between the entry of the smallest index `r` with `cdf[r] ≥ randnum`, its rolls replaced by
the base-4 digits of the rescaled `randnum`. -/
theorem get_drop_from_spec (l : List (Artifact × ℚ)) (hne : l ≠ [])
    (hpos : ∀ x ∈ l, 0 < x.2) (u : ℚ) :
    (u ≤ cdfAt l 0 → get_drop_from (accumulate l) u = (entryAt l 0).1) ∧
    (cdfAt l (l.length - 1) < u →
      get_drop_from (accumulate l) u = (entryAt l (l.length - 1)).1) ∧
    (cdfAt l 0 < u → u ≤ cdfAt l (l.length - 1) →
      ∃ r, 0 < r ∧ r < l.length ∧ cdfAt l (r - 1) < u ∧ u ≤ cdfAt l r ∧
        (∀ j, j < r → cdfAt l j < u) ∧
        get_drop_from (accumulate l) u
          = { (entryAt l r).1 with
              sub := rollDigits (entryAt l r).1.sub
                ((u - cdfAt l (r - 1)) / (cdfAt l r - cdfAt l (r - 1))) }) := by
  have hlen : 0 < l.length := List.length_pos.2 hne
  have e0 : entryAt (accumulate l) 0 = ((entryAt l 0).1, cdfAt l 0) :=
    entryAt_accumulate l 0 hlen
  have eL : entryAt (accumulate l) (l.length - 1)
      = ((entryAt l (l.length - 1)).1, cdfAt l (l.length - 1)) :=
    entryAt_accumulate l _ (by omega)
  have hmono := cdfAt_mono l hpos
  refine ⟨fun h => ?_, fun h => ?_, fun h1 h2 => ?_⟩
  · unfold get_drop_from
    rw [e0, if_pos h]
  · have h0 : ¬ u ≤ cdfAt l 0 := by
      have := hmono 0 (l.length - 1) (Nat.zero_le _)
      exact not_le.2 (lt_of_le_of_lt this h)
    unfold get_drop_from
    rw [e0, length_accumulate, eL, if_neg h0, if_pos h]
  · have hr0 : 0 < l.length - 1 := by
      rcases Nat.eq_zero_or_pos (l.length - 1) with hz | hz
      · rw [hz] at h2
        exact absurd h2 (not_le.2 h1)
      · exact hz
    obtain ⟨s1, s2, s3, _, s5⟩ := dropSearch_spec (accumulate l) u (l.length - 1) 0
      (l.length - 1) (by omega) hr0 (by rw [e0]; exact h1) (by rw [eL]; exact h2)
    have hr : (dropSearch (accumulate l) u 0 (l.length - 1)).2 < l.length := by omega
    have hl : (dropSearch (accumulate l) u 0 (l.length - 1)).1 < l.length := by omega
    have hl1 : (dropSearch (accumulate l) u 0 (l.length - 1)).1
        = (dropSearch (accumulate l) u 0 (l.length - 1)).2 - 1 := by omega
    rw [entryAt_accumulate l _ hl] at s2
    rw [entryAt_accumulate l _ hr] at s3
    refine ⟨(dropSearch (accumulate l) u 0 (l.length - 1)).2, by omega, hr, ?_, s3, ?_, ?_⟩
    · rw [← hl1]; exact s2
    · intro j hj
      exact lt_of_le_of_lt (hmono j _ (by omega)) s2
    · unfold get_drop_from
      rw [e0, length_accumulate, eL, if_neg (not_le.2 h1), if_neg (not_lt.2 h2)]
      dsimp only
      rw [entryAt_accumulate l _ hr, entryAt_accumulate l _ hl, ← hl1]

end DATA

namespace DATA

theorem generated_ne_nil : generated_artifacts ≠ [] := by
  intro h
  have := first_mem_generated
  rw [h] at this
  simp at this

theorem cdfAt_first_lt_last (l : List (Artifact × ℚ)) (hpos : ∀ x ∈ l, 0 < x.2)
    (hlen : 2 ≤ l.length) : cdfAt l 0 < cdfAt l (l.length - 1) := by
  cases l with
  | nil => simp at hlen
  | cons a l =>
    cases l with
    | nil => simp at hlen
    | cons b l =>
      have h1 : (a :: b :: l).length - 1 = (b :: l).length - 1 + 1 := by simp
      rw [h1, cdfAt_zero, cdfAt_succ]
      have := cdfAt_pos (b :: l) (fun x hx => hpos x (List.mem_cons_of_mem _ hx))
        ((b :: l).length - 1) (by simp)
      linarith

theorem generated_cdf_bounds :
    0 < cdfAt generated_artifacts 0 ∧ cdfAt generated_artifacts 0 < 1 ∧
    cdfAt generated_artifacts (generated_artifacts.length - 1) = 1 := by
  have hpos : ∀ x ∈ generated_artifacts, 0 < x.2 := fun x hx => generated_prob_pos hx
  have hlast : cdfAt generated_artifacts (generated_artifacts.length - 1) = 1 := by
    rw [cdfAt_last _ generated_ne_nil, sumProbs_generated]
  refine ⟨cdfAt_pos _ hpos 0 (by rw [generated_length]; omega), ?_, hlast⟩
  rw [← hlast]
  exact cdfAt_first_lt_last _ hpos (by rw [generated_length]; omega)

/-- At `randnum = 1` every digit is clamped to 3, so every roll is 10. -/
theorem rollDigits_one (sub : List (AFFIX_NAMES × Int)) :
    rollDigits sub 1 = sub.map fun e => (e.1, (10 : Int)) := by
  have ht : truncToInt ((1 : ℚ) * 4) = 4 := by
    rw [truncToInt, if_pos (by norm_num)]
    norm_num
  induction sub with
  | nil => rfl
  | cons e rest ih =>
    obtain ⟨t, w⟩ := e
    rw [rollDigits_cons, ht]
    simp only [ge_iff_le, le_refl, if_true, List.map_cons]
    have h1 : ((1 : ℚ) * 4 - ((3 : Int) : ℚ)) = 1 := by norm_num
    rw [h1, ih]
    norm_num

end DATA

namespace DATA

theorem first_tuple_minimal : ∀ k ∈ List.sublistsLen 3 (rollable.filter fun t => t ≠ AFFIX_NAMES.hp),
    ¬ affixesLt k [AFFIX_NAMES.atk, AFFIX_NAMES.def_, AFFIX_NAMES.hpp] = true := by
  decide

theorem filtered_head : ∃ tail, filtered_possible_sub_orders 3 AFFIX_NAMES.hp
    = ([AFFIX_NAMES.atk, AFFIX_NAMES.def_, AFFIX_NAMES.hpp],
        subSetProb AFFIX_NAMES.hp [AFFIX_NAMES.atk, AFFIX_NAMES.def_, AFFIX_NAMES.hpp])
      :: tail := by
  obtain ⟨hP, hC, hK⟩ := filtered_spec 3 AFFIX_NAMES.hp
  have hk0 := hK _ canon_first
  cases hF : filtered_possible_sub_orders 3 AFFIX_NAMES.hp with
  | nil => rw [hF] at hk0; simp at hk0
  | cons se tail =>
    rw [hF] at hP hC hk0
    have hse := hC se (List.mem_cons_self _ _)
    have hkey : se.1 = [AFFIX_NAMES.atk, AFFIX_NAMES.def_, AFFIX_NAMES.hpp] := by
      rw [List.map_cons, List.mem_cons] at hk0
      rcases hk0 with h | h
      · exact h.symm
      · obtain ⟨y, hy, hyk⟩ := List.mem_map.1 h
        have hlt := (List.pairwise_cons.1 hP).1 y hy
        rw [hyk] at hlt
        exact absurd hlt
          (first_tuple_minimal se.1 ((canon_iff_sublist AFFIX_NAMES.hp 3 se.1).1 hse.1))
    refine ⟨tail, ?_⟩
    obtain ⟨k, p⟩ := se
    simp only at hkey hse
    rw [hse.2, hkey]

/-- The generated list starts with the flower `hp / atk, def, hpp`. -/
theorem generated_head : ∃ tail, generated_artifacts = (artifactFirst, probFirst) :: tail := by
  obtain ⟨ftail, hf⟩ := filtered_head
  have h1 : generated_artifacts
      = artifacts_of_set SET_NAMES.flower
        ++ [SET_NAMES.plume, SET_NAMES.sands, SET_NAMES.goblet, SET_NAMES.circlet].flatMap
          artifacts_of_set := by
    rw [generated_artifacts, all_sets, List.flatMap_cons]
  obtain ⟨rest, h2⟩ : ∃ rest, artifacts_of_set SET_NAMES.flower
      = (artifactFirst, probFirst) :: rest := by
    have hm : get_main_distribution SET_NAMES.flower = [(AFFIX_NAMES.hp, 1)] := by
      rw [get_main_distribution_eq]; rfl
    have hi : INITIAL_AFFIX_NUM_WEIGHT = [(3, 4), (4, 1)] := rfl
    simp only [artifacts_of_set, hm, hi, List.flatMap_cons, List.flatMap_nil, hf, List.map_cons,
      List.append_nil, List.cons_append]
    exact ⟨_, rfl⟩
  exact ⟨_, by rw [h1, h2, List.cons_append]⟩

end DATA

namespace DATA

theorem get_drop_eq (u : ℚ) : get_drop u = get_drop_from (accumulate generated_artifacts) u := rfl

/-- The selection of `get_drop` over the accumulation of any non-empty list with positive
probabilities. -/
theorem get_drop_from_selects (l : List (Artifact × ℚ)) (hne : l ≠ [])
    (hpos : ∀ x ∈ l, 0 < x.2) (u : ℚ) :
    (cdfAt l 0 < u → u ≤ cdfAt l (l.length - 1) →
      ∃ r, r < l.length ∧ u ≤ cdfAt l r ∧ (∀ j, j < r → cdfAt l j < u) ∧
        (get_drop_from (accumulate l) u).set = (entryAt l r).1.set ∧
        (get_drop_from (accumulate l) u).main = (entryAt l r).1.main ∧
        (get_drop_from (accumulate l) u).sub.map Prod.fst
          = (entryAt l r).1.sub.map Prod.fst) ∧
    (u ≤ cdfAt l 0 → get_drop_from (accumulate l) u = (entryAt l 0).1) ∧
    (cdfAt l (l.length - 1) < u →
      get_drop_from (accumulate l) u = (entryAt l (l.length - 1)).1) := by
  obtain ⟨h1, h2, h3⟩ := get_drop_from_spec l hne hpos u
  refine ⟨fun a b => ?_, h1, h2⟩
  obtain ⟨r, _, hr, _, hu, hmin, hd⟩ := h3 a b
  refine ⟨r, hr, hu, hmin, ?_, ?_, ?_⟩
  · rw [hd]
  · rw [hd]
  · rw [hd]
    exact rollDigits_fst _ _

/-- Whatever `randnum` is, `get_drop` returns an entry of the list with its sub affixes
kept and its rolls either kept or replaced by rolls in `[7, 10]`. -/
theorem get_drop_from_cases (l : List (Artifact × ℚ)) (hne : l ≠ [])
    (hpos : ∀ x ∈ l, 0 < x.2) (u : ℚ) :
    ∃ x sub, x ∈ l ∧ sub.map Prod.fst = x.1.sub.map Prod.fst ∧
      ((∀ e ∈ x.1.sub, e.2 = 7) → ∀ e ∈ sub, 7 ≤ e.2 ∧ e.2 ≤ 10) ∧
      get_drop_from (accumulate l) u = { x.1 with sub := sub } := by
  have hlen : 0 < l.length := List.length_pos.2 hne
  obtain ⟨g1, g2, g3⟩ := get_drop_from_spec l hne hpos u
  have hkeep : ∀ (x : Artifact × ℚ), (∀ e ∈ x.1.sub, e.2 = 7) →
      ∀ e ∈ x.1.sub, 7 ≤ e.2 ∧ e.2 ≤ 10 := by
    intro x h e he
    have := h e he
    omega
  by_cases c1 : u ≤ cdfAt l 0
  · exact ⟨entryAt l 0, _, entryAt_mem l 0 hlen, rfl, hkeep _, g1 c1⟩
  · by_cases c2 : cdfAt l (l.length - 1) < u
    · exact ⟨entryAt l (l.length - 1), _, entryAt_mem l _ (by omega), rfl, hkeep _, g2 c2⟩
    · obtain ⟨r, _, hr, hlo, hhi, _, hd⟩ := g3 (not_le.1 c1) (not_lt.1 c2)
      refine ⟨entryAt l r, _, entryAt_mem l r hr, rollDigits_fst _ _, fun _ => ?_, hd⟩
      apply rollDigits_range
      apply div_nonneg <;> linarith

/-- The invariants of a sampled artifact, from the shape of the list entries. -/
theorem get_drop_shape (u : ℚ) :
    (get_drop u).level = 0 ∧
    ((get_drop u).sub.length = 3 ∨ (get_drop u).sub.length = 4) ∧
    ((get_drop u).sub.map Prod.fst).Nodup ∧
    (∀ t ∈ (get_drop u).sub.map Prod.fst, t ≠ (get_drop u).main) ∧
    (get_drop u).main ∈ (MAIN_WEIGHT (get_drop u).set).map Prod.fst ∧
    ∀ e ∈ (get_drop u).sub, 7 ≤ e.2 ∧ e.2 ≤ 10 := by
  obtain ⟨x, sub, hx, hfst, hrolls, hd⟩ := get_drop_from_cases generated_artifacts
    generated_ne_nil (fun x hx => generated_prob_pos hx) u
  obtain ⟨_, s2, s3, s4, s5, s6, s7⟩ := generated_shape (List.mem_map_of_mem Prod.fst hx)
  have hl : sub.length = x.1.sub.length := by
    have := congrArg List.length hfst
    simpa using this
  rw [get_drop_eq, hd]
  refine ⟨s3, by rw [← hl] at s5; exact s5, ?_, ?_, s2, hrolls s4⟩
  · simp only [hfst]
    exact nodup_of_strict s6
  · simp only [hfst]
    exact fun t ht => (s7 t ht).2

end DATA

namespace DATA

theorem perms_first : [AFFIX_NAMES.atk, AFFIX_NAMES.def_, AFFIX_NAMES.hpp].permutations'
    = [[.atk, .def_, .hpp], [.def_, .atk, .hpp], [.def_, .hpp, .atk], [.atk, .hpp, .def_],
       [.hpp, .atk, .def_], [.hpp, .def_, .atk]] := by
  decide

theorem orderProb_cons (main : AFFIX_NAMES) (before : List AFFIX_NAMES) (t : AFFIX_NAMES)
    (rest : List AFFIX_NAMES) :
    orderProb main before (t :: rest)
      = (subWeight t : ℚ) / (remainingWeight main before : ℚ)
        * orderProb main (before ++ [t]) rest := rfl

theorem probFirst_value : probFirst = 6003 / 1469650 := by
  have hw : ∀ (b : List AFFIX_NAMES) (n : Nat), remainingWeight AFFIX_NAMES.hp b = n →
      ((remainingWeight AFFIX_NAMES.hp b : Nat) : ℚ) = (n : ℚ) := fun b n h => by rw [h]
  have r0 := hw [] 38 (by decide)
  have r1 := hw [.atk] 32 (by decide)
  have r2 := hw [.def_] 32 (by decide)
  have r3 := hw [.hpp] 34 (by decide)
  have r4 := hw [.atk, .def_] 26 (by decide)
  have r5 := hw [.def_, .atk] 26 (by decide)
  have r6 := hw [.hpp, .def_] 28 (by decide)
  have r7 := hw [.def_, .hpp] 28 (by decide)
  have r8 := hw [.hpp, .atk] 28 (by decide)
  have r9 := hw [.atk, .hpp] 28 (by decide)
  have s1 : ((subWeight AFFIX_NAMES.atk : Nat) : ℚ) = 6 := by
    have : subWeight AFFIX_NAMES.atk = 6 := by decide
    rw [this]; norm_num
  have s2 : ((subWeight AFFIX_NAMES.def_ : Nat) : ℚ) = 6 := by
    have : subWeight AFFIX_NAMES.def_ = 6 := by decide
    rw [this]; norm_num
  have s3 : ((subWeight AFFIX_NAMES.hpp : Nat) : ℚ) = 4 := by
    have : subWeight AFFIX_NAMES.hpp = 4 := by decide
    rw [this]; norm_num
  have hm : ((weighted_sum (MAIN_WEIGHT SET_NAMES.flower) : Nat) : ℚ) = 1 := by
    have : weighted_sum (MAIN_WEIGHT SET_NAMES.flower) = 1 := by decide
    rw [this]; norm_num
  have hnil : ∀ b, orderProb AFFIX_NAMES.hp b [] = 1 := fun b => by cases b <;> rfl
  have hperm : ([AFFIX_NAMES.atk, AFFIX_NAMES.def_, AFFIX_NAMES.hpp].permutations.map
      (orderProb AFFIX_NAMES.hp [])).sum
      = ([AFFIX_NAMES.atk, AFFIX_NAMES.def_, AFFIX_NAMES.hpp].permutations'.map
          (orderProb AFFIX_NAMES.hp [])).sum :=
    ((List.permutations_perm_permutations' _).map _).sum_eq
  rw [probFirst, subSetProb, hperm, perms_first, hm]
  simp only [List.map_cons, List.map_nil, List.sum_cons, List.sum_nil, orderProb_cons,
    List.nil_append, List.cons_append, hnil, r0, r1, r2, r3, r4, r5, r6, r7, r8, r9, s1, s2, s3]
  norm_num

theorem get_drop_from_head (a : Artifact) (p : ℚ) (tail : List (Artifact × ℚ))
    (hpos : ∀ x ∈ (a, p) :: tail, 0 < x.2) :
    get_drop_from (accumulate ((a, p) :: tail)) p = a := by
  have h := (get_drop_from_spec ((a, p) :: tail) (by simp) hpos p).1
    (by rw [cdfAt_zero])
  rw [h, entryAt_zero]

/-- At `randnum = cdf[0]` the sampler returns the first entry as stored, rolls at the
placeholder 7, while the digit expansion of the rescaled `randnum = 1` gives the rolls 10. -/
theorem get_drop_at_first_cdf :
    entryAt generated_artifacts 0 = (artifactFirst, 6003 / 1469650) ∧
    cdfAt generated_artifacts 0 = 6003 / 1469650 ∧
    get_drop (6003 / 1469650) = artifactFirst ∧
    rollDigits artifactFirst.sub (((6003 : ℚ) / 1469650 - 0) / (6003 / 1469650 - 0))
      = [(AFFIX_NAMES.atk, 10), (AFFIX_NAMES.def_, 10), (AFFIX_NAMES.hpp, 10)] := by
  obtain ⟨tail, ht⟩ := generated_head
  have hpos : ∀ x ∈ generated_artifacts, 0 < x.2 := fun x hx => generated_prob_pos hx
  rw [get_drop_eq, ht, entryAt_zero, cdfAt_zero, ← probFirst_value]
  rw [ht] at hpos
  refine ⟨rfl, rfl, get_drop_from_head _ _ _ hpos, ?_⟩
  have h1 : (probFirst - 0) / (probFirst - 0) = 1 := by
    rw [probFirst_value]; norm_num
  rw [h1, rollDigits_one]
  rfl

end DATA

/-! ## The expected cost is non-decreasing in the gain -/

namespace DP

open DATA

theorem resultOf_gain_cost (s : List ℚ) (B g : ℚ) (T : Nat) (v : Vec4) :
    (resultOf T (vecRecord s B g T T v)).2.1 = recGain s B g T T v ∧
    (resultOf T (vecRecord s B g T T v)).2.2.1 = recCost s B g T T v := by
  have hG : recGain s B g T T v = match vecRecord s B g T T v with
      | none => DOGFOOD_LOSS (5 - T)
      | some o => o.gain := rfl
  have hC : recCost s B g T T v = match vecRecord s B g T T v with
      | none => - DOGFOOD_LOSS (5 - T)
      | some o => o.cost := rfl
  rw [hG, hC]
  cases vecRecord s B g T T v with
  | none => exact ⟨rfl, rfl⟩
  | some o => exact ⟨rfl, rfl⟩

/-- With four subs, a level in `[0..5]` and every sub scored, the map overload returns the
result of one DP whose scores and bar do not depend on the gain. -/
theorem calc_map_four_uniform (a : Artifact) (m : AFFIX_NAMES → Option ℚ) (bar : ℚ)
    (h4 : a.sub.length = 4) (hl0 : 0 ≤ a.level) (hl5 : a.level ≤ 5)
    (hm : ∀ e ∈ a.sub, (m e.1).isSome) :
    ∃ sc B, ∀ gain, calc_map_four a m bar gain
      = .ok (resultOf (Int.toNat ((N : Int) - a.level))
          (vecRecord sc B gain (Int.toNat ((N : Int) - a.level))
            (Int.toNat ((N : Int) - a.level)) Vec4.zero)) := by
  obtain ⟨sc, hsc, hlen⟩ := select_sub_score_loop_ok m a.sub [] hm
  have hw : (a.sub.foldl (fun weight e => weight ++ [e.2]) ([] : List Int)).length = 4 := by
    rw [foldl_push_eq]
    simp [h4]
  have hT : Int.toNat ((N : Int) - a.level) ≤ 5 := by
    have : (N : Int) = 5 := rfl
    omega
  refine ⟨sc, bar - weightedScore
    (a.sub.foldl (fun weight e => weight ++ [e.2]) ([] : List Int)) sc, fun gain => ?_⟩
  have hcw := calc_weights_eq (a.sub.foldl (fun weight e => weight ++ [e.2]) ([] : List Int))
    sc (Int.toNat ((N : Int) - a.level)) bar gain hw (by rw [hlen, h4]; rfl) hT
  rw [calc_map_four, select_sub_score, hsc]
  exact hcw

/-- Four subs: `calc` returns for every gain, and its expected gain and cost are
non-decreasing in the gain; the cost is at least minus the feed value of the level. -/
theorem four_sub_mono (a : Artifact) (m : AFFIX_NAMES → Option ℚ) (bar : ℚ)
    (h4 : a.sub.length = 4) (hl0 : 0 ≤ a.level) (hl5 : a.level ≤ 5)
    (hm : ∀ e ∈ a.sub, (m e.1).isSome) :
    (∀ g, calc_map a m bar g = .ok (fourSubResult m bar g a)) ∧
    (∀ g1 g2, g1 ≤ g2 →
      (fourSubResult m bar g1 a).2.1 ≤ (fourSubResult m bar g2 a).2.1 ∧
      (fourSubResult m bar g1 a).2.2.1 ≤ (fourSubResult m bar g2 a).2.2.1) ∧
    ∀ g, - DOGFOOD_LOSS (5 - Int.toNat ((N : Int) - a.level)) ≤ (fourSubResult m bar g a).2.2.1 := by
  obtain ⟨sc, B, hres⟩ := calc_map_four_uniform a m bar h4 hl0 hl5 hm
  have hT : Int.toNat ((N : Int) - a.level) ≤ 5 := by
    have : (N : Int) = 5 := rfl
    omega
  have h3 : a.sub.length ≠ 3 := by rw [h4]; decide
  have hcalc : ∀ g, calc_map a m bar g
      = .ok (resultOf (Int.toNat ((N : Int) - a.level))
          (vecRecord sc B g (Int.toNat ((N : Int) - a.level))
            (Int.toNat ((N : Int) - a.level)) Vec4.zero)) := by
    intro g
    rw [calc_map_eq_four a m bar g h3, hres g]
  have hfour : ∀ g, fourSubResult m bar g a
      = resultOf (Int.toNat ((N : Int) - a.level))
          (vecRecord sc B g (Int.toNat ((N : Int) - a.level))
            (Int.toNat ((N : Int) - a.level)) Vec4.zero) :=
    fun g => fourSubResult_of_ok m bar g a _ (hcalc g)
  refine ⟨fun g => ?_, fun g1 g2 hg => ?_, fun g => ?_⟩
  · rw [hfour g]; exact hcalc g
  · rw [hfour g1, hfour g2, (resultOf_gain_cost _ _ _ _ _).1, (resultOf_gain_cost _ _ _ _ _).1,
      (resultOf_gain_cost _ _ _ _ _).2, (resultOf_gain_cost _ _ _ _ _).2]
    exact recGain_recCost_mono sc B g1 g2 hg _ hT _ le_rfl Vec4.zero
  · rw [hfour g, (resultOf_gain_cost _ _ _ _ _).2]
    exact recCost_ge sc B g _ hT _ le_rfl Vec4.zero

end DP

namespace DP

open DATA

theorem completionWeight_nonneg (art : Artifact) : 0 ≤ completionWeight art :=
  List.sum_nonneg (by
    intro y hy
    obtain ⟨x, _, rfl⟩ := List.mem_map.1 hy
    exact Nat.cast_nonneg _)

theorem completionMean_mono (art : Artifact) (res1 res2 : Artifact → Result) (x : Result → ℚ)
    (h : ∀ c ∈ completions art, x (res1 c.2) ≤ x (res2 c.2)) :
    completionMean art res1 x ≤ completionMean art res2 x := by
  unfold completionMean
  apply div_le_div_of_nonneg_right
  · apply List.sum_le_sum
    intro c hc
    exact mul_le_mul_of_nonneg_left (h c hc) (Nat.cast_nonneg _)
  · have := completionWeight_nonneg art
    linarith

theorem completionMean_ge (art : Artifact) (res : Artifact → Result) (x : Result → ℚ) (b : ℚ)
    (hb : b ≤ 0) (h : ∀ c ∈ completions art, b ≤ x (res c.2)) :
    b ≤ completionMean art res x := by
  unfold completionMean
  rcases eq_or_lt_of_le (completionWeight_nonneg art) with hW | hW
  · rw [← hW]
    simpa using hb
  · have h4 : 0 < 4 * completionWeight art := by linarith
    rw [le_div_iff₀ h4, ← sum_completion_weights, ← List.sum_map_mul_left]
    apply List.sum_le_sum
    intro c hc
    rw [mul_comm]
    exact mul_le_mul_of_nonneg_left (h c hc) (Nat.cast_nonneg _)

/-- Three subs at level 0: `calc` returns for every gain and its expected cost is
non-decreasing in the gain. -/
theorem three_sub_mono (a : Artifact) (m : AFFIX_NAMES → Option ℚ) (bar : ℚ)
    (h3 : a.sub.length = 3) (hl : a.level = 0)
    (hm : ∀ e ∈ SUB_PROB_WEIGHT, (m e.1).isSome) (hs : ∀ e ∈ a.sub, (m e.1).isSome) :
    (∀ g, calc_map a m bar g = .ok (fourSubResult m bar g a)) ∧
    ∀ g1 g2, g1 ≤ g2 →
      (fourSubResult m bar g1 a).2.2.1 ≤ (fourSubResult m bar g2 a).2.2.1 := by
  have hthree : ∀ g, fourSubResult m bar g a = threeSubResult a (fourSubResult m bar g) :=
    fun g => fourSubResult_of_ok m bar g a _ (calc_map_three a m bar g h3 hl hm hs)
  have hcomp : ∀ c ∈ completions a,
      (∀ g1 g2, g1 ≤ g2 →
        (fourSubResult m bar g1 c.2).2.1 ≤ (fourSubResult m bar g2 c.2).2.1 ∧
        (fourSubResult m bar g1 c.2).2.2.1 ≤ (fourSubResult m bar g2 c.2).2.2.1) ∧
      ∀ g, -3780 ≤ (fourSubResult m bar g c.2).2.2.1 := by
    intro c hc
    obtain ⟨e, he, r, rfl⟩ := mem_completions hc
    have h4 : (a.sub ++ [(e.1, r)]).length = 4 := by simp [h3]
    have hall : ∀ e' ∈ a.sub ++ [(e.1, r)], (m e'.1).isSome := by
      intro e' he'
      rcases List.mem_append.1 he' with h | h
      · exact hs e' h
      · rw [List.mem_singleton.1 h]; exact hm e he
    obtain ⟨_, k2, k3⟩ := four_sub_mono
      ({ a with sub := a.sub ++ [(e.1, r)], level := 1 } : Artifact) m bar h4
      (by simp) (by simp) hall
    refine ⟨k2, fun g => ?_⟩
    have hb := k3 g
    have hT : 5 - Int.toNat ((N : Int) - 1) = 1 := by
      have : (N : Int) = 5 := rfl
      rw [this]
      rfl
    simp only at hb
    rw [hT, dogfood_values.2.2.1] at hb
    linarith
  refine ⟨fun g => ?_, fun g1 g2 hg => ?_⟩
  · rw [hthree g]
    exact calc_map_three a m bar g h3 hl hm hs
  · have hG := completionMean_mono a (fourSubResult m bar g1) (fourSubResult m bar g2)
      (fun r => r.2.1) (fun c hc => ((hcomp c hc).1 g1 g2 hg).1)
    have hC := completionMean_mono a (fourSubResult m bar g1) (fourSubResult m bar g2)
      (fun r => r.2.2.1) (fun c hc => ((hcomp c hc).1 g1 g2 hg).2)
    have hge := completionMean_ge a (fourSubResult m bar g2) (fun r => r.2.2.1) (-3780)
      (by norm_num) (fun c hc => (hcomp c hc).2 g2)
    rw [hthree g1, hthree g2, threeSubResult, threeSubResult]
    by_cases c1 : completionMean a (fourSubResult m bar g1) (fun r => r.2.1) > 3780
    · have c2 : completionMean a (fourSubResult m bar g2) (fun r => r.2.1) > 3780 :=
        lt_of_lt_of_le c1 hG
      rw [if_pos c1, if_pos c2]
      exact hC
    · by_cases c2 : completionMean a (fourSubResult m bar g2) (fun r => r.2.1) > 3780
      · rw [if_neg c1, if_pos c2]
        exact hge
      · rw [if_neg c1, if_neg c2]

end DP

namespace DP

open DATA

theorem rollRank_seven (sub : List (AFFIX_NAMES × Int)) (h : ∀ x ∈ sub, x.2 = 7) :
    rollRank sub = 0 ∧ RollsIn sub := by
  induction sub with
  | nil => exact ⟨rfl, fun e he => by simp at he⟩
  | cons e rest ih =>
    obtain ⟨i1, i2⟩ := ih (fun x hx => h x (List.mem_cons_of_mem _ hx))
    have he := h e (List.mem_cons_self _ _)
    refine ⟨by simp only [rollRank, he, i1]; rfl, RollsIn.cons (by rw [he]; omega) i2⟩

theorem scored_of_rollable (m : AFFIX_NAMES → Option ℚ)
    (hm : ∀ t ∈ rollable, (m t).isSome) : ∀ e ∈ SUB_PROB_WEIGHT, (m e.1).isSome :=
  fun e he => hm e.1 (List.mem_map_of_mem Prod.fst he)

/-- For a level-0 artifact with 3 or 4 rollable subs, all scored: `calc` returns for every
gain and its expected cost does not decrease when the gain grows. -/
theorem calc_map_cost_mono (a : Artifact) (m : AFFIX_NAMES → Option ℚ) (bar : ℚ)
    (hm : ∀ t ∈ rollable, (m t).isSome) (hl : a.level = 0)
    (hlen : a.sub.length = 3 ∨ a.sub.length = 4)
    (hsub : ∀ t ∈ a.sub.map Prod.fst, t ∈ rollable) :
    (∀ g, calc_map a m bar g = .ok (fourSubResult m bar g a)) ∧
    ∀ g1 g2, g1 ≤ g2 →
      (fourSubResult m bar g1 a).2.2.1 ≤ (fourSubResult m bar g2 a).2.2.1 := by
  have hs : ∀ e ∈ a.sub, (m e.1).isSome :=
    fun e he => hm e.1 (hsub e.1 (List.mem_map_of_mem Prod.fst he))
  rcases hlen with h3 | h4
  · exact three_sub_mono a m bar h3 hl (scored_of_rollable m hm) hs
  · obtain ⟨k1, k2, _⟩ := four_sub_mono a m bar h4 (by rw [hl]) (by rw [hl]; norm_num) hs
    exact ⟨k1, fun g1 g2 hg => (k2 g1 g2 hg).2⟩

/-- Over a list of level-0 artifacts with 3 or 4 rollable subs at the placeholder roll and
non-negative rates, `get_expected_dfcost` returns for every gain and is non-decreasing in
the gain. -/
theorem get_expected_dfcost_mono (fuel : Nat) (m : AFFIX_NAMES → Option ℚ) (bar : ℚ)
    (allart : List (Artifact × ℚ)) (g1 g2 : ℚ) (hfuel : 256 ≤ fuel)
    (hm : ∀ t ∈ rollable, (m t).isSome)
    (hall : ∀ e ∈ allart, e.1.level = 0 ∧ (e.1.sub.length = 3 ∨ e.1.sub.length = 4) ∧
      (∀ x ∈ e.1.sub, x.2 = 7) ∧ (∀ t ∈ e.1.sub.map Prod.fst, t ∈ rollable) ∧ 0 ≤ e.2)
    (hg : g1 ≤ g2) :
    ∃ c1 c2, get_expected_dfcost fuel m bar allart g1 = .ok c1 ∧
      get_expected_dfcost fuel m bar allart g2 = .ok c2 ∧ c1 ≤ c2 := by
  have hentry : ∀ e ∈ allart, RollsIn e.1.sub ∧
      4 ^ e.1.sub.length < fuel + rollRank e.1.sub + 1 ∧
      ∀ s ∈ visitedRolls fuel e.1.sub,
        (∀ g, calc_map { e.1 with sub := s } m bar g
          = .ok (fourSubResult m bar g { e.1 with sub := s })) ∧
        ∀ g1 g2, g1 ≤ g2 →
          (fourSubResult m bar g1 { e.1 with sub := s }).2.2.1
            ≤ (fourSubResult m bar g2 { e.1 with sub := s }).2.2.1 := by
    intro e he
    obtain ⟨hl, hlen, h7, hroll, _⟩ := hall e he
    obtain ⟨hrank, hin⟩ := rollRank_seven e.1.sub h7
    have hpow : 4 ^ e.1.sub.length ≤ 256 := by
      rcases hlen with h | h <;> rw [h] <;> norm_num
    have hf : 4 ^ e.1.sub.length < fuel + rollRank e.1.sub + 1 := by omega
    refine ⟨hin, hf, fun s hs => ?_⟩
    obtain ⟨hfst, _⟩ := (visitedRolls_spec fuel e.1.sub hin (by omega)).2 s hs
    have hslen : s.length = e.1.sub.length := by
      have := congrArg List.length hfst
      simpa using this
    exact calc_map_cost_mono { e.1 with sub := s } m bar hm hl
      (by simp only [hslen]; exact hlen) (by simp only [hfst]; exact hroll)
  have heq : ∀ g, get_expected_dfcost fuel m bar allart g
      = .ok ((allart.map fun e => ((visitedRolls fuel e.1.sub).map fun s =>
          (fourSubResult m bar g { e.1 with sub := s }).2.2.1
            * (e.2 / 4 ^ e.1.sub.length)).sum).sum) := by
    intro g
    apply get_expected_dfcost_eq
    intro e he
    obtain ⟨k1, k2, k3⟩ := hentry e he
    exact ⟨k1, k2, fun s hs => ⟨_, (k3 s hs).1 g⟩⟩
  refine ⟨_, _, heq g1, heq g2, ?_⟩
  apply List.sum_le_sum
  intro e he
  apply List.sum_le_sum
  intro s hs
  have hrate : 0 ≤ e.2 / 4 ^ e.1.sub.length :=
    div_nonneg (hall e he).2.2.2.2 (by positivity)
  exact mul_le_mul_of_nonneg_right (((hentry e he).2.2 s hs).2 g1 g2 hg) hrate

end DP

namespace DATA

/-- Every entry of `get_all_artifacts_with_probs(set)` is an artifact of the generated list
with a non-negative probability. -/
theorem entry_of_get_all (s : SET_NAMES) {e : Artifact × ℚ}
    (he : e ∈ get_all_artifacts_with_probs s) :
    e.1 ∈ generated_artifacts.map Prod.fst ∧ 0 ≤ e.2 := by
  by_cases hs : s = SET_NAMES.end_
  · rw [hs, get_all_end] at he
    exact ⟨List.mem_map_of_mem Prod.fst he, le_of_lt (generated_prob_pos he)⟩
  · rw [get_all_set s hs] at he
    obtain ⟨x, hx, rfl⟩ := List.mem_map.1 he
    have hx' := (List.mem_filter.1 hx).1
    have := generated_prob_pos hx'
    exact ⟨List.mem_map.2 ⟨x, hx', rfl⟩, by simp only; linarith⟩

end DATA

/-! ## The expected cost when every roll vector costs the same -/

namespace DP

open DATA

theorem sum_map_sub_mul {α : Type} (l : List α) (f g : α → ℚ) (c : ℚ) :
    (l.map fun e => c * f e - c * g e).sum = c * ((l.map f).sum - (l.map g).sum) := by
  induction l with
  | nil => simp
  | cons a l ih => simp only [List.map_cons, List.sum_cons, ih]; ring

/-- When `calc` returns the same cost `c` for every roll vector of every artifact, the loop
of `get_expected_dfcost` leaves out the share `rate / 4^n` of each artifact, the one of the
placeholder vector, while the sum over all combinations is `c` times the total rate. -/
theorem const_cost_eval (fuel : Nat) (m : AFFIX_NAMES → Option ℚ) (bar gain c : ℚ)
    (allart : List (Artifact × ℚ)) (hfuel : 256 ≤ fuel)
    (hall : ∀ e ∈ allart, (∀ x ∈ e.1.sub, x.2 = 7) ∧
      (e.1.sub.length = 3 ∨ e.1.sub.length = 4) ∧
      ∀ s, s.map Prod.fst = e.1.sub.map Prod.fst →
        ∃ r, calc_map { e.1 with sub := s } m bar gain = .ok r ∧ r.2.2.1 = c) :
    get_expected_dfcost fuel m bar allart gain
      = .ok (c * (sumProbs allart - (allart.map fun e => e.2 / 4 ^ e.1.sub.length).sum)) ∧
    expected_dfcost_all_combos m bar allart gain = c * sumProbs allart := by
  have hbase : ∀ e ∈ allart, rollRank e.1.sub = 0 ∧ RollsIn e.1.sub ∧
      4 ^ e.1.sub.length ≤ fuel + rollRank e.1.sub := by
    intro e he
    obtain ⟨h7, hlen, _⟩ := hall e he
    obtain ⟨hrank, hin⟩ := rollRank_seven e.1.sub h7
    have hpow : 4 ^ e.1.sub.length ≤ 256 := by
      rcases hlen with h | h <;> rw [h] <;> norm_num
    exact ⟨hrank, hin, by omega⟩
  constructor
  · rw [get_expected_dfcost_eq fuel m bar gain allart (by
      intro e he
      obtain ⟨_, hin, hf⟩ := hbase e he
      refine ⟨hin, by omega, fun s hs => ?_⟩
      obtain ⟨r, hr, _⟩ := (hall e he).2.2 s
        ((visitedRolls_spec fuel e.1.sub hin (by omega)).2 s hs).1
      exact ⟨r, hr⟩)]
    congr 1
    rw [sumProbs, ← sum_map_sub_mul]
    apply congrArg List.sum
    apply List.map_congr_left
    intro e he
    obtain ⟨hrank, hin, hf⟩ := hbase e he
    have hv := visitedRolls_spec fuel e.1.sub hin (by omega)
    rw [sum_map_const_of_forall _ _ (c * (e.2 / 4 ^ e.1.sub.length)) (by
      intro s hs
      obtain ⟨r, hr, hrc⟩ := (hall e he).2.2 s (hv.2 s hs).1
      rw [fourSubResult_of_ok m bar gain _ r hr, hrc])]
    have hlen : ((visitedRolls fuel e.1.sub).length : ℚ) = 4 ^ e.1.sub.length - 1 := by
      have h1 := hv.1
      rw [hrank] at h1
      have h2 : ((visitedRolls fuel e.1.sub).length : ℚ) + 0 + 1 = 4 ^ e.1.sub.length := by
        exact_mod_cast h1
      linarith
    have h4 : (4 : ℚ) ^ e.1.sub.length ≠ 0 := by positivity
    rw [hlen]
    field_simp
    ring
  · rw [expected_dfcost_all_combos, sumProbs, ← List.sum_map_mul_left]
    apply congrArg List.sum
    apply List.map_congr_left
    intro e he
    have hr := rollCombos_spec (e.1.sub.map Prod.fst)
    rw [sum_map_const_of_forall _ _ (e.2 / 4 ^ e.1.sub.length * c) (by
      intro s hs
      obtain ⟨r, hr', hrc⟩ := (hall e he).2.2 s (hr.2 s hs).1
      rw [fourSubResult_of_ok m bar gain _ r hr', hrc])]
    rw [hr.1, List.length_map]
    have h4 : (4 : ℚ) ^ e.1.sub.length ≠ 0 := by positivity
    push_cast
    field_simp
    ring

end DP

namespace DP

open DATA

/-- With every score 0 and the bar at 0, a four-sub artifact at level 0 or 1 surely
succeeds: `calc` returns `(true, gain, 270475, 1, _)` for every gain above 3780. -/
theorem calc_four_sure_zero (a : Artifact) (h4 : a.sub.length = 4)
    (hl : a.level = 0 ∨ a.level = 1) (gain : ℚ) (hg : gain > 3780) :
    ∃ E, calc_map a scoresZero 0 gain = .ok (true, gain, 270475, 1, E) := by
  have hsc : (a.sub.map fun _ => (0 : ℚ)) = List.replicate 4 0 := by
    rw [← h4]
    exact List.map_const' _ _
  have hw : (a.sub.foldl (fun weight e => weight ++ [e.2]) ([] : List Int)).length = 4 := by
    rw [foldl_push_eq]
    simp [h4]
  have h3 : a.sub.length ≠ 3 := by rw [h4]; decide
  have hT : Int.toNat ((N : Int) - a.level) ≤ 5 ∧
      gain > DOGFOOD_LOSS (5 - Int.toNat ((N : Int) - a.level)) := by
    rcases hl with h | h
    · have e : Int.toNat ((N : Int) - a.level) = 5 := by rw [h]; rfl
      rw [e]
      refine ⟨le_rfl, ?_⟩
      rw [Nat.sub_self, dogfood_values.2.1]
      exact hg
    · have e : Int.toNat ((N : Int) - a.level) = 4 := by rw [h]; rfl
      rw [e]
      refine ⟨by norm_num, ?_⟩
      have e1 : 5 - 4 = 1 := rfl
      rw [e1, dogfood_values.2.2.1]
      linarith
  refine ⟨meanExcess (a.sub.foldl (fun weight e => weight ++ [e.2]) ([] : List Int))
    (List.replicate 4 0) (Int.toNat ((N : Int) - a.level)) 0, ?_⟩
  rw [calc_map_eq_four a scoresZero 0 gain h3, calc_map_four, select_sub_score,
    select_sub_score_loop_zero, List.nil_append, hsc]
  simp only [calc_art]
  exact calc_weights_sure _ (List.replicate 4 0) _ 0 gain hw rfl hT.1
    (by intro x hx; rw [List.eq_of_mem_replicate hx])
    (by rw [weightedScore_zero]) hT.2

theorem completionMean_const (art : Artifact) (res : Artifact → Result) (x : Result → ℚ)
    (v : ℚ) (hW : 0 < completionWeight art) (h : ∀ c ∈ completions art, x (res c.2) = v) :
    completionMean art res x = v := by
  unfold completionMean
  have h4 : 4 * completionWeight art ≠ 0 := by linarith
  rw [div_eq_iff h4, ← sum_completion_weights, ← List.sum_map_mul_left]
  apply congrArg List.sum
  apply List.map_congr_left
  intro c hc
  rw [h c hc, mul_comm]

theorem completionWeight_pos (art : Artifact) (h3 : art.sub.length = 3) :
    0 < completionWeight art := by
  have h := weighted_sum_sub_distribution art.main (art.sub.map Prod.fst)
  rw [List.length_map, h3, weighted_sum_eq] at h
  have hpos : 0 < ((get_sub_distribution art.main (art.sub.map Prod.fst)).map Prod.snd).sum := by
    omega
  rw [completionWeight, ← cast_sum_snd]
  exact_mod_cast hpos

theorem calc_three_sure_zero (a : Artifact) (h3 : a.sub.length = 3) (hl : a.level = 0)
    (gain : ℚ) (hg : gain > 3780) :
    ∃ r, calc_map a scoresZero 0 gain = .ok r ∧ r.2.2.1 = 270475 := by
  have hres : ∀ c ∈ completions a,
      (fourSubResult scoresZero 0 gain c.2).2.1 = gain ∧
      (fourSubResult scoresZero 0 gain c.2).2.2.1 = 270475 := by
    intro c hc
    obtain ⟨e, _, r, rfl⟩ := mem_completions hc
    have h4 : (a.sub ++ [(e.1, r)]).length = 4 := by simp [h3]
    obtain ⟨E, hE⟩ := calc_four_sure_zero
      ({ a with sub := a.sub ++ [(e.1, r)], level := 1 } : Artifact) h4 (Or.inr rfl) gain hg
    rw [fourSubResult_of_ok scoresZero 0 gain _ _ hE]
    exact ⟨rfl, rfl⟩
  have hW := completionWeight_pos a h3
  have hG := completionMean_const a (fourSubResult scoresZero 0 gain) (fun r => r.2.1) gain hW
    (fun c hc => (hres c hc).1)
  have hC := completionMean_const a (fourSubResult scoresZero 0 gain) (fun r => r.2.2.1)
    270475 hW (fun c hc => (hres c hc).2)
  refine ⟨_, calc_map_three a scoresZero 0 gain h3 hl (fun _ _ => rfl) (fun _ _ => rfl), ?_⟩
  rw [threeSubResult, hG, if_pos hg, hC]

end DP

namespace DATA

/-- The rate shares `rate / 4^n` of one set, by main and number of subs. -/
theorem sum_rate_shares_of_set (s : SET_NAMES) :
    ((artifacts_of_set s).map fun e => e.2 / 4 ^ e.1.sub.length).sum
      = ((MAIN_WEIGHT s).map fun me =>
          (INITIAL_AFFIX_NUM_WEIGHT.map fun ie =>
            1 / 5 * (me.2 : ℚ) / (weighted_sum (MAIN_WEIGHT s) : ℚ) * (ie.2 : ℚ) / 5
              / 4 ^ ie.1).sum).sum := by
  have h5 : ((weighted_sum INITIAL_AFFIX_NUM_WEIGHT : Nat) : ℚ) = 5 := by
    have : weighted_sum INITIAL_AFFIX_NUM_WEIGHT = 5 := by decide
    rw [this]; norm_num
  have hs5 : ((SET_NUMBER : Nat) : ℚ) = 5 := by
    have : SET_NUMBER = 5 := rfl
    rw [this]; norm_num
  simp only [artifacts_of_set, get_main_distribution_eq, h5, hs5]
  rw [DP.sum_map_flatMap]
  apply congrArg List.sum
  apply List.map_congr_left
  intro me _
  rw [DP.sum_map_flatMap]
  apply congrArg List.sum
  apply List.map_congr_left
  intro ie hie
  have hle : ie.1 ≤ 6 := by
    rcases (initial_weight_spec hie).2 with h | h <;> omega
  have h1 := sumProbs_filtered ie.1 me.1 hle
  rw [List.map_map]
  have hfun : ∀ se ∈ filtered_possible_sub_orders ie.1 me.1,
      ((fun e : Artifact × ℚ => e.2 / 4 ^ e.1.sub.length) ∘ fun se : List AFFIX_NAMES × ℚ =>
        ((⟨s, me.1, se.1.map fun sub_name => (sub_name, (AFFIX_UPDATE_MIN : Int)), 0⟩ : Artifact),
          1 / 5 * (me.2 : ℚ) / (weighted_sum (MAIN_WEIGHT s) : ℚ) * (ie.2 : ℚ) / 5 * se.2)) se
        = (1 / 5 * (me.2 : ℚ) / (weighted_sum (MAIN_WEIGHT s) : ℚ) * (ie.2 : ℚ) / 5 / 4 ^ ie.1)
            * se.2 := by
    intro se hse
    have hl := ((filtered_spec ie.1 me.1).2.1 se hse).1.1
    simp only [Function.comp_apply, List.length_map, hl]
    ring
  rw [List.map_congr_left hfun, List.sum_map_mul_left]
  unfold sumProbs at h1
  rw [h1, mul_one]

theorem sum_rate_shares_of_set_eq (s : SET_NAMES) (hs : s ∈ all_sets) :
    ((artifacts_of_set s).map fun e => e.2 / 4 ^ e.1.sub.length).sum = 17 / 6400 := by
  rw [sum_rate_shares_of_set]
  simp only [all_sets, List.mem_cons, List.mem_singleton, List.not_mem_nil, or_false] at hs
  rcases hs with h | h | h | h | h <;> subst h <;>
    simp [MAIN_WEIGHT, INITIAL_AFFIX_NUM_WEIGHT, weighted_sum] <;> norm_num

/-- Over the whole generated list the shares `rate / 4^n` total `17/1280`. -/
theorem sum_rate_shares :
    (generated_artifacts.map fun e => e.2 / 4 ^ e.1.sub.length).sum = 17 / 1280 := by
  rw [generated_artifacts, DP.sum_map_flatMap]
  have : all_sets.map (fun s => ((artifacts_of_set s).map fun e =>
        e.2 / 4 ^ e.1.sub.length).sum)
      = all_sets.map fun _ => (17 / 6400 : ℚ) :=
    List.map_congr_left fun s hs => sum_rate_shares_of_set_eq s hs
  rw [this]
  simp [all_sets]
  norm_num

end DATA

namespace DP

open DATA

/-- With every score 0, the bar at 0 and gain 1000000, `calc` costs 270475 on every roll
vector of every generated artifact; the loop of `get_expected_dfcost` then returns
`270475 * (1 - 17/1280)` while the sum over all roll combinations is 270475. -/
theorem expected_dfcost_zero_scores :
    get_expected_dfcost 256 scoresZero 0 generated_artifacts 1000000
      = .ok (270475 * (1 - 17 / 1280)) ∧
    expected_dfcost_all_combos scoresZero 0 generated_artifacts 1000000 = 270475 := by
  have h := const_cost_eval 256 scoresZero 0 1000000 270475 generated_artifacts le_rfl (by
    intro e he
    obtain ⟨_, _, hl, h7, hlen, _, _⟩ :=
      generated_shape (List.mem_map_of_mem Prod.fst he)
    refine ⟨h7, hlen, fun s hs => ?_⟩
    have hslen : s.length = e.1.sub.length := by
      have := congrArg List.length hs
      simpa using this
    rcases hlen with h3 | h4
    · exact calc_three_sure_zero { e.1 with sub := s } (by simp only [hslen]; exact h3) hl
        1000000 (by norm_num)
    · obtain ⟨E, hE⟩ := calc_four_sure_zero { e.1 with sub := s }
        (by simp only [hslen]; exact h4) (Or.inl hl) 1000000 (by norm_num)
      exact ⟨_, hE, rfl⟩)
  rw [sumProbs_generated, sum_rate_shares] at h
  rw [h.1, h.2, mul_one]
  exact ⟨rfl, rfl⟩

end DP

namespace DP

open DATA

/-- Over `get_all_artifacts_with_probs(set)`, with the rollable affixes scored and 256
iterations allowed to each roll loop, `get_expected_dfcost` returns for every gain. -/
theorem get_expected_dfcost_returns (fuel : Nat) (m : AFFIX_NAMES → Option ℚ) (bar : ℚ)
    (set : SET_NAMES) (hfuel : 256 ≤ fuel) (hm : ∀ t ∈ rollable, (m t).isSome) (g : ℚ) :
    get_expected_dfcost fuel m bar (get_all_artifacts_with_probs set) g
      = .ok (dfcostValue fuel m bar (get_all_artifacts_with_probs set) g) := by
  obtain ⟨c1, _, h1, _, _⟩ := get_expected_dfcost_mono fuel m bar
    (get_all_artifacts_with_probs set) g g hfuel hm (by
      intro e he
      obtain ⟨hmem, hrate⟩ := entry_of_get_all set he
      obtain ⟨_, _, hl, h7, hlen, _, hroll⟩ := generated_shape hmem
      exact ⟨hl, hlen, h7, fun t ht => (hroll t ht).1, hrate⟩) le_rfl
  rw [dfcostValue, h1]

theorem scoresS2_total : ∀ t ∈ rollable, (scoresS2 t).isSome := by decide

end DP

/-! ## Errors of `artifact_appear_rate` and of `calc` -/

namespace DATA

theorem get_weight_error {T : Type} [DecidableEq T] (l : List (T × Nat)) {k : T}
    (h : ¬ k ∈ l.map Prod.fst) :
    get_weight_from_distribution k l = .error Error.weight_not_in_distribution := by
  induction l with
  | nil => rfl
  | cons e l ih =>
    obtain ⟨k', v'⟩ := e
    rw [List.map_cons, List.mem_cons, not_or] at h
    rw [get_weight_from_distribution, if_neg (fun hk => h.1 hk.symm)]
    exact ih h.2

theorem drawable_cons_iff {main : AFFIX_NAMES} {before rest : List AFFIX_NAMES}
    {a : AFFIX_NAMES} :
    Drawable main before (a :: rest)
      ↔ (a ∈ rollable ∧ a ≠ main ∧ ¬ a ∈ before) ∧ Drawable main (before ++ [a]) rest := by
  constructor
  · exact drawable_cons
  · rintro ⟨⟨h1, h2, h3⟩, hn, hall⟩
    refine ⟨List.nodup_cons.2 ⟨fun hmem => ?_, hn⟩, fun b hb => ?_⟩
    · exact (hall a hmem).2.2 (by simp)
    · rcases List.mem_cons.1 hb with rfl | hb
      · exact ⟨h1, h2, h3⟩
      · obtain ⟨b1, b2, b3⟩ := hall b hb
        exact ⟨b1, b2, fun hbb => b3 (List.mem_append_left _ hbb)⟩

theorem mem_sub_distribution_keys {main : AFFIX_NAMES} {calc_subs : List AFFIX_NAMES}
    {name : AFFIX_NAMES} :
    name ∈ (get_sub_distribution main calc_subs).map Prod.fst
      ↔ name ∈ rollable ∧ name ≠ main ∧ ¬ name ∈ calc_subs := by
  constructor
  · intro h
    obtain ⟨e, he, rfl⟩ := List.mem_map.1 h
    obtain ⟨h1, h2, h3⟩ := mem_get_sub_distribution.1 he
    exact ⟨List.mem_map_of_mem Prod.fst h1, h2, h3⟩
  · rintro ⟨h1, h2, h3⟩
    obtain ⟨e, he, rfl⟩ := List.mem_map.1 h1
    exact List.mem_map_of_mem Prod.fst (mem_get_sub_distribution.2 ⟨he, h2, h3⟩)

/-- The sub loop of `artifact_appear_rate` throws when some sub is not rollable, equals the
main, is among the subs before it or repeats. -/
theorem appearSubLoop_error (main : AFFIX_NAMES) : ∀ (p : List (AFFIX_NAMES × Int))
    (calc_subs : List AFFIX_NAMES) (rate : ℚ), ¬ Drawable main calc_subs (p.map Prod.fst) →
    appearSubLoop main p calc_subs rate = .error Error.weight_not_in_distribution := by
  intro p
  induction p with
  | nil =>
    intro calc_subs rate h
    exact absurd ⟨List.nodup_nil, fun a ha => by simp at ha⟩ h
  | cons e rest ih =>
    intro calc_subs rate h
    obtain ⟨name, w⟩ := e
    rw [List.map_cons, drawable_cons_iff, not_and] at h
    rw [appearSubLoop]
    by_cases hk : name ∈ rollable ∧ name ≠ main ∧ ¬ name ∈ calc_subs
    · rw [get_weight_sub hk.1 hk.2.1 hk.2.2]
      simp only
      exact ih _ _ (h hk)
    · rw [get_weight_error _ (fun hmem => hk (mem_sub_distribution_keys.1 hmem))]

theorem orderProb_le_one (main : AFFIX_NAMES) : ∀ (t before : List AFFIX_NAMES),
    Drawable main before t → before.length + t.length ≤ 7 → orderProb main before t ≤ 1 := by
  intro t
  induction t with
  | nil => intro _ _ _; simp [orderProb]
  | cons a t ih =>
    intro before hd hlen
    simp only [List.length_cons] at hlen
    obtain ⟨⟨h1, h2, h3⟩, hrest⟩ := drawable_cons hd
    rw [orderProb]
    have hpos : (0 : ℚ) < (remainingWeight main before : ℚ) := by
      exact_mod_cast remainingWeight_pos main before (by omega)
    have hle : subWeight a ≤ remainingWeight main before := by
      unfold remainingWeight
      apply List.single_le_sum (fun x _ => Nat.zero_le x)
      apply List.mem_map_of_mem
      rw [List.mem_filter]
      exact ⟨h1, by simpa using ⟨h2, h3⟩⟩
    have hfrac : (subWeight a : ℚ) / (remainingWeight main before : ℚ) ≤ 1 := by
      rw [div_le_one hpos]
      exact_mod_cast hle
    have hfrac0 : (0 : ℚ) ≤ (subWeight a : ℚ) / (remainingWeight main before : ℚ) := by
      positivity
    have ih' := ih (before ++ [a]) hrest
      (by simp only [List.length_append, List.length_singleton]; omega)
    have ih0 := le_of_lt (orderProb_pos main t (before ++ [a])
      (fun b hb => (hrest.2 b hb).1)
      (by simp only [List.length_append, List.length_singleton]; omega))
    calc (subWeight a : ℚ) / (remainingWeight main before : ℚ) * orderProb main (before ++ [a]) t
        ≤ 1 * 1 := mul_le_mul hfrac ih' ih0 (by norm_num)
      _ = 1 := by norm_num

theorem main_weight_le_sum {s : SET_NAMES} {me : AFFIX_NAMES × Nat} (h : me ∈ MAIN_WEIGHT s) :
    me.2 ≤ weighted_sum (MAIN_WEIGHT s) := by
  rw [DP.weighted_sum_eq]
  exact List.single_le_sum (fun x _ => Nat.zero_le x) _ (List.mem_map_of_mem Prod.snd h)

end DATA

namespace DATA

/-- The structural conditions under which `artifact_appear_rate` is defined: level 0, 3 or
4 subs, a main of the set, and pairwise distinct rollable subs other than the main. -/
theorem appear_rate_ok (a : Artifact) (hl : a.level = 0)
    (hlen : a.sub.length = 3 ∨ a.sub.length = 4)
    (hmain : a.main ∈ (MAIN_WEIGHT a.set).map Prod.fst) (hn : (a.sub.map Prod.fst).Nodup)
    (hr : ∀ t ∈ a.sub.map Prod.fst, t ∈ rollable ∧ t ≠ a.main) :
    ∃ r, artifact_appear_rate a = .ok r ∧ 0 < r ∧ r ≤ 1 := by
  obtain ⟨me, hme, hmeq⟩ := List.mem_map.1 hmain
  have hme' : (a.main, me.2) ∈ MAIN_WEIGHT a.set := by rw [← hmeq]; exact hme
  have hd : Drawable a.main [] (a.sub.map Prod.fst) :=
    ⟨hn, fun t ht => ⟨(hr t ht).1, (hr t ht).2, by simp⟩⟩
  have hie : ∃ iw, (a.sub.length, iw) ∈ INITIAL_AFFIX_NUM_WEIGHT ∧ 0 < iw ∧ iw ≤ 5 := by
    rcases hlen with h | h
    · exact ⟨4, by rw [h]; decide, by norm_num, by norm_num⟩
    · exact ⟨1, by rw [h]; decide, by norm_num, by norm_num⟩
  obtain ⟨iw, hiw, hiw0, hiw5⟩ := hie
  have hlen7 : ([] : List AFFIX_NAMES).length + (a.sub.map Prod.fst).length ≤ 7 := by
    simp only [List.length_nil, List.length_map]
    rcases hlen with h | h <;> omega
  have ho0 := orderProb_pos a.main (a.sub.map Prod.fst) [] (fun t ht => (hr t ht).1) hlen7
  have ho1 := orderProb_le_one a.main (a.sub.map Prod.fst) [] hd hlen7
  have hm0 : (0 : ℚ) < (me.2 : ℚ) := by exact_mod_cast main_weight_pos hme
  have hmle : (me.2 : ℚ) ≤ (weighted_sum (MAIN_WEIGHT a.set) : ℚ) := by
    exact_mod_cast main_weight_le_sum hme
  have hs0 : (0 : ℚ) < (weighted_sum (MAIN_WEIGHT a.set) : ℚ) := lt_of_lt_of_le hm0 hmle
  have hi0 : (0 : ℚ) < (iw : ℚ) := by exact_mod_cast hiw0
  have hi5 : (iw : ℚ) ≤ 5 := by exact_mod_cast hiw5
  refine ⟨_, artifact_appear_rate_eq a iw me.2 hl hiw hme' hd, by positivity, ?_⟩
  have e : 1 / 5 * (me.2 : ℚ) / (weighted_sum (MAIN_WEIGHT a.set) : ℚ) * (iw : ℚ) / 5
        * orderProb a.main [] (a.sub.map Prod.fst)
      = (1 / 5) * ((me.2 : ℚ) / (weighted_sum (MAIN_WEIGHT a.set) : ℚ)) * ((iw : ℚ) / 5)
        * orderProb a.main [] (a.sub.map Prod.fst) := by ring
  rw [e]
  have f1 : (me.2 : ℚ) / (weighted_sum (MAIN_WEIGHT a.set) : ℚ) ≤ 1 := by
    rw [div_le_one hs0]; exact hmle
  have f10 : (0 : ℚ) ≤ (me.2 : ℚ) / (weighted_sum (MAIN_WEIGHT a.set) : ℚ) := by positivity
  have f2 : (iw : ℚ) / 5 ≤ 1 := by rw [div_le_one (by norm_num)]; exact hi5
  have f20 : (0 : ℚ) ≤ (iw : ℚ) / 5 := by positivity
  have g1 : (1 / 5 : ℚ) * ((me.2 : ℚ) / (weighted_sum (MAIN_WEIGHT a.set) : ℚ)) ≤ 1 := by
    nlinarith
  have g10 : (0 : ℚ) ≤ (1 / 5 : ℚ) * ((me.2 : ℚ) / (weighted_sum (MAIN_WEIGHT a.set) : ℚ)) := by
    positivity
  have g2 : (1 / 5 : ℚ) * ((me.2 : ℚ) / (weighted_sum (MAIN_WEIGHT a.set) : ℚ)) * ((iw : ℚ) / 5)
      ≤ 1 := by
    calc (1 / 5 : ℚ) * ((me.2 : ℚ) / (weighted_sum (MAIN_WEIGHT a.set) : ℚ)) * ((iw : ℚ) / 5)
        ≤ 1 * 1 := mul_le_mul g1 f2 f20 (by norm_num)
      _ = 1 := by norm_num
  calc (1 / 5 : ℚ) * ((me.2 : ℚ) / (weighted_sum (MAIN_WEIGHT a.set) : ℚ)) * ((iw : ℚ) / 5)
        * orderProb a.main [] (a.sub.map Prod.fst)
      ≤ 1 * 1 := mul_le_mul g2 ho1 (le_of_lt ho0) (by norm_num)
    _ = 1 := by norm_num

/-- Outside these conditions `artifact_appear_rate` throws. -/
theorem appear_rate_error (a : Artifact)
    (h : ¬ (a.level = 0 ∧ (a.sub.length = 3 ∨ a.sub.length = 4) ∧
      a.main ∈ (MAIN_WEIGHT a.set).map Prod.fst ∧ (a.sub.map Prod.fst).Nodup ∧
      ∀ t ∈ a.sub.map Prod.fst, t ∈ rollable ∧ t ≠ a.main)) :
    ∃ e, artifact_appear_rate a = .error e := by
  rw [artifact_appear_rate]
  by_cases h1 : a.level = 0 ∧ (a.sub.length = 3 ∨ a.sub.length = 4)
  · rw [if_neg (not_not.2 h1)]
    have hie : ∃ iw, (a.sub.length, iw) ∈ INITIAL_AFFIX_NUM_WEIGHT := by
      rcases h1.2 with h | h
      · exact ⟨4, by rw [h]; decide⟩
      · exact ⟨1, by rw [h]; decide⟩
    obtain ⟨iw, hiw⟩ := hie
    have hin : ((INITIAL_AFFIX_NUM_WEIGHT).map Prod.fst).Nodup := by decide
    rw [get_weight_of_mem _ hin hiw]
    simp only
    rw [get_main_distribution_eq]
    by_cases h2 : a.main ∈ (MAIN_WEIGHT a.set).map Prod.fst
    · obtain ⟨me, hme, hmeq⟩ := List.mem_map.1 h2
      have hme' : (a.main, me.2) ∈ MAIN_WEIGHT a.set := by rw [← hmeq]; exact hme
      rw [get_weight_of_mem _ (main_weight_keys_nodup a.set) hme']
      simp only
      have hd : ¬ Drawable a.main [] (a.sub.map Prod.fst) := by
        rintro ⟨hn, hall⟩
        exact h ⟨h1.1, h1.2, h2, hn, fun t ht => ⟨(hall t ht).1, (hall t ht).2.1⟩⟩
      exact ⟨_, appearSubLoop_error a.main a.sub [] _ hd⟩
    · rw [get_weight_error _ h2]
      exact ⟨_, rfl⟩
  · rw [if_pos h1]
    exact ⟨_, rfl⟩

end DATA

namespace DP

open DATA

theorem select_sub_score_loop_length (m : AFFIX_NAMES → Option ℚ) :
    ∀ (l : List (AFFIX_NAMES × Int)) (res sc : List ℚ),
      select_sub_score_loop m l res = .ok sc → sc.length = res.length + l.length := by
  intro l
  induction l with
  | nil =>
    intro res sc h
    simp only [select_sub_score_loop, Except.ok.injEq] at h
    rw [← h]
    rfl
  | cons e l ih =>
    intro res sc h
    rw [select_sub_score_loop] at h
    cases hm : m e.1 with
    | none => rw [hm] at h; simp at h
    | some x =>
      rw [hm] at h
      have := ih _ _ h
      simp only [List.length_append, List.length_singleton, List.length_cons,
        List.length_nil] at this ⊢
      omega

theorem calc_weights_size (w : List Int) (s : List ℚ) (T : Nat) (bar gain : ℚ)
    (h : w.length ≠ 4 ∨ s.length ≠ 4) :
    calc_weights w s T bar gain = .error Error.size_mismatch := by
  have h' : w.length ≠ DATA.AFFIX_NUM ∨ s.length ≠ DATA.AFFIX_NUM := h
  rw [calc_weights, if_pos h']

/-- With a number of subs other than 3 and 4 the map overload throws: either a sub has no
score, or the vector overload rejects the size. -/
theorem calc_map_wrong_count (art : Artifact) (m : AFFIX_NAMES → Option ℚ) (bar gain : ℚ)
    (h3 : art.sub.length ≠ 3) (h4 : art.sub.length ≠ 4) :
    ∃ e, calc_map art m bar gain = .error e := by
  rw [calc_map_eq_four art m bar gain h3, calc_map_four, select_sub_score]
  cases hsel : select_sub_score_loop m art.sub [] with
  | error e => exact ⟨e, rfl⟩
  | ok sc =>
    have hlen := select_sub_score_loop_length m art.sub [] sc hsel
    simp only [calc_art]
    refine ⟨_, calc_weights_size _ sc _ bar gain (Or.inr ?_)⟩
    rw [hlen]
    simpa using h4

theorem calc_map_three_level (art : Artifact) (m : AFFIX_NAMES → Option ℚ) (bar gain : ℚ)
    (h3 : art.sub.length = 3) (hl : art.level ≠ 0) :
    calc_map art m bar gain = .error Error.three_sub_level_not_zero := by
  rw [calc_map, if_pos h3, if_pos hl]

/-- The counts of a table row add up to the number of pick sequences. -/
theorem cell_counts_sum (k : Nat) (hk : k ≤ 5) : ((cell k).map Prod.snd).sum = 16 ^ k := by
  have h := weightedSum_one_cell k hk
  have e : weightedSum (fun _ => 1) (cell k) = (((cell k).map Prod.snd).sum : Nat) := by
    rw [weightedSum, cast_sum_snd]
    simp
  rw [e] at h
  exact_mod_cast h

theorem cell_zero : cell 0 = [(0, 1)] := by decide

end DP

namespace DATA

theorem appear_rate_formula (a : Artifact) (iw mw : Nat) (hl : a.level = 0)
    (hi : (a.sub.length, iw) ∈ INITIAL_AFFIX_NUM_WEIGHT) (hm : (a.main, mw) ∈ MAIN_WEIGHT a.set)
    (hn : (a.sub.map Prod.fst).Nodup)
    (hr : ∀ t ∈ a.sub.map Prod.fst, t ∈ rollable ∧ t ≠ a.main) :
    artifact_appear_rate a
      = .ok (1 / 5 * ((iw : ℚ) / 5) * ((mw : ℚ) / (weighted_sum (MAIN_WEIGHT a.set) : ℚ))
          * orderProb a.main [] (a.sub.map Prod.fst)) := by
  have hd : Drawable a.main [] (a.sub.map Prod.fst) :=
    ⟨hn, fun t ht => ⟨(hr t ht).1, (hr t ht).2, by simp⟩⟩
  rw [artifact_appear_rate_eq a iw mw hl hi hm hd]
  congr 1
  ring

theorem appear_rate_rolls (a : Artifact) (iw mw : Nat) (hl : a.level = 0)
    (hi : (a.sub.length, iw) ∈ INITIAL_AFFIX_NUM_WEIGHT) (hm : (a.main, mw) ∈ MAIN_WEIGHT a.set)
    (hn : (a.sub.map Prod.fst).Nodup)
    (hr : ∀ t ∈ a.sub.map Prod.fst, t ∈ rollable ∧ t ≠ a.main)
    (sub2 : List (AFFIX_NAMES × Int)) (h : sub2.map Prod.fst = a.sub.map Prod.fst) :
    artifact_appear_rate { a with sub := sub2 } = artifact_appear_rate a := by
  have hlen : sub2.length = a.sub.length := by
    have := congrArg List.length h
    simpa using this
  rw [appear_rate_formula a iw mw hl hi hm hn hr,
    appear_rate_formula { a with sub := sub2 } iw mw hl (by simp only [hlen]; exact hi) hm
      (by simp only [h]; exact hn) (by simp only [h]; exact hr)]
  simp only [h]

end DATA

/-! ## The rows of the upgrade-state table -/

namespace DP

theorem mapIncr_sorted (id : Nat) (m : List (Nat × Nat))
    (h : (m.map Prod.fst).Pairwise (fun a b => a < b)) :
    ((mapIncr id m).map Prod.fst).Pairwise (fun a b => a < b) := by
  induction m with
  | nil => simp [mapIncr]
  | cons e rest ih =>
    obtain ⟨k, c⟩ := e
    rw [List.map_cons, List.pairwise_cons] at h
    obtain ⟨hk, hrest⟩ := h
    unfold mapIncr
    split_ifs with h1 h2
    · simp only [List.map_cons, List.pairwise_cons]
      refine ⟨?_, hk, hrest⟩
      intro a ha
      rcases List.mem_cons.1 ha with rfl | ha
      · exact h1
      · exact lt_trans h1 (hk a ha)
    · simp only [List.map_cons, List.pairwise_cons]
      exact ⟨hk, hrest⟩
    · simp only [List.map_cons, List.pairwise_cons]
      refine ⟨?_, ih hrest⟩
      intro a ha
      rcases (mem_keys_mapIncr id a rest).1 ha with rfl | ha
      · omega
      · exact hk a ha

theorem dfs_preserves (P : List (Nat × Nat) → Prop) (hP : ∀ id m, P m → P (mapIncr id m)) :
    ∀ (n : Nat) (current : List Nat) (m : List (Nat × Nat)), P m → P (dfs n current m) := by
  intro n
  induction n with
  | zero => intro current m hm; exact hP _ _ hm
  | succ n ih =>
    intro current m hm
    rw [dfs_succ]
    generalize picks = l
    induction l generalizing m with
    | nil => exact hm
    | cons p l ihl => exact ihl _ (ih _ _ hm)

theorem cell_keys_sorted (k : Nat) : ((cell k).map Prod.fst).Pairwise (fun a b => a < b) := by
  rw [cell]
  split_ifs
  · exact dfs_preserves (fun m => (m.map Prod.fst).Pairwise (fun a b => a < b))
      (fun id m hm => mapIncr_sorted id m hm) k _ [] List.Pairwise.nil
  · exact List.Pairwise.nil

theorem cell_keys_nodup (k : Nat) : ((cell k).map Prod.fst).Nodup :=
  (cell_keys_sorted k).imp fun h => Nat.ne_of_lt h

theorem weightedSum_indicator (m : List (Nat × Nat)) (hn : (m.map Prod.fst).Nodup)
    {e : Nat × Nat} (he : e ∈ m) :
    weightedSum (fun c => if c = e.1 then 1 else 0) m = (e.2 : ℚ) := by
  induction m with
  | nil => simp at he
  | cons a m ih =>
    rw [List.map_cons, List.nodup_cons] at hn
    have hsplit : weightedSum (fun c => if c = e.1 then 1 else 0) (a :: m)
        = (a.2 : ℚ) * (if a.1 = e.1 then 1 else 0)
          + weightedSum (fun c => if c = e.1 then 1 else 0) m := by
      simp [weightedSum]
    rw [hsplit]
    rcases List.mem_cons.1 he with rfl | hmem
    · have hz : weightedSum (fun c => if c = e.1 then (1 : ℚ) else 0) m = 0 := by
        unfold weightedSum
        apply List.sum_eq_zero
        intro x hx
        obtain ⟨y, hy, rfl⟩ := List.mem_map.1 hx
        have hne : ¬ y.1 = e.1 := by
          intro heq
          apply hn.1
          rw [← heq]
          exact List.mem_map_of_mem Prod.fst hy
        simp only [if_neg hne, mul_zero]
      rw [hz, if_pos rfl]
      ring
    · have hne : ¬ a.1 = e.1 := by
        intro heq
        apply hn.1
        rw [heq]
        exact List.mem_map_of_mem Prod.fst hmem
      rw [if_neg hne, ih hn.2 hmem]
      ring

theorem sum_indicator_countP {α : Type} (l : List α) (p : α → Prop) [DecidablePred p] :
    (l.map fun q => if p q then (1 : ℚ) else 0).sum = ((l.countP fun q => decide (p q) : Nat) : ℚ) := by
  induction l with
  | nil => simp
  | cons a l ih =>
    by_cases h : p a
    · simp [List.countP_cons, h, ih]
      ring
    · simp [List.countP_cons, h, ih]

theorem mem_of_mem_pickSeqs : ∀ (k : Nat) (q : List (Nat × Nat)), q ∈ pickSeqs k →
    ∀ p ∈ q, p ∈ picks := by
  intro k
  induction k with
  | zero =>
    intro q hq p hp
    simp only [pickSeqs, List.mem_singleton] at hq
    subst hq
    simp at hp
  | succ k ih =>
    intro q hq p hp
    obtain ⟨p0, hp0, q', hq', rfl⟩ := (mem_pickSeqs_succ k q).1 hq
    rcases List.mem_cons.1 hp with rfl | hp
    · exact hp0
    · exact ih q' hq' p hp

theorem applyCurrent_mirror : ∀ (q : List (Nat × Nat)) (u : Vec4), (∀ p ∈ q, p.1 < 4) →
    applyCurrent u.toCurrent q = (applySeq u (q.map mirrorPick)).toCurrent := by
  intro q
  induction q with
  | nil => intro u _; rfl
  | cons p q ih =>
    intro u h
    have hp := h p (List.mem_cons_self _ _)
    have hstep : applyCurrent u.toCurrent (p :: q) = applyCurrent (addAt u.toCurrent p.1 p.2) q :=
      rfl
    have hstep2 : applySeq u ((p :: q).map mirrorPick)
        = applySeq (u.bump (3 - p.1) p.2) (q.map mirrorPick) := rfl
    have hidx : p.1 = 3 - (3 - p.1) := by omega
    rw [hstep, hstep2]
    conv_lhs => rw [hidx]
    rw [addAt_toCurrent u (3 - p.1) p.2 (by omega)]
    exact ih _ (fun p' hp' => h p' (List.mem_cons_of_mem _ hp'))

theorem picks_mirror_perm : (picks.map mirrorPick).Perm picks := by
  rw [picks_eq]
  decide

theorem pickSeqs_mirror_perm (k : Nat) :
    ((pickSeqs k).map (List.map mirrorPick)).Perm (pickSeqs k) := by
  induction k with
  | zero => simp [pickSeqs]
  | succ k ih =>
    have h1 : (pickSeqs (k + 1)).map (List.map mirrorPick)
        = (picks.map mirrorPick).flatMap fun p =>
            ((pickSeqs k).map (List.map mirrorPick)).map fun q => p :: q := by
      simp only [pickSeqs, List.map_flatMap, List.flatMap_map, List.map_map]
      rfl
    rw [h1]
    have h2 : ((picks.map mirrorPick).flatMap fun p =>
          ((pickSeqs k).map (List.map mirrorPick)).map fun q => p :: q).Perm
        ((picks.map mirrorPick).flatMap fun p => (pickSeqs k).map fun q => p :: q) :=
      List.Perm.flatMap_left _ (fun p _ => ih.map _)
    exact h2.trans (List.Perm.flatMap_right _ picks_mirror_perm)

theorem applySeq_cons_zero (p : Nat × Nat) (q : List (Nat × Nat)) :
    applySeq Vec4.zero (p :: q) = (applySeq Vec4.zero q).bump p.1 p.2 := by
  have hgen : ∀ (q : List (Nat × Nat)) (u : Vec4),
      applySeq u q = u.add (applySeq Vec4.zero q) := by
    intro q
    induction q with
    | nil => intro u; simp [applySeq, Vec4.add_zero]
    | cons p q ih =>
      intro u
      have e1 : applySeq u (p :: q) = applySeq (u.bump p.1 p.2) q := rfl
      have e2 : applySeq Vec4.zero (p :: q) = applySeq (Vec4.zero.bump p.1 p.2) q := rfl
      rw [e1, e2, ih (u.bump p.1 p.2), ih (Vec4.zero.bump p.1 p.2), Vec4.bump_add,
        Vec4.bump_add, Vec4.zero_add]
  have e2 : applySeq Vec4.zero (p :: q) = applySeq (Vec4.zero.bump p.1 p.2) q := rfl
  rw [e2, hgen q, Vec4.bump_add, Vec4.zero_add]

theorem reach_of_seq : ∀ (k : Nat) (q : List (Nat × Nat)), q ∈ pickSeqs k →
    Reach k (applySeq Vec4.zero q) := by
  intro k
  induction k with
  | zero =>
    intro q hq
    simp only [pickSeqs, List.mem_singleton] at hq
    subst hq
    rfl
  | succ k ih =>
    intro q hq
    obtain ⟨p, hp, q', hq', rfl⟩ := (mem_pickSeqs_succ k q).1 hq
    obtain ⟨h1, h2, h3⟩ := of_mem_picks hp
    rw [applySeq_cons_zero]
    exact (ih q' hq').succ h1 h2 h3

theorem seq_of_reach : ∀ (k : Nat) (v : Vec4), Reach k v →
    ∃ q ∈ pickSeqs k, applySeq Vec4.zero q = v := by
  intro k
  induction k with
  | zero =>
    intro v hv
    exact ⟨[], by simp [pickSeqs], hv.symm⟩
  | succ k ih =>
    intro v hv
    obtain ⟨v', slot, upd, hv', h1, h2, h3, rfl⟩ := hv
    obtain ⟨q, hq, rfl⟩ := ih v' hv'
    exact ⟨(slot, upd) :: q,
      (mem_pickSeqs_succ k _).2 ⟨_, mem_picks h1 h2 h3, q, hq, rfl⟩, applySeq_cons_zero _ _⟩

theorem reach_code_injective {k : Nat} (hk : k ≤ 5) {v w : Vec4} (hv : Reach k v)
    (hw : Reach k w) (h : v.code = w.code) : v = w := by
  have bv : v.BoundedBy 63 := by
    have := hv.bounded
    simp only [Vec4.BoundedBy] at this ⊢
    omega
  have bw : w.BoundedBy 63 := by
    have := hw.bounded
    simp only [Vec4.BoundedBy] at this ⊢
    omega
  rw [← decode_code v bv, ← decode_code w bw, h]

end DP

namespace DP

theorem mirrored_mem_pickSeqs {k : Nat} {q : List (Nat × Nat)} (hq : q ∈ pickSeqs k) :
    q.map mirrorPick ∈ pickSeqs k :=
  (pickSeqs_mirror_perm k).subset (List.mem_map_of_mem _ hq)

theorem pack_applyCurrent_zero {k : Nat} {q : List (Nat × Nat)} (hq : q ∈ pickSeqs k) :
    packCurrent (applyCurrent (List.replicate DATA.AFFIX_NUM 0) q)
      = (applySeq Vec4.zero (q.map mirrorPick)).code := by
  have hz : List.replicate DATA.AFFIX_NUM 0 = Vec4.zero.toCurrent := rfl
  rw [hz, applyCurrent_mirror q Vec4.zero
    (fun p hp => (of_mem_picks (mem_of_mem_pickSeqs k q hq p hp)).1), packCurrent_toCurrent]

/-- The count stored with a code is the number of pick sequences that produce the vector of
that code. -/
theorem cell_entry_spec (k : Nat) (hk : k ≤ 5) {e : Nat × Nat} (he : e ∈ cell k) :
    ∃ v, Reach k v ∧ e.1 = v.code ∧ e.2 = seqCount k v := by
  have hk' : k ≤ N := hk
  have hkey : e.1 ∈ (cell k).map Prod.fst := List.mem_map_of_mem Prod.fst he
  rw [cell, if_pos hk', mem_keys_dfs] at hkey
  rcases hkey with hkey | ⟨q0, hq0, hcode⟩
  · simp at hkey
  rw [pack_applyCurrent_zero hq0] at hcode
  have hreach : Reach k (applySeq Vec4.zero (q0.map mirrorPick)) :=
    reach_of_seq k _ (mirrored_mem_pickSeqs hq0)
  refine ⟨applySeq Vec4.zero (q0.map mirrorPick), hreach, hcode, ?_⟩
  have hcount := weightedSum_indicator (cell k) (cell_keys_nodup k) he
  have hsum : weightedSum (fun c => if c = e.1 then (1 : ℚ) else 0) (cell k)
      = ((pickSeqs k).map fun q =>
          if packCurrent (applyCurrent (List.replicate DATA.AFFIX_NUM 0) q) = e.1
          then (1 : ℚ) else 0).sum := by
    rw [cell, if_pos hk', weightedSum_dfs]
    simp [weightedSum]
  have hmap : ((pickSeqs k).map fun q =>
        if packCurrent (applyCurrent (List.replicate DATA.AFFIX_NUM 0) q) = e.1
        then (1 : ℚ) else 0)
      = ((pickSeqs k).map (List.map mirrorPick)).map fun q =>
          if applySeq Vec4.zero q = applySeq Vec4.zero (q0.map mirrorPick)
          then (1 : ℚ) else 0 := by
    rw [List.map_map]
    apply List.map_congr_left
    intro q hq
    simp only [Function.comp_apply]
    rw [pack_applyCurrent_zero hq, hcode]
    have hr := reach_of_seq k _ (mirrored_mem_pickSeqs hq)
    by_cases heq : applySeq Vec4.zero (q.map mirrorPick)
        = applySeq Vec4.zero (q0.map mirrorPick)
    · rw [if_pos heq, if_pos (by rw [heq])]
    · rw [if_neg heq, if_neg (fun hc => heq (reach_code_injective hk hr hreach hc))]
  rw [hsum, hmap, ((pickSeqs_mirror_perm k).map _).sum_eq, sum_indicator_countP] at hcount
  have : (seqCount k (applySeq Vec4.zero (q0.map mirrorPick)) : ℚ) = (e.2 : ℚ) := hcount
  exact_mod_cast this.symm

/-- Every reachable vector has its entry, with its number of pick sequences. -/
theorem cell_mem_of_reach (k : Nat) (hk : k ≤ 5) {v : Vec4} (hv : Reach k v) :
    (v.code, seqCount k v) ∈ cell k := by
  obtain ⟨e, he, hcode⟩ := List.mem_map.1 (hv.code_mem_cell hk)
  obtain ⟨w, hw, h1, h2⟩ := cell_entry_spec k hk he
  have hvw : w = v := reach_code_injective hk hw hv (by rw [← h1, hcode])
  subst hvw
  have : e = (w.code, seqCount k w) := Prod.ext h1 h2
  rw [← this]
  exact he

theorem reach_bounded_fifty {k : Nat} (hk : k ≤ 5) {v : Vec4} (hv : Reach k v) :
    v.BoundedBy 50 ∧ decode v.code = v := by
  have hb := hv.bounded
  have b50 : v.BoundedBy 50 := by
    simp only [Vec4.BoundedBy] at hb ⊢
    omega
  have b63 : v.BoundedBy 63 := by
    simp only [Vec4.BoundedBy] at hb ⊢
    omega
  exact ⟨b50, decode_code v b63⟩

end DP

/-! ## The table as program state -/

namespace DP

theorem init_idem (st : DPState) : init (init st) = init st := by
  by_cases h : st.IS_INIT = true
  · have e : init st = st := by rw [init, if_pos h]
    rw [e, e]
  · have e : (init st).IS_INIT = true := by rw [init, if_neg h]
    rw [init, if_pos e]

theorem foldl_initStep_cell (i : Nat) : ∀ (l : List Nat) (st : DPState), l.Nodup →
    (l.foldl initStep st).cell i
      = if i ∈ l then st.cell i ++ dfs i (List.replicate DATA.AFFIX_NUM 0) [] else st.cell i := by
  intro l
  induction l with
  | nil => intro st _; simp
  | cons n l ih =>
    intro st hn
    rw [List.nodup_cons] at hn
    rw [List.foldl_cons, ih _ hn.2]
    have hstep : (initStep st n).cell i
        = if i = n then st.cell i ++ dfs n (List.replicate DATA.AFFIX_NUM 0) []
          else st.cell i := by
      simp only [initStep]
      split_ifs with h
      · rw [foldl_push_eq (fun e => e), List.map_id']
      · rfl
    rw [hstep]
    by_cases hin : i = n
    · subst hin
      rw [if_neg hn.1, if_pos rfl, if_pos (List.mem_cons_self _ _)]
    · rw [if_neg hin]
      by_cases hl : i ∈ l
      · rw [if_pos hl, if_pos (List.mem_cons_of_mem _ hl)]
      · rw [if_neg hl, if_neg (fun hc => by
          rcases List.mem_cons.1 hc with h | h
          · exact hin h
          · exact hl h)]

/-- After `init` from the start of the program the rows are the table `cell`. -/
theorem init_start_cell : (init DPState.start).cell = cell := by
  funext i
  have h : (init DPState.start).cell i
      = ((List.range (N + 1)).foldl initStep DPState.start).cell i := rfl
  rw [h, foldl_initStep_cell i _ _ (List.nodup_range _), cell]
  simp only [List.mem_range, DPState.start, List.nil_append]
  by_cases hi : i ≤ N
  · rw [if_pos hi, if_pos (by omega)]
  · rw [if_neg hi, if_neg (by omega)]

theorem calcLevelsOn_cell (SCORE : List ℚ) (SCORE_BAR max_increase gain : ℚ)
    (upgrade_time : Nat) : ∀ (i : Nat) (dp_map : Nat → DpMap),
    calcLevelsOn cell SCORE SCORE_BAR max_increase gain upgrade_time i dp_map
      = calcLevels SCORE SCORE_BAR max_increase gain upgrade_time i dp_map := by
  intro i
  induction i with
  | zero => intro dp_map; rfl
  | succ i ih =>
    intro dp_map
    rw [calcLevelsOn, calcLevels, ih]
    rfl

/-- A call of `calc` from globals whose rows are the table: the state after is `init` of
the state before, and the result is the one of `calc_weights`. -/
theorem calc_weights_st_eq (st : DPState) (h : (init st).cell = cell) (w : List Int)
    (s : List ℚ) (T : Nat) (bar gain : ℚ) :
    calc_weights_st st w s T bar gain = (init st, calc_weights w s T bar gain) := by
  unfold calc_weights_st calc_weights
  simp only [h, calcLevelsOn_cell]
  split_ifs
  · rfl
  · split <;> rfl

end DP

/-! ## Random artifacts with seeded fields -/

namespace DATA

theorem get_weight_ok_mem {T : Type} [DecidableEq T] (l : List (T × Nat)) {k : T} {v : Nat}
    (h : get_weight_from_distribution k l = .ok v) : k ∈ l.map Prod.fst := by
  by_contra hk
  rw [get_weight_error l hk] at h
  exact Except.noConfusion h

theorem getD_append_cons {α : Type} (done : List α) (e : α) (rest : List α) (d : α) :
    (done ++ e :: rest).getD done.length d = e := by
  rw [List.getD_eq_getElem?_getD, List.getElem?_append_right (le_refl _)]
  simp

/-- A run of the first loop of `random_one_artifact` that ends without a throw has checked
every seeded slot: the seeded affixes are drawable and the seeded rolls are in range. -/
theorem subAffixLoop_ok (main : AFFIX_NAMES) : ∀ (todo done : List (AFFIX_NAMES × Int))
    (n : Nat) (draws : List Nat) (r : List AFFIX_NAMES × List Nat), todo.length ≤ n →
    subAffixLoop main (done ++ todo) n done.length (done.map Prod.fst) draws = .ok r →
    Drawable main (done.map Prod.fst) (todo.map Prod.fst) ∧
      ∀ e ∈ todo, (7 : Int) ≤ e.2 ∧ e.2 ≤ 10 := by
  intro todo
  induction todo with
  | nil =>
    intro done n draws r _ _
    exact ⟨⟨List.nodup_nil, fun a ha => by simp at ha⟩, fun e he => by simp at he⟩
  | cons e rest ih =>
    intro done n draws r hn h
    cases n with
    | zero => simp at hn
    | succ n =>
      have hi : done.length < (done ++ e :: rest).length := by
        rw [List.length_append, List.length_cons]
        omega
      rw [subAffixLoop, if_pos hi, getD_append_cons] at h
      cases hw : get_weight_from_distribution e.1
          (get_sub_distribution main (done.map Prod.fst)) with
      | error err =>
        rw [hw] at h
        exact Except.noConfusion h
      | ok v =>
        rw [hw] at h
        simp only at h
        have hmem := mem_sub_distribution_keys.1 (get_weight_ok_mem _ hw)
        by_cases hr : (AFFIX_UPDATE_MAX : Int) < e.2 ∨ (AFFIX_UPDATE_MIN : Int) > e.2
        · rw [if_pos hr] at h
          exact Except.noConfusion h
        · rw [if_neg hr] at h
          have hrange : (7 : Int) ≤ e.2 ∧ e.2 ≤ 10 := by
            simp only [AFFIX_UPDATE_MAX, AFFIX_UPDATE_MIN, not_or, not_lt, gt_iff_lt] at hr
            constructor
            · exact_mod_cast hr.2
            · exact_mod_cast hr.1
          have hsub : done ++ e :: rest = (done ++ [e]) ++ rest := by
            rw [List.append_assoc, List.singleton_append]
          have hlen : done.length + 1 = (done ++ [e]).length := by
            rw [List.length_append, List.length_singleton]
          have hmap : done.map Prod.fst ++ [e.1] = (done ++ [e]).map Prod.fst := by
            rw [List.map_append, List.map_singleton]
          rw [hsub, hlen, hmap] at h
          have hrec := ih (done ++ [e]) n draws r
            (by rw [List.length_cons] at hn; omega) h
          rw [← hmap] at hrec
          refine ⟨?_, fun x hx => ?_⟩
          · rw [List.map_cons]
            exact drawable_cons_iff.2 ⟨hmem, hrec.1⟩
          · rcases List.mem_cons.1 hx with hx | hx
            · rw [hx]
              exact hrange
            · exact hrec.2 x hx

theorem initial_key_cases {initial : Int}
    (h : initial ∈ (INITIAL_AFFIX_NUM_WEIGHT.map fun e => ((e.1 : Int), e.2)).map Prod.fst) :
    initial = 3 ∨ initial = 4 := by
  simp [INITIAL_AFFIX_NUM_WEIGHT] at h
  exact h

theorem weighted_rand_pick_mem {T : Type} : ∀ (vec : List (T × Nat)) (ret : Nat) (t : T),
    weighted_rand_pick vec ret = .ok t → t ∈ vec.map Prod.fst := by
  intro vec
  induction vec with
  | nil =>
    intro ret t h
    exact Except.noConfusion h
  | cons e vec ih =>
    intro ret t h
    obtain ⟨i, j⟩ := e
    rw [weighted_rand_pick] at h
    by_cases hlt : ret < j
    · rw [if_pos hlt] at h
      injection h with h
      rw [← h]
      simp
    · rw [if_neg hlt] at h
      rw [List.map_cons]
      exact List.mem_cons_of_mem _ (ih _ _ h)

theorem weighted_rand_mem {T : Type} (vec : List (T × Nat)) (draws : List Nat)
    (r : T × List Nat) (h : weighted_rand vec draws = .ok r) : r.1 ∈ vec.map Prod.fst := by
  rw [weighted_rand] at h
  cases hp : weighted_rand_pick vec (randint (weighted_sum vec) draws).1 with
  | error e =>
    rw [hp] at h
    exact Except.noConfusion h
  | ok t =>
    rw [hp] at h
    injection h with h
    rw [← h]
    exact weighted_rand_pick_mem vec _ t hp

/-- What a return of the part of `random_one_artifact` after the choice of main implies for
its arguments. -/
theorem random_subs_ok (set : SET_NAMES) (main : AFFIX_NAMES) (initial : Int)
    (sub : List (AFFIX_NAMES × Int)) (draws : List Nat) (a : Artifact)
    (h : random_subs set main initial sub draws = .ok a) :
    a.set = set ∧ a.main = main ∧ a.level = 0 ∧
    (initial = 0 ∨ initial = 3 ∨ initial = 4) ∧
    (initial ≠ 0 → (sub.length : Int) ≤ initial) ∧
    Drawable main [] (sub.map Prod.fst) ∧ ∀ e ∈ sub, (7 : Int) ≤ e.2 ∧ e.2 ≤ 10 := by
  have key : ∀ (r : Nat × List Nat),
      (if sub.length > r.1 then (.error Error.sub_number_too_much : Except Error Artifact)
        else
          match subAffixLoop main sub r.1 0 [] r.2 with
          | .error e => .error e
          | .ok l => .ok ⟨set, main, fillRolls (l.1.drop sub.length) sub l.2, 0⟩) = .ok a →
      a.set = set ∧ a.main = main ∧ a.level = 0 ∧ sub.length ≤ r.1 ∧
        Drawable main [] (sub.map Prod.fst) ∧ ∀ e ∈ sub, (7 : Int) ≤ e.2 ∧ e.2 ≤ 10 := by
    intro r hr
    by_cases hgt : sub.length > r.1
    · rw [if_pos hgt] at hr
      exact Except.noConfusion hr
    · rw [if_neg hgt] at hr
      cases hl : subAffixLoop main sub r.1 0 [] r.2 with
      | error e =>
        rw [hl] at hr
        exact Except.noConfusion hr
      | ok l =>
        rw [hl] at hr
        injection hr with hr
        have hloop := subAffixLoop_ok main sub [] r.1 r.2 l (by omega) hl
        rw [← hr]
        exact ⟨rfl, rfl, rfl, by omega, hloop⟩
  unfold random_subs at h
  by_cases h0 : initial = 0
  · rw [if_pos h0] at h
    cases hw : weighted_rand INITIAL_AFFIX_NUM_WEIGHT draws with
    | error e =>
      rw [hw] at h
      exact Except.noConfusion h
    | ok r =>
      rw [hw] at h
      obtain ⟨h1, h2, h3, _, h5, h6⟩ := key (r.1, r.2) h
      exact ⟨h1, h2, h3, Or.inl h0, fun hne => absurd h0 hne, h5, h6⟩
  · rw [if_neg h0] at h
    cases hw : get_weight_from_distribution initial
        (INITIAL_AFFIX_NUM_WEIGHT.map fun e => ((e.1 : Int), e.2)) with
    | error e =>
      rw [hw] at h
      exact Except.noConfusion h
    | ok v =>
      rw [hw] at h
      obtain ⟨h1, h2, h3, h4, h5, h6⟩ := key (Int.toNat initial, draws) h
      have hc := initial_key_cases (get_weight_ok_mem _ hw)
      refine ⟨h1, h2, h3, Or.inr hc, fun _ => ?_, h5, h6⟩
      have h4' : sub.length ≤ Int.toNat initial := h4
      omega

theorem random_set_valid (draws : List Nat) : (get_random_set draws).1 ∈ all_sets := by
  have h : (randint SET_NUMBER draws).1 < 5 := Nat.mod_lt _ (by decide)
  have hs : ∀ x, x < 5 → set_of_index (x + 1) ∈ all_sets := by decide
  exact hs _ h

/-- What a return of `random_one_artifact` implies for its arguments. -/
theorem random_one_artifact_ok (set : SET_NAMES) (main : AFFIX_NAMES) (initial : Int)
    (sub : List (AFFIX_NAMES × Int)) (draws : List Nat) (a : Artifact)
    (h : random_one_artifact set main initial sub draws = .ok a) :
    (set ≠ SET_NAMES.end_ → a.set = set) ∧
    (main ≠ AFFIX_NAMES.end_ → a.main = main) ∧
    a.main ∈ (MAIN_WEIGHT a.set).map Prod.fst ∧
    (initial = 0 ∨ initial = 3 ∨ initial = 4) ∧
    (initial ≠ 0 → (sub.length : Int) ≤ initial) ∧
    Drawable a.main [] (sub.map Prod.fst) ∧ ∀ e ∈ sub, (7 : Int) ≤ e.2 ∧ e.2 ≤ 10 := by
  unfold random_one_artifact at h
  by_cases hm : main = AFFIX_NAMES.end_
  · rw [if_pos hm] at h
    generalize hset : (if set = SET_NAMES.end_ then (get_random_set draws).1 else set) = set2
      at h
    cases hw : weighted_rand (get_main_distribution set2)
        (if set = SET_NAMES.end_ then (get_random_set draws).2 else draws) with
    | error e =>
      rw [hw] at h
      exact Except.noConfusion h
    | ok r =>
      rw [hw] at h
      obtain ⟨h1, h2, _, h4, h5, h6, h7⟩ := random_subs_ok _ _ _ _ _ _ h
      have hmem := weighted_rand_mem _ _ _ hw
      rw [get_main_distribution_eq] at hmem
      refine ⟨fun hne => ?_, fun hne => absurd hm hne, ?_, h4, h5, ?_, h7⟩
      · rw [h1, ← hset, if_neg hne]
      · rw [h1, h2]
        exact hmem
      · rw [h2]
        exact h6
  · rw [if_neg hm] at h
    generalize hset : (if set = SET_NAMES.end_ then (get_random_set draws).1 else set) = set2
      at h
    cases hw : get_weight_from_distribution main (get_main_distribution set2) with
    | error e =>
      rw [hw] at h
      exact Except.noConfusion h
    | ok v =>
      rw [hw] at h
      obtain ⟨h1, h2, _, h4, h5, h6, h7⟩ := random_subs_ok _ _ _ _ _ _ h
      have hmem := get_weight_ok_mem _ hw
      rw [get_main_distribution_eq] at hmem
      refine ⟨fun hne => ?_, fun _ => h2, ?_, h4, h5, ?_, h7⟩
      · rw [h1, ← hset, if_neg hne]
      · rw [h1, h2]
        exact hmem
      · rw [h2]
        exact h6

end DATA

namespace DATA

theorem error_of_not_ok {α : Type} (x : Except Error α) (h : ∀ a, x = .ok a → False) :
    ∃ e, x = .error e := by
  cases x with
  | error e => exact ⟨e, rfl⟩
  | ok a => exact absurd rfl (h a)

end DATA

/-! ## The text form: `to_string` and the string constructor -/

namespace DATA

theorem blank_nil : Blank [] := fun c hc => by simp at hc

theorem blank_append {a b : List Char} (ha : Blank a) (hb : Blank b) : Blank (a ++ b) := by
  intro c hc
  rcases List.mem_append.1 hc with h | h
  · exact ha c h
  · exact hb c h

theorem blank_replicate (n : Nat) : Blank (List.replicate n ' ') := by
  intro c hc
  rw [(List.mem_replicate.1 hc).2]
  decide

theorem blank_space : Blank [' '] := blank_replicate 1

theorem startsBlank_of_blank {l : List Char} (h : Blank l) : StartsBlank l := by
  cases l with
  | nil => trivial
  | cons c cs => exact h c (List.mem_cons_self _ _)

theorem startsBlank_append {a b : List Char} (ha : Blank a) (hb : StartsBlank b) :
    StartsBlank (a ++ b) := by
  cases a with
  | nil => exact hb
  | cons c cs => exact ha c (List.mem_cons_self _ _)

theorem skipws_blank_append (pre rest : List Char) (h : Blank pre) :
    skipws (pre ++ rest) = skipws rest := by
  induction pre with
  | nil => rfl
  | cons c cs ih =>
    rw [List.cons_append, skipws, if_pos (h c (List.mem_cons_self _ _))]
    exact ih fun d hd => h d (List.mem_cons_of_mem _ hd)

theorem skipws_blank (l : List Char) (h : Blank l) : skipws l = [] := by
  have := skipws_blank_append l [] h
  rw [List.append_nil] at this
  rw [this]
  rfl

theorem takeWord_word (w rest : List Char) (hw : ∀ c ∈ w, isspace c = false)
    (hr : StartsBlank rest) : takeWord (w ++ rest) = (w, rest) := by
  induction w with
  | nil =>
    cases rest with
    | nil => rfl
    | cons c cs =>
      have hc : isspace c = true := hr
      rw [List.nil_append, takeWord, if_pos hc]
  | cons c cs ih =>
    have hc : ¬ isspace c = true := by
      rw [hw c (List.mem_cons_self _ _)]
      decide
    rw [List.cons_append, takeWord, if_neg hc, ih fun d hd => hw d (List.mem_cons_of_mem _ hd)]

/-- A word between whitespace is what `sin >> str` reads. -/
theorem extractString_word (pre w rest str : List Char) (hp : Blank pre) (hw : Solid w)
    (hr : StartsBlank rest) :
    extractString ⟨pre ++ (w ++ rest), false⟩ str = (⟨rest, false⟩, w) := by
  obtain ⟨hne, hw⟩ := hw
  cases w with
  | nil => exact absurd rfl hne
  | cons c cs =>
    have hc : ¬ isspace c = true := by
      rw [hw c (List.mem_cons_self _ _)]
      decide
    have hskip : skipws (pre ++ (c :: cs ++ rest)) = c :: (cs ++ rest) := by
      rw [skipws_blank_append _ _ hp, List.cons_append, skipws, if_neg hc]
    have htake : takeWord (c :: (cs ++ rest)) = (c :: cs, rest) := by
      rw [← List.cons_append]
      exact takeWord_word (c :: cs) rest hw hr
    simp only [extractString, hskip, htake]
    rfl

/-- On a stream with only whitespace left `sin >> str` fails and leaves `str`. -/
theorem extractString_blank (buf str : List Char) (h : Blank buf) :
    extractString ⟨buf, false⟩ str = (⟨[], true⟩, str) := by
  simp only [extractString, skipws_blank buf h]
  rfl

end DATA

namespace DATA

theorem startsBlank_space (l : List Char) : StartsBlank (' ' :: l) := by
  show isspace ' ' = true
  decide

theorem solid_SET : Solid ['S', 'E', 'T'] := by
  refine ⟨by simp, ?_⟩
  decide

theorem solid_LV : Solid ['L', 'V'] := by
  refine ⟨by simp, ?_⟩
  decide

theorem solid_MAIN : Solid ['M', 'A', 'I', 'N'] := by
  refine ⟨by simp, ?_⟩
  decide

theorem solid_SUB : Solid ['S', 'U', 'B'] := by
  refine ⟨by simp, ?_⟩
  decide

/-- The first statement of the string constructor on the text of a header as `to_string`
lays it out, bars replaced. -/
theorem readHeader_layout (sn mn sp1 sp2 rest : List Char) (hsn : Solid sn) (hmn : Solid mn)
    (h1 : Blank sp1) (h2 : Blank sp2) (hr : StartsBlank rest) :
    readHeader ⟨'S' :: 'E' :: 'T' :: ' ' :: (sn ++ (sp1 ++ (' ' :: 'L' :: 'V' :: ' ' :: '0'
        :: ' ' :: 'M' :: 'A' :: 'I' :: 'N' :: ' ' :: (mn ++ (sp2 ++ (' ' :: 'S' :: 'U' :: 'B'
        :: rest)))))), false⟩
      = (⟨rest, false⟩,
          ⟨['S', 'E', 'T'], sn, ['L', 'V'], some 0, ['M', 'A', 'I', 'N'], mn,
            ['S', 'U', 'B']⟩) := by
  have e1 := extractString_word [] ['S', 'E', 'T']
    (' ' :: (sn ++ (sp1 ++ (' ' :: 'L' :: 'V' :: ' ' :: '0'
        :: ' ' :: 'M' :: 'A' :: 'I' :: 'N' :: ' ' :: (mn ++ (sp2 ++ (' ' :: 'S' :: 'U' :: 'B'
        :: rest))))))) [] blank_nil solid_SET (startsBlank_space _)
  have e2 := extractString_word [' '] sn
    (sp1 ++ (' ' :: 'L' :: 'V' :: ' ' :: '0'
        :: ' ' :: 'M' :: 'A' :: 'I' :: 'N' :: ' ' :: (mn ++ (sp2 ++ (' ' :: 'S' :: 'U' :: 'B'
        :: rest))))) [] blank_space hsn (startsBlank_append h1 (startsBlank_space _))
  have e3 := extractString_word (sp1 ++ [' ']) ['L', 'V']
    (' ' :: '0' :: ' ' :: 'M' :: 'A' :: 'I' :: 'N' :: ' ' :: (mn ++ (sp2 ++ (' ' :: 'S' :: 'U'
        :: 'B' :: rest)))) [] (blank_append h1 blank_space) solid_LV (startsBlank_space _)
  have e4 : extractInt ⟨' ' :: '0' :: ' ' :: 'M' :: 'A' :: 'I' :: 'N' :: ' ' :: (mn ++ (sp2 ++
        (' ' :: 'S' :: 'U' :: 'B' :: rest))), false⟩ none
      = (⟨' ' :: 'M' :: 'A' :: 'I' :: 'N' :: ' ' :: (mn ++ (sp2 ++
        (' ' :: 'S' :: 'U' :: 'B' :: rest))), false⟩, some 0) := rfl
  have e5 := extractString_word [' '] ['M', 'A', 'I', 'N']
    (' ' :: (mn ++ (sp2 ++ (' ' :: 'S' :: 'U' :: 'B' :: rest)))) [] blank_space solid_MAIN
    (startsBlank_space _)
  have e6 := extractString_word [' '] mn (sp2 ++ (' ' :: 'S' :: 'U' :: 'B' :: rest)) []
    blank_space hmn (startsBlank_append h2 (startsBlank_space _))
  have e7 := extractString_word (sp2 ++ [' ']) ['S', 'U', 'B'] rest []
    (blank_append h2 blank_space) solid_SUB hr
  simp only [List.nil_append, List.cons_append, List.append_assoc] at e1 e2 e3 e5 e6 e7
  simp only [readHeader, e1, e2, e3, e4, e5, e6, e7]

end DATA

namespace DATA

theorem findComma_append (d n : List Char) (hd : ∀ c ∈ d, c ≠ ',') :
    findComma (d ++ ',' :: n) = some d.length := by
  induction d with
  | nil => rfl
  | cons c cs ih =>
    rw [List.cons_append, findComma, if_neg (hd c (List.mem_cons_self _ _)),
      ih fun x hx => hd x (List.mem_cons_of_mem _ hx)]
    rfl

theorem substrAfter_append (d n : List Char) :
    substrAfter (d ++ ',' :: n) (some d.length) = n := by
  induction d with
  | nil => rfl
  | cons c cs ih => exact ih

theorem substrBefore_append (d n : List Char) :
    substrBefore (d ++ ',' :: n) (some d.length) = d := by
  induction d with
  | nil => rfl
  | cons c cs ih =>
    show c :: substrBefore (cs ++ ',' :: n) (some cs.length) = c :: cs
    rw [ih]

/-- The rolls 7 to 10 print as digits that `stoi` reads back. -/
theorem fmt_roll {r : Int} (h1 : 7 ≤ r) (h2 : r ≤ 10) :
    fmt_int r ≠ [] ∧ (∀ c ∈ fmt_int r, isspace c = false ∧ c ≠ ',' ∧ c ≠ '|') ∧
      stoi (fmt_int r) = .ok r := by
  have hc : r = 7 ∨ r = 8 ∨ r = 9 ∨ r = 10 := by omega
  rcases hc with rfl | rfl | rfl | rfl
  · exact ⟨by decide, by decide, rfl⟩
  · exact ⟨by decide, by decide, rfl⟩
  · exact ⟨by decide, by decide, rfl⟩
  · exact ⟨by decide, by decide, rfl⟩

/-- Every named affix prints as its name, a word without bar or comma that the table maps
back to the affix. -/
theorem affix_name {t : AFFIX_NAMES} (ht : t ∈ namedAffixes) :
    type_to_string string_to_affix_names t = .ok (affixText t) ∧ affixText t ≠ [] ∧
      (∀ c ∈ affixText t, isspace c = false ∧ c ≠ ',' ∧ c ≠ '|') ∧
      mapFind string_to_affix_names (affixText t) = some t := by
  cases t <;> first
    | exact absurd ht (by decide)
    | exact ⟨rfl, by decide, by decide, by decide⟩

/-- Every named set prints as its name, a word without bar that the table maps back to the
set. -/
theorem set_name {s : SET_NAMES} (hs : s ∈ namedSets) :
    type_to_string string_to_set_names s = .ok (setText s) ∧ setText s ≠ [] ∧
      (∀ c ∈ setText s, isspace c = false ∧ c ≠ '|') ∧
      mapFind string_to_set_names (setText s) = some s := by
  cases s <;> first
    | exact absurd hs (by decide)
    | exact ⟨rfl, by decide, by decide, by decide⟩

theorem replaceBars_append (a b : List Char) :
    replaceBars (a ++ b) = replaceBars a ++ replaceBars b := List.map_append _ _ _

theorem replaceBars_id (l : List Char) (h : ∀ c ∈ l, c ≠ '|') : replaceBars l = l := by
  induction l with
  | nil => rfl
  | cons c cs ih =>
    show (if c = '|' then ' ' else c) :: replaceBars cs = c :: cs
    rw [if_neg (h c (List.mem_cons_self _ _)), ih fun x hx => h x (List.mem_cons_of_mem _ hx)]

theorem replaceBars_replicate (n : Nat) :
    replaceBars (List.replicate n ' ') = List.replicate n ' ' :=
  replaceBars_id _ fun c hc => by
    rw [(List.mem_replicate.1 hc).2]
    decide

theorem replaceBars_length (l : List Char) : (replaceBars l).length = l.length :=
  List.length_map _ _

/-- The text of one sub: padding, the word `roll,name`, padding. -/
theorem format_sub_eq (r : Int) (n : List Char) :
    format_sub r n
      = List.replicate (2 - (fmt_int r).length) ' '
          ++ ((fmt_int r ++ ',' :: n) ++ List.replicate (4 - n.length) ' ') := by
  simp only [format_sub, padLeft, padRight, List.append_assoc, List.cons_append]

theorem format_sub_ne_nil (r : Int) (n : List Char) : format_sub r n ≠ [] := by
  rw [format_sub]
  intro h
  have := congrArg List.length h
  simp at this

theorem format_sub_no_bar {t : AFFIX_NAMES} {r : Int} (ht : t ∈ namedAffixes) (h1 : 7 ≤ r)
    (h2 : r ≤ 10) : replaceBars (format_sub r (affixText t)) = format_sub r (affixText t) := by
  rw [format_sub_eq, replaceBars_append, replaceBars_append, replaceBars_replicate,
    replaceBars_replicate, replaceBars_append]
  rw [replaceBars_id (fmt_int r) fun c hc => ((fmt_roll h1 h2).2.1 c hc).2.2]
  have hn : replaceBars (',' :: affixText t) = ',' :: affixText t :=
    replaceBars_id _ fun c hc => by
      rcases List.mem_cons.1 hc with h | h
      · rw [h]
        decide
      · exact ((affix_name ht).2.2.1 c h).2.2
  rw [hn]

/-- The word `roll,name` of a sub is read back as the sub. -/
theorem sub_word {t : AFFIX_NAMES} {r : Int} (ht : t ∈ namedAffixes) (h1 : 7 ≤ r)
    (h2 : r ≤ 10) :
    Solid (fmt_int r ++ ',' :: affixText t) ∧
    mapFind string_to_affix_names
      (substrAfter (fmt_int r ++ ',' :: affixText t)
        (findComma (fmt_int r ++ ',' :: affixText t))) = some t ∧
    stoi (substrBefore (fmt_int r ++ ',' :: affixText t)
        (findComma (fmt_int r ++ ',' :: affixText t))) = .ok r := by
  obtain ⟨r1, r2, r3⟩ := fmt_roll h1 h2
  obtain ⟨_, n2, n3, n4⟩ := affix_name ht
  rw [findComma_append _ _ fun c hc => (r2 c hc).2.1, substrAfter_append, substrBefore_append]
  refine ⟨⟨?_, fun c hc => ?_⟩, n4, r3⟩
  · intro h
    have := congrArg List.length h
    simp at this
  · rcases List.mem_append.1 hc with h | h
    · exact (r2 c h).1
    · rcases List.mem_cons.1 h with h | h
      · rw [h]
        decide
      · exact (n3 c h).1

theorem startsBlank_subText (rest : List (AFFIX_NAMES × Int)) (post : List Char)
    (hpost : Blank post) : StartsBlank (subText ' ' false rest ++ post) := by
  cases rest with
  | nil => exact startsBlank_of_blank hpost
  | cons e rest =>
    obtain ⟨t, r⟩ := e
    exact startsBlank_space _

/-- The loop of the string constructor on the text of the subs as `to_string` lays it out,
bars replaced, reads the subs back. -/
theorem readSubs_layout : ∀ (subs : List (AFFIX_NAMES × Int)) (first : Bool)
    (pre post : List Char) (acc : List (AFFIX_NAMES × Int)) (fuel : Nat),
    (∀ e ∈ subs, e.1 ∈ namedAffixes ∧ 7 ≤ e.2 ∧ e.2 ≤ 10) → Blank pre → Blank post →
    (pre ++ (subText ' ' first subs ++ post)).length < fuel →
    readSubs fuel ⟨pre ++ (subText ' ' first subs ++ post), false⟩ acc = .ok (acc ++ subs) := by
  intro subs
  induction subs with
  | nil =>
    intro first pre post acc fuel _ hpre hpost hfuel
    cases fuel with
    | zero => exact absurd hfuel (Nat.not_lt_zero _)
    | succ f =>
      have hb : Blank (pre ++ (subText ' ' first [] ++ post)) := blank_append hpre hpost
      rw [readSubs, extractString_blank _ _ hb, List.append_nil]
      rfl
  | cons e rest ih =>
    intro first pre post acc fuel hv hpre hpost hfuel
    obtain ⟨t, r⟩ := e
    obtain ⟨ht, h1, h2⟩ := hv (t, r) (List.mem_cons_self _ _)
    obtain ⟨hsolid, hfind, hstoi⟩ := sub_word ht h1 h2
    cases fuel with
    | zero => exact absurd hfuel (Nat.not_lt_zero _)
    | succ f =>
      have hbuf : pre ++ (subText ' ' first ((t, r) :: rest) ++ post)
          = (pre ++ ((if first then [] else [' '])
                ++ List.replicate (2 - (fmt_int r).length) ' '))
              ++ ((fmt_int r ++ ',' :: affixText t)
                ++ (List.replicate (4 - (affixText t).length) ' '
                  ++ (subText ' ' false rest ++ post))) := by
        rw [subText, format_sub_eq]
        simp only [List.append_assoc]
      have hpre2 : Blank (pre ++ ((if first then [] else [' '])
          ++ List.replicate (2 - (fmt_int r).length) ' ')) := by
        refine blank_append hpre (blank_append ?_ (blank_replicate _))
        cases first
        · exact blank_space
        · exact blank_nil
      have hE := extractString_word _ _ _ [] hpre2 hsolid
        (startsBlank_append (blank_replicate (4 - (affixText t).length))
          (startsBlank_subText rest post hpost))
      have hlen : ¬ (fmt_int r ++ ',' :: affixText t).length = 0 := by
        rw [List.length_append, List.length_cons]
        omega
      have hfuel2 : (List.replicate (4 - (affixText t).length) ' '
          ++ (subText ' ' false rest ++ post)).length < f := by
        rw [hbuf] at hfuel
        simp only [List.length_append, List.length_cons] at hfuel ⊢
        omega
      rw [hbuf, readSubs]
      simp only [hE, if_neg hlen, hfind, hstoi]
      rw [ih false _ post _ f (fun e he => hv e (List.mem_cons_of_mem _ he))
        (blank_replicate _) hpost hfuel2, List.append_assoc, List.singleton_append]

end DATA

namespace DATA

theorem subsToString_from (subs : List (AFFIX_NAMES × Int)) :
    ∀ substr : List Char, substr ≠ [] → (∀ e ∈ subs, e.1 ∈ namedAffixes) →
    subsToString subs substr = .ok (substr ++ subText '|' false subs) := by
  induction subs with
  | nil =>
    intro substr _ _
    rw [subsToString, subText, List.append_nil]
  | cons e rest ih =>
    intro substr hne hv
    obtain ⟨t, r⟩ := e
    have hlen : substr.length ≠ 0 := fun h => hne (List.length_eq_zero.1 h)
    rw [subsToString, (affix_name (hv (t, r) (List.mem_cons_self _ _))).1]
    simp only [if_pos hlen]
    rw [ih _ (fun h => format_sub_ne_nil r (affixText t) (List.append_eq_nil.1 h).2)
      fun e he => hv e (List.mem_cons_of_mem _ he)]
    simp only [subText, List.append_assoc, Bool.false_eq_true, if_false]

theorem subsToString_start (subs : List (AFFIX_NAMES × Int))
    (hv : ∀ e ∈ subs, e.1 ∈ namedAffixes) :
    subsToString subs [] = .ok (subText '|' true subs) := by
  cases subs with
  | nil => rfl
  | cons e rest =>
    obtain ⟨t, r⟩ := e
    rw [subsToString, (affix_name (hv (t, r) (List.mem_cons_self _ _))).1]
    simp only [List.length_nil, ne_eq, not_true_eq_false, if_false, List.nil_append]
    rw [subsToString_from rest _ (format_sub_ne_nil r (affixText t))
      fun e he => hv e (List.mem_cons_of_mem _ he)]
    simp only [subText, if_true, List.nil_append]

/-- The text `to_string` returns for an artifact whose set and affixes have names. -/
theorem to_string_layout (a : Artifact) (hs : a.set ∈ namedSets) (hm : a.main ∈ namedAffixes)
    (hv : ∀ e ∈ a.sub, e.1 ∈ namedAffixes) :
    a.to_string
      = .ok ("SET ".toList ++ padRight 7 (setText a.set) ++ "|LV ".toList ++ fmt_int a.level
          ++ "|MAIN ".toList ++ padRight 10 (affixText a.main) ++ "|SUB ".toList
          ++ (if a.sub.length < AFFIX_NUM then subText '|' true a.sub ++ ['|']
              else subText '|' true a.sub)) := by
  rw [Artifact.to_string, subsToString_start a.sub hv]
  simp only [(set_name hs).1, (affix_name hm).1]

theorem replaceBars_subText : ∀ (subs : List (AFFIX_NAMES × Int)) (first : Bool),
    (∀ e ∈ subs, e.1 ∈ namedAffixes ∧ 7 ≤ e.2 ∧ e.2 ≤ 10) →
    replaceBars (subText '|' first subs) = subText ' ' first subs := by
  intro subs
  induction subs with
  | nil =>
    intro first _
    rfl
  | cons e rest ih =>
    intro first hv
    obtain ⟨t, r⟩ := e
    obtain ⟨ht, h1, h2⟩ := hv (t, r) (List.mem_cons_self _ _)
    rw [subText, subText, replaceBars_append, replaceBars_append, format_sub_no_bar ht h1 h2,
      ih false fun e he => hv e (List.mem_cons_of_mem _ he)]
    cases first <;> rfl

/-- The text of `to_string` for a level 0 artifact after the bars are replaced. -/
theorem replaceBars_text (sn mn : List Char) (subs : List (AFFIX_NAMES × Int))
    (hsn : ∀ c ∈ sn, c ≠ '|') (hmn : ∀ c ∈ mn, c ≠ '|')
    (hv : ∀ e ∈ subs, e.1 ∈ namedAffixes ∧ 7 ≤ e.2 ∧ e.2 ≤ 10) :
    replaceBars ("SET ".toList ++ padRight 7 sn ++ "|LV ".toList ++ fmt_int 0
        ++ "|MAIN ".toList ++ padRight 10 mn ++ "|SUB ".toList
        ++ (if subs.length < AFFIX_NUM then subText '|' true subs ++ ['|']
            else subText '|' true subs))
      = 'S' :: 'E' :: 'T' :: ' ' :: (sn ++ (List.replicate (7 - sn.length) ' ' ++ (' ' :: 'L'
        :: 'V' :: ' ' :: '0' :: ' ' :: 'M' :: 'A' :: 'I' :: 'N' :: ' ' :: (mn
        ++ (List.replicate (10 - mn.length) ' ' ++ (' ' :: 'S' :: 'U' :: 'B'
        :: ([' '] ++ (subText ' ' true subs
          ++ (if subs.length < AFFIX_NUM then [' '] else []))))))))) := by
  have e1 : replaceBars "SET ".toList = ['S', 'E', 'T', ' '] := by decide
  have e2 : replaceBars "|LV ".toList = [' ', 'L', 'V', ' '] := by decide
  have e3 : replaceBars (fmt_int 0) = ['0'] := by decide
  have e4 : replaceBars "|MAIN ".toList = [' ', 'M', 'A', 'I', 'N', ' '] := by decide
  have e5 : replaceBars "|SUB ".toList = [' ', 'S', 'U', 'B', ' '] := by decide
  have e6 : replaceBars (if subs.length < AFFIX_NUM then subText '|' true subs ++ ['|']
        else subText '|' true subs)
      = subText ' ' true subs ++ (if subs.length < AFFIX_NUM then [' '] else []) := by
    split_ifs
    · rw [replaceBars_append, replaceBars_subText subs true hv]
      rfl
    · rw [replaceBars_subText subs true hv, List.append_nil]
  simp only [replaceBars_append, padRight, e1, e2, e3, e4, e5, e6, replaceBars_id sn hsn,
    replaceBars_id mn hmn, replaceBars_replicate, List.append_assoc, List.cons_append,
    List.nil_append]

/-- The string constructor on the text of `to_string` gives the artifact back. -/
theorem of_string_to_string (a : Artifact) (hs : a.set ∈ namedSets)
    (hm : a.main ∈ namedAffixes) (hl : a.level = 0)
    (hv : ∀ e ∈ a.sub, e.1 ∈ namedAffixes ∧ 7 ≤ e.2 ∧ e.2 ≤ 10) :
    ∃ s, a.to_string = .ok s ∧ Artifact.of_string s = .ok a := by
  obtain ⟨_, s2, s3, s4⟩ := set_name hs
  obtain ⟨_, m2, m3, m4⟩ := affix_name hm
  refine ⟨_, to_string_layout a hs hm fun e he => (hv e he).1, ?_⟩
  have hrep := replaceBars_text (setText a.set) (affixText a.main) a.sub
    (fun c hc => (s3 c hc).2) (fun c hc => (m3 c hc).2.2) hv
  have hpost : Blank (if a.sub.length < AFFIX_NUM then [' '] else []) := by
    split_ifs
    · exact blank_space
    · exact blank_nil
  have hhead := readHeader_layout (setText a.set) (affixText a.main)
    (List.replicate (7 - (setText a.set).length) ' ')
    (List.replicate (10 - (affixText a.main).length) ' ')
    ([' '] ++ (subText ' ' true a.sub ++ (if a.sub.length < AFFIX_NUM then [' '] else [])))
    ⟨s2, fun c hc => (s3 c hc).1⟩ ⟨m2, fun c hc => (m3 c hc).1⟩ (blank_replicate _)
    (blank_replicate _) (startsBlank_space _)
  have hfuel : ([' '] ++ (subText ' ' true a.sub
        ++ (if a.sub.length < AFFIX_NUM then [' '] else []))).length
      < ("SET ".toList ++ padRight 7 (setText a.set) ++ "|LV ".toList ++ fmt_int 0
          ++ "|MAIN ".toList ++ padRight 10 (affixText a.main) ++ "|SUB ".toList
          ++ (if a.sub.length < AFFIX_NUM then subText '|' true a.sub ++ ['|']
              else subText '|' true a.sub)).length + 1 := by
    have hlen := congrArg List.length hrep
    rw [replaceBars_length] at hlen
    rw [hlen]
    simp only [List.length_append, List.length_cons]
    omega
  have hsubs := readSubs_layout a.sub true [' ']
    (if a.sub.length < AFFIX_NUM then [' '] else []) [] _ hv blank_space hpost hfuel
  rw [hl, Artifact.of_string]
  simp only [hrep, hhead, s4, m4, hsubs]
  rw [if_neg (by decide)]
  obtain ⟨set, main, sub, level⟩ := a
  simp only at hl
  rw [hl]
  rfl

end DATA

namespace DATA

theorem named_of_main_weight : ∀ (set : SET_NAMES), ∀ m ∈ (MAIN_WEIGHT set).map Prod.fst,
    set ∈ namedSets ∧ m ∈ namedAffixes := by
  intro set
  cases set <;> decide

theorem named_of_rollable : ∀ t ∈ rollable, t ∈ namedAffixes := by decide

/-- The sub affixes of a sampled artifact are rollable. -/
theorem get_drop_subs_rollable (u : ℚ) :
    ∀ t ∈ (get_drop u).sub.map Prod.fst, t ∈ rollable := by
  obtain ⟨x, sub, hx, hfst, _, hd⟩ := get_drop_from_cases generated_artifacts
    generated_ne_nil (fun x hx => generated_prob_pos hx) u
  obtain ⟨_, _, _, _, _, _, s7⟩ := generated_shape (List.mem_map_of_mem Prod.fst hx)
  rw [get_drop_eq, hd]
  simp only [hfst]
  exact fun t ht => (s7 t ht).1

/-- A sampled artifact is read back from its text. -/
theorem get_drop_round_trip (u : ℚ) :
    ∃ s, (get_drop u).to_string = .ok s ∧ Artifact.of_string s = .ok (get_drop u) := by
  obtain ⟨h1, _, _, _, h5, h6⟩ := get_drop_shape u
  obtain ⟨hs, hm⟩ := named_of_main_weight _ _ h5
  refine of_string_to_string (get_drop u) hs hm h1 fun e he => ⟨?_, h6 e he⟩
  exact named_of_rollable _ (get_drop_subs_rollable u e.1 (List.mem_map_of_mem Prod.fst he))

end DATA

/-! ### The loop of the string constructor ends within its bound -/

namespace DATA

theorem skipws_length (l : List Char) : (skipws l).length ≤ l.length := by
  induction l with
  | nil => exact le_rfl
  | cons c cs ih =>
    rw [skipws]
    split_ifs
    · exact le_trans ih (Nat.le_succ _)
    · exact le_rfl

theorem takeWord_length (l : List Char) :
    (takeWord l).1.length + (takeWord l).2.length = l.length := by
  induction l with
  | nil => rfl
  | cons c cs ih =>
    rw [takeWord]
    split_ifs
    · simp
    · simp only [List.length_cons]
      omega

theorem takeDigits_length (l : List Char) : (takeDigits l).2.length ≤ l.length := by
  induction l with
  | nil => exact le_rfl
  | cons c cs ih =>
    rw [takeDigits]
    split_ifs
    · exact le_trans ih (Nat.le_succ _)
    · exact le_rfl

theorem readInt_length (l : List Char) (r : Int × List Char) (h : readInt l = some r) :
    r.2.length ≤ l.length := by
  cases l with
  | nil => exact Option.noConfusion h
  | cons c cs =>
    rw [readInt] at h
    split_ifs at h <;> injection h with h <;> rw [← h]
    · exact le_trans (takeDigits_length cs) (Nat.le_succ _)
    · exact le_trans (takeDigits_length cs) (Nat.le_succ _)
    · exact takeDigits_length (c :: cs)

theorem extractString_length (sin : IStream) (str : List Char) :
    (extractString sin str).1.buf.length ≤ sin.buf.length := by
  rw [extractString]
  split_ifs
  · exact le_rfl
  · have hs := skipws_length sin.buf
    split
    · exact Nat.zero_le _
    · next c cs hc =>
      rw [hc] at hs
      have := takeWord_length (c :: cs)
      show (takeWord (c :: cs)).2.length ≤ sin.buf.length
      omega

/-- An extraction that reads a word shortens the text left in the stream. -/
theorem extractString_progress (sin : IStream)
    (h : (extractString sin []).2.length ≠ 0) :
    (extractString sin []).1.buf.length < sin.buf.length := by
  rw [extractString] at h ⊢
  split_ifs at h ⊢
  · exact absurd rfl h
  · have hs := skipws_length sin.buf
    split at h
    · exact absurd rfl h
    · next c cs hc =>
      rw [hc] at hs
      have := takeWord_length (c :: cs)
      have h2 : (takeWord (c :: cs)).1.length ≠ 0 := h
      show (takeWord (c :: cs)).2.length < sin.buf.length
      omega

theorem extractInt_length (sin : IStream) (x : Option Int) :
    (extractInt sin x).1.buf.length ≤ sin.buf.length := by
  rw [extractInt]
  split_ifs
  · exact le_rfl
  · have hs := skipws_length sin.buf
    split
    · exact Nat.zero_le _
    · next c cs hc =>
      rw [hc] at hs
      split
      · exact hs
      · next r hr =>
        have := readInt_length _ _ hr
        split_ifs <;> exact le_trans this hs

theorem readHeader_length (sin : IStream) :
    (readHeader sin).1.buf.length ≤ sin.buf.length := by
  simp only [readHeader]
  refine le_trans (extractString_length _ _) (le_trans (extractString_length _ _)
    (le_trans (extractString_length _ _) (le_trans (extractInt_length _ _)
      (le_trans (extractString_length _ _) (le_trans (extractString_length _ _)
        (extractString_length _ _))))))

theorem stoi_error (s : List Char) (e : Error) (h : stoi s = .error e) :
    e = Error.stoi_failed := by
  rw [stoi] at h
  split at h
  · injection h with h
    exact h.symm
  · split_ifs at h
    injection h with h
    exact h.symm

/-- With more iterations allowed than characters left, the loop over the subs ends by
itself. -/
theorem readSubs_fuel : ∀ (fuel : Nat) (sin : IStream) (sub : List (AFFIX_NAMES × Int)),
    sin.buf.length < fuel → readSubs fuel sin sub ≠ .threw Error.out_of_fuel := by
  intro fuel
  induction fuel with
  | zero =>
    intro sin sub h
    exact absurd h (Nat.not_lt_zero _)
  | succ f ih =>
    intro sin sub h
    rw [readSubs]
    split_ifs with hw
    · exact fun hc => Parsed.noConfusion hc
    · have hp := extractString_progress sin hw
      split
      · exact fun hc => Parsed.noConfusion hc
      · split
        · next e he =>
          rw [stoi_error _ _ he]
          exact fun hc => Error.noConfusion (Parsed.threw.inj hc)
        · exact ih _ _ (by omega)

/-- The string constructor never stops for lack of iterations. -/
theorem of_string_fuel (art_str : List Char) :
    Artifact.of_string art_str ≠ .threw Error.out_of_fuel := by
  have hlen : (readHeader ⟨replaceBars art_str, false⟩).1.buf.length < art_str.length + 1 := by
    have := readHeader_length ⟨replaceBars art_str, false⟩
    have h2 : (replaceBars art_str).length = art_str.length := replaceBars_length art_str
    have h3 : (⟨replaceBars art_str, false⟩ : IStream).buf.length = art_str.length := h2
    omega
  have hsubs := readSubs_fuel _ _ [] hlen
  simp only [Artifact.of_string]
  split_ifs
  · exact fun hc => Error.noConfusion (Parsed.threw.inj hc)
  · split
    · exact fun hc => Parsed.noConfusion hc
    · split
      · exact fun hc => Parsed.noConfusion hc
      · split
        · exact fun hc => Parsed.noConfusion hc
        · split
          · next e he =>
            intro hc
            rw [Parsed.threw.inj hc] at he
            exact hsubs he
          · exact fun hc => Parsed.noConfusion hc
          · exact fun hc => Parsed.noConfusion hc

end DATA

/-! ## Invariants of the records: conservation, probability, excess -/

namespace DP

open DATA

/-- The sums over the successors keep the three invariants of the records. -/
theorem sums_invariants (X : ℚ) (L : ℚ) : ∀ next : List (Option Outcome),
    (∀ r ∈ next, ∀ o, r = some o →
      o.gain + o.cost = o.P * X ∧ 0 < o.P ∧ o.P ≤ 1 ∧ -(1 / 100000000) ≤ o.excess) →
    (next.map fun r =>
        match r with
        | none => L
        | some o => o.gain).sum
      + (next.map fun r =>
        match r with
        | none => - L
        | some o => o.cost).sum
      = (next.map fun r =>
        match r with
        | none => (0 : ℚ)
        | some o => o.P).sum * X ∧
    (next.map fun r =>
        match r with
        | none => (0 : ℚ)
        | some o => o.P).sum ≤ (next.length : ℚ) ∧
    -(1 / 100000000) * (next.map fun r =>
        match r with
        | none => (0 : ℚ)
        | some o => o.P).sum
      ≤ (next.map fun r =>
        match r with
        | none => (0 : ℚ)
        | some o => o.P * o.excess).sum := by
  intro next
  induction next with
  | nil =>
    intro _
    simp
  | cons r next ih =>
    intro h
    obtain ⟨i1, i2, i3⟩ := ih fun r' hr' => h r' (List.mem_cons_of_mem _ hr')
    simp only [List.map_cons, List.sum_cons, List.length_cons, Nat.cast_add, Nat.cast_one]
    cases r with
    | none =>
      simp only
      refine ⟨by linarith, by linarith, by linarith⟩
    | some o =>
      obtain ⟨k1, k2, k3, k4⟩ := h (some o) (List.mem_cons_self _ _) o rfl
      simp only
      refine ⟨by linarith, by linarith, ?_⟩
      have : -(1 / 100000000) * o.P ≤ o.P * o.excess := by nlinarith
      linarith

/-- Every record of the backward induction satisfies `gain + cost = P * (gain_arg + 270475)`,
`0 < P ≤ 1` and `excess ≥ -1e-8`. -/
theorem vecRecord_invariants (s : List ℚ) (B gain : ℚ) (T : Nat) (hT : T ≤ 5) :
    ∀ k, k ≤ T → ∀ v o, vecRecord s B gain T k v = some o →
      o.gain + o.cost = o.P * (gain + 270475) ∧ 0 < o.P ∧ o.P ≤ 1 ∧
        -(1 / 100000000) ≤ o.excess := by
  intro k
  induction k with
  | zero =>
    intro _ v o h
    simp only [vecRecord] at h
    split_ifs at h with hb
    rw [← Option.some.inj h]
    refine ⟨by ring, by norm_num, le_rfl, ?_⟩
    simp only
    linarith
  | succ k ih =>
    intro hk v o h
    have hpos := vecRecord_P_pos s B gain T hT (k + 1) hk v o h
    obtain ⟨i1, i2, i3⟩ := sums_invariants (gain + 270475)
      (DOGFOOD_LOSS (5 - T + (T - (k + 1)) + 1))
      ((successors v).map (vecRecord s B gain T k))
      (fun r hr o' ho' => by
        obtain ⟨v', _, hv'⟩ := List.mem_map.1 hr
        exact ih (by omega) v' o' (by rw [hv', ho']))
    rw [List.length_map, length_successors] at i2
    simp only [vecRecord] at h
    split_ifs at h with h1 h2
    · rw [← Option.some.inj h] at hpos ⊢
      simp only at hpos ⊢
      refine ⟨?_, hpos, ?_, ?_⟩
      · rw [← add_div, i1]
        ring
      · rw [div_le_one (by norm_num)]
        exact_mod_cast i2
      · have hS : 0 < (((successors v).map (vecRecord s B gain T k)).map fun r =>
            match r with
            | none => (0 : ℚ)
            | some o => o.P).sum := by
          have := hpos
          rw [div_pos_iff_of_pos_right (by norm_num)] at this
          exact this
        rw [le_div_iff₀ (by positivity)]
        have e16 : (16 : ℚ) * ((((successors v).map (vecRecord s B gain T k)).map fun r =>
            match r with
            | none => (0 : ℚ)
            | some o => o.P).sum / 16)
          = (((successors v).map (vecRecord s B gain T k)).map fun r =>
            match r with
            | none => (0 : ℚ)
            | some o => o.P).sum := by
          field_simp
        rw [e16]
        exact i3
    · rw [← Option.some.inj h] at hpos
      simp only at hpos
      exact absurd hpos h2

/-- The invariants of the result of the four-slot DP. -/
theorem resultOf_invariants (s : List ℚ) (B gain : ℚ) (T : Nat) (hT : T ≤ 5) :
    (resultOf T (vecRecord s B gain T T Vec4.zero)).2.1
        + (resultOf T (vecRecord s B gain T T Vec4.zero)).2.2.1
      = (resultOf T (vecRecord s B gain T T Vec4.zero)).2.2.2.1 * (gain + 270475) ∧
    ((resultOf T (vecRecord s B gain T T Vec4.zero)).1 = true →
      0 < (resultOf T (vecRecord s B gain T T Vec4.zero)).2.2.2.1 ∧
      (resultOf T (vecRecord s B gain T T Vec4.zero)).2.2.2.1 ≤ 1 ∧
      -(1 / 100000000) ≤ (resultOf T (vecRecord s B gain T T Vec4.zero)).2.2.2.2) ∧
    ((resultOf T (vecRecord s B gain T T Vec4.zero)).1 = false →
      (resultOf T (vecRecord s B gain T T Vec4.zero)).2.2.2.1 = 0 ∧
      (resultOf T (vecRecord s B gain T T Vec4.zero)).2.2.2.2 = 0) := by
  cases hr : vecRecord s B gain T T Vec4.zero with
  | none =>
    refine ⟨?_, ?_, ?_⟩ <;> simp [resultOf]
  | some o =>
    obtain ⟨k1, k2, k3, k4⟩ := vecRecord_invariants s B gain T hT T le_rfl Vec4.zero o hr
    simp only [resultOf]
    exact ⟨k1, fun _ => ⟨k2, k3, k4⟩, fun h => by simp at h⟩

/-- The result of the four-sub DP on a completion of a three-sub artifact is the result of
a backward induction with four upgrades to come. -/
theorem completion_result (art : Artifact) (m : AFFIX_NAMES → Option ℚ) (bar : ℚ)
    (h3 : art.sub.length = 3) (hm : ∀ e ∈ SUB_PROB_WEIGHT, (m e.1).isSome)
    (hs : ∀ e ∈ art.sub, (m e.1).isSome) (c : Nat × Artifact) (hc : c ∈ completions art) :
    0 < c.1 ∧ ∃ sc B, ∀ gain,
      fourSubResult m bar gain c.2 = resultOf 4 (vecRecord sc B gain 4 4 Vec4.zero) := by
  obtain ⟨e, he, r, rfl⟩ := mem_completions hc
  have hw : ∀ e ∈ SUB_PROB_WEIGHT, 0 < e.2 := by decide
  have h4 : (art.sub ++ [(e.1, r)]).length = 4 := by simp [h3]
  have hall : ∀ e' ∈ art.sub ++ [(e.1, r)], (m e'.1).isSome := by
    intro e' he'
    rcases List.mem_append.1 he' with h | h
    · exact hs e' h
    · rw [List.mem_singleton.1 h]; exact hm e he
  obtain ⟨sc, B, hres⟩ := calc_map_four_uniform
    ({ art with sub := art.sub ++ [(e.1, r)], level := 1 } : Artifact) m bar h4
    (by simp) (by simp) hall
  have h' := fun gain => calc_map_eq_four
    ({ art with sub := art.sub ++ [(e.1, r)], level := 1 } : Artifact) m bar gain
    (by simp [h3])
  have hT : Int.toNat ((N : Int) - (1 : Int)) = 4 := rfl
  simp only [hT] at hres
  refine ⟨hw e he, sc, B, fun gain => ?_⟩
  simp only [fourSubResult, h', hres]

end DP

namespace DP

open DATA

/-- Weighted sums over the completions keep the invariants. -/
theorem weighted_sums_invariants (res : Artifact → Result) (X : ℚ) :
    ∀ l : List (Nat × Artifact),
    (∀ c ∈ l, (res c.2).2.1 + (res c.2).2.2.1 = (res c.2).2.2.2.1 * X ∧
      0 ≤ (res c.2).2.2.2.1 ∧ (res c.2).2.2.2.1 ≤ 1 ∧
      -(1 / 100000000) * (res c.2).2.2.2.1 ≤ (res c.2).2.2.2.1 * (res c.2).2.2.2.2) →
    (l.map fun c => (c.1 : ℚ) * (res c.2).2.1).sum
        + (l.map fun c => (c.1 : ℚ) * (res c.2).2.2.1).sum
      = (l.map fun c => (c.1 : ℚ) * (res c.2).2.2.2.1).sum * X ∧
    (l.map fun c => (c.1 : ℚ) * (res c.2).2.2.2.1).sum ≤ (l.map fun c => (c.1 : ℚ)).sum ∧
    -(1 / 100000000) * (l.map fun c => (c.1 : ℚ) * (res c.2).2.2.2.1).sum
      ≤ (l.map fun c => (c.1 : ℚ) * ((res c.2).2.2.2.1 * (res c.2).2.2.2.2)).sum := by
  intro l
  induction l with
  | nil =>
    intro _
    simp
  | cons c l ih =>
    intro h
    obtain ⟨i1, i2, i3⟩ := ih fun c' hc' => h c' (List.mem_cons_of_mem _ hc')
    obtain ⟨k1, k2, k3, k4⟩ := h c (List.mem_cons_self _ _)
    have hc0 : (0 : ℚ) ≤ (c.1 : ℚ) := Nat.cast_nonneg _
    simp only [List.map_cons, List.sum_cons]
    refine ⟨?_, ?_, ?_⟩
    · have : (c.1 : ℚ) * (res c.2).2.1 + (c.1 : ℚ) * (res c.2).2.2.1
          = (c.1 : ℚ) * (res c.2).2.2.2.1 * X := by
        rw [← mul_add, k1]
        ring
      linarith
    · have : (c.1 : ℚ) * (res c.2).2.2.2.1 ≤ (c.1 : ℚ) := by nlinarith
      linarith
    · have : -(1 / 100000000) * ((c.1 : ℚ) * (res c.2).2.2.2.1)
          ≤ (c.1 : ℚ) * ((res c.2).2.2.2.1 * (res c.2).2.2.2.2) := by nlinarith
      linarith

/-- The invariants of the result of the three-sub branch, from those of the four-sub
results of its completions. -/
theorem threeSubResult_invariants (art : Artifact) (res : Artifact → Result) (X : ℚ)
    (h3 : art.sub.length = 3)
    (hshape : ∀ c ∈ completions art, 0 < c.1 ∧ 0 ≤ (res c.2).2.2.2.1 ∧
      ((res c.2).2.1 > 520 → 0 < (res c.2).2.2.2.1))
    (hres : ∀ c ∈ completions art,
      (res c.2).2.1 + (res c.2).2.2.1 = (res c.2).2.2.2.1 * X ∧
      0 ≤ (res c.2).2.2.2.1 ∧ (res c.2).2.2.2.1 ≤ 1 ∧
      -(1 / 100000000) * (res c.2).2.2.2.1 ≤ (res c.2).2.2.2.1 * (res c.2).2.2.2.2) :
    (threeSubResult art res).2.1 + (threeSubResult art res).2.2.1
      = (threeSubResult art res).2.2.2.1 * X ∧
    ((threeSubResult art res).1 = true →
      0 < (threeSubResult art res).2.2.2.1 ∧ (threeSubResult art res).2.2.2.1 ≤ 1 ∧
      -(1 / 100000000) ≤ (threeSubResult art res).2.2.2.2) ∧
    ((threeSubResult art res).1 = false →
      (threeSubResult art res).2.2.2.1 = 0 ∧ (threeSubResult art res).2.2.2.2 = 0) := by
  have hW := completionWeight_pos art h3
  have h4W : 0 < 4 * completionWeight art := by linarith
  obtain ⟨i1, i2, i3⟩ := weighted_sums_invariants res X (completions art) hres
  rw [sum_completion_weights] at i2
  unfold threeSubResult
  by_cases hg : completionMean art res (fun r => r.2.1) > 3780
  · have hp := completionMean_P_pos art res hshape hg
    rw [if_pos hg, if_pos hp]
    simp only
    have hsumP : 0 < ((completions art).map fun c => (c.1 : ℚ) * (res c.2).2.2.2.1).sum := by
      have := hp
      rw [completionMean, gt_iff_lt, div_pos_iff_of_pos_right h4W] at this
      exact this
    refine ⟨?_, fun _ => ⟨hp, ?_, ?_⟩, fun h => by simp at h⟩
    · simp only [completionMean]
      rw [← add_div, i1]
      ring
    · rw [completionMean, div_le_one h4W]
      exact i2
    · rw [completionExcess, le_div_iff₀ hsumP]
      exact i3
  · rw [if_neg hg]
    refine ⟨by norm_num, fun h => by simp at h, fun _ => ⟨rfl, rfl⟩⟩

/-- The invariants of the result of `calc` on a level-0 artifact with three subs. -/
theorem calc_map_three_invariants (art : Artifact) (m : AFFIX_NAMES → Option ℚ)
    (bar gain : ℚ) (h3 : art.sub.length = 3) (hl : art.level = 0)
    (hm : ∀ e ∈ SUB_PROB_WEIGHT, (m e.1).isSome) (hs : ∀ e ∈ art.sub, (m e.1).isSome) :
    ∃ r : Result, calc_map art m bar gain = .ok r ∧
      r.2.1 + r.2.2.1 = r.2.2.2.1 * (gain + 270475) ∧
      (r.1 = true → 0 < r.2.2.2.1 ∧ r.2.2.2.1 ≤ 1 ∧ -(1 / 100000000) ≤ r.2.2.2.2) ∧
      (r.1 = false → r.2.2.2.1 = 0 ∧ r.2.2.2.2 = 0) := by
  refine ⟨_, calc_map_three art m bar gain h3 hl hm hs, ?_⟩
  apply threeSubResult_invariants art (fourSubResult m bar gain) (gain + 270475) h3
    (fun c hc => completion_shape art m bar gain h3 hm hs c hc)
  intro c hc
  obtain ⟨_, sc, B, hr⟩ := completion_result art m bar h3 hm hs c hc
  rw [hr gain]
  obtain ⟨k1, k2, k3⟩ := resultOf_invariants sc B gain 4 (by norm_num)
  refine ⟨k1, ?_, ?_, ?_⟩
  · cases hd : (resultOf 4 (vecRecord sc B gain 4 4 Vec4.zero)).1 with
    | true => exact le_of_lt (k2 hd).1
    | false => rw [(k3 hd).1]
  · cases hd : (resultOf 4 (vecRecord sc B gain 4 4 Vec4.zero)).1 with
    | true => exact (k2 hd).2.1
    | false => rw [(k3 hd).1]; norm_num
  · cases hd : (resultOf 4 (vecRecord sc B gain 4 4 Vec4.zero)).1 with
    | true =>
      obtain ⟨p1, _, p3⟩ := k2 hd
      nlinarith
    | false => rw [(k3 hd).1, (k3 hd).2]; norm_num

/-- The invariants of the result of the vector overload of `calc`. -/
theorem calc_weights_invariants (w : List Int) (s : List ℚ) (T : Nat) (bar gain : ℚ)
    (hw : w.length = 4) (hs : s.length = 4) (hT : T ≤ 5) :
    ∃ r : Result, calc_weights w s T bar gain = .ok r ∧
      r.2.1 + r.2.2.1 = r.2.2.2.1 * (gain + 270475) ∧
      (r.1 = true → 0 < r.2.2.2.1 ∧ r.2.2.2.1 ≤ 1 ∧ -(1 / 100000000) ≤ r.2.2.2.2) ∧
      (r.1 = false → r.2.2.2.1 = 0 ∧ r.2.2.2.2 = 0) :=
  ⟨_, calc_weights_eq w s T bar gain hw hs hT,
    resultOf_invariants s (bar - weightedScore w s) gain T hT⟩

/-- Fully upgraded: with no upgrade to come the result of `calc` is decided by the bar
alone. -/
theorem calc_weights_terminal (w : List Int) (s : List ℚ) (bar gain : ℚ)
    (hw : w.length = 4) (hs : s.length = 4) :
    (weightedScore w s ≥ bar - 1 / 100000000 →
      calc_weights w s 0 bar gain = .ok (true, gain, 270475, 1, weightedScore w s - bar)) ∧
    (¬ weightedScore w s ≥ bar - 1 / 100000000 →
      calc_weights w s 0 bar gain = .ok (false, -50315, 50315, 0, 0)) := by
  have h5 : DOGFOOD_LOSS 5 = -50315 := dogfood_values.2.2.2.2.2.2
  have hdot : Vec4.zero.dot s = 0 := by simp [Vec4.dot, Vec4.zero]
  rw [calc_weights_eq w s 0 bar gain hw hs (by norm_num)]
  simp only [vecRecord, hdot]
  constructor
  · intro h
    rw [if_pos (by linarith)]
    simp only [resultOf]
    have e : (0 : ℚ) - (bar - weightedScore w s) = weightedScore w s - bar := by ring
    rw [e]
  · intro h
    rw [if_neg (by intro hc; apply h; linarith)]
    simp only [resultOf, h5]
    norm_num

end DP

/-! ## The expected gain grows with the gain argument -/

namespace DP

open DATA

/-- The gain figure and the decision of the result of the four-slot DP are non-decreasing in
the gain argument. -/
theorem resultOf_gain_mono (s : List ℚ) (B g1 g2 : ℚ) (hg : g1 ≤ g2) (T : Nat) (hT : T ≤ 5) :
    (resultOf T (vecRecord s B g1 T T Vec4.zero)).2.1
      ≤ (resultOf T (vecRecord s B g2 T T Vec4.zero)).2.1 ∧
    ((resultOf T (vecRecord s B g1 T T Vec4.zero)).1 = true →
      (resultOf T (vecRecord s B g2 T T Vec4.zero)).1 = true) := by
  have hmono := (recGain_recCost_mono s B g1 g2 hg T hT T le_rfl Vec4.zero).1
  have e1 := (resultOf_gain_cost s B g1 T Vec4.zero).1
  have e2 := (resultOf_gain_cost s B g2 T Vec4.zero).1
  refine ⟨by rw [e1, e2]; exact hmono, ?_⟩
  cases T with
  | zero =>
    simp only [vecRecord]
    split_ifs <;> simp [resultOf]
  | succ k =>
    intro h1
    cases hr1 : vecRecord s B g1 (k + 1) (k + 1) Vec4.zero with
    | none =>
      rw [hr1] at h1
      simp [resultOf] at h1
    | some o1 =>
      have hgt := vecRecord_succ_gain s B g1 (k + 1) k Vec4.zero o1 hr1
      simp only [Nat.sub_self, Nat.add_zero] at hgt
      cases hr2 : vecRecord s B g2 (k + 1) (k + 1) Vec4.zero with
      | some o2 => rfl
      | none =>
        exfalso
        simp only [hr1, resultOf] at e1
        simp only [hr2, resultOf] at e2
        rw [← e1, ← e2] at hmono
        linarith

theorem calc_weights_gain_mono (w : List Int) (s : List ℚ) (T : Nat) (bar g1 g2 : ℚ)
    (hw : w.length = 4) (hs : s.length = 4) (hT : T ≤ 5) (hg : g1 ≤ g2) :
    ∃ r1 r2 : Result, calc_weights w s T bar g1 = .ok r1 ∧ calc_weights w s T bar g2 = .ok r2 ∧
      r1.2.1 ≤ r2.2.1 ∧ (r1.1 = true → r2.1 = true) :=
  ⟨_, _, calc_weights_eq w s T bar g1 hw hs hT, calc_weights_eq w s T bar g2 hw hs hT,
    resultOf_gain_mono s (bar - weightedScore w s) g1 g2 hg T hT⟩

theorem calc_map_three_gain_mono (art : Artifact) (m : AFFIX_NAMES → Option ℚ)
    (bar g1 g2 : ℚ) (h3 : art.sub.length = 3) (hl : art.level = 0)
    (hm : ∀ e ∈ SUB_PROB_WEIGHT, (m e.1).isSome) (hs : ∀ e ∈ art.sub, (m e.1).isSome)
    (hg : g1 ≤ g2) :
    ∃ r1 r2 : Result, calc_map art m bar g1 = .ok r1 ∧ calc_map art m bar g2 = .ok r2 ∧
      r1.2.1 ≤ r2.2.1 ∧ (r1.1 = true → r2.1 = true) := by
  refine ⟨_, _, calc_map_three art m bar g1 h3 hl hm hs,
    calc_map_three art m bar g2 h3 hl hm hs, ?_⟩
  have hmean : completionMean art (fourSubResult m bar g1) (fun r => r.2.1)
      ≤ completionMean art (fourSubResult m bar g2) (fun r => r.2.1) := by
    apply completionMean_mono
    intro c hc
    obtain ⟨_, sc, B, hr⟩ := completion_result art m bar h3 hm hs c hc
    rw [hr g1, hr g2]
    exact (resultOf_gain_mono sc B g1 g2 hg 4 (by norm_num)).1
  unfold threeSubResult
  by_cases h1 : completionMean art (fourSubResult m bar g1) (fun r => r.2.1) > 3780
  · have h2 : completionMean art (fourSubResult m bar g2) (fun r => r.2.1) > 3780 := by
      linarith
    rw [if_pos h1, if_pos h2]
    exact ⟨hmean, fun _ => rfl⟩
  · rw [if_neg h1]
    by_cases h2 : completionMean art (fourSubResult m bar g2) (fun r => r.2.1) > 3780
    · rw [if_pos h2]
      exact ⟨le_of_lt h2, fun h => by simp at h⟩
    · rw [if_neg h2]
      exact ⟨le_rfl, fun h => by simp at h⟩

end DP

/-! ## The state table is closed under the transitions -/

namespace DP

/-- A pick applied to a code of `cell[i]` gives a code of `cell[i + 1]`. -/
theorem cell_closed (i : Nat) (hi : i ≤ 4) (c : Nat) (hc : c ∈ (cell i).map Prod.fst)
    (j upd : Nat) (hj : j < 4) (h7 : 7 ≤ upd) (h10 : upd ≤ 10) :
    c + upd * 64 ^ j ∈ (cell (i + 1)).map Prod.fst ∧
    ∃ v, Reach i v ∧ c = v.code ∧ Reach (i + 1) (v.bump j upd) ∧
      c + upd * 64 ^ j = (v.bump j upd).code := by
  obtain ⟨e, he, rfl⟩ := List.mem_map.1 hc
  obtain ⟨v, hv, hcode, _⟩ := cell_entry_spec i (by omega) he
  have hsucc := hv.succ hj h7 h10
  have hcb := Vec4.code_bump v j upd hj
  rw [hcode, ← hcb]
  exact ⟨hsucc.code_mem_cell (by omega), v, hv, rfl, hsucc, rfl⟩

/-- After the loops of `calc`, the map of step `i + 1` holds at the code of a successor
exactly the record of the backward induction: the entry is missing if and only if that
record does not exist. -/
theorem successor_entry (s : List ℚ) (B mi gain : ℚ) (T : Nat) (hT : T ≤ 5) (i : Nat)
    (hi : i < T) (c : Nat) (hc : c ∈ (cell i).map Prod.fst) (j upd : Nat) (hj : j < 4)
    (h7 : 7 ≤ upd) (h10 : upd ≤ 10) :
    ∃ v, Reach (i + 1) v ∧ v.code = c + upd * 64 ^ j ∧
      (calcLevels s B mi gain T T (fun _ _ => none) (i + 1) (c + upd * 64 ^ j)).map Rec.core
        = vecRecord s B gain T (T - (i + 1)) v := by
  obtain ⟨_, v, hv, hcv, hsucc, hcode⟩ := cell_closed i (by omega) c hc j upd hj h7 h10
  have hdone := LevelsDone.calcLevels s B mi gain T hT T le_rfl _ (LevelsDone.init s B gain T)
  refine ⟨v.bump j upd, hsucc, hcode.symm, ?_⟩
  rw [hcode]
  exact hdone.2 (i + 1) (Nat.zero_le _) hi _ hsucc

end DP

/-! ## `weighted_rand` as a function of the draw -/

namespace DATA

theorem weighted_sum_cons {T : Type} (e : T × Nat) (vec : List (T × Nat)) :
    weighted_sum (e :: vec) = e.2 + weighted_sum vec := by
  rw [DP.weighted_sum_eq, DP.weighted_sum_eq, List.map_cons, List.sum_cons]

theorem weighted_sum_nil {T : Type} : weighted_sum ([] : List (T × Nat)) = 0 := rfl

theorem weighted_sum_take_le {T : Type} : ∀ (vec : List (T × Nat)) (i : Nat),
    weighted_sum (vec.take i) ≤ weighted_sum vec := by
  intro vec
  induction vec with
  | nil =>
    intro i
    rw [List.take_nil]
  | cons e vec ih =>
    intro i
    cases i with
    | zero =>
      rw [List.take_zero, weighted_sum_nil]
      exact Nat.zero_le _
    | succ i =>
      rw [List.take_succ_cons, weighted_sum_cons, weighted_sum_cons]
      exact Nat.add_le_add_left (ih i) _

theorem weighted_sum_take_succ {T : Type} : ∀ (vec : List (T × Nat)) (i : Nat) (e : T × Nat),
    vec[i]? = some e → weighted_sum (vec.take (i + 1)) = weighted_sum (vec.take i) + e.2 := by
  intro vec
  induction vec with
  | nil =>
    intro i e h
    simp at h
  | cons x vec ih =>
    intro i e h
    cases i with
    | zero =>
      simp only [List.getElem?_cons_zero, Option.some.injEq] at h
      rw [List.take_succ_cons, List.take_zero, List.take_zero, weighted_sum_cons,
        weighted_sum_nil, h]
      omega
    | succ i =>
      simp only [List.getElem?_cons_succ] at h
      rw [List.take_succ_cons, List.take_succ_cons, weighted_sum_cons, weighted_sum_cons,
        ih i e h]
      omega

theorem weighted_sum_take_mono {T : Type} (vec : List (T × Nat)) {i j : Nat} (h : i ≤ j) :
    weighted_sum (vec.take i) ≤ weighted_sum (vec.take j) := by
  have := weighted_sum_take_le (vec.take j) i
  rwa [List.take_take, Nat.min_eq_left h] at this

theorem weighted_rand_index_ge {T : Type} : ∀ (vec : List (T × Nat)) (ret pos k : Nat),
    weighted_rand_index vec ret pos = some k → pos ≤ k := by
  intro vec
  induction vec with
  | nil =>
    intro ret pos k h
    exact Option.noConfusion h
  | cons e vec ih =>
    intro ret pos k h
    obtain ⟨t, j⟩ := e
    rw [weighted_rand_index] at h
    split_ifs at h
    · injection h with h
      omega
    · have := ih _ _ _ h
      omega

/-- The loop returns position `i` exactly for the draws from the cumulative weight before
entry `i` up to, and not including, the cumulative weight with entry `i`. -/
theorem weighted_rand_index_spec {T : Type} : ∀ (vec : List (T × Nat)) (ret pos i : Nat),
    weighted_rand_index vec ret pos = some (pos + i)
      ↔ i < vec.length ∧ weighted_sum (vec.take i) ≤ ret ∧
          ret < weighted_sum (vec.take (i + 1)) := by
  intro vec
  induction vec with
  | nil =>
    intro ret pos i
    simp [weighted_rand_index]
  | cons e vec ih =>
    intro ret pos i
    obtain ⟨t, j⟩ := e
    rw [weighted_rand_index]
    cases i with
    | zero =>
      simp only [List.take_zero, weighted_sum_nil, List.take_succ_cons, weighted_sum_cons,
        List.length_cons, Nat.add_zero, Nat.zero_le, true_and, Nat.zero_lt_succ]
      split_ifs with hlt
      · simp [hlt]
      · constructor
        · intro h
          have := weighted_rand_index_ge _ _ _ _ h
          omega
        · intro h
          omega
    | succ i =>
      simp only [List.take_succ_cons, weighted_sum_cons, List.length_cons]
      split_ifs with hlt
      · constructor
        · intro h
          injection h with h
          omega
        · intro h
          omega
      · have e1 : pos + (i + 1) = pos + 1 + i := by omega
        rw [e1, ih (ret - j) (pos + 1) i]
        constructor
        · rintro ⟨h1, h2, h3⟩
          exact ⟨by omega, by omega, by omega⟩
        · rintro ⟨h1, h2, h3⟩
          exact ⟨by omega, by omega, by omega⟩

/-- The key the loop returns is the key at the position it stops at. -/
theorem weighted_rand_pick_index {T : Type} : ∀ (vec : List (T × Nat)) (ret pos i : Nat),
    weighted_rand_index vec ret pos = some (pos + i) →
    ∃ e, vec[i]? = some e ∧ weighted_rand_pick vec ret = .ok e.1 := by
  intro vec
  induction vec with
  | nil =>
    intro ret pos i h
    exact Option.noConfusion h
  | cons x vec ih =>
    intro ret pos i h
    obtain ⟨t, j⟩ := x
    rw [weighted_rand_index] at h
    rw [weighted_rand_pick]
    split_ifs at h ⊢ with hlt
    · injection h with h
      have hi : i = 0 := by omega
      subst hi
      exact ⟨(t, j), List.getElem?_cons_zero, rfl⟩
    · have hge := weighted_rand_index_ge _ _ _ _ h
      obtain ⟨i', rfl⟩ : ∃ i', i = i' + 1 := ⟨i - 1, by omega⟩
      have e1 : pos + (i' + 1) = pos + 1 + i' := by omega
      rw [e1] at h
      obtain ⟨e, he, hp⟩ := ih _ _ _ h
      exact ⟨e, by simpa using he, hp⟩

/-- A draw below the sum of the weights stops the loop at some position. -/
theorem weighted_rand_index_total {T : Type} : ∀ (vec : List (T × Nat)) (ret pos : Nat),
    ret < weighted_sum vec → ∃ i, weighted_rand_index vec ret pos = some (pos + i) := by
  intro vec
  induction vec with
  | nil =>
    intro ret pos h
    rw [weighted_sum_nil] at h
    exact absurd h (Nat.not_lt_zero _)
  | cons x vec ih =>
    intro ret pos h
    obtain ⟨t, j⟩ := x
    rw [weighted_sum_cons] at h
    rw [weighted_rand_index]
    split_ifs with hlt
    · exact ⟨0, rfl⟩
    · obtain ⟨i, hi⟩ := ih (ret - j) (pos + 1) (by simp only at h; omega)
      exact ⟨i + 1, by rw [hi]; congr 1; omega⟩

/-- The draws that return position `i` are as many as the weight of entry `i`. -/
theorem weighted_rand_count {T : Type} (vec : List (T × Nat)) (i : Nat) (e : T × Nat)
    (he : vec[i]? = some e) :
    ((Finset.range (weighted_sum vec)).filter
      fun r => weighted_rand_index vec r 0 = some i).card = e.2 := by
  have hlen : i < vec.length := by
    by_contra hc
    rw [List.getElem?_eq_none (by omega)] at he
    exact Option.noConfusion he
  have hsucc := weighted_sum_take_succ vec i e he
  have hle := weighted_sum_take_le vec (i + 1)
  have hset : (Finset.range (weighted_sum vec)).filter
      (fun r => weighted_rand_index vec r 0 = some i)
      = Finset.Ico (weighted_sum (vec.take i)) (weighted_sum (vec.take (i + 1))) := by
    ext r
    have hspec := weighted_rand_index_spec vec r 0 i
    rw [Nat.zero_add] at hspec
    rw [Finset.mem_filter, Finset.mem_range, Finset.mem_Ico, hspec]
    constructor
    · rintro ⟨_, _, h2, h3⟩
      exact ⟨h2, h3⟩
    · rintro ⟨h2, h3⟩
      exact ⟨by omega, hlen, h2, h3⟩
  rw [hset, Nat.card_Ico, hsucc]
  omega

/-- With a positive sum of weights `weighted_rand` returns, whatever the generator does. -/
theorem weighted_rand_returns {T : Type} (vec : List (T × Nat)) (hpos : 0 < weighted_sum vec)
    (draws : List Nat) : ∃ r, weighted_rand vec draws = .ok r := by
  have hlt : (randint (weighted_sum vec) draws).1 < weighted_sum vec := Nat.mod_lt _ hpos
  obtain ⟨i, hi⟩ := weighted_rand_index_total vec _ 0 hlt
  obtain ⟨e, _, hp⟩ := weighted_rand_pick_index vec _ 0 i hi
  rw [weighted_rand, hp]
  exact ⟨_, rfl⟩

end DATA

/-! ## The DP does not depend on the order of the slots -/

namespace DP

/-- A relabelling of the slots that commutes with the picks carries the backward induction
over. -/
theorem vecRecord_slot_map (s s' : List ℚ) (B gain : ℚ) (T : Nat) (σ : Nat → Nat)
    (P : Vec4 → Vec4) (H1 : ∀ v, (P v).dot s' = v.dot s)
    (H2 : ∀ v slot upd, slot < 4 → (P v).bump slot upd = P (v.bump (σ slot) upd))
    (H3 : (picks.map fun q => (σ q.1, q.2)).Perm picks) :
    ∀ k v, vecRecord s' B gain T k (P v) = vecRecord s B gain T k v := by
  intro k
  induction k with
  | zero =>
    intro v
    simp only [vecRecord, H1]
  | succ k ih =>
    intro v
    have hperm : ((successors (P v)).map (vecRecord s' B gain T k)).Perm
        ((successors v).map (vecRecord s B gain T k)) := by
      have e1 : (successors (P v)).map (vecRecord s' B gain T k)
          = (picks.map fun q => (σ q.1, q.2)).map
              (fun q => vecRecord s B gain T k (v.bump q.1 q.2)) := by
        rw [successors, List.map_map, List.map_map]
        apply List.map_congr_left
        intro q hq
        simp only [Function.comp_apply]
        rw [H2 v q.1 q.2 (of_mem_picks hq).1, ih]
      have e2 : (successors v).map (vecRecord s B gain T k)
          = picks.map (fun q => vecRecord s B gain T k (v.bump q.1 q.2)) := by
        rw [successors, List.map_map]
        rfl
      rw [e1, e2]
      exact H3.map _
    have hsum : ∀ F : Option Outcome → ℚ,
        (((successors (P v)).map (vecRecord s' B gain T k)).map F).sum
          = (((successors v).map (vecRecord s B gain T k)).map F).sum :=
      fun F => (hperm.map F).sum_eq
    simp only [vecRecord, hsum]

theorem perm_four_cases {p : List Nat} (hp : p.Perm [0, 1, 2, 3]) :
    p ∈ [[0, 1, 2, 3], [1, 0, 2, 3], [1, 2, 0, 3], [1, 2, 3, 0], [0, 2, 1, 3], [2, 0, 1, 3],
      [2, 1, 0, 3], [2, 1, 3, 0], [0, 2, 3, 1], [2, 0, 3, 1], [2, 3, 0, 1], [2, 3, 1, 0],
      [0, 1, 3, 2], [1, 0, 3, 2], [1, 3, 0, 2], [1, 3, 2, 0], [0, 3, 1, 2], [3, 0, 1, 2],
      [3, 1, 0, 2], [3, 1, 2, 0], [0, 3, 2, 1], [3, 0, 2, 1], [3, 2, 0, 1], [3, 2, 1, 0]] := by
  have h := List.mem_permutations'.2 hp
  have e : ([0, 1, 2, 3] : List Nat).permutations'
      = [[0, 1, 2, 3], [1, 0, 2, 3], [1, 2, 0, 3], [1, 2, 3, 0], [0, 2, 1, 3], [2, 0, 1, 3],
      [2, 1, 0, 3], [2, 1, 3, 0], [0, 2, 3, 1], [2, 0, 3, 1], [2, 3, 0, 1], [2, 3, 1, 0],
      [0, 1, 3, 2], [1, 0, 3, 2], [1, 3, 0, 2], [1, 3, 2, 0], [0, 3, 1, 2], [3, 0, 1, 2],
      [3, 1, 0, 2], [3, 1, 2, 0], [0, 3, 2, 1], [3, 0, 2, 1], [3, 2, 0, 1], [3, 2, 1, 0]] := by
    decide
  rw [e] at h
  exact h

end DP

namespace DP

theorem perm_getD_range (p : List Nat) (hp : p.Perm [0, 1, 2, 3]) :
    (List.range 4).map (fun i => p.getD i 0) = p := by
  have hcases := perm_four_cases hp
  fin_cases hcases <;> rfl

theorem slot_perm_picks (p : List Nat) (hp : p.Perm [0, 1, 2, 3]) :
    (picks.map fun q => (p.getD q.1 0, q.2)).Perm picks := by
  have e1 : (picks.map fun q => (p.getD q.1 0, q.2))
      = ((List.range 4).map (fun i => p.getD i 0)).flatMap fun slot =>
          (List.range' DATA.AFFIX_UPDATE_MIN
            (DATA.AFFIX_UPDATE_MAX + 1 - DATA.AFFIX_UPDATE_MIN)).map fun upd => (slot, upd) := by
    simp only [picks, List.map_flatMap, List.flatMap_map, List.map_map]
    rfl
  have e2 : picks = (List.range 4).flatMap fun slot =>
      (List.range' DATA.AFFIX_UPDATE_MIN
        (DATA.AFFIX_UPDATE_MAX + 1 - DATA.AFFIX_UPDATE_MIN)).map fun upd => (slot, upd) := rfl
  have e3 : ([0, 1, 2, 3] : List Nat) = List.range 4 := by decide
  rw [e1, perm_getD_range p hp]
  conv_rhs => rw [e2]
  rw [← e3]
  exact List.Perm.flatMap_right _ hp

set_option maxHeartbeats 1000000 in
theorem slot_perm_dot (p : List Nat) (hp : p.Perm [0, 1, 2, 3]) (s0 s1 s2 s3 : ℚ) (v : Vec4) :
    (Vec4.permute p v).dot (permuteList p [s0, s1, s2, s3] 0) = v.dot [s0, s1, s2, s3] := by
  have hcases := perm_four_cases hp
  fin_cases hcases <;>
    simp only [Vec4.permute, Vec4.get, Vec4.dot, permuteList, List.getD_cons_zero,
      List.getD_cons_succ, List.map_cons, List.map_nil] <;> ring

set_option maxHeartbeats 1000000 in
theorem slot_perm_score (p : List Nat) (hp : p.Perm [0, 1, 2, 3]) (w0 w1 w2 w3 : Int)
    (s0 s1 s2 s3 : ℚ) :
    weightedScore (permuteList p [w0, w1, w2, w3] 0) (permuteList p [s0, s1, s2, s3] 0)
      = weightedScore [w0, w1, w2, w3] [s0, s1, s2, s3] := by
  have hcases := perm_four_cases hp
  fin_cases hcases <;>
    simp only [weightedScore, permuteList, List.getD_cons_zero, List.getD_cons_succ,
      List.map_cons, List.map_nil, List.zipWith_cons_cons, List.zipWith_nil_right,
      List.sum_cons, List.sum_nil] <;> ring

set_option maxHeartbeats 1000000 in
theorem slot_perm_bump (p : List Nat) (hp : p.Perm [0, 1, 2, 3]) (v : Vec4) (slot upd : Nat)
    (h : slot < 4) :
    (Vec4.permute p v).bump slot upd = Vec4.permute p (v.bump (p.getD slot 0) upd) := by
  have hcases := perm_four_cases hp
  have hslot : slot = 0 ∨ slot = 1 ∨ slot = 2 ∨ slot = 3 := by omega
  fin_cases hcases <;> rcases hslot with h | h | h | h <;> subst h <;> rfl

theorem slot_perm_misc (p : List Nat) (hp : p.Perm [0, 1, 2, 3]) :
    Vec4.permute p Vec4.zero = Vec4.zero ∧
    (∀ slot, slot < 4 → ∃ slot', slot' < 4 ∧ p.getD slot' 0 = slot) ∧
    (permuteList p ([] : List Nat) 0).length = 4 := by
  have hcases := perm_four_cases hp
  fin_cases hcases <;> exact ⟨rfl, by decide, rfl⟩

set_option maxHeartbeats 1000000 in
theorem slot_perm_injective (p : List Nat) (hp : p.Perm [0, 1, 2, 3]) (v v' : Vec4)
    (h : Vec4.permute p v = Vec4.permute p v') : v = v' := by
  have hcases := perm_four_cases hp
  obtain ⟨a0, a1, a2, a3⟩ := v
  obtain ⟨b0, b1, b2, b3⟩ := v'
  fin_cases hcases <;>
    simp only [Vec4.permute, Vec4.get, List.getD_cons_zero, List.getD_cons_succ,
      Vec4.mk.injEq] at h <;>
    simp only [Vec4.mk.injEq] <;> tauto

set_option maxHeartbeats 1000000 in
theorem slot_perm_bounded (p : List Nat) (hp : p.Perm [0, 1, 2, 3]) (v : Vec4) (b : Nat)
    (h : v.BoundedBy b) : (Vec4.permute p v).BoundedBy b := by
  have hcases := perm_four_cases hp
  fin_cases hcases <;>
    simp only [Vec4.BoundedBy, Vec4.permute, Vec4.get, List.getD_cons_zero,
      List.getD_cons_succ] at h ⊢ <;> tauto

end DP

namespace DP

theorem list_four {α : Type} (l : List α) (h : l.length = 4) : ∃ a b c d, l = [a, b, c, d] := by
  match l, h with
  | [a, b, c, d], _ => exact ⟨a, b, c, d, rfl⟩

/-- The result of `calc` does not change when the slots of the weights and of the scores
are permuted alike. -/
theorem calc_weights_perm (p : List Nat) (hp : p.Perm [0, 1, 2, 3]) (w : List Int)
    (s : List ℚ) (T : Nat) (bar gain : ℚ) (hw : w.length = 4) (hs : s.length = 4)
    (hT : T ≤ 5) :
    calc_weights (permuteList p w 0) (permuteList p s 0) T bar gain
      = calc_weights w s T bar gain := by
  obtain ⟨w0, w1, w2, w3, rfl⟩ := list_four w hw
  obtain ⟨s0, s1, s2, s3, rfl⟩ := list_four s hs
  have hlen : p.length = 4 := hp.length_eq
  have hw' : (permuteList p [w0, w1, w2, w3] 0).length = 4 := by
    rw [permuteList, List.length_map, hlen]
  have hs' : (permuteList p [s0, s1, s2, s3] 0).length = 4 := by
    rw [permuteList, List.length_map, hlen]
  rw [calc_weights_eq _ _ T bar gain hw' hs' hT, calc_weights_eq _ _ T bar gain hw hs hT,
    slot_perm_score p hp]
  have hz := (slot_perm_misc p hp).1
  have hrec := vecRecord_slot_map [s0, s1, s2, s3] (permuteList p [s0, s1, s2, s3] 0)
    (bar - weightedScore [w0, w1, w2, w3] [s0, s1, s2, s3]) gain T (fun i => p.getD i 0)
    (Vec4.permute p) (slot_perm_dot p hp s0 s1 s2 s3)
    (fun v slot upd h => slot_perm_bump p hp v slot upd h) (slot_perm_picks p hp) T Vec4.zero
  rw [hz] at hrec
  rw [hrec]

theorem reach_permute (p : List Nat) (hp : p.Perm [0, 1, 2, 3]) :
    ∀ k v, Reach k v → Reach k (Vec4.permute p v) := by
  intro k
  induction k with
  | zero =>
    intro v hv
    have hv' : v = Vec4.zero := hv
    rw [hv', (slot_perm_misc p hp).1]
    rfl
  | succ k ih =>
    intro v hv
    obtain ⟨v', slot, upd, hv', h1, h2, h3, rfl⟩ := hv
    obtain ⟨slot', hs', hslot⟩ := (slot_perm_misc p hp).2.1 slot h1
    rw [← hslot, ← slot_perm_bump p hp v' slot' upd hs']
    exact (ih v' hv').succ hs' h2 h3

theorem applySeq_permute (p : List Nat) (hp : p.Perm [0, 1, 2, 3]) :
    ∀ (q : List (Nat × Nat)) (u : Vec4), (∀ x ∈ q, x.1 < 4) →
    applySeq (Vec4.permute p u) q
      = Vec4.permute p (applySeq u (q.map fun x => (p.getD x.1 0, x.2))) := by
  intro q
  induction q with
  | nil =>
    intro u _
    rfl
  | cons x q ih =>
    intro u h
    have e1 : applySeq (Vec4.permute p u) (x :: q)
        = applySeq ((Vec4.permute p u).bump x.1 x.2) q := rfl
    have e2 : applySeq u ((x :: q).map fun x => (p.getD x.1 0, x.2))
        = applySeq (u.bump (p.getD x.1 0) x.2) (q.map fun x => (p.getD x.1 0, x.2)) := rfl
    rw [e1, e2, slot_perm_bump p hp u x.1 x.2 (h x (List.mem_cons_self _ _)),
      ih _ fun y hy => h y (List.mem_cons_of_mem _ hy)]

theorem pickSeqs_slot_perm (p : List Nat) (hp : p.Perm [0, 1, 2, 3]) (k : Nat) :
    ((pickSeqs k).map (List.map fun x => (p.getD x.1 0, x.2))).Perm (pickSeqs k) := by
  induction k with
  | zero => simp [pickSeqs]
  | succ k ih =>
    have h1 : (pickSeqs (k + 1)).map (List.map fun x => (p.getD x.1 0, x.2))
        = (picks.map fun x => (p.getD x.1 0, x.2)).flatMap fun y =>
            ((pickSeqs k).map (List.map fun x => (p.getD x.1 0, x.2))).map fun q => y :: q := by
      simp only [pickSeqs, List.map_flatMap, List.flatMap_map, List.map_map]
      rfl
    rw [h1]
    have h2 : ((picks.map fun x => (p.getD x.1 0, x.2)).flatMap fun y =>
          ((pickSeqs k).map (List.map fun x => (p.getD x.1 0, x.2))).map fun q => y :: q).Perm
        ((picks.map fun x => (p.getD x.1 0, x.2)).flatMap fun y =>
          (pickSeqs k).map fun q => y :: q) :=
      List.Perm.flatMap_left _ (fun y _ => ih.map _)
    exact h2.trans (List.Perm.flatMap_right _ (slot_perm_picks p hp))

/-- A vector and its permuted vector are produced by the same number of pick sequences. -/
theorem seqCount_permute (p : List Nat) (hp : p.Perm [0, 1, 2, 3]) (k : Nat) (v : Vec4) :
    seqCount k (Vec4.permute p v) = seqCount k v := by
  have hz := (slot_perm_misc p hp).1
  have h1 : (pickSeqs k).countP (fun q => decide (applySeq Vec4.zero q = Vec4.permute p v))
      = (pickSeqs k).countP
          ((fun q => decide (applySeq Vec4.zero q = v))
            ∘ (List.map fun x => (p.getD x.1 0, x.2))) := by
    apply List.countP_congr
    intro q hq
    have hlt : ∀ x ∈ q, x.1 < 4 := fun x hx => (of_mem_picks (mem_of_mem_pickSeqs k q hq x hx)).1
    have := applySeq_permute p hp q Vec4.zero hlt
    rw [hz] at this
    simp only [Function.comp_apply, decide_eq_true_eq, this]
    constructor
    · exact fun h => slot_perm_injective p hp _ _ h
    · exact fun h => by rw [h]
  rw [seqCount, seqCount, h1, ← List.countP_map]
  exact (pickSeqs_slot_perm p hp k).countP_eq _

/-- Every row of the table is invariant under a permutation of the digits of its codes. -/
theorem cell_permute (p : List Nat) (hp : p.Perm [0, 1, 2, 3]) (k : Nat) (hk : k ≤ 5)
    (e : Nat × Nat) (he : e ∈ cell k) :
    ((Vec4.permute p (decode e.1)).code, e.2) ∈ cell k := by
  obtain ⟨v, hv, h1, h2⟩ := cell_entry_spec k hk he
  rw [h1, h2, (reach_bounded_fifty hk hv).2, ← seqCount_permute p hp k v]
  exact cell_mem_of_reach k hk (reach_permute p hp k v hv)

end DP

/-! ## The rolls of `get_drop` are uniform -/

namespace DATA

theorem rollOffset_bounds : ∀ rolls : List Int, (∀ r ∈ rolls, 7 ≤ r ∧ r ≤ 10) →
    0 ≤ rollOffset rolls ∧ rollOffset rolls + 1 / 4 ^ rolls.length ≤ 1 ∧
    ((∀ r ∈ rolls, r = 10) → rollOffset rolls + 1 / 4 ^ rolls.length = 1) ∧
    ((∀ r ∈ rolls, r = 7) → rollOffset rolls = 0) := by
  intro rolls
  induction rolls with
  | nil =>
    intro _
    simp [rollOffset]
  | cons r rest ih =>
    intro h
    obtain ⟨i1, i2, i3, i4⟩ := ih fun x hx => h x (List.mem_cons_of_mem _ hx)
    obtain ⟨h7, h10⟩ := h r (List.mem_cons_self _ _)
    have h7' : (7 : ℚ) ≤ (r : ℚ) := by exact_mod_cast h7
    have h10' : (r : ℚ) ≤ 10 := by exact_mod_cast h10
    have hpow : (1 : ℚ) / 4 ^ (r :: rest).length = 1 / 4 ^ rest.length / 4 := by
      rw [List.length_cons, pow_succ]
      field_simp
    rw [hpow]
    simp only [rollOffset]
    refine ⟨by linarith, by linarith, fun hall => ?_, fun hall => ?_⟩
    · have hr : (r : ℚ) = 10 := by exact_mod_cast hall r (List.mem_cons_self _ _)
      have := i3 fun x hx => hall x (List.mem_cons_of_mem _ hx)
      rw [hr]
      linarith
    · have hr : (r : ℚ) = 7 := by exact_mod_cast hall r (List.mem_cons_self _ _)
      have := i4 fun x hx => hall x (List.mem_cons_of_mem _ hx)
      rw [hr, this]
      norm_num

/-- The first digit and the remainder of a rescaled `randnum` in `[0, 1]`. -/
theorem first_digit (x : ℚ) (h0 : 0 ≤ x) (h1 : x ≤ 1) :
    (truncToInt (x * 4) ≥ 4 ∧ x = 1) ∨
    (¬ truncToInt (x * 4) ≥ 4 ∧ 0 ≤ truncToInt (x * 4) ∧
      ((truncToInt (x * 4) : Int) : ℚ) ≤ x * 4 ∧ x * 4 < ((truncToInt (x * 4) : Int) : ℚ) + 1) := by
  have h4 : (0 : ℚ) ≤ x * 4 := by positivity
  obtain ⟨t1, t2⟩ := truncToInt_nonneg h4
  have hfl : truncToInt (x * 4) = ⌊x * 4⌋ := by rw [truncToInt, if_pos h4]
  by_cases hge : truncToInt (x * 4) ≥ 4
  · left
    refine ⟨hge, ?_⟩
    have : (4 : ℚ) ≤ ((truncToInt (x * 4) : Int) : ℚ) := by exact_mod_cast hge
    linarith
  · right
    refine ⟨hge, t1, t2, ?_⟩
    rw [hfl]
    exact Int.lt_floor_add_one _

theorem truncToInt_eq {x : ℚ} {z : Int} (h0 : 0 ≤ x) (h1 : (z : ℚ) ≤ x) (h2 : x < (z : ℚ) + 1) :
    truncToInt x = z := by
  rw [truncToInt, if_pos h0]
  exact Int.floor_eq_iff.2 ⟨h1, h2⟩

/-- The rescaled `randnum` values in `[0, 1]` that expand into given rolls are those from
the offset of the rolls up to `1 / 4^n` further, the right end excluded unless it is 1. -/
theorem rollDigits_rolls_iff : ∀ (sub : List (AFFIX_NAMES × Int)) (rolls : List Int) (x : ℚ),
    rolls.length = sub.length → (∀ r ∈ rolls, 7 ≤ r ∧ r ≤ 10) → 0 ≤ x → x ≤ 1 →
    ((rollDigits sub x).map Prod.snd = rolls
      ↔ rollOffset rolls ≤ x ∧
        (x < rollOffset rolls + 1 / 4 ^ rolls.length ∨ (x = 1 ∧ ∀ r ∈ rolls, r = 10))) := by
  intro sub
  induction sub with
  | nil =>
    intro rolls x hlen _ h0 h1
    have hr : rolls = [] := List.length_eq_zero.1 hlen
    subst hr
    simp only [rollDigits, List.map_nil, rollOffset, List.length_nil, pow_zero, true_iff]
    refine ⟨h0, ?_⟩
    rcases eq_or_lt_of_le h1 with h | h
    · exact Or.inr ⟨h, fun r hr => by simp at hr⟩
    · exact Or.inl (by linarith)
  | cons e rest ih =>
    intro rolls x hlen hrange h0 h1
    obtain ⟨t, w⟩ := e
    cases rolls with
    | nil => simp at hlen
    | cons r rolls =>
      have hlen' : rolls.length = rest.length := by simpa using hlen
      have hrange' : ∀ y ∈ rolls, 7 ≤ y ∧ y ≤ 10 :=
        fun y hy => hrange y (List.mem_cons_of_mem _ hy)
      obtain ⟨h7, h10⟩ := hrange r (List.mem_cons_self _ _)
      have h7' : (7 : ℚ) ≤ (r : ℚ) := by exact_mod_cast h7
      have h10' : (r : ℚ) ≤ 10 := by exact_mod_cast h10
      obtain ⟨b1, b2, b3, _⟩ := rollOffset_bounds rolls hrange'
      have hpow : (1 : ℚ) / 4 ^ (r :: rolls).length = 1 / 4 ^ rolls.length / 4 := by
        rw [List.length_cons, pow_succ]
        field_simp
      have hpos : (0 : ℚ) < 1 / 4 ^ rolls.length := by positivity
      rw [rollDigits_cons, hpow]
      simp only [List.map_cons, List.cons.injEq, rollOffset, List.mem_cons, forall_eq_or_imp]
      rcases first_digit x h0 h1 with ⟨hge, hx1⟩ | ⟨hlt, f0, f1, f2⟩
      · -- the clamped case: `x = 1`
        rw [if_pos hge]
        have hx' : x * 4 - ((3 : Int) : ℚ) = 1 := by rw [hx1]; norm_num
        rw [hx', ih rolls 1 hlen' hrange' (by norm_num) le_rfl]
        constructor
        · rintro ⟨hr, _, hcase⟩
          have hr10 : r = 10 := by omega
          have hrq : (r : ℚ) = 10 := by exact_mod_cast hr10
          rcases hcase with hcase | ⟨_, hall⟩
          · exact absurd hcase (by linarith)
          · refine ⟨?_, Or.inr ⟨hx1, hr10, hall⟩⟩
            have := b3 hall
            rw [hrq, hx1]
            linarith
        · rintro ⟨hlo, hcase⟩
          rcases hcase with hcase | ⟨_, hr10, hall⟩
          · exfalso
            rw [hx1] at hcase
            linarith
          · exact ⟨by omega, by linarith, Or.inr ⟨rfl, hall⟩⟩
      · -- the digit is the integer part of `4 x`
        rw [if_neg hlt]
        have hx0 : 0 ≤ x * 4 - ((truncToInt (x * 4) : Int) : ℚ) := by linarith
        have hx1 : x * 4 - ((truncToInt (x * 4) : Int) : ℚ) ≤ 1 := by linarith
        rw [ih rolls _ hlen' hrange' hx0 hx1]
        constructor
        · rintro ⟨hr, hlo, hcase⟩
          have hrq : (r : ℚ) = ((truncToInt (x * 4) : Int) : ℚ) + 7 := by
            rw [← hr]
            push_cast
            ring
          rcases hcase with hcase | ⟨hone, _⟩
          · exact ⟨by rw [hrq]; linarith, Or.inl (by rw [hrq]; linarith)⟩
          · exfalso
            linarith
        · rintro ⟨hlo, hcase⟩
          rcases hcase with hcase | ⟨hone, hr10, hall⟩
          · have hz : truncToInt (x * 4) = r - 7 := by
              apply truncToInt_eq (by positivity)
              · push_cast
                linarith
              · push_cast
                linarith
            have hzq : ((truncToInt (x * 4) : Int) : ℚ) = (r : ℚ) - 7 := by
              rw [hz]
              push_cast
              ring
            exact ⟨by omega, by rw [hzq]; linarith, Or.inl (by rw [hzq]; linarith)⟩
          · exfalso
            have : (4 : ℚ) ≤ ((truncToInt (x * 4) : Int) : ℚ) + 1 := by
              rw [hone] at f2
              linarith
            have h3 : (3 : Int) ≤ truncToInt (x * 4) := by
              have : ((3 : Int) : ℚ) ≤ ((truncToInt (x * 4) : Int) : ℚ) := by
                push_cast
                linarith
              exact_mod_cast this
            have h3' : truncToInt (x * 4) = 3 := by omega
            rw [h3', hone] at f2
            norm_num at f2

end DATA

namespace DATA

theorem cdfAt_step : ∀ (l : List (Artifact × ℚ)) (r : Nat), 0 < r → r < l.length →
    cdfAt l r = cdfAt l (r - 1) + (entryAt l r).2 := by
  intro l
  induction l with
  | nil =>
    intro r _ h
    simp at h
  | cons a l ih =>
    intro r h0 h
    obtain ⟨r', rfl⟩ : ∃ r', r = r' + 1 := ⟨r - 1, by omega⟩
    rw [cdfAt_succ, entryAt_succ, Nat.add_sub_cancel]
    cases r' with
    | zero =>
      cases l with
      | nil => simp at h
      | cons b l => rw [cdfAt_zero, cdfAt_zero, entryAt_zero]
    | succ r'' =>
      rw [cdfAt_succ, ih (r'' + 1) (by omega) (by simpa using h), Nat.add_sub_cancel]
      ring

theorem pairs_eq_iff {α β : Type} : ∀ (A B : List (α × β)), A.map Prod.fst = B.map Prod.fst →
    (A = B ↔ A.map Prod.snd = B.map Prod.snd) := by
  intro A
  induction A with
  | nil =>
    intro B h
    cases B with
    | nil => simp
    | cons b B => simp at h
  | cons a A ih =>
    intro B h
    cases B with
    | nil => simp at h
    | cons b B =>
      simp only [List.map_cons, List.cons.injEq] at h ⊢
      rw [ih B h.2]
      constructor
      · rintro ⟨rfl, h2⟩
        exact ⟨rfl, h2⟩
      · rintro ⟨h1, h2⟩
        exact ⟨Prod.ext h.1 h1, h2⟩

theorem withRolls_maps : ∀ (sub : List (AFFIX_NAMES × Int)) (rolls : List Int),
    rolls.length = sub.length →
    (withRolls sub rolls).map Prod.fst = sub.map Prod.fst ∧
    (withRolls sub rolls).map Prod.snd = rolls := by
  intro sub
  induction sub with
  | nil =>
    intro rolls h
    have : rolls = [] := List.length_eq_zero.1 h
    subst this
    exact ⟨rfl, rfl⟩
  | cons e sub ih =>
    intro rolls h
    cases rolls with
    | nil => simp at h
    | cons r rolls =>
      obtain ⟨i1, i2⟩ := ih rolls (by simpa using h)
      simp only [withRolls, List.zipWith_cons_cons, List.map_cons, List.cons.injEq, true_and]
      exact ⟨i1, i2⟩

/-- Inside the stretch `(cdf[r - 1], cdf[r]]` of an index `r ≥ 1`, `get_drop` returns entry
`r` with given rolls exactly on the part of the stretch that starts `p_r * offset` after
`cdf[r - 1]` and is `p_r / 4^n` long. -/
theorem get_drop_from_rolls (l : List (Artifact × ℚ)) (hne : l ≠ [])
    (hpos : ∀ x ∈ l, 0 < x.2) (r : Nat) (hr0 : 0 < r) (hr : r < l.length) (rolls : List Int)
    (hlen : rolls.length = (entryAt l r).1.sub.length) (hrange : ∀ x ∈ rolls, 7 ≤ x ∧ x ≤ 10)
    (u : ℚ) (hu1 : cdfAt l (r - 1) < u) (hu2 : u ≤ cdfAt l r) :
    (get_drop_from (accumulate l) u
        = { (entryAt l r).1 with sub := withRolls (entryAt l r).1.sub rolls }
      ↔ cdfAt l (r - 1) + (entryAt l r).2 * rollOffset rolls ≤ u ∧
        (u < cdfAt l (r - 1) + (entryAt l r).2 * rollOffset rolls
              + (entryAt l r).2 / 4 ^ rolls.length
          ∨ ∀ x ∈ rolls, x = 10)) := by
  have hmono := cdfAt_mono l hpos
  have hp : 0 < (entryAt l r).2 := hpos _ (entryAt_mem l r hr)
  have hstep := cdfAt_step l r hr0 hr
  have h0 : cdfAt l 0 < u := lt_of_le_of_lt (hmono 0 (r - 1) (Nat.zero_le _)) hu1
  have hlast : u ≤ cdfAt l (l.length - 1) := le_trans hu2 (hmono r _ (by omega))
  obtain ⟨r', hr'0, hr'l, hr'1, hr'2, hr'min, hd⟩ := (get_drop_from_spec l hne hpos u).2.2 h0 hlast
  have hrr : r' = r := by
    by_contra hne'
    rcases Nat.lt_or_gt_of_ne hne' with hlt | hgt
    · have := hmono r' (r - 1) (by omega)
      linarith
    · have := hr'min r hgt
      linarith
  subst hrr
  rw [hd, hstep, add_sub_cancel_left]
  obtain ⟨w1, w2⟩ := withRolls_maps (entryAt l r').1.sub rolls hlen
  have hx0 : 0 ≤ (u - cdfAt l (r' - 1)) / (entryAt l r').2 :=
    div_nonneg (by linarith) (le_of_lt hp)
  have hx1 : (u - cdfAt l (r' - 1)) / (entryAt l r').2 ≤ 1 := by
    rw [div_le_one hp]
    linarith
  have hkey := rollDigits_rolls_iff (entryAt l r').1.sub rolls _ hlen hrange hx0 hx1
  have hfst : (rollDigits (entryAt l r').1.sub ((u - cdfAt l (r' - 1)) / (entryAt l r').2)).map
      Prod.fst = (withRolls (entryAt l r').1.sub rolls).map Prod.fst := by
    rw [rollDigits_fst, w1]
  have hart : ({ (entryAt l r').1 with
        sub := rollDigits (entryAt l r').1.sub ((u - cdfAt l (r' - 1)) / (entryAt l r').2) }
        : Artifact)
      = { (entryAt l r').1 with sub := withRolls (entryAt l r').1.sub rolls }
      ↔ rollDigits (entryAt l r').1.sub ((u - cdfAt l (r' - 1)) / (entryAt l r').2)
        = withRolls (entryAt l r').1.sub rolls := by
    constructor
    · intro h
      exact congrArg Artifact.sub h
    · intro h
      rw [h]
  rw [hart, pairs_eq_iff _ _ hfst, w2, hkey]
  obtain ⟨b1, b2, b3, _⟩ := rollOffset_bounds rolls hrange
  have hpn : (0 : ℚ) < 1 / 4 ^ rolls.length := by positivity
  have e1 : rollOffset rolls ≤ (u - cdfAt l (r' - 1)) / (entryAt l r').2
      ↔ cdfAt l (r' - 1) + (entryAt l r').2 * rollOffset rolls ≤ u := by
    rw [le_div_iff₀ hp]
    constructor <;> intro h <;> linarith
  have e2 : (u - cdfAt l (r' - 1)) / (entryAt l r').2 < rollOffset rolls + 1 / 4 ^ rolls.length
      ↔ u < cdfAt l (r' - 1) + (entryAt l r').2 * rollOffset rolls
            + (entryAt l r').2 / 4 ^ rolls.length := by
    rw [div_lt_iff₀ hp]
    have : (rollOffset rolls + 1 / 4 ^ rolls.length) * (entryAt l r').2
        = (entryAt l r').2 * rollOffset rolls + (entryAt l r').2 / 4 ^ rolls.length := by
      field_simp
      ring
    rw [this]
    constructor <;> intro h <;> linarith
  rw [e1, e2]
  constructor
  · rintro ⟨k1, k2 | ⟨_, k2⟩⟩
    · exact ⟨k1, Or.inl k2⟩
    · exact ⟨k1, Or.inr k2⟩
  · rintro ⟨k1, k2 | k2⟩
    · exact ⟨k1, Or.inl k2⟩
    · refine ⟨k1, ?_⟩
      rcases eq_or_lt_of_le hx1 with h | h
      · exact Or.inr ⟨h, k2⟩
      · left
        rw [← e2, b3 k2]
        exact h

end DATA

namespace DATA

/-- The stretch of given rolls lies inside the stretch of its entry, and ends with it when
all rolls are 10. -/
theorem rolls_interval_inside (l : List (Artifact × ℚ)) (hpos : ∀ x ∈ l, 0 < x.2) (r : Nat)
    (hr0 : 0 < r) (hr : r < l.length) (rolls : List Int)
    (hrange : ∀ x ∈ rolls, 7 ≤ x ∧ x ≤ 10) :
    cdfAt l (r - 1) ≤ cdfAt l (r - 1) + (entryAt l r).2 * rollOffset rolls ∧
    cdfAt l (r - 1) + (entryAt l r).2 * rollOffset rolls + (entryAt l r).2 / 4 ^ rolls.length
      ≤ cdfAt l r ∧
    ((∀ x ∈ rolls, x = 10) →
      cdfAt l (r - 1) + (entryAt l r).2 * rollOffset rolls
        + (entryAt l r).2 / 4 ^ rolls.length = cdfAt l r) := by
  have hp : 0 < (entryAt l r).2 := hpos _ (entryAt_mem l r hr)
  have hstep := cdfAt_step l r hr0 hr
  obtain ⟨b1, b2, b3, _⟩ := rollOffset_bounds rolls hrange
  have e : (entryAt l r).2 * rollOffset rolls + (entryAt l r).2 / 4 ^ rolls.length
      = (entryAt l r).2 * (rollOffset rolls + 1 / 4 ^ rolls.length) := by
    field_simp
    ring
  refine ⟨?_, ?_, fun h => ?_⟩
  · have := mul_nonneg (le_of_lt hp) b1
    linarith
  · rw [hstep, add_assoc, e]
    have := mul_le_mul_of_nonneg_left b2 (le_of_lt hp)
    linarith
  · rw [hstep, add_assoc, e, b3 h, mul_one]

/-- Up to `cdf[0]` the sampler returns the first entry as stored, rolls at the
placeholder. -/
theorem get_drop_first_stretch (u : ℚ) (hu : u ≤ cdfAt generated_artifacts 0) :
    get_drop u = artifactFirst ∧ ∀ e ∈ (get_drop u).sub, e.2 = 7 := by
  obtain ⟨tail, htail⟩ := generated_head
  have h := (get_drop_from_spec generated_artifacts generated_ne_nil
    (fun x hx => generated_prob_pos hx) u).1 hu
  have e0 : entryAt generated_artifacts 0 = (artifactFirst, probFirst) := by
    rw [htail]
    rfl
  rw [get_drop_eq, h, e0]
  exact ⟨rfl, by decide⟩

end DATA

/-! ## The deprecated variant `calc2` agrees with `calc` -/

namespace DP

theorem foldl_max_ge (l : List ℚ) (a : ℚ) :
    a ≤ l.foldl (fun best y => if best < y then y else best) a ∧
    ∀ x ∈ l, x ≤ l.foldl (fun best y => if best < y then y else best) a := by
  induction l generalizing a with
  | nil => exact ⟨le_rfl, fun x hx => by simp at hx⟩
  | cons y l ih =>
    rw [List.foldl_cons]
    obtain ⟨h1, h2⟩ := ih (if a < y then y else a)
    have ha : a ≤ (if a < y then y else a) := by
      split_ifs with h
      · exact le_of_lt h
      · exact le_rfl
    have hy : y ≤ (if a < y then y else a) := by
      split_ifs with h
      · exact le_rfl
      · exact not_lt.mp h
    refine ⟨le_trans ha h1, ?_⟩
    intro x hx
    rcases List.mem_cons.1 hx with rfl | hx
    · exact le_trans hy h1
    · exact h2 x hx

/-- The value of `*std::max_element` is at least every element. -/
theorem le_maxElement (s : List ℚ) (x : ℚ) (hx : x ∈ s) : x ≤ maxElement s := by
  cases s with
  | nil => simp at hx
  | cons a l =>
    rw [maxElement]
    rcases List.mem_cons.1 hx with rfl | hx
    · exact (foldl_max_ge l x).1
    · exact (foldl_max_ge l a).2 x hx

/-- One upgrade adds at most `max_increase` to the score, when some slot score is not
negative. -/
theorem roll_le_max_increase (s : List ℚ) (hs : s.length = 4) (hmax : ∃ x ∈ s, 0 ≤ x)
    (slot upd : Nat) (h1 : slot < 4) (h3 : upd ≤ 10) :
    (upd : ℚ) * s.getD slot 0 ≤ maxElement s * (DATA.AFFIX_UPDATE_MAX : ℚ) := by
  obtain ⟨x, hx, hx0⟩ := hmax
  have hM : 0 ≤ maxElement s := le_trans hx0 (le_maxElement s x hx)
  have hmem : s.getD slot 0 ∈ s := by
    rw [List.getD_eq_getElem s 0 (by omega)]
    exact List.getElem_mem _
  have hg := le_maxElement s _ hmem
  have hu : (upd : ℚ) ≤ 10 := by exact_mod_cast h3
  have hu0 : (0 : ℚ) ≤ upd := Nat.cast_nonneg _
  have e : ((DATA.AFFIX_UPDATE_MAX : Nat) : ℚ) = 10 := by norm_num [DATA.AFFIX_UPDATE_MAX]
  rw [e]
  by_cases hneg : s.getD slot 0 < 0
  · nlinarith
  · have := not_lt.mp hneg
    nlinarith

/-- Pruning is sound: a vector whose score is more than `k` largest increases below the bar
has no record with `k` upgrades to come. -/
theorem vecRecord_none_of_low (s : List ℚ) (B mi gain : ℚ) (T : Nat) (hT : T ≤ 5)
    (hmi : ∀ slot upd : Nat, slot < 4 → upd ≤ 10 → (upd : ℚ) * s.getD slot 0 ≤ mi) :
    ∀ k, k ≤ T → ∀ v : Vec4, v.dot s < B - mi * (k : ℚ) - 1 / 100000000 →
      vecRecord s B gain T k v = none := by
  intro k
  induction k with
  | zero =>
    intro _ v hv
    simp only [Nat.cast_zero, mul_zero, sub_zero] at hv
    simp only [vecRecord]
    rw [if_neg (not_le.mpr hv)]
  | succ k ih =>
    intro hk v hv
    have hsucc : ∀ v' ∈ successors v, vecRecord s B gain T k v' = none := by
      intro v' hv'
      obtain ⟨slot, upd, a, b, c, rfl⟩ := mem_successors hv'
      apply ih (by omega)
      rw [Vec4.dot_bump v s slot upd a]
      have := hmi slot upd a c
      push_cast at hv
      linarith
    have hg : (((successors v).map (vecRecord s B gain T k)).map fun r =>
        match r with
        | none => DOGFOOD_LOSS (5 - T + (T - (k + 1)) + 1)
        | some o => o.gain).sum = 16 * DOGFOOD_LOSS (5 - T + (T - (k + 1)) + 1) := by
      rw [List.map_map, sum_map_const_of_forall _ _ (DOGFOOD_LOSS (5 - T + (T - (k + 1)) + 1)),
        length_successors]
      · norm_num
      · intro x hx
        simp [hsucc x hx]
    simp only [vecRecord, hg]
    rw [if_neg]
    rw [mul_div_cancel_left₀ _ (by norm_num : (16 : ℚ) ≠ 0)]
    exact not_lt.mpr (le_of_lt (dogfood_loss_succ_lt _ (by omega)))

/-- The vector `dp_cell[i]` before the sort holds the entries of `cell[i]` with their
scores. -/
theorem dpCellOf_eq (s : List ℚ) (i : Nat) :
    dpCellOf s i = (cell i).map fun e => (e.1, e.2, statusScore s e.1) := by
  rw [dpCellOf, foldl_push_eq (fun e : Nat × Nat => (e.1, e.2, statusScore s e.1))]
  simp

/-- On a list sorted by decreasing score, the loop with `break` handles exactly the
entries whose score is not below `current_score_bar`. -/
theorem calc2Loop_sorted (B gain : ℚ) (T i : Nat) (csb : ℚ) (es : List (Nat × Nat × ℚ))
    (hsorted : es.Pairwise fun x y => y.2.2 ≤ x.2.2) (dp : Nat → DpMap) :
    calc2Loop B gain T i csb es dp
      = (es.filter fun e => decide (¬ e.2.2 < csb)).foldl (calc2Entry B gain T i) dp := by
  induction es generalizing dp with
  | nil => rfl
  | cons e es ih =>
    obtain ⟨hhead, htail⟩ := List.pairwise_cons.1 hsorted
    rw [calc2Loop]
    by_cases hlt : e.2.2 < csb
    · rw [if_pos hlt]
      have hnone : (e :: es).filter (fun e => decide (¬ e.2.2 < csb)) = [] := by
        rw [List.filter_eq_nil_iff]
        intro x hx
        rcases List.mem_cons.1 hx with rfl | hx
        · simpa using hlt
        · have := hhead x hx
          simpa using lt_of_le_of_lt this hlt
      rw [hnone]
      rfl
    · rw [if_neg hlt, ih htail, List.filter_cons_of_pos (by simpa using hlt), List.foldl_cons]

/-- On an entry that is not pruned, the body of `calc2` is the body of `calc`. -/
theorem calc2Entry_eq (s : List ℚ) (B mi gain : ℚ) (T i : Nat) (dp : Nat → DpMap)
    (e : Nat × Nat × ℚ) (hscore : e.2.2 = statusScore s e.1)
    (hkeep : ¬ e.2.2 < B - mi * ((T - i : Nat) : ℚ) - EPS) :
    calc2Entry B gain T i dp e = calcEntry s B mi gain T i dp (e.1, e.2.1) := by
  unfold calc2Entry calcEntry
  simp only [← hscore]
  by_cases hiT : i = T
  · rw [if_pos hiT, if_pos hiT, if_neg hkeep]
  · rw [if_neg hiT, if_neg hiT]

theorem foldl_calc2Entry_eq (s : List ℚ) (B mi gain : ℚ) (T i : Nat)
    (es : List (Nat × Nat × ℚ))
    (hes : ∀ e ∈ es, e.2.2 = statusScore s e.1 ∧ ¬ e.2.2 < B - mi * ((T - i : Nat) : ℚ) - EPS)
    (dp : Nat → DpMap) :
    es.foldl (calc2Entry B gain T i) dp
      = (es.map fun e => (e.1, e.2.1)).foldl (calcEntry s B mi gain T i) dp := by
  induction es generalizing dp with
  | nil => rfl
  | cons e es ih =>
    rw [List.foldl_cons, List.map_cons, List.foldl_cons,
      calc2Entry_eq s B mi gain T i dp e (hes e (List.mem_cons_self _ _)).1
        (hes e (List.mem_cons_self _ _)).2]
    exact ih (fun x hx => hes x (List.mem_cons_of_mem _ hx)) _

/-- The entries `calc2` handles at step `i`, as entries of `cell[i]`. -/
theorem calc2Level_eq (sort : List (Nat × Nat × ℚ) → List (Nat × Nat × ℚ))
    (hperm : ∀ l, (sort l).Perm l)
    (hsorted : ∀ l, (sort l).Pairwise fun x y => y.2.2 ≤ x.2.2)
    (s : List ℚ) (B mi gain : ℚ) (T i : Nat) (dp : Nat → DpMap) :
    calc2Level sort s B mi gain T i dp
      = (((sort (dpCellOf s i)).filter fun e =>
            decide (¬ e.2.2 < B - mi * ((T - i : Nat) : ℚ) - EPS)).map
          fun e => (e.1, e.2.1)).foldl (calcEntry s B mi gain T i) dp := by
  rw [calc2Level, calc2Loop_sorted B gain T i _ _ (hsorted _)]
  apply foldl_calc2Entry_eq
  intro e he
  obtain ⟨hmem, hk⟩ := List.mem_filter.1 he
  have hmem' := (hperm _).mem_iff.1 hmem
  rw [dpCellOf_eq] at hmem'
  obtain ⟨e0, _, rfl⟩ := List.mem_map.1 hmem'
  exact ⟨rfl, by simpa using hk⟩

theorem foldl_calcEntry_absent (s : List ℚ) (B mi gain : ℚ) (T i : Nat)
    (es : List (Nat × Nat)) (dp : Nat → DpMap) (j k : Nat) (h : k ∉ es.map Prod.fst) :
    es.foldl (calcEntry s B mi gain T i) dp j k = dp j k := by
  induction es generalizing dp with
  | nil => rfl
  | cons e es ih =>
    rw [List.map_cons, List.mem_cons, not_or] at h
    rw [List.foldl_cons, ih _ h.2]
    exact calcEntry_other s B mi gain T i dp e j k (Or.inr h.1)

/-- One iteration of the outer loop of `calc2` establishes the invariant of the outer loop
of `calc` one step further down. -/
theorem LevelsDone.step2 (sort : List (Nat × Nat × ℚ) → List (Nat × Nat × ℚ))
    (hperm : ∀ l, (sort l).Perm l)
    (hsorted : ∀ l, (sort l).Pairwise fun x y => y.2.2 ≤ x.2.2)
    (s : List ℚ) (B mi gain : ℚ) (T i : Nat) (hT : T ≤ 5) (hi : i ≤ T)
    (hmi : ∀ slot upd : Nat, slot < 4 → upd ≤ 10 → (upd : ℚ) * s.getD slot 0 ≤ mi)
    (dp : Nat → DpMap) (h : LevelsDone s B gain T (i + 1) dp) :
    LevelsDone s B gain T i (calc2Level sort s B mi gain T i dp) := by
  obtain ⟨h1, h2⟩ := h
  rw [calc2Level_eq sort hperm hsorted]
  refine ⟨?_, ?_⟩
  · intro j hj c
    rw [calcLevel_other s B mi gain T i _ dp j (by omega)]
    exact h1 j (by omega) c
  · intro j hij hjT v hv
    by_cases hji : j = i
    · subst hji
      have hb : v.BoundedBy 63 := by
        have := hv.bounded
        simp only [Vec4.BoundedBy] at this ⊢
        omega
      have hss := statusScore_code s v hb
      by_cases hlow : v.dot s < B - mi * ((T - j : Nat) : ℚ) - EPS
      · have hnone : vecRecord s B gain T (T - j) v = none :=
          vecRecord_none_of_low s B mi gain T hT hmi (T - j) (by omega) v (by
            simpa [EPS] using hlow)
        rw [hnone, foldl_calcEntry_absent, h1 j (by omega)]
        · rfl
        · intro hmem
          obtain ⟨e', he', hc'⟩ := List.mem_map.1 hmem
          obtain ⟨e, he, rfl⟩ := List.mem_map.1 he'
          obtain ⟨hmem2, hk⟩ := List.mem_filter.1 he
          have hmem3 := (hperm _).mem_iff.1 hmem2
          rw [dpCellOf_eq] at hmem3
          obtain ⟨e0, _, rfl⟩ := List.mem_map.1 hmem3
          simp only at hc' hk
          rw [hc', hss] at hk
          exact (by simpa using hk : ¬ _) hlow
      · have hmem := hv.code_mem_cell (by omega : j ≤ 5)
        obtain ⟨e0, he0, hc0⟩ := List.mem_map.1 hmem
        refine (calcLevel_at s B mi gain T j hT hi v hv (dp (j + 1))
          (fun v' hv' hle => h2 (j + 1) le_rfl hle v' hv') _ dp rfl).2
          (h1 j (by omega) _) ?_
        rw [List.map_map]
        refine List.mem_map.2 ⟨(e0.1, e0.2, statusScore s e0.1), ?_, hc0⟩
        refine List.mem_filter.2 ⟨(hperm _).mem_iff.2 ?_, ?_⟩
        · rw [dpCellOf_eq]
          exact List.mem_map.2 ⟨e0, he0, rfl⟩
        · simp only [hc0, hss]
          simpa using hlow
    · rw [calcLevel_other s B mi gain T i _ dp j hji]
      exact h2 j (by omega) hjT v hv

theorem LevelsDone.calc2Levels (sort : List (Nat × Nat × ℚ) → List (Nat × Nat × ℚ))
    (hperm : ∀ l, (sort l).Perm l)
    (hsorted : ∀ l, (sort l).Pairwise fun x y => y.2.2 ≤ x.2.2)
    (s : List ℚ) (B mi gain : ℚ) (T : Nat) (hT : T ≤ 5)
    (hmi : ∀ slot upd : Nat, slot < 4 → upd ≤ 10 → (upd : ℚ) * s.getD slot 0 ≤ mi)
    (i : Nat) (hi : i ≤ T) (dp : Nat → DpMap) (h : LevelsDone s B gain T (i + 1) dp) :
    LevelsDone s B gain T 0 (DP.calc2Levels sort s B mi gain T i dp) := by
  induction i generalizing dp with
  | zero => exact LevelsDone.step2 sort hperm hsorted s B mi gain T 0 hT hi hmi dp h
  | succ i ih =>
    rw [DP.calc2Levels]
    exact ih (by omega) _ (LevelsDone.step2 sort hperm hsorted s B mi gain T (i + 1) hT hi hmi dp h)

/-- With any sort that permutes its input into decreasing score, `calc2` returns the
result of the backward induction, which is the result of `calc`. -/
theorem calc2_with_eq (sort : List (Nat × Nat × ℚ) → List (Nat × Nat × ℚ))
    (hperm : ∀ l, (sort l).Perm l)
    (hsorted : ∀ l, (sort l).Pairwise fun x y => y.2.2 ≤ x.2.2)
    (w : List Int) (s : List ℚ) (T : Nat) (bar gain : ℚ)
    (hw : w.length = 4) (hs : s.length = 4) (hmax : ∃ x ∈ s, 0 ≤ x) (hT : T ≤ 5) :
    calc2_with sort w s T bar gain = calc_weights w s T bar gain := by
  rw [calc_weights_eq w s T bar gain hw hs hT]
  have hsz : ¬ (w.length ≠ DATA.AFFIX_NUM ∨ s.length ≠ DATA.AFFIX_NUM) := by
    simp [hw, hs, DATA.AFFIX_NUM]
  unfold calc2_with
  rw [if_neg hsz]
  simp only [score_map_one, score_bar_eq w s bar hw hs]
  have hdone := LevelsDone.calc2Levels sort hperm hsorted s (bar - weightedScore w s)
    (maxElement s * (DATA.AFFIX_UPDATE_MAX : ℚ)) gain T hT
    (fun slot upd h1 h3 => roll_le_max_increase s hs hmax slot upd h1 h3) T le_rfl _
    (LevelsDone.init s (bar - weightedScore w s) gain T)
  have h0 := hdone.2 0 le_rfl (Nat.zero_le T) Vec4.zero rfl
  have hc : Vec4.zero.code = 0 := rfl
  rw [hc, Nat.sub_zero] at h0
  rw [← h0]
  have hN : N - T = 5 - T := rfl
  cases hrec : DP.calc2Levels sort s (bar - weightedScore w s)
      (maxElement s * (DATA.AFFIX_UPDATE_MAX : ℚ)) gain T T (fun _ _ => none) 0 0 with
  | none => simp [resultOf, hN, SCORE_MULTIPLIER]
  | some r => simp [resultOf, Rec.core, SCORE_MULTIPLIER]

theorem sortByScore_perm (l : List (Nat × Nat × ℚ)) : (sortByScore l).Perm l :=
  List.perm_insertionSort _ l

theorem sortByScore_sorted (l : List (Nat × Nat × ℚ)) :
    (sortByScore l).Pairwise fun x y => y.2.2 ≤ x.2.2 := by
  have htot : IsTotal (Nat × Nat × ℚ) (fun x y => y.2.2 ≤ x.2.2) :=
    ⟨fun a b => le_total b.2.2 a.2.2⟩
  have htrans : IsTrans (Nat × Nat × ℚ) (fun x y => y.2.2 ≤ x.2.2) :=
    ⟨fun a b c hab hbc => le_trans hbc hab⟩
  exact @List.sorted_insertionSort _ (fun x y => y.2.2 ≤ x.2.2) _ htot htrans l

/-- The deprecated variant returns what `calc` returns. -/
theorem calc2_eq (w : List Int) (s : List ℚ) (T : Nat) (bar gain : ℚ)
    (hw : w.length = 4) (hs : s.length = 4) (hmax : ∃ x ∈ s, 0 ≤ x) (hT : T ≤ 5) :
    calc2 w s T bar gain = calc_weights w s T bar gain :=
  calc2_with_eq sortByScore sortByScore_perm sortByScore_sorted w s T bar gain hw hs hmax hT

end DP

namespace DP

theorem calcLevels_absent (s : List ℚ) (B mi gain : ℚ) (T : Nat) (i : Nat)
    (dp : Nat → DpMap) (j c : Nat) (h : c ∉ (cell j).map Prod.fst) :
    calcLevels s B mi gain T i dp j c = dp j c := by
  have hlevel : ∀ (i : Nat) (dp : Nat → DpMap), calcLevel s B mi gain T i dp j c = dp j c := by
    intro i dp
    rw [calcLevel]
    by_cases hji : j = i
    · subst hji
      exact foldl_calcEntry_absent s B mi gain T j (cell j) dp j c h
    · rw [calcLevel_other s B mi gain T i _ dp j hji]
  induction i generalizing dp with
  | zero => exact hlevel 0 dp
  | succ i ih => rw [calcLevels, ih, hlevel]

/-- Every record `calc` keeps in `dp_map` has a positive success rate. -/
theorem dp_map_success_pos (s : List ℚ) (B mi gain : ℚ) (T : Nat) (hT : T ≤ 5) (j : Nat)
    (hj : j ≤ T) (c : Nat) (r : Rec)
    (h : calcLevels s B mi gain T T (fun _ _ => none) j c = some r) :
    0 < r.success_rate := by
  by_cases hc : c ∈ (cell j).map Prod.fst
  · obtain ⟨e, he, rfl⟩ := List.mem_map.1 hc
    obtain ⟨v, hv, hcode, _⟩ := cell_entry_spec j (by omega) he
    have hdone := LevelsDone.calcLevels s B mi gain T hT T le_rfl _ (LevelsDone.init s B gain T)
    have h2 := hdone.2 j (Nat.zero_le _) hj v hv
    rw [← hcode, h] at h2
    exact (vecRecord_invariants s B gain T hT (T - j) (by omega) v r.core h2.symm).2.1
  · rw [calcLevels_absent s B mi gain T T _ j c hc] at h
    exact absurd h (by simp)

end DP

/-! ## Rounding to `double`: how far the result is from the exact value -/

namespace DP

theorem roundHalfEven_near (y : ℚ) : |(roundHalfEven y : ℚ) - y| ≤ 1 / 2 := by
  have h1 := Int.floor_le y
  have h2 := Int.lt_floor_add_one y
  unfold roundHalfEven
  split_ifs with a b c <;> push_cast <;> rw [abs_le] <;> constructor <;> linarith

theorem roundHalfEven_int (n : Int) : roundHalfEven (n : ℚ) = n := by
  unfold roundHalfEven
  simp

theorem roundHalfEven_tie (n : Int) (h : n % 2 = 0) : roundHalfEven ((n : ℚ) + 1 / 2) = n := by
  have hf : ⌊(n : ℚ) + 1 / 2⌋ = n := by
    rw [Int.floor_eq_iff]
    constructor <;> norm_num
  unfold roundHalfEven
  rw [hf]
  have e : (n : ℚ) + 1 / 2 - n = 1 / 2 := by ring
  rw [e, if_neg (lt_irrefl _), if_neg (lt_irrefl _), if_pos h]

theorem two_zpow_pos (e : Int) : (0 : ℚ) < 2 ^ e := zpow_pos (by norm_num) e

theorem two_zpow_le {a b : Int} (h : a ≤ b) : (2 : ℚ) ^ a ≤ 2 ^ b :=
  zpow_le_zpow_right₀ (by norm_num) h

theorem two_zpow_succ (e : Int) : (2 : ℚ) ^ (e + 1) = 2 * 2 ^ e := by
  rw [zpow_add_one₀ (by norm_num : (2 : ℚ) ≠ 0)]
  ring

/-- The binary exponent of a number between `2 ^ e` and `2 ^ (e + 1)`. -/
theorem spacingExp_eq (x : ℚ) (e : Int) (he : -1022 ≤ e) (h1 : 2 ^ e ≤ |x|)
    (h2 : |x| < 2 ^ (e + 1)) : spacingExp x = e - 52 := by
  have hpos : 0 < |x| := lt_of_lt_of_le (two_zpow_pos e) h1
  have ha : e ≤ Int.log 2 |x| := by
    rw [← Int.zpow_le_iff_le_log (by norm_num) hpos]
    exact_mod_cast h1
  have hb : Int.log 2 |x| < e + 1 := by
    rw [← Int.lt_zpow_iff_log_lt (by norm_num) hpos]
    exact_mod_cast h2
  unfold spacingExp
  rw [max_eq_left (by omega)]
  omega

theorem spacingExp_le (K : Int) (hK : -1021 ≤ K) (x : ℚ) (hx0 : x ≠ 0) (hx : |x| < 2 ^ K) :
    spacingExp x ≤ K - 53 := by
  have hpos : 0 < |x| := abs_pos.2 hx0
  have hb : Int.log 2 |x| < K := by
    rw [← Int.lt_zpow_iff_log_lt (by norm_num) hpos]
    exact_mod_cast hx
  unfold spacingExp
  have := max_le (show Int.log 2 |x| ≤ K - 1 by omega) (show (-1022 : Int) ≤ K - 1 by omega)
  omega

theorem roundDouble_zero : roundDouble 0 = some 0 := by
  unfold roundDouble
  have h : roundHalfEven ((0 : ℚ) / 2 ^ spacingExp 0) = 0 := by
    rw [zero_div]
    exact_mod_cast roundHalfEven_int 0
  simp only [h]
  norm_num

/-- A number below `2 ^ K` in absolute value rounds to a finite `double` at most
`2 ^ (K - 54)` away: half the spacing of the values of type `double` just below `2 ^ K`. -/
theorem roundDouble_near (K : Int) (hK : -1021 ≤ K) (hK' : K ≤ 1023) (x : ℚ)
    (hx : |x| < 2 ^ K) : ∃ y, roundDouble x = some y ∧ |y - x| ≤ 2 ^ (K - 54) := by
  by_cases hx0 : x = 0
  · subst hx0
    exact ⟨0, roundDouble_zero, by simpa using le_of_lt (two_zpow_pos _)⟩
  · have hq := two_zpow_pos (spacingExp x)
    have hle := two_zpow_le (spacingExp_le K hK x hx0 hx)
    have hhalf : (2 : ℚ) ^ (K - 53) = 2 * 2 ^ (K - 54) := by
      rw [← two_zpow_succ]
      congr 1
      ring
    have hnear := roundHalfEven_near (x / 2 ^ spacingExp x)
    have herr : |(roundHalfEven (x / 2 ^ spacingExp x) : ℚ) * 2 ^ spacingExp x - x|
        ≤ 2 ^ (K - 54) := by
      have e : (roundHalfEven (x / 2 ^ spacingExp x) : ℚ) * 2 ^ spacingExp x - x
          = ((roundHalfEven (x / 2 ^ spacingExp x) : ℚ) - x / 2 ^ spacingExp x)
            * 2 ^ spacingExp x := by
        field_simp
      rw [e, abs_mul, abs_of_pos hq]
      calc |(roundHalfEven (x / 2 ^ spacingExp x) : ℚ) - x / 2 ^ spacingExp x| * 2 ^ spacingExp x
          ≤ 1 / 2 * 2 ^ spacingExp x := mul_le_mul_of_nonneg_right hnear (le_of_lt hq)
        _ ≤ 1 / 2 * 2 ^ (K - 53) := by linarith
        _ = 2 ^ (K - 54) := by rw [hhalf]; ring
    refine ⟨_, ?_, herr⟩
    unfold roundDouble
    simp only []
    rw [if_pos]
    have h1 : (2 : ℚ) ^ K ≤ 2 ^ (1023 : Int) := two_zpow_le hK'
    have h2 : (2 : ℚ) ^ (K - 54) ≤ 2 ^ (1023 : Int) := two_zpow_le (by omega)
    have h3 : (2 : ℚ) ^ (1023 : Int) + 2 ^ (1023 : Int) = 2 ^ 1024 := by norm_num
    have h4 := abs_sub_abs_le_abs_sub
      ((roundHalfEven (x / 2 ^ spacingExp x) : ℚ) * 2 ^ spacingExp x) x
    linarith

end DP

/-! ## The bisection in the arithmetic of `double` -/

namespace DP

theorem abs_lt_of_between {B lo0 hi0 x : ℚ} (h1 : |lo0| < B) (h2 : |hi0| < B) (hx1 : lo0 ≤ x)
    (hx2 : x ≤ hi0) : |x| < B := by
  rw [abs_lt] at h1 h2 ⊢
  constructor <;> linarith

/-- The difference of two values below `2 ^ K` is computed with an error of at most
`2 ^ (K - 53)`. -/
theorem width_double_near (K : Int) (hK : -1021 ≤ K) (hK' : K ≤ 1022) (a b : ℚ)
    (ha : |a| < 2 ^ K) (hb : |b| < 2 ^ K) :
    ∃ c, roundDouble (a - b) = some c ∧ |c - (a - b)| ≤ 2 ^ (K - 53) := by
  have h : |a - b| < 2 ^ (K + 1) := by
    rw [two_zpow_succ]
    have := abs_sub a b
    linarith
  obtain ⟨c, hc, herr⟩ := roundDouble_near (K + 1) (by omega) (by omega) (a - b) h
  have e : K + 1 - 54 = K - 53 := by ring
  rw [e] at herr
  exact ⟨c, hc, herr⟩

theorem midpointDouble_eq (a b s : ℚ) (h : roundDouble (a + b) = some s) :
    midpointDouble a b = roundDouble (s / 2) := by
  unfold midpointDouble
  rw [h]

/-- The midpoint of two values below `2 ^ K` is computed with an error of at most
`2 ^ (K - 52)`. -/
theorem midpointDouble_near (K : Int) (hK : -1021 ≤ K) (hK' : K ≤ 1022) (a b : ℚ)
    (ha : |a| < 2 ^ K) (hb : |b| < 2 ^ K) :
    ∃ mid, midpointDouble a b = some mid ∧ |mid - (a + b) / 2| ≤ 2 ^ (K - 52) := by
  have hu := two_zpow_pos (K - 53)
  have hu2 : (2 : ℚ) ^ (K - 52) = 2 * 2 ^ (K - 53) := by
    rw [← two_zpow_succ]
    congr 1
    ring
  have huK : (2 : ℚ) ^ (K - 53) ≤ 2 ^ K := two_zpow_le (by omega)
  have h : |a + b| < 2 ^ (K + 1) := by
    rw [two_zpow_succ]
    have := abs_add a b
    linarith
  obtain ⟨s, hs, hserr⟩ := roundDouble_near (K + 1) (by omega) (by omega) (a + b) h
  have e : K + 1 - 54 = K - 53 := by ring
  rw [e] at hserr
  have hs2 : |s / 2| < 2 ^ (K + 1) := by
    rw [two_zpow_succ] at h ⊢
    rw [abs_lt] at h ⊢
    rw [abs_le] at hserr
    constructor <;> linarith
  obtain ⟨mid, hmid, hmerr⟩ := roundDouble_near (K + 1) (by omega) (by omega) (s / 2) hs2
  rw [e] at hmerr
  refine ⟨mid, ?_, ?_⟩
  · rw [midpointDouble_eq a b s hs]
    exact hmid
  · rw [hu2]
    rw [abs_le] at hserr hmerr ⊢
    constructor <;> linarith

/-- The loop of `find_gain` in the arithmetic of `double`, started on a bracket inside
`[lo0, hi0]` whose width is within `4 * 2 ^ (K - 53)` of `V`, where all values are below
`2 ^ K` and the precision is at least `16 * 2 ^ (K - 53)`: if `n` halvings bring `V` under
the precision by a margin of `5 * 2 ^ (K - 53)`, the loop returns after `m ≤ n`
evaluations, `m` halvings bring `V` under the precision plus that margin, the final
bracket lies in the initial one with a computed width within the precision, and each end
is either still the initial end or was placed by the comparison of `f` with the target. -/
theorem find_gain_loop_double_spec (f : ℚ → Except Error ℚ) (F : ℚ → ℚ)
    (hf : ∀ g, f g = .ok (F g)) (target prec : ℚ) (K : Int) (hK : -1021 ≤ K) (hK' : K ≤ 1022)
    (lo0 hi0 : ℚ) (hlo0 : |lo0| < 2 ^ K) (hhi0 : |hi0| < 2 ^ K)
    (hprec : 16 * 2 ^ (K - 53) ≤ prec) :
    ∀ (n : Nat) (lo hi V : ℚ), lo0 ≤ lo → lo ≤ hi → hi ≤ hi0 →
      |(hi - lo) - V| ≤ 4 * 2 ^ (K - 53) → V / 2 ^ n ≤ prec - 5 * 2 ^ (K - 53) →
      ∀ (fuel : Nat), n ≤ fuel → ∀ (evals : Nat), ∃ (m : Nat) (lo' hi' c : ℚ), m ≤ n ∧
        find_gain_loop_double f target prec fuel lo hi evals = .returned (lo', hi', evals + m) ∧
        lo ≤ lo' ∧ lo' ≤ hi' ∧ hi' ≤ hi ∧ roundDouble (hi' - lo') = some c ∧ c ≤ prec ∧
        V / 2 ^ m ≤ prec + 5 * 2 ^ (K - 53) ∧
        (lo' = lo ∨ F lo' ≤ target) ∧ (hi' = hi ∨ F hi' > target) := by
  have hu := two_zpow_pos (K - 53)
  have hu2 : (2 : ℚ) ^ (K - 52) = 2 * 2 ^ (K - 53) := by
    rw [← two_zpow_succ]
    congr 1
    ring
  intro n
  induction n with
  | zero =>
    intro lo hi V h1 h2 h3 hV hn fuel _ evals
    have hlo := abs_lt_of_between hlo0 hhi0 h1 (le_trans h2 h3)
    have hhi := abs_lt_of_between hlo0 hhi0 (le_trans h1 h2) h3
    obtain ⟨c, hc, hcerr⟩ := width_double_near K hK hK' hi lo hhi hlo
    rw [pow_zero, div_one] at hn
    rw [abs_le] at hV hcerr
    have hstop : ¬ c > prec := by
      rw [not_lt]
      linarith
    refine ⟨0, lo, hi, c, le_rfl, ?_, le_rfl, h2, le_rfl, hc, not_lt.1 hstop, ?_,
      Or.inl rfl, Or.inl rfl⟩
    · cases fuel <;> simp [find_gain_loop_double, hc, hstop]
    · rw [pow_zero, div_one]
      linarith
  | succ n ih =>
    intro lo hi V h1 h2 h3 hV hn fuel hfuel evals
    have hlo := abs_lt_of_between hlo0 hhi0 h1 (le_trans h2 h3)
    have hhi := abs_lt_of_between hlo0 hhi0 (le_trans h1 h2) h3
    obtain ⟨c, hc, hcerr⟩ := width_double_near K hK hK' hi lo hhi hlo
    rw [abs_le] at hV hcerr
    by_cases hgt : c > prec
    · obtain ⟨fuel', rfl⟩ : ∃ fuel', fuel = fuel' + 1 := ⟨fuel - 1, by omega⟩
      obtain ⟨mid, hmid, hmerr⟩ := midpointDouble_near K hK hK' hi lo hhi hlo
      rw [hu2, abs_le] at hmerr
      have hlm : lo ≤ mid := by linarith
      have hmh : mid ≤ hi := by linarith
      have hn' : V / 2 / 2 ^ n ≤ prec - 5 * 2 ^ (K - 53) := by
        rw [div_div, ← pow_succ']
        exact hn
      simp only [find_gain_loop_double, hc, if_pos hgt, hmid, hf]
      by_cases hcost : F mid > target
      · rw [if_pos hcost]
        obtain ⟨m, lo', hi', c', hm, hrun, ha, hb, hd, hc', hcp, hstop, hl, hh⟩ :=
          ih lo mid (V / 2) h1 hlm (le_trans hmh h3)
            (by rw [abs_le]; constructor <;> linarith) hn' fuel' (by omega) (evals + 1)
        refine ⟨m + 1, lo', hi', c', by omega, ?_, ha, hb, le_trans hd hmh, hc', hcp, ?_, hl, ?_⟩
        · rw [hrun]
          congr 3
          omega
        · rw [pow_succ', ← div_div]
          exact hstop
        · rcases hh with h | h
          · right
            rw [h]
            exact hcost
          · right
            exact h
      · rw [if_neg hcost]
        obtain ⟨m, lo', hi', c', hm, hrun, ha, hb, hd, hc', hcp, hstop, hl, hh⟩ :=
          ih mid hi (V / 2) (le_trans h1 hlm) hmh h3
            (by rw [abs_le]; constructor <;> linarith) hn' fuel' (by omega) (evals + 1)
        refine ⟨m + 1, lo', hi', c', by omega, ?_, le_trans hlm ha, hb, hd, hc', hcp, ?_, ?_, hh⟩
        · rw [hrun]
          congr 3
          omega
        · rw [pow_succ', ← div_div]
          exact hstop
        · rcases hl with h | h
          · right
            rw [h]
            exact not_lt.1 hcost
          · right
            exact h
    · refine ⟨0, lo, hi, c, Nat.zero_le _, ?_, le_rfl, h2, le_rfl, hc, not_lt.1 hgt, ?_,
        Or.inl rfl, Or.inl rfl⟩
      · cases fuel <;> simp [find_gain_loop_double, hc, hgt]
      · rw [pow_zero, div_one]
        have := not_lt.1 hgt
        linarith

/-- Some number of halvings brings any width under a positive bound. -/
theorem exists_halvings (w bound : ℚ) (hp : 0 < bound) : ∃ n : Nat, w / 2 ^ n ≤ bound :=
  (exists_least_halvings w bound hp).imp fun _ h => h.1

end DP

/-! ## Values of type `double` that the rounding leaves unchanged, and a tie -/

namespace DP

/-- A multiple of the spacing is a value of type `double`. -/
theorem roundDouble_exact (x : ℚ) (e : Int) (he : -1022 ≤ e) (he' : e ≤ 1023)
    (h1 : 2 ^ e ≤ |x|) (h2 : |x| < 2 ^ (e + 1)) (n : Int) (hx : x = (n : ℚ) * 2 ^ (e - 52)) :
    roundDouble x = some x := by
  have hq := two_zpow_pos (e - 52)
  have hdiv : x / 2 ^ (e - 52) = (n : ℚ) := by
    rw [hx, mul_div_assoc, div_self (ne_of_gt hq), mul_one]
  have hlim : (2 : ℚ) ^ (e + 1) ≤ 2 ^ (1024 : Int) := two_zpow_le (by omega)
  have h1024 : (2 : ℚ) ^ (1024 : Int) = 2 ^ 1024 := by norm_num
  unfold roundDouble
  simp only [spacingExp_eq x e he h1 h2, hdiv, roundHalfEven_int, ← hx]
  rw [if_pos (by linarith)]

/-- Half way between two neighbouring values of type `double`, the one with the even
significand is taken. -/
theorem roundDouble_tie (x : ℚ) (e : Int) (he : -1022 ≤ e) (he' : e ≤ 1022)
    (h1 : 2 ^ e ≤ |x|) (h2 : |x| < 2 ^ (e + 1)) (n : Int) (hn : n % 2 = 0)
    (hx : x = ((n : ℚ) + 1 / 2) * 2 ^ (e - 52)) :
    roundDouble x = some ((n : ℚ) * 2 ^ (e - 52)) := by
  have hq := two_zpow_pos (e - 52)
  have hdiv : x / 2 ^ (e - 52) = (n : ℚ) + 1 / 2 := by
    rw [hx, mul_div_assoc, div_self (ne_of_gt hq), mul_one]
  obtain ⟨y, hy, _⟩ := roundDouble_near (e + 1) (by omega) (by omega) x h2
  have hval : y = (n : ℚ) * 2 ^ (e - 52) := by
    have := hy
    unfold roundDouble at this
    simp only [spacingExp_eq x e he h1 h2, hdiv, roundHalfEven_tie n hn] at this
    split_ifs at this with h
    exact (Option.some.inj this).symm
  rw [hy, hval]

end DP

/-! ## A bracket between two neighbouring values of type `double` -/

namespace DP

theorem success_cost_eq : (SUCCESS_DOGFOOD_COST : ℚ) = 270475 := by
  rw [dogfood_values.1]
  norm_num

/-- The value `-270475 + 2 ^ (-34)` is the value of type `double` next above `-270475`,
and the precisions used below are values of type `double`. -/
theorem one_ulp_inputs :
    roundDouble (-270475 + 1 / 2 ^ 34) = some (-270475 + 1 / 2 ^ 34) ∧
    roundDouble (1 / 2 ^ 35) = some (1 / 2 ^ 35) ∧
    roundDouble (1 / 2 ^ 40) = some (1 / 2 ^ 40) := by
  refine ⟨?_, ?_, ?_⟩
  · refine roundDouble_exact _ 18 (by norm_num) (by norm_num) ?_ ?_ (-270475 * 2 ^ 34 + 1) ?_
    · rw [abs_of_neg (by norm_num)]
      norm_num
    · rw [abs_of_neg (by norm_num)]
      norm_num
    · norm_num
  · refine roundDouble_exact _ (-35) (by norm_num) (by norm_num) ?_ ?_ (2 ^ 52) ?_
    · rw [abs_of_pos (by norm_num)]
      norm_num
    · rw [abs_of_pos (by norm_num)]
      norm_num
    · norm_num
  · refine roundDouble_exact _ (-40) (by norm_num) (by norm_num) ?_ ?_ (2 ^ 52) ?_
    · rw [abs_of_pos (by norm_num)]
      norm_num
    · rw [abs_of_pos (by norm_num)]
      norm_num
    · norm_num

/-- The width of the bracket `[-270475, -270475 + 2 ^ (-34)]` is computed exactly. -/
theorem one_ulp_width :
    roundDouble ((-270475 + 1 / 2 ^ 34) - (-270475)) = some (1 / 2 ^ 34) := by
  have e : ((-270475 : ℚ) + 1 / 2 ^ 34) - (-270475) = 1 / 2 ^ 34 := by norm_num
  rw [e]
  refine roundDouble_exact _ (-34) (by norm_num) (by norm_num) ?_ ?_ (2 ^ 52) ?_
  · rw [abs_of_pos (by norm_num)]
    norm_num
  · rw [abs_of_pos (by norm_num)]
    norm_num
  · norm_num

/-- The midpoint of the bracket `[-270475, -270475 + 2 ^ (-34)]` is computed as its lower
end: the sum `-540950 + 2 ^ (-34)` lies half way between two values of type `double` and
is rounded to `-540950`. -/
theorem one_ulp_midpoint : midpointDouble (-270475 + 1 / 2 ^ 34) (-270475) = some (-270475) := by
  have hs : roundDouble ((-270475 + 1 / 2 ^ 34) + (-270475)) = some (-540950) := by
    have h := roundDouble_tie ((-270475 + 1 / 2 ^ 34) + (-270475)) 19 (by norm_num)
      (by norm_num)
      (by rw [abs_of_neg (by norm_num)]; norm_num)
      (by rw [abs_of_neg (by norm_num)]; norm_num)
      (-540950 * 2 ^ 33) (by norm_num) (by norm_num)
    rw [h]
    norm_num
  rw [midpointDouble_eq _ _ _ hs]
  have e : (-540950 : ℚ) / 2 = -270475 := by norm_num
  rw [e]
  refine roundDouble_exact _ 18 (by norm_num) (by norm_num) ?_ ?_ (-270475 * 2 ^ 34) ?_
  · rw [abs_of_neg (by norm_num)]
    norm_num
  · rw [abs_of_neg (by norm_num)]
    norm_num
  · norm_num

/-- The loop exits when the computed width is within the precision. -/
theorem find_gain_loop_double_exit (f : ℚ → Except Error ℚ) (target prec lo hi w : ℚ)
    (hw : roundDouble (hi - lo) = some w) (hstop : ¬ w > prec) (fuel evals : Nat) :
    find_gain_loop_double f target prec fuel lo hi evals = .returned (lo, hi, evals) := by
  cases fuel <;> simp only [find_gain_loop_double, hw, if_neg hstop]

/-- No fuel is left while the computed width exceeds the precision. -/
theorem find_gain_loop_double_zero (f : ℚ → Except Error ℚ) (target prec lo hi w : ℚ)
    (hw : roundDouble (hi - lo) = some w) (hgt : w > prec) (evals : Nat) :
    find_gain_loop_double f target prec 0 lo hi evals = .out_of_fuel := by
  simp only [find_gain_loop_double, hw, if_pos hgt]

/-- One iteration of the loop that moves `max_gain`. -/
theorem find_gain_loop_double_left (f : ℚ → Except Error ℚ) (F : ℚ → ℚ)
    (hf : ∀ g, f g = .ok (F g)) (target prec lo hi w mid : ℚ)
    (hw : roundDouble (hi - lo) = some w) (hgt : w > prec)
    (hmid : midpointDouble hi lo = some mid) (hF : F mid > target) (fuel evals : Nat) :
    find_gain_loop_double f target prec (fuel + 1) lo hi evals
      = find_gain_loop_double f target prec fuel lo mid (evals + 1) := by
  simp only [find_gain_loop_double, hw, if_pos hgt, hmid, hf, if_pos hF]

/-- One iteration of the loop that moves `min_gain`. -/
theorem find_gain_loop_double_right (f : ℚ → Except Error ℚ) (F : ℚ → ℚ)
    (hf : ∀ g, f g = .ok (F g)) (target prec lo hi w mid : ℚ)
    (hw : roundDouble (hi - lo) = some w) (hgt : w > prec)
    (hmid : midpointDouble hi lo = some mid) (hF : ¬ F mid > target) (fuel evals : Nat) :
    find_gain_loop_double f target prec (fuel + 1) lo hi evals
      = find_gain_loop_double f target prec fuel mid hi (evals + 1) := by
  simp only [find_gain_loop_double, hw, if_pos hgt, hmid, hf, if_neg hF]

/-- When the cost at `-270475` does not exceed the target and the precision is below
`2 ^ (-34)`, the loop started on `[-270475, -270475 + 2 ^ (-34)]` never exits: the midpoint
is the lower end, and `min_gain = mid` changes nothing. -/
theorem one_ulp_stall (f : ℚ → Except Error ℚ) (F : ℚ → ℚ) (hf : ∀ g, f g = .ok (F g))
    (target prec : ℚ) (hF : ¬ F (-270475) > target) (hp : prec < 1 / 2 ^ 34) :
    ∀ (fuel evals : Nat),
      find_gain_loop_double f target prec fuel (-270475) (-270475 + 1 / 2 ^ 34) evals
        = .out_of_fuel := by
  intro fuel
  induction fuel with
  | zero =>
    intro evals
    exact find_gain_loop_double_zero f target prec _ _ _ one_ulp_width hp evals
  | succ fuel ih =>
    intro evals
    rw [find_gain_loop_double_right f F hf target prec _ _ _ _ one_ulp_width hp
      one_ulp_midpoint hF fuel evals]
    exact ih (evals + 1)

/-- When the cost at `-270475` exceeds the target, the loop started on
`[-270475, -270475 + 2 ^ (-34)]` with a precision below `2 ^ (-34)` exits after one
evaluation, on the bracket `[-270475, -270475]`. -/
theorem one_ulp_collapse (f : ℚ → Except Error ℚ) (F : ℚ → ℚ) (hf : ∀ g, f g = .ok (F g))
    (target prec : ℚ) (hF : F (-270475) > target) (hp0 : 0 ≤ prec) (hp : prec < 1 / 2 ^ 34)
    (fuel : Nat) (hfuel : 1 ≤ fuel) (evals : Nat) :
    find_gain_loop_double f target prec fuel (-270475) (-270475 + 1 / 2 ^ 34) evals
      = .returned (-270475, -270475, evals + 1) := by
  obtain ⟨fuel', rfl⟩ : ∃ fuel', fuel = fuel' + 1 := ⟨fuel - 1, by omega⟩
  have hz : roundDouble ((-270475 : ℚ) - (-270475)) = some 0 := by
    rw [sub_self]
    exact roundDouble_zero
  rw [find_gain_loop_double_left f F hf target prec _ _ _ _ one_ulp_width hp
    one_ulp_midpoint hF fuel' evals]
  exact find_gain_loop_double_exit f target prec _ _ _ hz (not_lt.2 hp0) fuel' (evals + 1)

end DP

/-! ## `find_gain` in the arithmetic of `double` -/

namespace DP

theorem sixteen_spacings (K : Int) : (2 : ℚ) ^ (K - 49) = 16 * 2 ^ (K - 53) := by
  have e : K - 49 = K - 53 + 4 := by ring
  rw [e, zpow_add₀ (by norm_num : (2 : ℚ) ≠ 0)]
  norm_num
  ring

/-- With all values below `2 ^ K` and a precision of at least sixteen spacings
`2 ^ (K - 53)`, `find_gain` in the arithmetic of `double` returns the computed midpoint of
a bracket inside `[-270475, max_gain]` whose computed width is within the precision, each
end being the initial one or placed by the comparison of `f` with the target. -/
theorem find_gain_double_with_spec (f : ℚ → Except Error ℚ) (F : ℚ → ℚ)
    (hf : ∀ g, f g = .ok (F g)) (target max_gain prec : ℚ) (K : Int) (hK : -1021 ≤ K)
    (hK' : K ≤ 1022) (hc : (270475 : ℚ) < 2 ^ K) (hmax : |max_gain| < 2 ^ K)
    (hm : -270475 ≤ max_gain) (hp : 2 ^ (K - 49) ≤ prec) :
    ∃ n : Nat, ∀ fuel, n ≤ fuel → ∃ lo hi width r : ℚ,
      find_gain_double_with f target max_gain prec fuel = .returned r ∧
      midpointDouble hi lo = some r ∧ |r - (hi + lo) / 2| ≤ 2 ^ (K - 52) ∧
      -270475 ≤ lo ∧ lo ≤ hi ∧ hi ≤ max_gain ∧
      roundDouble (hi - lo) = some width ∧ width ≤ prec ∧ hi - lo ≤ prec + 2 ^ (K - 53) ∧
      (lo = -270475 ∨ F lo ≤ target) ∧ (hi = max_gain ∨ F hi > target) := by
  have hu := two_zpow_pos (K - 53)
  rw [sixteen_spacings] at hp
  have hlo0 : |(-270475 : ℚ)| < 2 ^ K := by
    rw [abs_of_neg (by norm_num)]
    linarith
  obtain ⟨n, hn⟩ := exists_halvings (max_gain - (-270475)) (prec - 5 * 2 ^ (K - 53))
    (by linarith)
  refine ⟨n, fun fuel hfuel => ?_⟩
  obtain ⟨m, lo, hi, c, _, hrun, h1, h2, h3, hwidth, hcp, _, hl, hh⟩ :=
    find_gain_loop_double_spec f F hf target prec K hK hK' (-270475) max_gain hlo0 hmax hp n
      (-270475) max_gain (max_gain - (-270475)) le_rfl hm le_rfl
      (by rw [sub_self, abs_zero]; linarith) hn fuel hfuel 0
  have hloB := abs_lt_of_between hlo0 hmax h1 (le_trans h2 h3)
  have hhiB := abs_lt_of_between hlo0 hmax (le_trans h1 h2) h3
  obtain ⟨r, hr, hrerr⟩ := midpointDouble_near K hK hK' hi lo hhiB hloB
  obtain ⟨c2, hc2, hc2err⟩ := width_double_near K hK hK' hi lo hhiB hloB
  have hcc : c2 = c := Option.some.inj (hc2.symm.trans hwidth)
  rw [hcc, abs_le] at hc2err
  refine ⟨lo, hi, c, r, ?_, hr, hrerr, h1, h2, h3, hwidth, hcp, by linarith, hl, hh⟩
  rw [find_gain_double_with, success_cost_eq, hrun]
  simp only [hr]

/-- The number of evaluations of the loop of `find_gain` in the arithmetic of `double`,
with all values below `2 ^ K` and a precision of at least sixteen spacings
`2 ^ (K - 53)`: it is within one of the least `n` with
`(max_gain + 270475) / 2 ^ n ≤ precision`. -/
theorem find_gain_double_count_near (f : ℚ → Except Error ℚ) (F : ℚ → ℚ)
    (hf : ∀ g, f g = .ok (F g)) (target max_gain prec : ℚ) (K : Int) (hK : -1021 ≤ K)
    (hK' : K ≤ 1022) (hc : (270475 : ℚ) < 2 ^ K) (hmax : |max_gain| < 2 ^ K)
    (hm : -270475 ≤ max_gain) (hp : 2 ^ (K - 49) ≤ prec) (n : Nat)
    (hn : (max_gain + 270475) / 2 ^ n ≤ prec)
    (hmin : ∀ j, j < n → ¬ (max_gain + 270475) / 2 ^ j ≤ prec) :
    ∀ fuel, n + 1 ≤ fuel → ∃ (m : Nat) (lo hi : ℚ),
      find_gain_loop_double f target prec fuel (- (SUCCESS_DOGFOOD_COST : ℚ)) max_gain 0
        = .returned (lo, hi, m) ∧ n ≤ m + 1 ∧ m ≤ n + 1 := by
  have hu := two_zpow_pos (K - 53)
  rw [sixteen_spacings] at hp
  have hlo0 : |(-270475 : ℚ)| < 2 ^ K := by
    rw [abs_of_neg (by norm_num)]
    linarith
  have hw : max_gain - (-270475) = max_gain + 270475 := by ring
  intro fuel hfuel
  have hn1 : (max_gain + 270475) / 2 ^ (n + 1) ≤ prec - 5 * 2 ^ (K - 53) := by
    rw [pow_succ, ← div_div]
    linarith
  obtain ⟨m, lo, hi, c, hmn, hrun, _, _, _, _, _, hstop, _, _⟩ :=
    find_gain_loop_double_spec f F hf target prec K hK hK' (-270475) max_gain hlo0 hmax hp
      (n + 1) (-270475) max_gain (max_gain + 270475) le_rfl hm le_rfl
      (by rw [hw, sub_self, abs_zero]; linarith) hn1 fuel hfuel 0
  rw [Nat.zero_add] at hrun
  refine ⟨m, lo, hi, by rw [success_cost_eq]; exact hrun, ?_, hmn⟩
  by_contra hlt
  have hlt' : m + 1 < n := by omega
  apply hmin (m + 1) hlt'
  rw [pow_succ, ← div_div]
  linarith

/-- The number of evaluations is exactly `n` when `n` halvings bring the initial width
under the precision, and fewer do not, by a margin of five spacings. -/
theorem find_gain_double_count_exact (f : ℚ → Except Error ℚ) (F : ℚ → ℚ)
    (hf : ∀ g, f g = .ok (F g)) (target max_gain prec : ℚ) (K : Int) (hK : -1021 ≤ K)
    (hK' : K ≤ 1022) (hc : (270475 : ℚ) < 2 ^ K) (hmax : |max_gain| < 2 ^ K)
    (hm : -270475 ≤ max_gain) (hp : 2 ^ (K - 49) ≤ prec) (n : Nat)
    (hstop : (max_gain + 270475) / 2 ^ n ≤ prec - 5 * 2 ^ (K - 53))
    (hgo : ∀ j, j < n → (max_gain + 270475) / 2 ^ j > prec + 5 * 2 ^ (K - 53)) :
    ∀ fuel, n ≤ fuel → ∃ lo hi : ℚ,
      find_gain_loop_double f target prec fuel (- (SUCCESS_DOGFOOD_COST : ℚ)) max_gain 0
        = .returned (lo, hi, n) := by
  rw [sixteen_spacings] at hp
  have hlo0 : |(-270475 : ℚ)| < 2 ^ K := by
    rw [abs_of_neg (by norm_num)]
    linarith
  have hw : max_gain - (-270475) = max_gain + 270475 := by ring
  intro fuel hfuel
  obtain ⟨m, lo, hi, c, hmn, hrun, _, _, _, _, _, hstopped, _, _⟩ :=
    find_gain_loop_double_spec f F hf target prec K hK hK' (-270475) max_gain hlo0 hmax hp
      n (-270475) max_gain (max_gain + 270475) le_rfl hm le_rfl
      (by rw [hw, sub_self, abs_zero]; have := two_zpow_pos (K - 53); linarith) hstop fuel
      hfuel 0
  rw [Nat.zero_add] at hrun
  have hmeq : m = n := by
    by_contra hne
    have := hgo m (by omega)
    linarith
  rw [hmeq] at hrun
  exact ⟨lo, hi, by rw [success_cost_eq]; exact hrun⟩

end DP

/-! ## The claims C1 to C10 -/

namespace DP

open DATA

/-- C1: for weights and scores of length 4, `upgrade_time T ≤ 5`, any `score_bar` and `gain`,
`calc(w, s, T, score_bar, gain)` returns the result of the backward induction on increment
vectors (`vecRecord`) with `B' = score_bar - sum_j w_j * s_j`: `(true, record of the zero
vector)` when that record exists and `(false, DOGFOOD_LOSS[5 - T], -DOGFOOD_LOSS[5 - T], 0, 0)`
otherwise (`resultOf`). -/
theorem calc_is_backward_induction (w : List Int) (s : List ℚ) (T : Nat) (score_bar gain : ℚ)
    (hw : w.length = 4) (hs : s.length = 4) (hT : T ≤ 5) :
    calc_weights w s T score_bar gain
      = .ok (resultOf T (vecRecord s (score_bar - weightedScore w s) gain T T Vec4.zero)) :=
  calc_weights_eq w s T score_bar gain hw hs hT

theorem calc_is_backward_induction_witness :
    ([7, 9, 9, 10] : List Int).length = 4 ∧ ([0, 0, 1, 1] : List ℚ).length = 4 ∧ 5 ≤ 5 ∧
    calc_weights [7, 9, 9, 10] [0, 0, 1, 1] 5 51 100000
      = .ok (resultOf 5 (vecRecord [0, 0, 1, 1] (51 - weightedScore [7, 9, 9, 10] [0, 0, 1, 1])
          100000 5 5 Vec4.zero)) :=
  ⟨rfl, rfl, le_rfl,
    calc_is_backward_induction [7, 9, 9, 10] [0, 0, 1, 1] 5 51 100000 rfl rfl le_rfl⟩

/-- C2: for a 4-slot input with `upgrade_time T` in `[1..5]`, `calc` returns a result whose
`decide` is true if and only if the expected gain it returns is strictly greater than
`DOGFOOD_LOSS[5 - T]`, and whose expected gain is exactly `DOGFOOD_LOSS[5 - T]` whenever
`decide` is false. -/
theorem decide_iff_gain_exceeds_loss (w : List Int) (s : List ℚ) (T : Nat)
    (score_bar gain : ℚ) (hw : w.length = 4) (hs : s.length = 4) (h1 : 1 ≤ T) (hT : T ≤ 5) :
    ∃ r : Result, calc_weights w s T score_bar gain = .ok r ∧
      (r.1 = true ↔ r.2.1 > DOGFOOD_LOSS (5 - T)) ∧
      (r.1 = false → r.2.1 = DOGFOOD_LOSS (5 - T)) :=
  decide_iff_gain w s T score_bar gain hw hs h1 hT

theorem decide_iff_gain_exceeds_loss_witness :
    ∃ r : Result, calc_weights [7, 9, 9, 10] [0, 0, 1, 1] 5 51 100000 = .ok r ∧
      (r.1 = true ↔ r.2.1 > DOGFOOD_LOSS (5 - 5)) ∧
      (r.1 = false → r.2.1 = DOGFOOD_LOSS (5 - 5)) :=
  decide_iff_gain_exceeds_loss [7, 9, 9, 10] [0, 0, 1, 1] 5 51 100000 rfl rfl
    (by decide) le_rfl

/-- C3: for a 4-slot input with `upgrade_time T ≤ 5` in which no increment vector `v` of
`UST[T]` satisfies `sum_j (w_j + v_j) * s_j ≥ score_bar - 1e-8`, `calc` returns
`(false, DOGFOOD_LOSS[5 - T], -DOGFOOD_LOSS[5 - T], 0, 0)`, for every value of `gain`. -/
theorem calc_below_bar (w : List Int) (s : List ℚ) (T : Nat) (score_bar gain : ℚ)
    (hw : w.length = 4) (hs : s.length = 4) (hT : T ≤ 5)
    (hbar : ∀ e ∈ cell T,
      ¬ (weightedScore w s + (decode e.1).dot s ≥ score_bar - 1 / 100000000)) :
    calc_weights w s T score_bar gain
      = .ok (false, DOGFOOD_LOSS (5 - T), - DOGFOOD_LOSS (5 - T), 0, 0) :=
  calc_weights_hopeless w s T score_bar gain hw hs hT hbar

/-- Scenario S1 of C3: scores 0, weights `(10, 10, 10, 10)`, level 0, `score_bar = 10`,
`gain = 1000` gives `(false, 3780, -3780, 0, 0)`. -/
theorem calc_below_bar_witness :
    calc_weights [10, 10, 10, 10] [0, 0, 0, 0] 5 10 1000 = .ok (false, 3780, -3780, 0, 0) := by
  have h := calc_below_bar [10, 10, 10, 10] [0, 0, 0, 0] 5 10 1000 rfl rfl le_rfl (by
    intro e _
    simp [weightedScore, Vec4.dot]
    norm_num)
  rw [h]
  simp [dogfood_values]

/-- C4 (guaranteed success): for a 4-slot input with `upgrade_time T ≤ 5`, non-negative slot
scores, `sum_j w_j * s_j ≥ score_bar` and `gain > DOGFOOD_LOSS[5 - T]`, `calc` returns
`(true, gain, 270475, 1, e)` with `e` the mean, over all `16 ^ T` sequences of `(slot, roll)`
upgrades, of the final score `sum_j (w_j + v_j) * s_j` minus `score_bar`. -/
theorem calc_guaranteed_success (w : List Int) (s : List ℚ) (T : Nat) (score_bar gain : ℚ)
    (hw : w.length = 4) (hs : s.length = 4) (hT : T ≤ 5) (hnn : ∀ x ∈ s, 0 ≤ x)
    (hbar : weightedScore w s ≥ score_bar) (hgain : gain > DOGFOOD_LOSS (5 - T)) :
    calc_weights w s T score_bar gain
      = .ok (true, gain, 270475, 1,
          ((pickSeqs T).map fun q =>
            (weightedScore w s + (applySeq Vec4.zero q).dot s) - score_bar).sum / 16 ^ T) :=
  calc_weights_sure w s T score_bar gain hw hs hT hnn hbar hgain

/-- Witness S2 of C4: weights `(10, 10, 10, 10)`, scores `(1, 1, 1, 1)`, `score_bar = 0`,
`gain = 1000000`, `T = 5`. -/
theorem calc_guaranteed_success_witness :
    calc_weights [10, 10, 10, 10] [1, 1, 1, 1] 5 0 1000000
      = .ok (true, 1000000, 270475, 1,
          ((pickSeqs 5).map fun q =>
            (weightedScore [10, 10, 10, 10] [1, 1, 1, 1]
              + (applySeq Vec4.zero q).dot [1, 1, 1, 1]) - 0).sum / 16 ^ 5) :=
  calc_guaranteed_success [10, 10, 10, 10] [1, 1, 1, 1] 5 0 1000000 rfl rfl le_rfl
    (by simp) (by simp [weightedScore]; norm_num)
    (by rw [Nat.sub_self, dogfood_values.2.1]; norm_num)

/-- C5, as the specification states it, fails: in scenario S2 the fifth component of the
result of `calc` is not the count-weighted expectation of `sum_j v_j` over `UST[5]` times 1
minus 40 (that would be `5 / 2`; the result holds `165 / 2`). -/
theorem excess_S2_not_minus_forty :
    ¬ ∃ (d : Bool) (g c p : ℚ), calc_map artifactS scoresS2 0 1000000
        = .ok (d, g, c, p, expectedDigitSum 5 * 1 - 40) := by
  rintro ⟨d, g, c, p, h⟩
  rw [calc_map_S2, expectedDigitSum_eq 5 le_rfl] at h
  have h5 := congrArg (fun r : Except Error Result =>
    match r with
    | .ok r => r.2.2.2.2
    | .error _ => 0) h
  simp only at h5
  norm_num at h5

/-- C5, amended: in scenario S2 the result of `calc` is `(true, 1000000, 270475, 1, e)` where
`e` is the count-weighted expectation of `sum_j v_j` over `UST[5]` times 1 plus
`sum w * s = 40` (the excess over `score_bar = 0` of the final score), that is `165 / 2`. -/
theorem excess_S2_plus_forty :
    calc_map artifactS scoresS2 0 1000000
        = .ok (true, 1000000, 270475, 1, expectedDigitSum 5 * 1 + 40)
      ∧ expectedDigitSum 5 * 1 + 40 = 165 / 2 := by
  rw [calc_map_S2, expectedDigitSum_eq 5 le_rfl]
  constructor
  · congr 6; norm_num
  · norm_num

/-- C6, as the specification states it, fails: for the level-0 artifact with subs
`(hp, 10), (atk, 10), (def, 10)`, every score 0, `score_bar = 10` and `gain = 1000`, every
four-sub completion returns, yet the result of `calc` is not a tuple whose expected gain,
expected cost and success probability are the completion-weighted expectations (the expected
gain of the completions is 520, `calc` returns 3780). -/
theorem three_sub_not_expectation :
    (∀ c ∈ completions artifactThree,
      calc_map c.2 scoresZero 10 1000 = .ok (fourSubResult scoresZero 10 1000 c.2)) ∧
    ¬ ∃ (d : Bool) (x : ℚ), calc_map artifactThree scoresZero 10 1000
        = .ok (d, completionMean artifactThree (fourSubResult scoresZero 10 1000) (fun r => r.2.1),
            completionMean artifactThree (fourSubResult scoresZero 10 1000) (fun r => r.2.2.1),
            completionMean artifactThree (fourSubResult scoresZero 10 1000) (fun r => r.2.2.2.1),
            x) := by
  have hm : ∀ e ∈ SUB_PROB_WEIGHT, (scoresZero e.1).isSome := fun _ _ => rfl
  have hs : ∀ e ∈ artifactThree.sub, (scoresZero e.1).isSome := fun _ _ => rfl
  refine ⟨fun c hc => (completion_ok artifactThree scoresZero 10 1000 rfl hm hs c hc).1, ?_⟩
  rintro ⟨d, x, h⟩
  rw [calc_map_three artifactThree scoresZero 10 1000 rfl rfl hm hs, threeSubResult,
    completionMean_zero, if_neg (by norm_num)] at h
  have h2 := congrArg (fun r : Except Error Result =>
    match r with
    | .ok r => r.2.1
    | .error _ => 0) h
  simp only at h2
  norm_num at h2

/-- C6, amended: for a level-0 artifact with exactly 3 subs and a scoring map defined on its
subs and on every rollable affix, every four-sub completion `(t, r)` returns, and the result
of `calc` is the expectation over the completions, `(true, sum w_t * x / (4 * sum w_t)` for
gain, cost and success probability, success-probability-weighted average excess`)`, when
the completion-weighted expected gain is strictly greater than `DOGFOOD_LOSS[0] = 3780`; it
is `(false, 3780, -3780, 0, 0)` otherwise. -/
theorem three_sub_expectation (art : Artifact) (m : AFFIX_NAMES → Option ℚ)
    (score_bar gain : ℚ) (h3 : art.sub.length = 3) (hl : art.level = 0)
    (hm : ∀ e ∈ SUB_PROB_WEIGHT, (m e.1).isSome) (hs : ∀ e ∈ art.sub, (m e.1).isSome) :
    (∀ c ∈ completions art,
      calc_map c.2 m score_bar gain = .ok (fourSubResult m score_bar gain c.2)) ∧
    calc_map art m score_bar gain
      = .ok (if completionMean art (fourSubResult m score_bar gain) (fun r => r.2.1) > 3780 then
          (true, completionMean art (fourSubResult m score_bar gain) (fun r => r.2.1),
            completionMean art (fourSubResult m score_bar gain) (fun r => r.2.2.1),
            completionMean art (fourSubResult m score_bar gain) (fun r => r.2.2.2.1),
            completionExcess art (fourSubResult m score_bar gain))
        else (false, 3780, -3780, 0, 0)) := by
  refine ⟨fun c hc => (completion_ok art m score_bar gain h3 hm hs c hc).1, ?_⟩
  rw [calc_map_three art m score_bar gain h3 hl hm hs, threeSubResult]
  by_cases hg : completionMean art (fourSubResult m score_bar gain) (fun r => r.2.1) > 3780
  · have hp := completionMean_P_pos art (fourSubResult m score_bar gain)
      (fun c hc => completion_shape art m score_bar gain h3 hm hs c hc) hg
    rw [if_pos hg, if_pos hg, if_pos hp]
  · rw [if_neg hg, if_neg hg]

theorem three_sub_expectation_witness :
    (∀ c ∈ completions artifactThree,
      calc_map c.2 scoresS2 0 1000000 = .ok (fourSubResult scoresS2 0 1000000 c.2)) ∧
    calc_map artifactThree scoresS2 0 1000000
      = .ok (if completionMean artifactThree (fourSubResult scoresS2 0 1000000)
            (fun r => r.2.1) > 3780 then
          (true, completionMean artifactThree (fourSubResult scoresS2 0 1000000) (fun r => r.2.1),
            completionMean artifactThree (fourSubResult scoresS2 0 1000000) (fun r => r.2.2.1),
            completionMean artifactThree (fourSubResult scoresS2 0 1000000)
              (fun r => r.2.2.2.1),
            completionExcess artifactThree (fourSubResult scoresS2 0 1000000))
        else (false, 3780, -3780, 0, 0)) :=
  three_sub_expectation artifactThree scoresS2 0 1000000 rfl rfl
    (by decide) (by decide)

/-- C7: for a level-0 artifact with exactly 3 subs (and a scoring map defined on its subs
and on every rollable affix), `calc` returns a result whose `decide` is true iff the
completion-weighted average of the four-sub expected gains is strictly greater than
`DOGFOOD_LOSS[0] = 3780`; when it is not, the result is exactly `(false, 3780, -3780, 0, 0)`. -/
theorem three_sub_decision (art : Artifact) (m : AFFIX_NAMES → Option ℚ)
    (score_bar gain : ℚ) (h3 : art.sub.length = 3) (hl : art.level = 0)
    (hm : ∀ e ∈ SUB_PROB_WEIGHT, (m e.1).isSome) (hs : ∀ e ∈ art.sub, (m e.1).isSome) :
    DOGFOOD_LOSS 0 = 3780 ∧
    (∀ c ∈ completions art,
      calc_map c.2 m score_bar gain = .ok (fourSubResult m score_bar gain c.2)) ∧
    ∃ r : Result, calc_map art m score_bar gain = .ok r ∧
      (r.1 = true
        ↔ completionMean art (fourSubResult m score_bar gain) (fun r => r.2.1) > DOGFOOD_LOSS 0) ∧
      (¬ completionMean art (fourSubResult m score_bar gain) (fun r => r.2.1) > DOGFOOD_LOSS 0
        → r = (false, 3780, -3780, 0, 0)) := by
  refine ⟨dogfood_values.2.1,
    fun c hc => (completion_ok art m score_bar gain h3 hm hs c hc).1,
    _, calc_map_three art m score_bar gain h3 hl hm hs, ?_⟩
  rw [dogfood_values.2.1, threeSubResult]
  by_cases hg : completionMean art (fourSubResult m score_bar gain) (fun r => r.2.1) > 3780
  · simp [hg]
  · simp [hg]

theorem three_sub_decision_witness :
    DOGFOOD_LOSS 0 = 3780 ∧
    (∀ c ∈ completions artifactThree,
      calc_map c.2 scoresZero 10 1000 = .ok (fourSubResult scoresZero 10 1000 c.2)) ∧
    ∃ r : Result, calc_map artifactThree scoresZero 10 1000 = .ok r ∧
      (r.1 = true
        ↔ completionMean artifactThree (fourSubResult scoresZero 10 1000) (fun r => r.2.1)
            > DOGFOOD_LOSS 0) ∧
      (¬ completionMean artifactThree (fourSubResult scoresZero 10 1000) (fun r => r.2.1)
            > DOGFOOD_LOSS 0
        → r = (false, 3780, -3780, 0, 0)) :=
  three_sub_decision artifactThree scoresZero 10 1000 rfl rfl (fun _ _ => rfl) (fun _ _ => rfl)

end DP

namespace DATA

/-- C8: the probabilities returned by `get_all_artifacts_with_probs()` (no set given) sum
to 1, exactly, and the list is non-empty. -/
theorem all_probs_sum_one :
    sumProbs (get_all_artifacts_with_probs SET_NAMES.end_) = 1
      ∧ get_all_artifacts_with_probs SET_NAMES.end_ ≠ [] := by
  have h : sumProbs (get_all_artifacts_with_probs SET_NAMES.end_) = 1 := by
    rw [get_all_end, sumProbs_generated]
  refine ⟨h, ?_⟩
  intro hnil
  rw [hnil] at h
  simp [sumProbs] at h

/-- C9: for every set in `{flower, plume, sands, goblet, circlet}` the probabilities
returned by `get_all_artifacts_with_probs(set)` sum to 1. -/
theorem set_probs_sum_one (s : SET_NAMES)
    (hs : s ∈ [SET_NAMES.flower, SET_NAMES.plume, SET_NAMES.sands, SET_NAMES.goblet,
      SET_NAMES.circlet]) :
    sumProbs (get_all_artifacts_with_probs s) = 1 := by
  have hne : s ≠ SET_NAMES.end_ := by
    rintro rfl
    simp at hs
  have hs' : s ∈ all_sets := hs
  rw [get_all_set s hne, filter_generated, if_pos hs', sumProbs_map_scale,
    sumProbs_artifacts_of_set_eq s hs']
  norm_num

theorem set_probs_sum_one_witness :
    sumProbs (get_all_artifacts_with_probs SET_NAMES.sands) = 1 :=
  set_probs_sum_one SET_NAMES.sands (by decide)

/-- C10: for every set `s`, `get_all_artifacts_with_probs(s)` is exactly the sub-list of
`get_all_artifacts_with_probs()` whose artifacts have set `s`, in the same order, with every
probability multiplied by 5. -/
theorem set_list_is_scaled_sublist (s : SET_NAMES) (hs : s ≠ SET_NAMES.end_) :
    get_all_artifacts_with_probs s
      = ((get_all_artifacts_with_probs SET_NAMES.end_).filter fun i => i.1.set = s).map
          fun i => (i.1, i.2 * 5) := by
  rw [get_all_set s hs, get_all_end]

theorem set_list_is_scaled_sublist_witness :
    get_all_artifacts_with_probs SET_NAMES.goblet
      = ((get_all_artifacts_with_probs SET_NAMES.end_).filter
          fun i => i.1.set = SET_NAMES.goblet).map fun i => (i.1, i.2 * 5) :=
  set_list_is_scaled_sublist SET_NAMES.goblet (by decide)

end DATA

/-! ## The claims C11 to C20 -/

namespace DATA

/-- C11: every `(artifact, prob)` returned by `get_all_artifacts_with_probs()` has
`prob = (1/5) * (main_w / sum of MAIN_WEIGHT[set]) * (initial_w / 5) * sub_set_prob`, where
`sub_set_prob` is the sum over all orderings of the subs of the product of the conditional
weights; `artifact_appear_rate` returns on every permutation of the sub list and `prob` is
the sum of its values over these permutations. -/
theorem prob_is_structure_probability (art : Artifact) (prob : ℚ)
    (h : (art, prob) ∈ get_all_artifacts_with_probs SET_NAMES.end_) :
    ∃ main_w initial_w : Nat, (art.main, main_w) ∈ MAIN_WEIGHT art.set ∧
      (art.sub.length, initial_w) ∈ INITIAL_AFFIX_NUM_WEIGHT ∧
      prob = 1 / 5 * ((main_w : ℚ) / (weighted_sum (MAIN_WEIGHT art.set) : ℚ))
          * ((initial_w : ℚ) / 5) * subSetProb art.main (art.sub.map Prod.fst) ∧
      (∀ p ∈ art.sub.permutations,
        artifact_appear_rate { art with sub := p } = .ok (appearRate { art with sub := p })) ∧
      prob = (art.sub.permutations.map fun p => appearRate { art with sub := p }).sum := by
  rw [get_all_end] at h
  exact generated_prob_formula h

theorem prob_is_structure_probability_witness :
    ∃ main_w initial_w : Nat, (artifactFirst.main, main_w) ∈ MAIN_WEIGHT artifactFirst.set ∧
      (artifactFirst.sub.length, initial_w) ∈ INITIAL_AFFIX_NUM_WEIGHT ∧
      probFirst = 1 / 5 * ((main_w : ℚ) / (weighted_sum (MAIN_WEIGHT artifactFirst.set) : ℚ))
          * ((initial_w : ℚ) / 5)
          * subSetProb artifactFirst.main (artifactFirst.sub.map Prod.fst) ∧
      (∀ p ∈ artifactFirst.sub.permutations,
        artifact_appear_rate { artifactFirst with sub := p }
          = .ok (appearRate { artifactFirst with sub := p })) ∧
      probFirst
        = (artifactFirst.sub.permutations.map fun p =>
            appearRate { artifactFirst with sub := p }).sum :=
  prob_is_structure_probability artifactFirst probFirst
    (get_all_end.symm ▸ first_mem_generated)

/-- C12: the artifacts of `get_all_artifacts_with_probs()` are pairwise distinct and there
are 6540 of them; every entry has a set of the game, a main valid for the set, level 0, every
roll 7, and 3 or 4 rollable subs other than the main in strictly ascending enum order; and
for every set, valid main and 3 or 4 pairwise distinct rollable affixes other than the main
there is exactly one entry with that set, that main and those subs in some order. -/
theorem one_entry_per_structure :
    ((get_all_artifacts_with_probs SET_NAMES.end_).map Prod.fst).Nodup ∧
    (get_all_artifacts_with_probs SET_NAMES.end_).length = 6540 ∧
    (∀ a ∈ (get_all_artifacts_with_probs SET_NAMES.end_).map Prod.fst,
      a.set ∈ all_sets ∧ a.main ∈ (MAIN_WEIGHT a.set).map Prod.fst ∧ a.level = 0 ∧
      (∀ e ∈ a.sub, e.2 = 7) ∧ (a.sub.length = 3 ∨ a.sub.length = 4) ∧
      (a.sub.map Prod.fst).Pairwise (fun x y => x.toNat < y.toNat) ∧
      ∀ t ∈ a.sub.map Prod.fst, t ∈ rollable ∧ t ≠ a.main) ∧
    (∀ (s : SET_NAMES) (main : AFFIX_NAMES) (t : List AFFIX_NAMES), s ∈ all_sets →
      main ∈ (MAIN_WEIGHT s).map Prod.fst → (t.length = 3 ∨ t.length = 4) → t.Nodup →
      (∀ x ∈ t, x ∈ rollable ∧ x ≠ main) →
      ∃! a, a ∈ (get_all_artifacts_with_probs SET_NAMES.end_).map Prod.fst ∧ a.set = s ∧
        a.main = main ∧ (a.sub.map Prod.fst).Perm t) := by
  rw [get_all_end]
  exact ⟨generated_nodup, generated_length, fun a ha => generated_shape ha,
    generated_unique_entry⟩

theorem one_entry_per_structure_witness :
    ∃! a, a ∈ (get_all_artifacts_with_probs SET_NAMES.end_).map Prod.fst ∧
      a.set = SET_NAMES.circlet ∧ a.main = AFFIX_NAMES.cr ∧
      (a.sub.map Prod.fst).Perm
        [AFFIX_NAMES.cd, AFFIX_NAMES.atkp, AFFIX_NAMES.er, AFFIX_NAMES.atk] :=
  one_entry_per_structure.2.2.2 SET_NAMES.circlet AFFIX_NAMES.cr
    [AFFIX_NAMES.cd, AFFIX_NAMES.atkp, AFFIX_NAMES.er, AFFIX_NAMES.atk]
    (by decide) (by decide) (by decide) (by decide) (by decide)

/-- C13: with `cdf` the prefix sums of `get_all_artifacts_with_probs()`: for `randnum` in
`(cdf[0], cdf[last]]`, `get_drop` returns the set, main and sub affixes of the entry at the
smallest index `r` with `cdf[r] ≥ randnum`; for `randnum ≤ cdf[0]` it returns the first
entry, and for `randnum > cdf[last]` the last. -/
theorem get_drop_selects_by_cdf (u : ℚ) :
    (cdfAt (get_all_artifacts_with_probs SET_NAMES.end_) 0 < u →
      u ≤ cdfAt (get_all_artifacts_with_probs SET_NAMES.end_)
          ((get_all_artifacts_with_probs SET_NAMES.end_).length - 1) →
      ∃ r, r < (get_all_artifacts_with_probs SET_NAMES.end_).length ∧
        u ≤ cdfAt (get_all_artifacts_with_probs SET_NAMES.end_) r ∧
        (∀ j, j < r → cdfAt (get_all_artifacts_with_probs SET_NAMES.end_) j < u) ∧
        (get_drop u).set = (entryAt (get_all_artifacts_with_probs SET_NAMES.end_) r).1.set ∧
        (get_drop u).main = (entryAt (get_all_artifacts_with_probs SET_NAMES.end_) r).1.main ∧
        (get_drop u).sub.map Prod.fst
          = (entryAt (get_all_artifacts_with_probs SET_NAMES.end_) r).1.sub.map Prod.fst) ∧
    (u ≤ cdfAt (get_all_artifacts_with_probs SET_NAMES.end_) 0 →
      get_drop u = (entryAt (get_all_artifacts_with_probs SET_NAMES.end_) 0).1) ∧
    (cdfAt (get_all_artifacts_with_probs SET_NAMES.end_)
          ((get_all_artifacts_with_probs SET_NAMES.end_).length - 1) < u →
      get_drop u
        = (entryAt (get_all_artifacts_with_probs SET_NAMES.end_)
            ((get_all_artifacts_with_probs SET_NAMES.end_).length - 1)).1) := by
  rw [get_all_end]
  exact get_drop_from_selects generated_artifacts generated_ne_nil
    (fun x hx => generated_prob_pos hx) u

theorem get_drop_selects_by_cdf_witness :
    (∃ r, r < (get_all_artifacts_with_probs SET_NAMES.end_).length ∧
        1 ≤ cdfAt (get_all_artifacts_with_probs SET_NAMES.end_) r ∧
        (∀ j, j < r → cdfAt (get_all_artifacts_with_probs SET_NAMES.end_) j < 1) ∧
        (get_drop 1).set = (entryAt (get_all_artifacts_with_probs SET_NAMES.end_) r).1.set ∧
        (get_drop 1).main = (entryAt (get_all_artifacts_with_probs SET_NAMES.end_) r).1.main ∧
        (get_drop 1).sub.map Prod.fst
          = (entryAt (get_all_artifacts_with_probs SET_NAMES.end_) r).1.sub.map Prod.fst) ∧
    get_drop 0 = (entryAt (get_all_artifacts_with_probs SET_NAMES.end_) 0).1 ∧
    get_drop 2
      = (entryAt (get_all_artifacts_with_probs SET_NAMES.end_)
          ((get_all_artifacts_with_probs SET_NAMES.end_).length - 1)).1 :=
  have hb : 0 < cdfAt (get_all_artifacts_with_probs SET_NAMES.end_) 0 ∧
      cdfAt (get_all_artifacts_with_probs SET_NAMES.end_) 0 < 1 ∧
      cdfAt (get_all_artifacts_with_probs SET_NAMES.end_)
        ((get_all_artifacts_with_probs SET_NAMES.end_).length - 1) = 1 :=
    get_all_end.symm ▸ generated_cdf_bounds
  ⟨(get_drop_selects_by_cdf 1).1 hb.2.1 (le_of_eq hb.2.2.symm),
    (get_drop_selects_by_cdf 0).2.1 (le_of_lt hb.1),
    (get_drop_selects_by_cdf 2).2.2 (by rw [hb.2.2]; norm_num)⟩

/-- C14, at its failing input: for `randnum = cdf[0] = 6003/1469650` (in `[0, 1)`), the
index selected is 0 and the rescaled value is `(randnum - 0) / (cdf[0] - 0) = 1`, whose
digit expansion gives the rolls `10, 10, 10`; `get_drop` returns the first entry through
its early `return`, with the rolls `7, 7, 7` of the stored placeholder. -/
theorem get_drop_first_entry_keeps_placeholder :
    entryAt (get_all_artifacts_with_probs SET_NAMES.end_) 0
      = (artifactFirst, 6003 / 1469650) ∧
    cdfAt (get_all_artifacts_with_probs SET_NAMES.end_) 0 = 6003 / 1469650 ∧
    (get_drop (6003 / 1469650)).sub
      = [(AFFIX_NAMES.atk, 7), (AFFIX_NAMES.def_, 7), (AFFIX_NAMES.hpp, 7)] ∧
    rollDigits (entryAt (get_all_artifacts_with_probs SET_NAMES.end_) 0).1.sub
        (((6003 : ℚ) / 1469650 - 0)
          / (cdfAt (get_all_artifacts_with_probs SET_NAMES.end_) 0 - 0))
      = [(AFFIX_NAMES.atk, 10), (AFFIX_NAMES.def_, 10), (AFFIX_NAMES.hpp, 10)] := by
  obtain ⟨h1, h2, h3, h4⟩ := get_drop_at_first_cdf
  rw [get_all_end, h1, h2, h3]
  exact ⟨rfl, rfl, rfl, h4⟩

/-- C15: for every `randnum` in `(0, 1)` the artifact returned by `get_drop` has level 0,
3 or 4 subs, sub affixes that are pairwise distinct and different from the main, a main that
is valid for its set, and every roll in `[7, 10]`. -/
theorem get_drop_invariants (u : ℚ) (h0 : 0 < u) (h1 : u < 1) :
    (get_drop u).level = 0 ∧
    ((get_drop u).sub.length = 3 ∨ (get_drop u).sub.length = 4) ∧
    ((get_drop u).sub.map Prod.fst).Nodup ∧
    (∀ t ∈ (get_drop u).sub.map Prod.fst, t ≠ (get_drop u).main) ∧
    (get_drop u).main ∈ (MAIN_WEIGHT (get_drop u).set).map Prod.fst ∧
    ∀ e ∈ (get_drop u).sub, 7 ≤ e.2 ∧ e.2 ≤ 10 :=
  get_drop_shape u

theorem get_drop_invariants_witness :
    (get_drop (1 / 2)).level = 0 ∧
    ((get_drop (1 / 2)).sub.length = 3 ∨ (get_drop (1 / 2)).sub.length = 4) ∧
    ((get_drop (1 / 2)).sub.map Prod.fst).Nodup ∧
    (∀ t ∈ (get_drop (1 / 2)).sub.map Prod.fst, t ≠ (get_drop (1 / 2)).main) ∧
    (get_drop (1 / 2)).main ∈ (MAIN_WEIGHT (get_drop (1 / 2)).set).map Prod.fst ∧
    ∀ e ∈ (get_drop (1 / 2)).sub, 7 ≤ e.2 ∧ e.2 ≤ 10 :=
  get_drop_invariants (1 / 2) (by norm_num) (by norm_num)

end DATA

namespace DP

open DATA

/-- C16, as stated, fails in the arithmetic of `double`: with `max_gain` the value of type
`double` next above `-270475`, precision `2 ^ (-35)`, the cost function constantly 0 and
target 0, the midpoint `(max_gain + min_gain) / 2` is computed as `min_gain`, the
assignment `min_gain = mid` changes nothing, and `find_gain` returns for no amount of
fuel. The same holds for every total cost function whose value at `-270475` does not
exceed the target, and every precision below `2 ^ (-34)`. -/
theorem find_gain_double_never_returns :
    (-270475 : ℚ) ≤ -270475 + 1 / 2 ^ 34 ∧ (0 : ℚ) < 1 / 2 ^ 35 ∧
    roundDouble (-270475 + 1 / 2 ^ 34) = some (-270475 + 1 / 2 ^ 34) ∧
    roundDouble (1 / 2 ^ 35) = some (1 / 2 ^ 35) ∧
    midpointDouble (-270475 + 1 / 2 ^ 34) (-270475) = some (-270475) ∧
    (∀ fuel, find_gain_double_with (fun _ => .ok 0) 0 (-270475 + 1 / 2 ^ 34) (1 / 2 ^ 35) fuel
      = .out_of_fuel) ∧
    (∀ (f : ℚ → Except Error ℚ) (F : ℚ → ℚ), (∀ g, f g = .ok (F g)) →
      ∀ target prec : ℚ, F (-270475) ≤ target → 0 < prec → prec < 1 / 2 ^ 34 →
        ∀ fuel, find_gain_double_with f target (-270475 + 1 / 2 ^ 34) prec fuel
          = .out_of_fuel) :=
  ⟨by norm_num, by norm_num, one_ulp_inputs.1, one_ulp_inputs.2.1, one_ulp_midpoint,
    fun fuel => by
      rw [find_gain_double_with, success_cost_eq,
        one_ulp_stall (fun _ => .ok 0) (fun _ => 0) (fun _ => rfl) 0 (1 / 2 ^ 35)
          (lt_irrefl 0) (by norm_num) fuel 0],
    fun f F hf target prec hF _ hp fuel => by
      rw [find_gain_double_with, success_cost_eq,
        one_ulp_stall f F hf target prec (not_lt.2 hF) hp fuel 0]⟩

/-- C16, amended: for every total cost function `f`, every target, every
`max_gain ≥ -270475` and every precision, where 270475 and `|max_gain|` are below `2 ^ K`
and the precision is at least `2 ^ (K - 49)` (sixteen times the spacing `2 ^ (K - 53)` of
the values of type `double` just below `2 ^ K`), `find_gain` in the arithmetic of `double`
(with enough fuel for its loop) returns the midpoint, as computed in `double` and within
`2 ^ (K - 52)` of the exact one, of an interval `[lo, hi]` inside `[-270475, max_gain]`
whose computed width is at most the precision (the exact width at most the precision plus
one spacing), with `lo = -270475 ∨ f lo ≤ target` and `hi = max_gain ∨ f hi > target`; `f`
need not be monotone. -/
theorem find_gain_double_returns_bracket_midpoint (f : ℚ → Except Error ℚ) (F : ℚ → ℚ)
    (hf : ∀ g, f g = .ok (F g)) (target max_gain prec : ℚ) (K : Int) (hK : -1021 ≤ K)
    (hK' : K ≤ 1022) (hc : (270475 : ℚ) < 2 ^ K) (hmax : |max_gain| < 2 ^ K)
    (hm : -270475 ≤ max_gain) (hp : 2 ^ (K - 49) ≤ prec) :
    ∃ n : Nat, ∀ fuel, n ≤ fuel → ∃ lo hi width r : ℚ,
      find_gain_double_with f target max_gain prec fuel = .returned r ∧
      midpointDouble hi lo = some r ∧ |r - (hi + lo) / 2| ≤ 2 ^ (K - 52) ∧
      -270475 ≤ lo ∧ lo ≤ hi ∧ hi ≤ max_gain ∧
      roundDouble (hi - lo) = some width ∧ width ≤ prec ∧ hi - lo ≤ prec + 2 ^ (K - 53) ∧
      (lo = -270475 ∨ F lo ≤ target) ∧ (hi = max_gain ∨ F hi > target) :=
  find_gain_double_with_spec f F hf target max_gain prec K hK hK' hc hmax hm hp

theorem find_gain_double_returns_bracket_midpoint_witness :
    ∃ n : Nat, ∀ fuel, n ≤ fuel → ∃ lo hi width r : ℚ,
      find_gain_double fuel 256 scoresS2 40 100 SET_NAMES.sands 1000 1 = .returned r ∧
      midpointDouble hi lo = some r ∧ |r - (hi + lo) / 2| ≤ 2 ^ ((19 : Int) - 52) ∧
      -270475 ≤ lo ∧ lo ≤ hi ∧ hi ≤ 1000 ∧
      roundDouble (hi - lo) = some width ∧ width ≤ 1 ∧ hi - lo ≤ 1 + 2 ^ ((19 : Int) - 53) ∧
      (lo = -270475
        ∨ dfcostValue 256 scoresS2 40 (get_all_artifacts_with_probs SET_NAMES.sands) lo ≤ 100) ∧
      (hi = 1000
        ∨ dfcostValue 256 scoresS2 40 (get_all_artifacts_with_probs SET_NAMES.sands) hi > 100) :=
  find_gain_double_returns_bracket_midpoint
    (get_expected_dfcost 256 scoresS2 40 (get_all_artifacts_with_probs SET_NAMES.sands))
    (dfcostValue 256 scoresS2 40 (get_all_artifacts_with_probs SET_NAMES.sands))
    (get_expected_dfcost_returns 256 scoresS2 40 SET_NAMES.sands le_rfl scoresS2_total)
    100 1000 1 19 (by norm_num) (by norm_num) (by norm_num)
    (by rw [abs_of_pos (by norm_num)]; norm_num) (by norm_num) (by norm_num)

/-- C18, as stated, fails in the arithmetic of `double`: with `max_gain` the value of type
`double` next above `-270475` and precision `2 ^ (-40)`, the least `n` with
`(max_gain + 270475) / 2 ^ n ≤ precision` is 6, but the midpoint is computed as `min_gain`:
with a cost above the target the loop stops after one evaluation, on a bracket of width 0
(so for every total cost function above the target at `-270475` and every precision below
`2 ^ (-34)`), and with a cost not above the target it never stops. -/
theorem find_gain_double_count_differs :
    ((-270475 + 1 / 2 ^ 34 : ℚ) + 270475) / 2 ^ 6 ≤ 1 / 2 ^ 40 ∧
    (∀ m, m < 6 → ¬ ((-270475 + 1 / 2 ^ 34 : ℚ) + 270475) / 2 ^ m ≤ 1 / 2 ^ 40) ∧
    roundDouble (-270475 + 1 / 2 ^ 34) = some (-270475 + 1 / 2 ^ 34) ∧
    roundDouble (1 / 2 ^ 40) = some (1 / 2 ^ 40) ∧
    (∀ fuel, 1 ≤ fuel →
      find_gain_loop_double (fun _ => .ok 1) 0 (1 / 2 ^ 40) fuel
        (- (SUCCESS_DOGFOOD_COST : ℚ)) (-270475 + 1 / 2 ^ 34) 0
        = .returned (-270475, -270475, 1)) ∧
    (∀ fuel,
      find_gain_loop_double (fun _ => .ok 0) 0 (1 / 2 ^ 40) fuel
        (- (SUCCESS_DOGFOOD_COST : ℚ)) (-270475 + 1 / 2 ^ 34) 0 = .out_of_fuel) ∧
    (∀ (f : ℚ → Except Error ℚ) (F : ℚ → ℚ), (∀ g, f g = .ok (F g)) →
      ∀ target prec : ℚ, F (-270475) > target → 0 < prec → prec < 1 / 2 ^ 34 →
        ∀ fuel, 1 ≤ fuel →
          find_gain_loop_double f target prec fuel
            (- (SUCCESS_DOGFOOD_COST : ℚ)) (-270475 + 1 / 2 ^ 34) 0
            = .returned (-270475, -270475, 1)) :=
  ⟨by norm_num,
    fun m hm => by interval_cases m <;> norm_num,
    one_ulp_inputs.1, one_ulp_inputs.2.2,
    fun fuel hfuel => by
      rw [success_cost_eq]
      exact one_ulp_collapse (fun _ => .ok 1) (fun _ => 1) (fun _ => rfl) 0 (1 / 2 ^ 40)
        (by norm_num) (by norm_num) (by norm_num) fuel hfuel 0,
    fun fuel => by
      rw [success_cost_eq]
      exact one_ulp_stall (fun _ => .ok 0) (fun _ => 0) (fun _ => rfl) 0 (1 / 2 ^ 40)
        (lt_irrefl 0) (by norm_num) fuel 0,
    fun f F hf target prec hF hp0 hp fuel hfuel => by
      rw [success_cost_eq]
      exact one_ulp_collapse f F hf target prec hF (le_of_lt hp0) hp fuel hfuel 0⟩

/-- C18, amended: for every `max_gain ≥ -270475` and every precision, where 270475 and
`|max_gain|` are below `2 ^ K` and the precision is at least `2 ^ (K - 49)` (sixteen times
the spacing `2 ^ (K - 53)` of the values of type `double` just below `2 ^ K`), there is a
least `n` with `(max_gain + 270475) / 2 ^ n ≤ precision`, and the loop of `find_gain` in
the arithmetic of `double` stops, after a number of evaluations of the cost function
within one of `n`; it stops after exactly `n` evaluations when `n` halvings bring
`max_gain + 270475` to at most the precision minus five spacings and fewer halvings leave
it above the precision plus five spacings. -/
theorem find_gain_double_evaluation_count (f : ℚ → Except Error ℚ) (F : ℚ → ℚ)
    (hf : ∀ g, f g = .ok (F g)) (target max_gain prec : ℚ) (K : Int) (hK : -1021 ≤ K)
    (hK' : K ≤ 1022) (hc : (270475 : ℚ) < 2 ^ K) (hmax : |max_gain| < 2 ^ K)
    (hm : -270475 ≤ max_gain) (hp : 2 ^ (K - 49) ≤ prec) :
    (∃ n : Nat, (max_gain + 270475) / 2 ^ n ≤ prec
        ∧ ∀ j, j < n → ¬ (max_gain + 270475) / 2 ^ j ≤ prec) ∧
    (∀ n : Nat, (max_gain + 270475) / 2 ^ n ≤ prec →
      (∀ j, j < n → ¬ (max_gain + 270475) / 2 ^ j ≤ prec) →
      ∀ fuel, n + 1 ≤ fuel → ∃ (m : Nat) (lo hi : ℚ),
        find_gain_loop_double f target prec fuel (- (SUCCESS_DOGFOOD_COST : ℚ)) max_gain 0
          = .returned (lo, hi, m) ∧ n ≤ m + 1 ∧ m ≤ n + 1) ∧
    (∀ n : Nat, (max_gain + 270475) / 2 ^ n ≤ prec - 5 * 2 ^ (K - 53) →
      (∀ j, j < n → (max_gain + 270475) / 2 ^ j > prec + 5 * 2 ^ (K - 53)) →
      ∀ fuel, n ≤ fuel → ∃ lo hi : ℚ,
        find_gain_loop_double f target prec fuel (- (SUCCESS_DOGFOOD_COST : ℚ)) max_gain 0
          = .returned (lo, hi, n)) :=
  ⟨exists_least_halvings (max_gain + 270475) prec
      (lt_of_lt_of_le (two_zpow_pos (K - 49)) hp),
    fun n hn hmin =>
      find_gain_double_count_near f F hf target max_gain prec K hK hK' hc hmax hm hp n hn hmin,
    fun n hstop hgo =>
      find_gain_double_count_exact f F hf target max_gain prec K hK hK' hc hmax hm hp n hstop
        hgo⟩

theorem find_gain_double_evaluation_count_witness :
    ((100000000 : ℚ) + 270475) / 2 ^ 27 ≤ 1 - 5 * 2 ^ ((27 : Int) - 53) ∧
    (∀ j, j < 27 → ((100000000 : ℚ) + 270475) / 2 ^ j > 1 + 5 * 2 ^ ((27 : Int) - 53)) ∧
    ∀ fuel, 27 ≤ fuel → ∃ lo hi : ℚ,
      find_gain_loop_double
        (get_expected_dfcost 256 scoresS2 40 (get_all_artifacts_with_probs SET_NAMES.end_))
        100 1 fuel (- (SUCCESS_DOGFOOD_COST : ℚ)) 100000000 0 = .returned (lo, hi, 27) :=
  have h27 : ((100000000 : ℚ) + 270475) / 2 ^ 27 ≤ 1 - 5 * 2 ^ ((27 : Int) - 53) := by
    norm_num
  have hgo : ∀ j, j < 27 →
      ((100000000 : ℚ) + 270475) / 2 ^ j > 1 + 5 * 2 ^ ((27 : Int) - 53) := by
    intro j hj
    have h2 : (2 : ℚ) ^ j ≤ 2 ^ 26 :=
      pow_le_pow_right₀ (by norm_num) (by omega)
    have hpos : (0 : ℚ) < 2 ^ j := by positivity
    rw [gt_iff_lt, lt_div_iff₀ hpos]
    have h26 : (1 + 5 * 2 ^ ((27 : Int) - 53)) * (2 : ℚ) ^ 26 < 100000000 + 270475 := by
      norm_num
    have hnn : (0 : ℚ) ≤ 1 + 5 * 2 ^ ((27 : Int) - 53) := by norm_num
    nlinarith
  ⟨h27, hgo,
    (find_gain_double_evaluation_count
      (get_expected_dfcost 256 scoresS2 40 (get_all_artifacts_with_probs SET_NAMES.end_))
      (dfcostValue 256 scoresS2 40 (get_all_artifacts_with_probs SET_NAMES.end_))
      (get_expected_dfcost_returns 256 scoresS2 40 SET_NAMES.end_ le_rfl scoresS2_total)
      100 100000000 1 27 (by norm_num) (by norm_num) (by norm_num)
      (by rw [abs_of_pos (by norm_num)]; norm_num) (by norm_num) (by norm_num)).2.2 27 h27
      hgo⟩

/-- C19, at its failing input: over `get_all_artifacts_with_probs()` with every score 0, the
bar at 0 and gain 1000000, `calc` costs 270475 on every roll combination, so the sum over all
`4^|subs|` combinations is 270475; `get_expected_dfcost` returns `270475 * (1 - 17/1280)`,
because its loop steps the rolls before the first call of `calc` and never evaluates the
placeholder combination `(7, .., 7)`. -/
theorem expected_dfcost_skips_placeholder_rolls :
    get_expected_dfcost 256 scoresZero 0 (get_all_artifacts_with_probs SET_NAMES.end_) 1000000
      = .ok (270475 * (1 - 17 / 1280)) ∧
    expected_dfcost_all_combos scoresZero 0 (get_all_artifacts_with_probs SET_NAMES.end_)
      1000000 = 270475 := by
  rw [get_all_end]
  exact expected_dfcost_zero_scores

/-- C20: for every scoring map that scores the rollable affixes, every `score_bar`, every
set and `g1 ≤ g2`, `get_expected_dfcost` over `get_all_artifacts_with_probs(set)` returns at
both gains (each `while (1)` loop within 256 iterations) and its value at `g1` is at most its
value at `g2`. -/
theorem expected_dfcost_monotone_in_gain (fuel : Nat) (sub_scores : AFFIX_NAMES → Option ℚ)
    (score_bar : ℚ) (set : SET_NAMES) (g1 g2 : ℚ) (hfuel : 256 ≤ fuel)
    (hm : ∀ t ∈ rollable, (sub_scores t).isSome) (hg : g1 ≤ g2) :
    ∃ c1 c2,
      get_expected_dfcost fuel sub_scores score_bar (get_all_artifacts_with_probs set) g1
        = .ok c1 ∧
      get_expected_dfcost fuel sub_scores score_bar (get_all_artifacts_with_probs set) g2
        = .ok c2 ∧
      c1 ≤ c2 := by
  apply get_expected_dfcost_mono fuel sub_scores score_bar _ g1 g2 hfuel hm _ hg
  intro e he
  obtain ⟨hmem, hrate⟩ := entry_of_get_all set he
  obtain ⟨_, _, hl, h7, hlen, _, hroll⟩ := generated_shape hmem
  exact ⟨hl, hlen, h7, fun t ht => (hroll t ht).1, hrate⟩

theorem expected_dfcost_monotone_in_gain_witness :
    ∃ c1 c2,
      get_expected_dfcost 256 scoresS2 40 (get_all_artifacts_with_probs SET_NAMES.sands) 0
        = .ok c1 ∧
      get_expected_dfcost 256 scoresS2 40 (get_all_artifacts_with_probs SET_NAMES.sands) 1000
        = .ok c2 ∧
      c1 ≤ c2 :=
  expected_dfcost_monotone_in_gain 256 scoresS2 40 SET_NAMES.sands 0 1000 le_rfl
    scoresS2_total (by norm_num)

end DP

/-! ## The claims C21 to C30 -/

namespace DATA

/-- C21: for an artifact with level 0, 3 or 4 pairwise distinct rollable subs other than the
main, and a main of its set, `artifact_appear_rate` returns
`(1/5) * (w_initial(|subs|) / 5) * (MAIN_WEIGHT[set][main] / sum of MAIN_WEIGHT[set])` times
the product over the subs in order of their conditional weights; the value is the same for
every choice of the roll values. -/
theorem appear_rate_is_structure_product (a : Artifact) (iw mw : Nat) (hl : a.level = 0)
    (hi : (a.sub.length, iw) ∈ INITIAL_AFFIX_NUM_WEIGHT) (hm : (a.main, mw) ∈ MAIN_WEIGHT a.set)
    (hn : (a.sub.map Prod.fst).Nodup)
    (hr : ∀ t ∈ a.sub.map Prod.fst, t ∈ rollable ∧ t ≠ a.main) :
    artifact_appear_rate a
      = .ok (1 / 5 * ((iw : ℚ) / 5) * ((mw : ℚ) / (weighted_sum (MAIN_WEIGHT a.set) : ℚ))
          * orderProb a.main [] (a.sub.map Prod.fst)) ∧
    ∀ sub2 : List (AFFIX_NAMES × Int), sub2.map Prod.fst = a.sub.map Prod.fst →
      artifact_appear_rate { a with sub := sub2 } = artifact_appear_rate a :=
  ⟨appear_rate_formula a iw mw hl hi hm hn hr, appear_rate_rolls a iw mw hl hi hm hn hr⟩

theorem appear_rate_is_structure_product_witness :
    artifact_appear_rate artifactFirst
      = .ok (1 / 5 * (((4 : Nat) : ℚ) / 5)
          * (((1 : Nat) : ℚ) / (weighted_sum (MAIN_WEIGHT artifactFirst.set) : ℚ))
          * orderProb artifactFirst.main [] (artifactFirst.sub.map Prod.fst)) ∧
    ∀ sub2 : List (AFFIX_NAMES × Int), sub2.map Prod.fst = artifactFirst.sub.map Prod.fst →
      artifact_appear_rate { artifactFirst with sub := sub2 }
        = artifact_appear_rate artifactFirst :=
  appear_rate_is_structure_product artifactFirst 4 1 rfl (by decide) (by decide) (by decide)
    (by decide)

end DATA

namespace DP

open DATA

/-- C24: the map overload of `calc` throws for every artifact with exactly 3 subs and a
level other than 0, and for every artifact whose number of subs is neither 3 nor 4; the
vector overload throws whenever `|w| ≠ 4` or `|s| ≠ 4`. -/
theorem calc_shape_errors (art : Artifact) (sub_scores : AFFIX_NAMES → Option ℚ)
    (w : List Int) (s : List ℚ) (T : Nat) (score_bar gain : ℚ) :
    (art.sub.length = 3 → art.level ≠ 0 →
      calc_map art sub_scores score_bar gain = .error Error.three_sub_level_not_zero) ∧
    (art.sub.length ≠ 3 → art.sub.length ≠ 4 →
      ∃ e, calc_map art sub_scores score_bar gain = .error e) ∧
    (w.length ≠ 4 ∨ s.length ≠ 4 →
      calc_weights w s T score_bar gain = .error Error.size_mismatch) :=
  ⟨calc_map_three_level art sub_scores score_bar gain,
    calc_map_wrong_count art sub_scores score_bar gain,
    calc_weights_size w s T score_bar gain⟩

theorem calc_shape_errors_witness :
    calc_map { artifactThree with level := 2 } scoresZero 10 1000
      = .error Error.three_sub_level_not_zero ∧
    (∃ e, calc_map { artifactThree with sub := [(AFFIX_NAMES.hp, 10)] } scoresZero 10 1000
      = .error e) ∧
    calc_weights [10, 10, 10] [1, 1, 1, 1] 5 10 1000 = .error Error.size_mismatch :=
  ⟨(calc_shape_errors { artifactThree with level := 2 } scoresZero [] [] 0 10 1000).1
      rfl (by decide),
    (calc_shape_errors { artifactThree with sub := [(AFFIX_NAMES.hp, 10)] } scoresZero [] [] 0
      10 1000).2.1 (by decide) (by decide),
    (calc_shape_errors artifactThree scoresZero [10, 10, 10] [1, 1, 1, 1] 5 10 1000).2.2
      (Or.inl (by decide))⟩

/-- C27: for every `k` in `[0..5]` the counts of `cell[k]` after `init` sum to `16^k`, and
`cell[0]` is the single pair `(0, 1)`. -/
theorem cell_counts_sum_to_power (k : Nat) (hk : k ≤ 5) :
    ((cell k).map Prod.snd).sum = 16 ^ k ∧ cell 0 = [(0, 1)] :=
  ⟨cell_counts_sum k hk, cell_zero⟩

theorem cell_counts_sum_to_power_witness :
    ((cell 5).map Prod.snd).sum = 16 ^ 5 ∧ cell 0 = [(0, 1)] :=
  cell_counts_sum_to_power 5 le_rfl

end DP

namespace DATA

/-- C25: for an artifact of one of the five sets, `artifact_appear_rate` throws if and only
if the level is not 0, or the number of subs is not 3 or 4, or the main is not a key of
`MAIN_WEIGHT[set]`, or some sub is not rollable or equals the main, or a sub repeats;
otherwise it returns a value in `(0, 1]`. -/
theorem appear_rate_error_iff (a : Artifact) (hs : a.set ∈ all_sets) :
    ((∃ e, artifact_appear_rate a = .error e)
      ↔ (a.level ≠ 0 ∨ ¬ (a.sub.length = 3 ∨ a.sub.length = 4) ∨
          ¬ a.main ∈ (MAIN_WEIGHT a.set).map Prod.fst ∨
          (∃ t ∈ a.sub.map Prod.fst, ¬ t ∈ rollable ∨ t = a.main) ∨
          ¬ (a.sub.map Prod.fst).Nodup)) ∧
    ((¬ ∃ e, artifact_appear_rate a = .error e) →
      ∃ r, artifact_appear_rate a = .ok r ∧ 0 < r ∧ r ≤ 1) := by
  have hgood : (a.level = 0 ∧ (a.sub.length = 3 ∨ a.sub.length = 4) ∧
        a.main ∈ (MAIN_WEIGHT a.set).map Prod.fst ∧ (a.sub.map Prod.fst).Nodup ∧
        ∀ t ∈ a.sub.map Prod.fst, t ∈ rollable ∧ t ≠ a.main)
      ↔ ¬ (a.level ≠ 0 ∨ ¬ (a.sub.length = 3 ∨ a.sub.length = 4) ∨
          ¬ a.main ∈ (MAIN_WEIGHT a.set).map Prod.fst ∨
          (∃ t ∈ a.sub.map Prod.fst, ¬ t ∈ rollable ∨ t = a.main) ∨
          ¬ (a.sub.map Prod.fst).Nodup) := by
    constructor
    · rintro ⟨h1, h2, h3, h4, h5⟩ (h | h | h | ⟨t, ht, h⟩ | h)
      · exact h h1
      · exact h h2
      · exact h h3
      · rcases h with h | h
        · exact h (h5 t ht).1
        · exact (h5 t ht).2 h
      · exact h h4
    · intro h
      refine ⟨by_contra fun c => h (Or.inl c), by_contra fun c => h (Or.inr (Or.inl c)),
        by_contra fun c => h (Or.inr (Or.inr (Or.inl c))),
        by_contra fun c => h (Or.inr (Or.inr (Or.inr (Or.inr c)))), fun t ht => ⟨?_, ?_⟩⟩
      · exact by_contra fun c => h (Or.inr (Or.inr (Or.inr (Or.inl ⟨t, ht, Or.inl c⟩))))
      · exact fun c => h (Or.inr (Or.inr (Or.inr (Or.inl ⟨t, ht, Or.inr c⟩))))
  have hok : (a.level = 0 ∧ (a.sub.length = 3 ∨ a.sub.length = 4) ∧
        a.main ∈ (MAIN_WEIGHT a.set).map Prod.fst ∧ (a.sub.map Prod.fst).Nodup ∧
        ∀ t ∈ a.sub.map Prod.fst, t ∈ rollable ∧ t ≠ a.main) →
      ∃ r, artifact_appear_rate a = .ok r ∧ 0 < r ∧ r ≤ 1 :=
    fun ⟨h1, h2, h3, h4, h5⟩ => appear_rate_ok a h1 h2 h3 h4 h5
  refine ⟨⟨fun herr => ?_, fun hbad => ?_⟩, fun hno => ?_⟩
  · by_contra hcon
    obtain ⟨r, hr, _⟩ := hok (hgood.2 hcon)
    obtain ⟨e, he⟩ := herr
    rw [hr] at he
    exact Except.noConfusion he
  · exact appear_rate_error a (fun hg => hgood.1 hg hbad)
  · by_contra hcon
    exact hno (appear_rate_error a (fun hg => hcon (hok hg)))

theorem appear_rate_error_iff_witness :
    ((∃ e, artifact_appear_rate artifactFirst = .error e)
      ↔ (artifactFirst.level ≠ 0 ∨
          ¬ (artifactFirst.sub.length = 3 ∨ artifactFirst.sub.length = 4) ∨
          ¬ artifactFirst.main ∈ (MAIN_WEIGHT artifactFirst.set).map Prod.fst ∨
          (∃ t ∈ artifactFirst.sub.map Prod.fst, ¬ t ∈ rollable ∨ t = artifactFirst.main) ∨
          ¬ (artifactFirst.sub.map Prod.fst).Nodup)) ∧
    ((¬ ∃ e, artifact_appear_rate artifactFirst = .error e) →
      ∃ r, artifact_appear_rate artifactFirst = .ok r ∧ 0 < r ∧ r ≤ 1) :=
  appear_rate_error_iff artifactFirst (by decide)

/-- C30: for every `k` in `[0..4]` and every main, `generate_all_possible_sub_orders(k,
main)` lists exactly the ordered `k`-tuples of pairwise distinct rollable affixes other than
the main, each once, each paired with the product of its conditional weights, and the
probabilities sum to 1. -/
theorem sub_orders_are_the_tuples (k : Nat) (main : AFFIX_NAMES) (hk : k ≤ 4) :
    (∀ x : List AFFIX_NAMES × ℚ, x ∈ generate_all_possible_sub_orders k main [] 1
      ↔ x.1.length = k ∧ x.1.Nodup ∧ (∀ t ∈ x.1, t ∈ rollable ∧ t ≠ main) ∧
        x.2 = orderProb main [] x.1) ∧
    ((generate_all_possible_sub_orders k main [] 1).map Prod.fst).Nodup ∧
    sumProbs (generate_all_possible_sub_orders k main [] 1) = 1 := by
  refine ⟨fun x => ?_, generate_keys_nodup k main [] 1,
    sumProbs_sub_orders k main [] 1 (by simp only [List.length_nil]; omega)⟩
  rw [mem_generate_nil]
  constructor
  · rintro ⟨h1, ⟨hn, hall⟩, h3⟩
    exact ⟨h1, hn, fun t ht => ⟨(hall t ht).1, (hall t ht).2.1⟩, h3⟩
  · rintro ⟨h1, hn, hall, h3⟩
    exact ⟨h1, ⟨hn, fun t ht => ⟨(hall t ht).1, (hall t ht).2, by simp⟩⟩, h3⟩

theorem sub_orders_are_the_tuples_witness :
    (∀ x : List AFFIX_NAMES × ℚ,
      x ∈ generate_all_possible_sub_orders 4 AFFIX_NAMES.cr [] 1
      ↔ x.1.length = 4 ∧ x.1.Nodup ∧ (∀ t ∈ x.1, t ∈ rollable ∧ t ≠ AFFIX_NAMES.cr) ∧
        x.2 = orderProb AFFIX_NAMES.cr [] x.1) ∧
    ((generate_all_possible_sub_orders 4 AFFIX_NAMES.cr [] 1).map Prod.fst).Nodup ∧
    sumProbs (generate_all_possible_sub_orders 4 AFFIX_NAMES.cr [] 1) = 1 :=
  sub_orders_are_the_tuples 4 AFFIX_NAMES.cr le_rfl

end DATA

namespace DP

/-- C29: for every `k` in `[0..5]` the codes of `cell[k]` are pairwise distinct, its entries
are exactly the pairs `(code v, count)` with `v` reachable by `k` picks and `count` the
number of length-`k` pick sequences producing `v`, every reachable vector has all its
components at most 50 and is recovered from its code by the digits `(code / 64^j) mod 64`,
and the packing is injective on the reachable vectors. -/
theorem cell_is_reachable_table (k : Nat) (hk : k ≤ 5) :
    ((cell k).map Prod.fst).Nodup ∧
    (∀ e : Nat × Nat, e ∈ cell k ↔ ∃ v, Reach k v ∧ e.1 = v.code ∧ e.2 = seqCount k v) ∧
    (∀ v, Reach k v → v.BoundedBy 50 ∧ decode v.code = v) ∧
    (∀ v w, Reach k v → Reach k w → v.code = w.code → v = w) := by
  refine ⟨cell_keys_nodup k, fun e => ⟨fun he => cell_entry_spec k hk he, ?_⟩,
    fun v hv => reach_bounded_fifty hk hv, fun v w hv hw h => reach_code_injective hk hv hw h⟩
  rintro ⟨v, hv, h1, h2⟩
  have he : e = (v.code, seqCount k v) := Prod.ext h1 h2
  rw [he]
  exact cell_mem_of_reach k hk hv

theorem cell_is_reachable_table_witness :
    ((cell 5).map Prod.fst).Nodup ∧
    (∀ e : Nat × Nat, e ∈ cell 5 ↔ ∃ v, Reach 5 v ∧ e.1 = v.code ∧ e.2 = seqCount 5 v) ∧
    (∀ v, Reach 5 v → v.BoundedBy 50 ∧ decode v.code = v) ∧
    (∀ v w, Reach 5 v → Reach 5 w → v.code = w.code → v = w) :=
  cell_is_reachable_table 5 le_rfl

/-- C28: from the globals at program start (table not initialised) and from the globals
after `init` (table initialised), `calc` returns the same result, the one of the pure
`calc_weights`; the second of two successive calls returns the result of the first and
leaves the globals as the first left them; and a second `init()` changes nothing, so every
row `cell[k]` is unchanged. -/
theorem calc_deterministic_under_memoisation (w : List Int) (s : List ℚ) (T : Nat)
    (score_bar gain : ℚ) :
    (calc_weights_st DPState.start w s T score_bar gain).2
      = calc_weights w s T score_bar gain ∧
    (calc_weights_st (init DPState.start) w s T score_bar gain).2
      = (calc_weights_st DPState.start w s T score_bar gain).2 ∧
    calc_weights_st (calc_weights_st DPState.start w s T score_bar gain).1 w s T score_bar gain
      = calc_weights_st DPState.start w s T score_bar gain ∧
    (∀ st : DPState, init (init st) = init st) ∧
    (∀ k, (init (init DPState.start)).cell k = cell k) := by
  have h0 := calc_weights_st_eq DPState.start init_start_cell w s T score_bar gain
  have h1 := calc_weights_st_eq (init DPState.start)
    (by rw [init_idem]; exact init_start_cell) w s T score_bar gain
  refine ⟨by rw [h0], by rw [h0, h1], ?_, init_idem, fun k => ?_⟩
  · rw [h0]
    show calc_weights_st (init DPState.start) w s T score_bar gain = _
    rw [h1, init_idem]
  · rw [init_idem, init_start_cell]

end DP

namespace DATA

/-- C26: for a set that is one of the five or not given, and for every outcome of the random
draws, `random_one_artifact(set, main, initial, sub)` throws when set and main are both given
and main is not a key of `MAIN_WEIGHT[set]`, when `initial` is given and is neither 3 nor 4,
when more seeded subs than the given `initial` are supplied, when a seeded roll is outside
`[7, 10]`, and when a seeded affix is not rollable, equals the given main or repeats an
earlier seeded affix; and it never returns an artifact whose main is one of the seeded
affixes. -/
theorem random_one_artifact_rejects (set : SET_NAMES) (main : AFFIX_NAMES) (initial : Int)
    (sub : List (AFFIX_NAMES × Int)) (draws : List Nat)
    (hs : set ∈ all_sets ∨ set = SET_NAMES.end_) :
    (set ≠ SET_NAMES.end_ → main ≠ AFFIX_NAMES.end_ →
      ¬ main ∈ (MAIN_WEIGHT set).map Prod.fst →
      ∃ e, random_one_artifact set main initial sub draws = .error e) ∧
    (initial ≠ 0 → initial ≠ 3 → initial ≠ 4 →
      ∃ e, random_one_artifact set main initial sub draws = .error e) ∧
    (initial ≠ 0 → initial < (sub.length : Int) →
      ∃ e, random_one_artifact set main initial sub draws = .error e) ∧
    ((∃ x ∈ sub, x.2 < 7 ∨ 10 < x.2) →
      ∃ e, random_one_artifact set main initial sub draws = .error e) ∧
    ((∃ t ∈ sub.map Prod.fst, ¬ t ∈ rollable ∨ (main ≠ AFFIX_NAMES.end_ ∧ t = main)) →
      ∃ e, random_one_artifact set main initial sub draws = .error e) ∧
    (¬ (sub.map Prod.fst).Nodup →
      ∃ e, random_one_artifact set main initial sub draws = .error e) ∧
    (∀ a, random_one_artifact set main initial sub draws = .ok a →
      ¬ a.main ∈ sub.map Prod.fst) := by
  refine ⟨fun h1 h2 h3 => error_of_not_ok _ fun a ha => ?_,
    fun h1 h2 h3 => error_of_not_ok _ fun a ha => ?_,
    fun h1 h2 => error_of_not_ok _ fun a ha => ?_,
    fun h1 => error_of_not_ok _ fun a ha => ?_,
    fun h1 => error_of_not_ok _ fun a ha => ?_,
    fun h1 => error_of_not_ok _ fun a ha => ?_,
    fun a ha hmem => ?_⟩ <;>
    obtain ⟨k1, k2, k3, k4, k5, k6, k7⟩ := random_one_artifact_ok set main initial sub draws a ha
  · rw [k1 h1, k2 h2] at k3
    exact h3 k3
  · rcases k4 with k | k | k
    · exact h1 k
    · exact h2 k
    · exact h3 k
  · exact absurd (k5 h1) (not_le.2 h2)
  · obtain ⟨x, hx, hbad⟩ := h1
    have := k7 x hx
    omega
  · obtain ⟨t, ht, hbad⟩ := h1
    obtain ⟨r1, r2, _⟩ := k6.2 t ht
    rcases hbad with hbad | ⟨hm, hbad⟩
    · exact hbad r1
    · exact r2 (by rw [k2 hm, hbad])
  · exact h1 k6.1
  · exact (k6.2 _ hmem).2.1 rfl

theorem random_one_artifact_rejects_witness :
    (SET_NAMES.flower ∈ all_sets ∨ SET_NAMES.flower = SET_NAMES.end_) ∧
    ∃ e, random_one_artifact SET_NAMES.flower AFFIX_NAMES.atk 0 [] [] = .error e :=
  ⟨Or.inl (by decide),
    (random_one_artifact_rejects SET_NAMES.flower AFFIX_NAMES.atk 0 [] []
      (Or.inl (by decide))).1 (by decide) (by decide) (by decide)⟩

end DATA

namespace DATA

/-- C22: for every `u` the text `to_string` returns for the artifact `get_drop(u)` is read
back by the string constructor as an artifact with the same set, main, level and sub list,
so the text of the parsed artifact is the same text; the artifact S3 (sands, main `hpp`, subs
`(atk, 9), (em, 7), (cr, 10), (cd, 8)`, level 0) prints as
`SET sands  |LV 0|MAIN hpp       |SUB  9,atk | 7,em  |10,cr  | 8,cd  ` and is read back from
it. -/
theorem text_round_trip (u : ℚ) :
    (∃ s, (get_drop u).to_string = .ok s ∧ Artifact.of_string s = .ok (get_drop u) ∧
      ∀ b, Artifact.of_string s = .ok b →
        b.set = (get_drop u).set ∧ b.main = (get_drop u).main ∧
        b.level = (get_drop u).level ∧ b.sub = (get_drop u).sub ∧ b.to_string = .ok s) ∧
    artifactS3.to_string
      = .ok "SET sands  |LV 0|MAIN hpp       |SUB  9,atk | 7,em  |10,cr  | 8,cd  ".toList ∧
    Artifact.of_string
        "SET sands  |LV 0|MAIN hpp       |SUB  9,atk | 7,em  |10,cr  | 8,cd  ".toList
      = .ok artifactS3 := by
  refine ⟨?_, rfl, by decide⟩
  obtain ⟨s, h1, h2⟩ := get_drop_round_trip u
  refine ⟨s, h1, h2, fun b hb => ?_⟩
  rw [h2] at hb
  injection hb with hb
  rw [← hb]
  exact ⟨rfl, rfl, rfl, rfl, h1⟩

/-- C23: the string constructor throws "wrong format" for a text without its `SET` header,
but for a text whose headers are in place and whose set name, main name or sub name is in no
table it throws nothing: `find(...)->second` reads through `end()`, which is undefined
behaviour. -/
theorem of_string_unknown_name_undefined :
    Artifact.of_string "SET foo|LV 0|MAIN hp|SUB ".toList = .undefined ∧
    Artifact.of_string "SET flower|LV 0|MAIN foo|SUB ".toList = .undefined ∧
    Artifact.of_string "SET flower |LV 0|MAIN hp        |SUB  7,foo |".toList = .undefined ∧
    Artifact.of_string "flower|LV 0|MAIN hp|SUB ".toList = .threw Error.wrong_format := by
  decide

end DATA

/-! ## The claims C31 to C40 -/

namespace DP

open DATA

/-- C32 (conservation): for weights and scores of length 4 and `upgrade_time T` in `[0..5]`,
and for a level-0 artifact with exactly 3 subs (and a scoring map defined on its subs and on
every rollable affix), the tuple `(decide, E_gain, E_cost, P, excess)` that `calc` returns
satisfies `E_gain + E_cost = P * (gain + 270475)`. -/
theorem calc_conservation (w : List Int) (s : List ℚ) (T : Nat) (score_bar gain : ℚ)
    (art : Artifact) (m : AFFIX_NAMES → Option ℚ)
    (hw : w.length = 4) (hs : s.length = 4) (hT : T ≤ 5)
    (h3 : art.sub.length = 3) (hl : art.level = 0)
    (hm : ∀ e ∈ SUB_PROB_WEIGHT, (m e.1).isSome) (hsub : ∀ e ∈ art.sub, (m e.1).isSome) :
    (∃ r : Result, calc_weights w s T score_bar gain = .ok r ∧
      r.2.1 + r.2.2.1 = r.2.2.2.1 * (gain + 270475)) ∧
    (∃ r : Result, calc_map art m score_bar gain = .ok r ∧
      r.2.1 + r.2.2.1 = r.2.2.2.1 * (gain + 270475)) := by
  obtain ⟨r, h1, h2, _⟩ := calc_weights_invariants w s T score_bar gain hw hs hT
  obtain ⟨r', h1', h2', _⟩ := calc_map_three_invariants art m score_bar gain h3 hl hm hsub
  exact ⟨⟨r, h1, h2⟩, ⟨r', h1', h2'⟩⟩

theorem calc_conservation_witness :
    (∃ r : Result, calc_weights [7, 9, 9, 10] [0, 0, 1, 1] 5 51 100000 = .ok r ∧
      r.2.1 + r.2.2.1 = r.2.2.2.1 * (100000 + 270475)) ∧
    (∃ r : Result, calc_map artifactThree scoresZero 51 100000 = .ok r ∧
      r.2.1 + r.2.2.1 = r.2.2.2.1 * (100000 + 270475)) :=
  calc_conservation [7, 9, 9, 10] [0, 0, 1, 1] 5 51 100000 artifactThree scoresZero rfl rfl
    le_rfl rfl rfl (fun _ _ => rfl) (fun _ _ => rfl)

/-- C33: for weights and scores of length 4 and `upgrade_time T` in `[0..5]`, and for a
level-0 artifact with exactly 3 subs, whenever `calc` returns `decide = true` the returned
success probability satisfies `0 < P ≤ 1` and the returned excess is at least `-1e-8`;
whenever it returns `decide = false`, `P = 0` and the excess is 0. `DOGFOOD_LOSS` is strictly
decreasing in the upgrade index, and every record kept in `dp_map` has a positive success
rate. -/
theorem calc_probability_and_excess (w : List Int) (s : List ℚ) (T : Nat)
    (score_bar gain : ℚ) (art : Artifact) (m : AFFIX_NAMES → Option ℚ)
    (hw : w.length = 4) (hs : s.length = 4) (hT : T ≤ 5)
    (h3 : art.sub.length = 3) (hl : art.level = 0)
    (hm : ∀ e ∈ SUB_PROB_WEIGHT, (m e.1).isSome) (hsub : ∀ e ∈ art.sub, (m e.1).isSome) :
    (∃ r : Result, calc_weights w s T score_bar gain = .ok r ∧
      (r.1 = true → 0 < r.2.2.2.1 ∧ r.2.2.2.1 ≤ 1 ∧ -(1 / 100000000) ≤ r.2.2.2.2) ∧
      (r.1 = false → r.2.2.2.1 = 0 ∧ r.2.2.2.2 = 0)) ∧
    (∃ r : Result, calc_map art m score_bar gain = .ok r ∧
      (r.1 = true → 0 < r.2.2.2.1 ∧ r.2.2.2.1 ≤ 1 ∧ -(1 / 100000000) ≤ r.2.2.2.2) ∧
      (r.1 = false → r.2.2.2.1 = 0 ∧ r.2.2.2.2 = 0)) ∧
    (∀ k, k ≤ 4 → DOGFOOD_LOSS (k + 1) < DOGFOOD_LOSS k) ∧
    (∀ (B mi : ℚ) (j c : Nat) (rec : Rec), j ≤ T →
      calcLevels s B mi gain T T (fun _ _ => none) j c = some rec → 0 < rec.success_rate) := by
  obtain ⟨r, h1, _, h2⟩ := calc_weights_invariants w s T score_bar gain hw hs hT
  obtain ⟨r', h1', _, h2'⟩ := calc_map_three_invariants art m score_bar gain h3 hl hm hsub
  exact ⟨⟨r, h1, h2⟩, ⟨r', h1', h2'⟩, fun k hk => dogfood_loss_succ_lt k hk,
    fun B mi j c rec hj h => dp_map_success_pos s B mi gain T hT j hj c rec h⟩

theorem calc_probability_and_excess_witness :
    (∃ r : Result, calc_weights [7, 9, 9, 10] [0, 0, 1, 1] 5 51 100000 = .ok r ∧
      (r.1 = true → 0 < r.2.2.2.1 ∧ r.2.2.2.1 ≤ 1 ∧ -(1 / 100000000) ≤ r.2.2.2.2) ∧
      (r.1 = false → r.2.2.2.1 = 0 ∧ r.2.2.2.2 = 0)) ∧
    (∃ r : Result, calc_map artifactThree scoresZero 51 100000 = .ok r ∧
      (r.1 = true → 0 < r.2.2.2.1 ∧ r.2.2.2.1 ≤ 1 ∧ -(1 / 100000000) ≤ r.2.2.2.2) ∧
      (r.1 = false → r.2.2.2.1 = 0 ∧ r.2.2.2.2 = 0)) ∧
    (∀ k, k ≤ 4 → DOGFOOD_LOSS (k + 1) < DOGFOOD_LOSS k) ∧
    (∀ (B mi : ℚ) (j c : Nat) (rec : Rec), j ≤ 5 →
      calcLevels [0, 0, 1, 1] B mi 100000 5 5 (fun _ _ => none) j c = some rec →
        0 < rec.success_rate) :=
  calc_probability_and_excess [7, 9, 9, 10] [0, 0, 1, 1] 5 51 100000 artifactThree scoresZero
    rfl rfl le_rfl rfl rfl (fun _ _ => rfl) (fun _ _ => rfl)

/-- C36: for fixed weights, scores, `upgrade_time T` in `[0..5]` and `score_bar`, and for a
fixed level-0 artifact with exactly 3 subs, `gain1 ≤ gain2` implies that the expected gain
`calc` returns at `gain1` is at most the one it returns at `gain2`, and that `decide = true`
at `gain1` implies `decide = true` at `gain2`. -/
theorem calc_gain_monotone (w : List Int) (s : List ℚ) (T : Nat) (score_bar gain1 gain2 : ℚ)
    (art : Artifact) (m : AFFIX_NAMES → Option ℚ)
    (hw : w.length = 4) (hs : s.length = 4) (hT : T ≤ 5)
    (h3 : art.sub.length = 3) (hl : art.level = 0)
    (hm : ∀ e ∈ SUB_PROB_WEIGHT, (m e.1).isSome) (hsub : ∀ e ∈ art.sub, (m e.1).isSome)
    (hg : gain1 ≤ gain2) :
    (∃ r1 r2 : Result, calc_weights w s T score_bar gain1 = .ok r1 ∧
      calc_weights w s T score_bar gain2 = .ok r2 ∧
      r1.2.1 ≤ r2.2.1 ∧ (r1.1 = true → r2.1 = true)) ∧
    (∃ r1 r2 : Result, calc_map art m score_bar gain1 = .ok r1 ∧
      calc_map art m score_bar gain2 = .ok r2 ∧
      r1.2.1 ≤ r2.2.1 ∧ (r1.1 = true → r2.1 = true)) :=
  ⟨calc_weights_gain_mono w s T score_bar gain1 gain2 hw hs hT hg,
    calc_map_three_gain_mono art m score_bar gain1 gain2 h3 hl hm hsub hg⟩

theorem calc_gain_monotone_witness :
    (∃ r1 r2 : Result, calc_weights [7, 9, 9, 10] [0, 0, 1, 1] 5 51 1000 = .ok r1 ∧
      calc_weights [7, 9, 9, 10] [0, 0, 1, 1] 5 51 100000 = .ok r2 ∧
      r1.2.1 ≤ r2.2.1 ∧ (r1.1 = true → r2.1 = true)) ∧
    (∃ r1 r2 : Result, calc_map artifactThree scoresZero 51 1000 = .ok r1 ∧
      calc_map artifactThree scoresZero 51 100000 = .ok r2 ∧
      r1.2.1 ≤ r2.2.1 ∧ (r1.1 = true → r2.1 = true)) :=
  calc_gain_monotone [7, 9, 9, 10] [0, 0, 1, 1] 5 51 1000 100000 artifactThree scoresZero
    rfl rfl le_rfl rfl rfl (fun _ _ => rfl) (fun _ _ => rfl) (by norm_num)

/-- C37 (fully upgraded): for weights and scores of length 4 and `upgrade_time = 0`, `calc`
returns `(true, gain, 270475, 1, sum_j w_j * s_j - score_bar)` when
`sum_j w_j * s_j ≥ score_bar - 1e-8`, whatever the gain, and
`(false, -50315, 50315, 0, 0)` otherwise. -/
theorem calc_fully_upgraded (w : List Int) (s : List ℚ) (score_bar gain : ℚ)
    (hw : w.length = 4) (hs : s.length = 4) :
    (weightedScore w s ≥ score_bar - 1 / 100000000 →
      calc_weights w s 0 score_bar gain
        = .ok (true, gain, 270475, 1, weightedScore w s - score_bar)) ∧
    (¬ weightedScore w s ≥ score_bar - 1 / 100000000 →
      calc_weights w s 0 score_bar gain = .ok (false, -50315, 50315, 0, 0)) ∧
    DOGFOOD_LOSS 5 = -50315 :=
  ⟨(calc_weights_terminal w s score_bar gain hw hs).1,
    (calc_weights_terminal w s score_bar gain hw hs).2, dogfood_values.2.2.2.2.2.2⟩

theorem calc_fully_upgraded_witness :
    calc_weights [10, 10, 10, 10] [1, 1, 1, 1] 0 40 (-60000)
      = .ok (true, -60000, 270475, 1, weightedScore [10, 10, 10, 10] [1, 1, 1, 1] - 40) ∧
    calc_weights [10, 10, 10, 10] [1, 1, 1, 1] 0 41 (-60000)
      = .ok (false, -50315, 50315, 0, 0) :=
  ⟨(calc_fully_upgraded [10, 10, 10, 10] [1, 1, 1, 1] 40 (-60000) rfl rfl).1
      (by simp [weightedScore]; norm_num),
    (calc_fully_upgraded [10, 10, 10, 10] [1, 1, 1, 1] 41 (-60000) rfl rfl).2.1
      (by simp [weightedScore]; norm_num)⟩

end DP

namespace DATA

/-- C31: with the random integer an explicit draw `r < weighted_sum(vec)`, the loop of
`weighted_rand` returns the key at the first position whose cumulative weight exceeds `r`
and does not reach its error branch; the draws in `[0, sum)` that return position `i` are as
many as the weight of entry `i`; and `weighted_rand` returns whatever the generator does. -/
theorem weighted_rand_first_exceeding {T : Type} (vec : List (T × Nat)) (r : Nat)
    (hr : r < weighted_sum vec) :
    (∃ i e, vec[i]? = some e ∧ weighted_rand_pick vec r = .ok e.1 ∧
      weighted_rand_index vec r 0 = some i ∧
      weighted_sum (vec.take i) ≤ r ∧ r < weighted_sum (vec.take (i + 1)) ∧
      ∀ j, j < i → weighted_sum (vec.take (j + 1)) ≤ r) ∧
    (∀ i e, vec[i]? = some e →
      ((Finset.range (weighted_sum vec)).filter
        fun r => weighted_rand_index vec r 0 = some i).card = e.2) ∧
    (∀ draws, ∃ x, weighted_rand vec draws = .ok x) := by
  refine ⟨?_, fun i e he => weighted_rand_count vec i e he,
    fun draws => weighted_rand_returns vec (by omega) draws⟩
  obtain ⟨i, hi⟩ := weighted_rand_index_total vec r 0 hr
  obtain ⟨e, he, hp⟩ := weighted_rand_pick_index vec r 0 i hi
  obtain ⟨_, h2, h3⟩ := (weighted_rand_index_spec vec r 0 i).1 hi
  rw [Nat.zero_add] at hi
  exact ⟨i, e, he, hp, hi, h2, h3,
    fun j hj => le_trans (weighted_sum_take_mono vec (by omega)) h2⟩

theorem weighted_rand_first_exceeding_witness :
    (∃ i e, INITIAL_AFFIX_NUM_WEIGHT[i]? = some e ∧
      weighted_rand_pick INITIAL_AFFIX_NUM_WEIGHT 4 = .ok e.1 ∧
      weighted_rand_index INITIAL_AFFIX_NUM_WEIGHT 4 0 = some i ∧
      weighted_sum (INITIAL_AFFIX_NUM_WEIGHT.take i) ≤ 4 ∧
      4 < weighted_sum (INITIAL_AFFIX_NUM_WEIGHT.take (i + 1)) ∧
      ∀ j, j < i → weighted_sum (INITIAL_AFFIX_NUM_WEIGHT.take (j + 1)) ≤ 4) ∧
    (∀ i e, INITIAL_AFFIX_NUM_WEIGHT[i]? = some e →
      ((Finset.range (weighted_sum INITIAL_AFFIX_NUM_WEIGHT)).filter
        fun r => weighted_rand_index INITIAL_AFFIX_NUM_WEIGHT r 0 = some i).card = e.2) ∧
    (∀ draws, ∃ x, weighted_rand INITIAL_AFFIX_NUM_WEIGHT draws = .ok x) :=
  weighted_rand_first_exceeding INITIAL_AFFIX_NUM_WEIGHT 4 (by decide)

end DATA

namespace DP

/-- C39: for every `i` in `[0..4]`, every code `c` of `cell[i]`, every slot `j` in `[0..3]`
and every roll `upd` in `[7..10]`, `c + upd * 64^j` is a code of `cell[i + 1]`; and after the
loops of `calc` with `i < T ≤ 5` the map of step `i + 1` holds at that code exactly the
record of the backward induction for the successor vector, so the entry is missing only when
the bar test or the stopping rule gave the successor no record. -/
theorem table_closed_under_transitions (i c j upd : Nat) (hi : i ≤ 4)
    (hc : c ∈ (cell i).map Prod.fst) (hj : j < 4) (h7 : 7 ≤ upd) (h10 : upd ≤ 10) :
    c + upd * 64 ^ j ∈ (cell (i + 1)).map Prod.fst ∧
    ∀ (s : List ℚ) (B mi gain : ℚ) (T : Nat), T ≤ 5 → i < T →
      ∃ v, Reach (i + 1) v ∧ v.code = c + upd * 64 ^ j ∧
        (calcLevels s B mi gain T T (fun _ _ => none) (i + 1) (c + upd * 64 ^ j)).map Rec.core
          = vecRecord s B gain T (T - (i + 1)) v :=
  ⟨(cell_closed i hi c hc j upd hj h7 h10).1,
    fun s B mi gain T hT hiT => successor_entry s B mi gain T hT i hiT c hc j upd hj h7 h10⟩

theorem table_closed_under_transitions_witness :
    0 + 7 * 64 ^ 0 ∈ (cell (0 + 1)).map Prod.fst ∧
    ∀ (s : List ℚ) (B mi gain : ℚ) (T : Nat), T ≤ 5 → 0 < T →
      ∃ v, Reach (0 + 1) v ∧ v.code = 0 + 7 * 64 ^ 0 ∧
        (calcLevels s B mi gain T T (fun _ _ => none) (0 + 1) (0 + 7 * 64 ^ 0)).map Rec.core
          = vecRecord s B gain T (T - (0 + 1)) v :=
  table_closed_under_transitions 0 0 0 7 (by decide) (by rw [cell_zero]; decide) (by decide)
    (by decide) (by decide)

end DP

namespace DP

/-- C34: for every permutation `p` of the four slots, weights and scores of length 4 and
`upgrade_time T` in `[0..5]`, `calc(w ∘ p, s ∘ p, T, score_bar, gain) = calc(w, s, T,
score_bar, gain)`; and every row `cell[k]`, `k ≤ 5`, is invariant under the permutation of
the four base-64 digits of its codes, counts included. -/
theorem calc_slot_permutation_invariant (p : List Nat) (w : List Int) (s : List ℚ) (T : Nat)
    (score_bar gain : ℚ) (hp : p.Perm [0, 1, 2, 3]) (hw : w.length = 4) (hs : s.length = 4)
    (hT : T ≤ 5) :
    calc_weights (permuteList p w 0) (permuteList p s 0) T score_bar gain
      = calc_weights w s T score_bar gain ∧
    ∀ k, k ≤ 5 → ∀ e ∈ cell k, ((Vec4.permute p (decode e.1)).code, e.2) ∈ cell k :=
  ⟨calc_weights_perm p hp w s T score_bar gain hw hs hT,
    fun k hk e he => cell_permute p hp k hk e he⟩

theorem calc_slot_permutation_invariant_witness :
    calc_weights (permuteList [3, 2, 1, 0] [7, 9, 9, 10] 0)
        (permuteList [3, 2, 1, 0] [0, 0, 1, 1] 0) 5 51 100000
      = calc_weights [7, 9, 9, 10] [0, 0, 1, 1] 5 51 100000 ∧
    ∀ k, k ≤ 5 → ∀ e ∈ cell k, ((Vec4.permute [3, 2, 1, 0] (decode e.1)).code, e.2) ∈ cell k :=
  calc_slot_permutation_invariant [3, 2, 1, 0] [7, 9, 9, 10] [0, 0, 1, 1] 5 51 100000
    (by decide) rfl rfl le_rfl

end DP

namespace DATA

/-- C38: for every index `r ≥ 1` of the aggregated list, with probability `p_r` and `n` subs,
and every roll tuple in `[7..10]^n`, the `u` in `(cdf[r - 1], cdf[r]]` for which `get_drop(u)`
is entry `r` with exactly those rolls are those from `lo = cdf[r - 1] + p_r * offset` up to
`lo + p_r / 4^n`, the right end included only when all rolls are 10 (it is then `cdf[r]`):
an interval of length `p_r / 4^n` inside the stretch; and for every `u ≤ cdf[0]` `get_drop`
returns the first entry with all rolls at the placeholder 7. -/
theorem get_drop_rolls_uniform (r : Nat) (rolls : List Int) (hr0 : 1 ≤ r)
    (hr : r < generated_artifacts.length)
    (hlen : rolls.length = (entryAt generated_artifacts r).1.sub.length)
    (hrange : ∀ x ∈ rolls, 7 ≤ x ∧ x ≤ 10) :
    (∀ u, cdfAt generated_artifacts (r - 1) < u → u ≤ cdfAt generated_artifacts r →
      (get_drop u
          = { (entryAt generated_artifacts r).1 with
              sub := withRolls (entryAt generated_artifacts r).1.sub rolls }
        ↔ cdfAt generated_artifacts (r - 1)
              + (entryAt generated_artifacts r).2 * rollOffset rolls ≤ u ∧
          (u < cdfAt generated_artifacts (r - 1)
                + (entryAt generated_artifacts r).2 * rollOffset rolls
                + (entryAt generated_artifacts r).2 / 4 ^ rolls.length
            ∨ ∀ x ∈ rolls, x = 10))) ∧
    (cdfAt generated_artifacts (r - 1)
        ≤ cdfAt generated_artifacts (r - 1)
          + (entryAt generated_artifacts r).2 * rollOffset rolls ∧
      cdfAt generated_artifacts (r - 1) + (entryAt generated_artifacts r).2 * rollOffset rolls
          + (entryAt generated_artifacts r).2 / 4 ^ rolls.length
        ≤ cdfAt generated_artifacts r ∧
      ((∀ x ∈ rolls, x = 10) →
        cdfAt generated_artifacts (r - 1)
          + (entryAt generated_artifacts r).2 * rollOffset rolls
          + (entryAt generated_artifacts r).2 / 4 ^ rolls.length
          = cdfAt generated_artifacts r)) ∧
    (∀ u, u ≤ cdfAt generated_artifacts 0 →
      get_drop u = artifactFirst ∧ ∀ e ∈ (get_drop u).sub, e.2 = 7) :=
  ⟨fun u h1 h2 => get_drop_from_rolls generated_artifacts generated_ne_nil
      (fun x hx => generated_prob_pos hx) r hr0 hr rolls hlen hrange u h1 h2,
    rolls_interval_inside generated_artifacts (fun x hx => generated_prob_pos hx) r hr0 hr
      rolls hrange,
    fun u hu => get_drop_first_stretch u hu⟩

theorem get_drop_rolls_uniform_witness :
    1 < generated_artifacts.length ∧
    cdfAt generated_artifacts (1 - 1)
        ≤ cdfAt generated_artifacts (1 - 1)
          + (entryAt generated_artifacts 1).2
            * rollOffset (List.replicate (entryAt generated_artifacts 1).1.sub.length 7) ∧
    cdfAt generated_artifacts (1 - 1)
        + (entryAt generated_artifacts 1).2
          * rollOffset (List.replicate (entryAt generated_artifacts 1).1.sub.length 7)
        + (entryAt generated_artifacts 1).2
          / 4 ^ (List.replicate (entryAt generated_artifacts 1).1.sub.length (7 : Int)).length
      ≤ cdfAt generated_artifacts 1 :=
  ⟨by rw [generated_length]; decide,
    (get_drop_rolls_uniform 1 (List.replicate (entryAt generated_artifacts 1).1.sub.length 7)
      le_rfl (by rw [generated_length]; decide) (List.length_replicate _ _)
      (fun x hx => by rw [(List.mem_replicate.1 hx).2]; decide)).2.1.1,
    (get_drop_rolls_uniform 1 (List.replicate (entryAt generated_artifacts 1).1.sub.length 7)
      le_rfl (by rw [generated_length]; decide) (List.length_replicate _ _)
      (fun x hx => by rw [(List.mem_replicate.1 hx).2]; decide)).2.1.2.1⟩

end DATA

namespace DP

/-- C35: the deprecated pruned variant agrees with the main DP: for weights and scores of
length 4 with some score not negative (that is, `max_j s_j ≥ 0`), every `upgrade_time T` in
`[0..5]`, every `score_bar` and `gain`, `calc2` returns a result and `calc` returns the same
result; this holds whatever order the sort of `calc2` gives to entries of equal score. -/
theorem calc2_agrees_with_calc (w : List Int) (s : List ℚ) (T : Nat) (score_bar gain : ℚ)
    (hw : w.length = 4) (hs : s.length = 4) (hmax : ∃ x ∈ s, 0 ≤ x) (hT : T ≤ 5) :
    (∃ r : Result, calc2 w s T score_bar gain = .ok r ∧
      calc_weights w s T score_bar gain = .ok r) ∧
    (∀ sort : List (Nat × Nat × ℚ) → List (Nat × Nat × ℚ),
      (∀ l, (sort l).Perm l) → (∀ l, (sort l).Pairwise fun x y => y.2.2 ≤ x.2.2) →
        calc2_with sort w s T score_bar gain = calc_weights w s T score_bar gain) :=
  ⟨⟨_, (calc2_eq w s T score_bar gain hw hs hmax hT).trans
      (calc_weights_eq w s T score_bar gain hw hs hT),
    calc_weights_eq w s T score_bar gain hw hs hT⟩,
    fun sort hperm hsorted =>
      calc2_with_eq sort hperm hsorted w s T score_bar gain hw hs hmax hT⟩

theorem calc2_agrees_with_calc_witness :
    (∃ r : Result, calc2 [7, 9, 9, 10] [-1, 0, 1, 2] 5 51 100000 = .ok r ∧
      calc_weights [7, 9, 9, 10] [-1, 0, 1, 2] 5 51 100000 = .ok r) ∧
    (∀ sort : List (Nat × Nat × ℚ) → List (Nat × Nat × ℚ),
      (∀ l, (sort l).Perm l) → (∀ l, (sort l).Pairwise fun x y => y.2.2 ≤ x.2.2) →
        calc2_with sort [7, 9, 9, 10] [-1, 0, 1, 2] 5 51 100000
          = calc_weights [7, 9, 9, 10] [-1, 0, 1, 2] 5 51 100000) :=
  calc2_agrees_with_calc [7, 9, 9, 10] [-1, 0, 1, 2] 5 51 100000 rfl rfl
    ⟨0, by simp, le_rfl⟩ le_rfl

end DP
